import Mathlib

/-!
B-tree set (`src/b_tree.cpp`) and B-tree map (`src/b_tree_map.cpp`).

Shallow embedding of the two `B_Tree` classes.

* A `Block` is a value `Block.mk b_count entries children`.  The private helpers of the two
  source files coincide up to the entry type (`int` keys in the set, `std::pair<K, V>` in
  the map, compared through `.first`), so they are embedded once, over an entry type `E` and a
  key projection `key : E → K`.
* A `Block *` that the source keeps in `path` is embedded as a `Frame`: the block it points to
  together with the index of the child through which the descent continued.  `path.back()` is
  the head of the list.  The source also pushes the block it finally stops at (and callers pop
  it at once); here that block is returned next to the path.
* Blocks are mutated in place in the source.  Here every helper returns the root of the tree
  after the call; `plug` writes a changed block back through the path.
* The removal of the map is embedded a second time with the blocks addressed by pointers
  (namespace `Ptr`): `is_root` compares pointers, `path` is a vector of pointers, and
  `get_child_index` and `get_sibling` scan the parent's child vector for a pointer.  The two
  embeddings are proved to compute the same trees on structurally sound trees.
* `std::out_of_range` from `.at()` and undefined behaviour (out-of-range `erase`/`insert`,
  `front()`/`back()` of an empty vector, null dereference) are the result `none`.
* `b_count` is an `int`.  The constructor `Block(int)` is embedded with the 32-bit
  arithmetic of its body (`Block.new`, through `int_wrap`): it returns exactly for
  `0 ≤ b_count < 2 ^ 30` and for `b_count < -2 ^ 30`.  For `0 ≤ b_count < 2 ^ 30` the fields
  `min_keys` and `max_keys` are exact, so the helpers use `Int` arithmetic without wrap-around.
  The mixed `int`/`size_t` comparisons go through `size_t_of_int`.
-/

namespace BTree

/-- Class `Block`: `b_count`, the entry vector (`keys` / `kv_pairs`) and the child vector.
The fields `min_keys`, `max_keys` are functions of `b_count` (`get_min_keys`, `get_max_keys`). -/
inductive Block (E : Type) where
  | mk (b_count : Int) (entries : List E) (children : List (Block E)) : Block E

namespace Block

variable {E : Type}

/-- Getter `get_b_count`. -/
def get_b_count : Block E → Int
  | mk b _ _ => b

/-- Getter `get_keys` / `get_kv_pairs`. -/
def entries : Block E → List E
  | mk _ es _ => es

/-- Getter `get_children`. -/
def children : Block E → List (Block E)
  | mk _ _ cs => cs

/-- Field `min_keys = b_count - 1`. -/
def get_min_keys (t : Block E) : Int := t.get_b_count - 1

/-- Field `max_keys = 2 * b_count - 1`. -/
def get_max_keys (t : Block E) : Int := 2 * t.get_b_count - 1

end Block

/-- Element of `path`: the block pointed to and the index of the child taken from it. -/
structure Frame (E : Type) where
  parent : Block E
  idx : Nat

/-- The vector `path`, last element first. -/
abbrev Path (E : Type) := List (Frame E)

/-- Class `B_Tree`: the `root` pointer. -/
structure B_Tree (E : Type) where
  root : Block E

/-- Conversion of an `int` operand to `size_t` in a mixed comparison (exact for every
32-bit `int`: negative values wrap to `2 ^ 64 + x`). -/
def size_t_of_int (x : Int) : Nat :=
  if 0 ≤ x then x.toNat else (2 ^ 64 + x).toNat

/-- Unsigned `size() - 1`: wraps to `2 ^ 64 - 1` when the size is zero. -/
def size_t_pred (n : Nat) : Nat :=
  if n = 0 then 2 ^ 64 - 1 else n - 1

/-- Constant `INT_MIN`. -/
def INT_MIN : Int := -2147483648

/-- Constant `INT_MAX`. -/
def INT_MAX : Int := 2147483647

/-- The value a 32-bit `int` expression takes when its exact value is `x`: two's complement
wrap-around, which is what the compiled program computes when `2 * b_count` overflows. -/
def int_wrap (x : Int) : Int := (x - INT_MIN) % 4294967296 + INT_MIN

/-- Constructor `Block(int b_count)`: empty vectors.  `max_keys = 2 * b_count - 1` and
`max_children = 2 * b_count` are computed in `int`; `keys.reserve(max_keys + 1)` and
`children.reserve(max_children + 1)` convert their argument to `size_t`, and for a negative
`int` the result is above `max_size()`, so `reserve` throws `std::length_error`.  The
parameter is an `int`: a value outside the `int` range is no argument of the constructor.
Exhaustion of memory is not part of the embedding. -/
def Block.new {E : Type} (b_count : Int) : Option (Block E) :=
  let max_keys := int_wrap (int_wrap (2 * b_count) - 1)
  let max_children := int_wrap (2 * b_count)
  if b_count < INT_MIN ∨ INT_MAX < b_count then none
  else if int_wrap (max_keys + 1) < 0 then none
  else if int_wrap (max_children + 1) < 0 then none
  else some (.mk b_count [] [])

section Core

variable {E K : Type} [LinearOrder K]

/-- Write a mutated block back: the tree seen from the root once the block reached through
`path` has the value `t`. -/
def plug : Block E → Path E → Block E
  | t, [] => t
  | t, ⟨.mk b es cs, i⟩ :: rest => plug (.mk b es (cs.set i t)) rest

/-- `is_leaf`: the child vector is empty. -/
def is_leaf (block : Block E) : Bool := block.children.isEmpty

/-- The `while (left < right)` loop of `get_index`; `fuel` bounds the number of iterations
(`right - left` shrinks in each one) and `h` keeps `keys.at(mid)` in range. -/
def get_index_loop (key : E → K) (es : List E) (k : K) :
    (fuel left right : Nat) → right ≤ es.length → Nat
  | 0, left, _, _ => left
  | fuel + 1, left, right, h =>
    if hlr : left < right then
      if key (es.get ⟨(left + right) / 2, by omega⟩) > k then
        get_index_loop key es k fuel left ((left + right) / 2) (by omega)
      else
        get_index_loop key es k fuel ((left + right) / 2 + 1) right h
    else left

/-- `get_index(block, key)` on the block's entry vector. -/
def get_index (key : E → K) (es : List E) (k : K) : Nat :=
  get_index_loop key es k es.length 0 es.length (Nat.le_refl _)

/-- The test `index > 0 && keys.at(index - 1) == key` used by `search_helper`, `remove_helper`,
`insert`, `remove`, `in_tree`. -/
def key_at_index (key : E → K) (es : List E) (index : Nat) (k : K) : Bool :=
  match index, es[index - 1]? with
  | 0, _ => false
  | _ + 1, some e => decide (key e = k)
  | _ + 1, none => false

/-- `get_child_index(parent, child)`: the child is given by its slot in the parent (blocks of
a tree are distinct objects, so the scan for the pointer stops at that slot); `INT_MIN` when
the slot does not exist. -/
def get_child_index (parent : Block E) (child : Nat) : Int :=
  if child < parent.children.length then (child : Int) else INT_MIN

/-- `get_sibling(parent, target_child, left, right)`: the slot of the sibling, `none` for
`nullptr`. -/
def get_sibling (parent : Block E) (target_child : Nat) (left right : Bool) : Option Nat :=
  let index : Int := if target_child < parent.children.length then (target_child : Int) else -1
  if left && decide (index > 0) then some (index - 1).toNat
  else if right && decide (index + 1 < (parent.children.length : Int)) then some (index + 1).toNat
  else none

mutual
/-- `search_helper(trav, target_key, path)`: returns the block at which the search stops and
the path of its ancestors. -/
def search_helper (key : E → K) : Block E → K → Path E → Option (Block E × Path E)
  | .mk b es cs, k, path =>
    if key_at_index key es (get_index key es k) k then some (.mk b es cs, path)
    else if !cs.isEmpty then
      search_helper_child key (.mk b es cs) (get_index key es k) k path cs (get_index key es k)
    else some (.mk b es cs, path)
/-- `travs_children.at(index)` followed by the recursive call of `search_helper`. -/
def search_helper_child (key : E → K) (trav : Block E) (index : Nat) (k : K) (path : Path E) :
    List (Block E) → Nat → Option (Block E × Path E)
  | [], _ => none
  | c :: _, 0 => search_helper key c k (⟨trav, index⟩ :: path)
  | _ :: cs, n + 1 => search_helper_child key trav index k path cs n
end

/-- The body of `insert_restructure` after the parent has been chosen: split `block` at
`b_count`, promote the entry at that index into `parent` and insert the new right half after
it.  `idx` is the slot of `block` in `parent`; the result is the parent after the call.
`new Block(b_count)` is called here with the `b_count` of `block`, a value for which the
constructor has returned before, when `block` was built; the fresh block is written as the
value it then is, `right_half`. -/
def insert_split (key : E → K) (block parent : Block E) (idx : Nat) : Option (Block E) :=
  match block, parent with
  | .mk b es cs, .mk pb pes pcs =>
    if b < 0 then none
    else
      match es[b.toNat]? with
      | none => none
      | some up =>
        if !cs.isEmpty && decide (cs.length < b.toNat + 1) then none
        else
          let left : Block E :=
            .mk b (es.take b.toNat) (if cs.isEmpty then cs else cs.take (b.toNat + 1))
          let right_half : Block E :=
            .mk b (es.drop (b.toNat + 1)) (if cs.isEmpty then [] else cs.drop (b.toNat + 1))
          let parent_index := get_index key pes (key up)
          if pcs.length < parent_index + 1 then none
          else
            some (.mk pb (pes.insertIdx parent_index up)
              ((pcs.set idx left).insertIdx (parent_index + 1) right_half))

/-- `insert_restructure(block, path)`.  With an empty path a new root holding `block` as its
only child becomes the parent; it is built by `new Block(b_count)` with the `b_count` of
`block`, for which the constructor has returned before, and is written as the value it then
is.  The recursive call on that fresh root is not modelled (`none`): it holds one entry, which
never exceeds `max_keys`. -/
def insert_restructure (key : E → K) : Block E → Path E → Option (Block E)
  | block, [] =>
    match insert_split key block (.mk block.get_b_count [] [block]) 0 with
    | none => none
    | some parent =>
      if parent.entries.length > size_t_of_int parent.get_max_keys then none
      else some parent
  | block, ⟨parent, idx⟩ :: path =>
    match insert_split key block parent idx with
    | none => none
    | some parent =>
      if parent.entries.length > size_t_of_int parent.get_max_keys then
        insert_restructure key parent path
      else some (plug parent path)

mutual
/-- `insert_helper(trav, key[, value], path)`; `e` is the entry to insert. -/
def insert_helper (key : E → K) : Block E → E → Path E → Option (Block E)
  | .mk b es cs, e, path =>
    if !cs.isEmpty then
      insert_helper_child key (.mk b es cs) (get_index key es (key e)) e path cs
        (get_index key es (key e))
    else
      if (es.insertIdx (get_index key es (key e)) e).length
          > size_t_of_int (Block.mk b es cs).get_max_keys then
        insert_restructure key (.mk b (es.insertIdx (get_index key es (key e)) e) cs) path
      else some (plug (.mk b (es.insertIdx (get_index key es (key e)) e) cs) path)
/-- `trav->get_children().at(child_index)` followed by the recursive call. -/
def insert_helper_child (key : E → K) (trav : Block E) (index : Nat) (e : E) (path : Path E) :
    List (Block E) → Nat → Option (Block E)
  | [], _ => none
  | c :: _, 0 => insert_helper key c e (⟨trav, index⟩ :: path)
  | _ :: cs, n + 1 => insert_helper_child key trav index e path cs n
end

mutual
/-- `get_replacement(trav, search_min, search_max, path)`: the leaf reached and the path of
its ancestors.  The `nullptr` result (neither flag set) is dereferenced by the caller and is
`none`. -/
def get_replacement : Block E → Bool → Bool → Path E → Option (Block E × Path E)
  | .mk b es cs, search_min, search_max, path =>
    if cs.isEmpty then some (.mk b es cs, path)
    else if search_min then get_replacement_front (.mk b es cs) path cs
    else if search_max then get_replacement_back (.mk b es cs) (cs.length - 1) path cs
    else none
/-- `travs_children.front()` followed by the recursive call. -/
def get_replacement_front (trav : Block E) (path : Path E) :
    List (Block E) → Option (Block E × Path E)
  | [] => none
  | c :: _ => get_replacement c true false (⟨trav, 0⟩ :: path)
/-- `travs_children.back()` followed by the recursive call. -/
def get_replacement_back (trav : Block E) (last : Nat) (path : Path E) :
    List (Block E) → Option (Block E × Path E)
  | [] => none
  | [c] => get_replacement c false true (⟨trav, last⟩ :: path)
  | _ :: c :: cs => get_replacement_back trav last path (c :: cs)
end

/-- `merge(parent, from, to, right_to_left, left_to_right, path)`.  `from_slot` and `to_slot`
are the slots of the two blocks in `parent`, `to_blk` is the current value of the surviving
block, and `restructure` is the call `remove_restructure(parent, path)` at the end. -/
def merge (parent : Block E) (from_slot to_slot : Nat) (to_blk : Block E)
    (right_to_left left_to_right : Bool) (restructure : Block E → Option (Block E))
    (path : Path E) : Option (Block E) :=
  match parent, to_blk, parent.children[from_slot]? with
  | _, _, none => none
  | .mk pb pes pcs, .mk tb tes tcs, some (.mk _ fes fcs) =>
    let to_index := get_child_index (.mk pb pes pcs) to_slot
    let from_index := get_child_index (.mk pb pes pcs) from_slot
    if right_to_left then
      if to_index < 0 ∨ from_index < 0 then none
      else
        match pes[to_index.toNat]? with
        | none => none
        | some sep =>
          let merged : Block E :=
            .mk tb (tes ++ [sep] ++ fes) (if tcs.isEmpty then tcs else tcs ++ fcs)
          let parent_block : Block E :=
            .mk pb (pes.eraseIdx to_index.toNat)
              ((pcs.set to_slot merged).eraseIdx from_index.toNat)
          if parent_block.entries.length < size_t_of_int parent_block.get_min_keys then
            restructure parent_block
          else some (plug parent_block path)
    else if left_to_right then
      if to_index - 1 < 0 ∨ from_index < 0 then none
      else
        match pes[(to_index - 1).toNat]? with
        | none => none
        | some sep =>
          let merged : Block E :=
            .mk tb (fes ++ [sep] ++ tes) (if tcs.isEmpty then tcs else fcs ++ tcs)
          let parent_block : Block E :=
            .mk pb (pes.eraseIdx (to_index - 1).toNat)
              ((pcs.set to_slot merged).eraseIdx from_index.toNat)
          if parent_block.entries.length < size_t_of_int parent_block.get_min_keys then
            restructure parent_block
          else some (plug parent_block path)
    else
      if pes.length < size_t_of_int (Block.mk pb pes pcs).get_min_keys then
        restructure (.mk pb pes (pcs.set to_slot (.mk tb tes tcs)))
      else some (plug (.mk pb pes (pcs.set to_slot (.mk tb tes tcs))) path)

/-- `remove_restructure(block, path)`.  `is_root(block)` is the empty path. -/
def remove_restructure : Block E → Path E → Option (Block E)
  | block, [] =>
    match block.children with
    | [new_root] => some new_root
    | _ => some block
  | .mk b es cs, ⟨.mk pb pes pcs, idx⟩ :: path =>
    match get_sibling (.mk pb pes pcs) idx false true, get_sibling (.mk pb pes pcs) idx true false with
    | some r, _ =>
      match pcs[r]? with
      | none => none
      | some (.mk rb res rcs) =>
        if size_t_pred res.length < size_t_of_int (Block.mk rb res rcs).get_min_keys then
          merge (.mk pb pes pcs) r idx (.mk b es cs) true false
            (fun p => remove_restructure p path) path
        else
          let index_of_parent_key := get_child_index (.mk pb pes pcs) idx
          if index_of_parent_key < 0 then none
          else
            match pes[index_of_parent_key.toNat]?, res.head? with
            | none, _ => none
            | _, none => none
            | some sep, some first =>
              if !rcs.isEmpty then
                some (plug (.mk pb (pes.set index_of_parent_key.toNat first)
                  ((pcs.set idx (.mk b (es ++ [sep]) (cs ++ rcs.take 1))).set r
                    (.mk rb res.tail rcs.tail))) path)
              else
                some (plug (.mk pb (pes.set index_of_parent_key.toNat first)
                  ((pcs.set idx (.mk b (es ++ [sep]) cs)).set r (.mk rb res.tail rcs))) path)
    | none, some l =>
      match pcs[l]? with
      | none => none
      | some (.mk lb les lcs) =>
        if size_t_pred les.length < size_t_of_int (Block.mk lb les lcs).get_min_keys then
          merge (.mk pb pes pcs) l idx (.mk b es cs) false true
            (fun p => remove_restructure p path) path
        else
          let index_of_parent_key := get_child_index (.mk pb pes pcs) idx - 1
          if index_of_parent_key < 0 then none
          else
            match pes[index_of_parent_key.toNat]?, les.getLast? with
            | none, _ => none
            | _, none => none
            | some sep, some last =>
              if !lcs.isEmpty then
                some (plug (.mk pb (pes.set index_of_parent_key.toNat last)
                  ((pcs.set idx (.mk b (sep :: es) (lcs.drop (lcs.length - 1) ++ cs))).set l
                    (.mk lb les.dropLast lcs.dropLast))) path)
              else
                some (plug (.mk pb (pes.set index_of_parent_key.toNat last)
                  ((pcs.set idx (.mk b (sep :: es) cs)).set l (.mk lb les.dropLast lcs))) path)
    | none, none => some (plug (.mk b es cs) (⟨.mk pb pes pcs, idx⟩ :: path))

/-- `remove_helper(target_block, key, path)`.  `fuel` bounds the depth of the recursion: the
recursive call is made on the block returned by `get_replacement`, which is a leaf, so the
top-level calls pass `1`.  With `index = 0` the source reaches `target_keys.at(index - 1)`,
which throws, whatever the successor search returned. -/
def remove_helper (key : E → K) : Nat → Block E → K → Path E → Option (Block E)
  | fuel, .mk b es cs, k, path =>
    if cs.isEmpty then
      let target_keys :=
        if key_at_index key es (get_index key es k) k then es.eraseIdx (get_index key es k - 1)
        else es
      if target_keys.length < size_t_of_int (Block.mk b es cs).get_min_keys then
        remove_restructure (.mk b target_keys cs) path
      else some (plug (.mk b target_keys cs) path)
    else
      match fuel with
      | 0 => none
      | fuel + 1 =>
        let index := get_index key es k
        if 0 < index then
          match cs[index - 1]? with
          | none => none
          | some left_child =>
            match get_replacement left_child false true (⟨.mk b es cs, index - 1⟩ :: path) with
            | none => none
            | some (replacement_block, path2) =>
              match replacement_block.entries.getLast? with
              | none => none
              | some replacement =>
                remove_helper key fuel replacement_block (key replacement)
                  (path2.set (path2.length - (path.length + 1))
                    ⟨.mk b (es.set (index - 1) replacement) cs, index - 1⟩)
        else none

/-- The successive activations of `remove_restructure` that the call
`remove_restructure(block, path)` gives rise to, as pairs of arguments, first to last: the call
itself and, when it merges and the parent underflows, the activations of the call that
`merge` makes on the parent with the rest of the path.  The parent after the merge is what
`merge` leaves behind, read off by running it with a continuation that returns its
argument. -/
def remove_restructure_calls : Block E → Path E → List (Block E × Path E)
  | block, [] => [(block, [])]
  | .mk b es cs, ⟨.mk pb pes pcs, idx⟩ :: path =>
    (.mk b es cs, ⟨.mk pb pes pcs, idx⟩ :: path) ::
      match get_sibling (.mk pb pes pcs) idx false true,
          get_sibling (.mk pb pes pcs) idx true false with
      | some r, _ =>
        match pcs[r]? with
        | none => []
        | some (.mk rb res rcs) =>
          if size_t_pred res.length < size_t_of_int (Block.mk rb res rcs).get_min_keys then
            match merge (.mk pb pes pcs) r idx (.mk b es cs) true false (fun p => some p) [] with
            | none => []
            | some parent =>
              if parent.entries.length < size_t_of_int parent.get_min_keys then
                remove_restructure_calls parent path
              else []
          else []
      | none, some l =>
        match pcs[l]? with
        | none => []
        | some (.mk lb les lcs) =>
          if size_t_pred les.length < size_t_of_int (Block.mk lb les lcs).get_min_keys then
            match merge (.mk pb pes pcs) l idx (.mk b es cs) false true (fun p => some p) [] with
            | none => []
            | some parent =>
              if parent.entries.length < size_t_of_int parent.get_min_keys then
                remove_restructure_calls parent path
              else []
          else []
      | none, none => []

/-- The activations of `remove_restructure` that the call `remove_helper(target_block, key,
path)` gives rise to: none when the leaf keeps enough entries, otherwise those of the call
made on the leaf; in the internal case those of the recursive call on the replacement
block. -/
def remove_helper_calls (key : E → K) : Nat → Block E → K → Path E → List (Block E × Path E)
  | fuel, .mk b es cs, k, path =>
    if cs.isEmpty then
      let target_keys :=
        if key_at_index key es (get_index key es k) k then es.eraseIdx (get_index key es k - 1)
        else es
      if target_keys.length < size_t_of_int (Block.mk b es cs).get_min_keys then
        remove_restructure_calls (.mk b target_keys cs) path
      else []
    else
      match fuel with
      | 0 => []
      | fuel + 1 =>
        let index := get_index key es k
        if 0 < index then
          match cs[index - 1]? with
          | none => []
          | some left_child =>
            match get_replacement left_child false true (⟨.mk b es cs, index - 1⟩ :: path) with
            | none => []
            | some (replacement_block, path2) =>
              match replacement_block.entries.getLast? with
              | none => []
              | some replacement =>
                remove_helper_calls key fuel replacement_block (key replacement)
                  (path2.set (path2.length - (path.length + 1))
                    ⟨.mk b (es.set (index - 1) replacement) cs, index - 1⟩)
        else []

end Core

/-- In-order traversal of a block: child 0, entry 0, child 1, entry 1, ... (the observation
used by the specification; the source has no traversal). -/
def interleave {E : Type} : List (List E) → List E → List E
  | [], es => es
  | c :: cs, [] => c ++ interleave cs []
  | c :: cs, e :: es => c ++ e :: interleave cs es

mutual
/-- In-order sequence of the entries stored below a block. -/
def inorder {E : Type} : Block E → List E
  | .mk _ es cs => interleave (inorder_children cs) es
/-- In-order sequences of the blocks of a child vector. -/
def inorder_children {E : Type} : List (Block E) → List (List E)
  | [] => []
  | c :: cs => inorder c :: inorder_children cs
end

namespace SetTree

/-- Constructor `B_Tree(int b_count)` of `src/b_tree.cpp`. -/
def construct (b_count : Int) : Option (B_Tree Int) :=
  (Block.new b_count).map B_Tree.mk

/-- Method `insert(int key)`. -/
def insert (t : B_Tree Int) (key : Int) : Option (B_Tree Int) :=
  match search_helper id t.root key [] with
  | none => none
  | some (last_block_seen, path) =>
    if key_at_index id last_block_seen.entries (get_index id last_block_seen.entries key) key
    then some t
    else (insert_helper id last_block_seen key path).map B_Tree.mk

/-- Method `remove(int key)`: `remove_helper` runs only when the popped path is not empty. -/
def remove (t : B_Tree Int) (key : Int) : Option (B_Tree Int) :=
  match search_helper id t.root key [] with
  | none => none
  | some (block_containing_key, path) =>
    if !path.isEmpty then (remove_helper id 1 block_containing_key key path).map B_Tree.mk
    else some t

/-- The activations of `remove_restructure` that `remove(int key)` gives rise to. -/
def remove_calls (t : B_Tree Int) (key : Int) : List (Block Int × Path Int) :=
  match search_helper id t.root key [] with
  | none => []
  | some (block_containing_key, path) =>
    if !path.isEmpty then remove_helper_calls id 1 block_containing_key key path
    else []

/-- Method `in_tree(int key)`. -/
def in_tree (t : B_Tree Int) (key : Int) : Option Bool :=
  match search_helper id t.root key [] with
  | none => none
  | some (last_block_seen, _) =>
    some (key_at_index id last_block_seen.entries (get_index id last_block_seen.entries key) key)

/-- The loop `for (int num : nums) tree->insert(num)` of `test_tree`. -/
def insert_list (t : B_Tree Int) : List Int → Option (B_Tree Int)
  | [] => some t
  | k :: ks => (insert t k).bind (fun t' => insert_list t' ks)

end SetTree

namespace MapTree

variable {K V : Type} [LinearOrder K]

/-- Constructor `B_Tree(int b_count)` of `src/b_tree_map.cpp`. -/
def construct (b_count : Int) : Option (B_Tree (K × V)) :=
  (Block.new b_count).map B_Tree.mk

/-- Method `insert(K key, V value)`: an existing key keeps its entry and gets the new value. -/
def insert (t : B_Tree (K × V)) (key : K) (value : V) : Option (B_Tree (K × V)) :=
  match search_helper Prod.fst t.root key [] with
  | none => none
  | some (.mk b es cs, path) =>
    if key_at_index Prod.fst es (get_index Prod.fst es key) key then
      match es[get_index Prod.fst es key - 1]? with
      | none => none
      | some old =>
        some ⟨plug (.mk b (es.set (get_index Prod.fst es key - 1) (old.1, value)) cs) path⟩
    else (insert_helper Prod.fst (.mk b es cs) (key, value) path).map B_Tree.mk

/-- Method `remove(K key)`: `remove_helper` runs only when the key was found. -/
def remove (t : B_Tree (K × V)) (key : K) : Option (B_Tree (K × V)) :=
  match search_helper Prod.fst t.root key [] with
  | none => none
  | some (block_containing_key, path) =>
    if key_at_index Prod.fst block_containing_key.entries
        (get_index Prod.fst block_containing_key.entries key) key
    then (remove_helper Prod.fst 1 block_containing_key key path).map B_Tree.mk
    else some t

/-- The activations of `remove_restructure` that `remove(K key)` gives rise to. -/
def remove_calls (t : B_Tree (K × V)) (key : K) :
    List (Block (K × V) × Path (K × V)) :=
  match search_helper Prod.fst t.root key [] with
  | none => []
  | some (block_containing_key, path) =>
    if key_at_index Prod.fst block_containing_key.entries
        (get_index Prod.fst block_containing_key.entries key) key
    then remove_helper_calls Prod.fst 1 block_containing_key key path
    else []

/-- Method `search(K key)`: the value printed next to the key, `none` for "was not found". -/
def search (t : B_Tree (K × V)) (key : K) : Option (Option V) :=
  match search_helper Prod.fst t.root key [] with
  | none => none
  | some (last_block_seen, _) =>
    if key_at_index Prod.fst last_block_seen.entries
        (get_index Prod.fst last_block_seen.entries key) key
    then
      match last_block_seen.entries[get_index Prod.fst last_block_seen.entries key - 1]? with
      | none => none
      | some e => some (some e.2)
    else some none

/-- Method `in_tree(K key)`. -/
def in_tree (t : B_Tree (K × V)) (key : K) : Option Bool :=
  match search_helper Prod.fst t.root key [] with
  | none => none
  | some (last_block_seen, _) =>
    some (key_at_index Prod.fst last_block_seen.entries
      (get_index Prod.fst last_block_seen.entries key) key)

/-- The value `prev_val` that `insert(K key, V value)` prints in its "was reassigned" message:
`some (some v0)` when the key was found with value `v0`, `some none` when the key was not found
and nothing is printed. -/
def insert_prev (t : B_Tree (K × V)) (key : K) : Option (Option V) :=
  match search_helper Prod.fst t.root key [] with
  | none => none
  | some (.mk _ es _, _) =>
    if key_at_index Prod.fst es (get_index Prod.fst es key) key then
      match es[get_index Prod.fst es key - 1]? with
      | none => none
      | some old => some (some old.2)
    else some none

/-- One public mutating operation of the map. -/
inductive Op (K V : Type) where
  | insert (key : K) (value : V) : Op K V
  | remove (key : K) : Op K V

/-- The key an operation is about. -/
def Op.key : Op K V → K
  | .insert k _ => k
  | .remove k => k

/-- Run one operation. -/
def apply (t : B_Tree (K × V)) : Op K V → Option (B_Tree (K × V))
  | .insert k v => insert t k v
  | .remove k => remove t k

/-- Run a sequence of operations, first to last; `none` as soon as one of them fails. -/
def run (t : B_Tree (K × V)) : List (Op K V) → Option (B_Tree (K × V))
  | [] => some t
  | op :: ops => (apply t op).bind (fun t' => run t' ops)

end MapTree

/-! ## Removal with the blocks addressed by pointers

The helpers above receive a block together with its slot in the parent.  In the source
`remove_restructure`, `merge`, `get_child_index` and `get_sibling` receive `Block *` values
and find that slot themselves: `is_root` compares the pointer with `this->root`,
`path.back()` is taken for the parent, and the parent's child vector is scanned for the
pointer.  This part embeds `remove` of `src/b_tree_map.cpp` once more with those steps
spelled out.  A pointer is the sequence of child slots that leads from the root to the block:
`this->root` is `[]`, and the pointer held in slot `i` of the child vector of the block at `p`
is `p ++ [i]`.  The tree is the value of its root; a write through a pointer is `modify`.
Nothing ties `block` to `path` here: `remove_restructure` takes any pointer and any vector of
pointers, an empty `path` under a block that is not the root is `none`, and a `parent` whose
child vector does not hold `block` makes the scans fall back to `INT_MIN` and `-1`.
Erasing a child in `merge` moves the blocks behind it one slot down; after the erase the
source uses only `parent` and the pointers left in `path`, which point to blocks above the
erased slot, and after `this->root = new_root` it uses no pointer at all, so the pointers
that are used keep their values. -/

/-- A `Block *` into the tree. -/
abbrev BlockPtr := List Nat

namespace Ptr

section
variable {E K : Type} [LinearOrder K]

/-- Dereference a pointer in the tree with root `root`; `none` when it points to no block. -/
def deref : Block E → BlockPtr → Option (Block E)
  | t, [] => some t
  | .mk _ _ cs, i :: p =>
    match cs[i]? with
    | none => none
    | some c => deref c p

/-- The tree after the block that `p` points to has been changed by `f`. -/
def modify (f : Block E → Block E) : BlockPtr → Block E → Block E
  | [], t => f t
  | i :: p, .mk b es cs =>
    match cs[i]? with
    | none => .mk b es cs
    | some c => .mk b es (cs.set i (modify f p c))

/-- `is_root(block)`: `block == this->root`. -/
def is_root (block : BlockPtr) : Bool := block.isEmpty

/-- The loop `for (int i = 0; i < children.size(); i++) if (children.at(i) == child)` of
`get_child_index` and `get_sibling`, from slot `i` on with `n` slots left: the first slot
whose pointer is `child`. -/
def scan (parent child : BlockPtr) : Nat → Nat → Option Nat
  | 0, _ => none
  | n + 1, i => if parent ++ [i] = child then some i else scan parent child n (i + 1)

/-- `get_child_index(parent, child)`; `size` is `parent->get_children().size()`. -/
def get_child_index (size : Nat) (parent child : BlockPtr) : Int :=
  match scan parent child size 0 with
  | some i => (i : Int)
  | none => INT_MIN

/-- `get_sibling(parent, target_child, left, right)`; `size` is
`parent->get_children().size()`, and `none` is `nullptr`. -/
def get_sibling (size : Nat) (parent target_child : BlockPtr) (left right : Bool) :
    Option BlockPtr :=
  let index : Int :=
    match scan parent target_child size 0 with
    | some i => (i : Int)
    | none => -1
  if left && decide (index > 0) then some (parent ++ [(index - 1).toNat])
  else if right && decide (index + 1 < (size : Int)) then some (parent ++ [(index + 1).toNat])
  else none

mutual
/-- `search_helper(trav, target_key, path)`; the first argument is the block `trav` points
to.  The result is the vector `path`, last element first. -/
def search_helper (key : E → K) :
    Block E → BlockPtr → K → List BlockPtr → Option (List BlockPtr)
  | .mk _ es cs, trav, k, path =>
    if key_at_index key es (get_index key es k) k then some (trav :: path)
    else if !cs.isEmpty then
      search_helper_child key trav (get_index key es k) k (trav :: path) cs
        (get_index key es k)
    else some (trav :: path)
/-- `travs_children.at(index)` followed by the recursive call of `search_helper`. -/
def search_helper_child (key : E → K) (trav : BlockPtr) (index : Nat) (k : K)
    (path : List BlockPtr) : List (Block E) → Nat → Option (List BlockPtr)
  | [], _ => none
  | c :: _, 0 => search_helper key c (trav ++ [index]) k path
  | _ :: cs, n + 1 => search_helper_child key trav index k path cs n
end

mutual
/-- `get_replacement(trav, search_min, search_max, path)`; the first argument is the block
`trav` points to.  The result is the pointer returned and the vector `path`, last element
first; the `nullptr` result is `none`. -/
def get_replacement :
    Block E → BlockPtr → Bool → Bool → List BlockPtr → Option (BlockPtr × List BlockPtr)
  | .mk _ _ cs, trav, search_min, search_max, path =>
    if cs.isEmpty then some (trav, trav :: path)
    else if search_min then get_replacement_front trav (trav :: path) cs
    else if search_max then get_replacement_back trav (cs.length - 1) (trav :: path) cs
    else none
/-- `travs_children.front()` followed by the recursive call. -/
def get_replacement_front (trav : BlockPtr) (path : List BlockPtr) :
    List (Block E) → Option (BlockPtr × List BlockPtr)
  | [] => none
  | c :: _ => get_replacement c (trav ++ [0]) true false path
/-- `travs_children.back()` followed by the recursive call. -/
def get_replacement_back (trav : BlockPtr) (last : Nat) (path : List BlockPtr) :
    List (Block E) → Option (BlockPtr × List BlockPtr)
  | [] => none
  | [c] => get_replacement c (trav ++ [last]) false true path
  | _ :: c :: cs => get_replacement_back trav last path (c :: cs)
end

/-- The body of `merge(parent, from, to, right_to_left, left_to_right, path)` up to its last
statement: the tree after the entries and children of `from` and the separating entry of
`parent` have been moved into `to` and `from` has been erased from `parent`. -/
def merge_body (root : Block E) (parent from_ptr to_ptr : BlockPtr)
    (right_to_left left_to_right : Bool) : Option (Block E) :=
  match deref root parent, deref root from_ptr, deref root to_ptr with
  | some (.mk _ pes pcs), some (.mk _ fes fcs), some (.mk tb tes tcs) =>
    let to_index := get_child_index pcs.length parent to_ptr
    let from_index := get_child_index pcs.length parent from_ptr
    if right_to_left then
      if to_index < 0 ∨ from_index < 0 then none
      else
        match pes[to_index.toNat]? with
        | none => none
        | some sep =>
          let root1 := modify (fun _ =>
            .mk tb (tes ++ [sep] ++ fes) (if tcs.isEmpty then tcs else tcs ++ fcs)) to_ptr root
          some (modify (fun p => .mk p.get_b_count (p.entries.eraseIdx to_index.toNat)
            (p.children.eraseIdx from_index.toNat)) parent root1)
    else if left_to_right then
      if to_index - 1 < 0 ∨ from_index < 0 then none
      else
        match pes[(to_index - 1).toNat]? with
        | none => none
        | some sep =>
          let root1 := modify (fun _ =>
            .mk tb (fes ++ [sep] ++ tes) (if tcs.isEmpty then tcs else fcs ++ tcs)) to_ptr root
          some (modify (fun p => .mk p.get_b_count (p.entries.eraseIdx (to_index - 1).toNat)
            (p.children.eraseIdx from_index.toNat)) parent root1)
    else some root
  | _, _, _ => none

/-- `merge`: its body, followed by the call `remove_restructure(parent, path)`, here
`restructure`, when the parent is left with fewer than `min_kv_pairs` entries. -/
def merge (root : Block E) (parent from_ptr to_ptr : BlockPtr)
    (right_to_left left_to_right : Bool) (restructure : Block E → Option (Block E)) :
    Option (Block E) :=
  match merge_body root parent from_ptr to_ptr right_to_left left_to_right with
  | none => none
  | some root1 =>
    match deref root1 parent with
    | none => none
    | some p =>
      if p.entries.length < size_t_of_int p.get_min_keys then restructure root1
      else some root1

/-- `remove_restructure(block, path)` on the tree with root `root`; the result is the root of
the tree after the call.  With `block` not the root and an empty `path`, `path.back()` is
undefined: `none`. -/
def remove_restructure : Block E → BlockPtr → List BlockPtr → Option (Block E)
  | root, block, [] =>
    if is_root block then
      match root.children with
      | [new_root] => some new_root
      | _ => some root
    else none
  | root, block, parent :: path =>
    if is_root block then
      match root.children with
      | [new_root] => some new_root
      | _ => some root
    else
      match deref root parent, deref root block with
      | some (.mk _ pes pcs), some (.mk b es cs) =>
        match get_sibling pcs.length parent block false true,
            get_sibling pcs.length parent block true false with
        | some right_sibling, _ =>
          match deref root right_sibling with
          | none => none
          | some (.mk rb res rcs) =>
            if size_t_pred res.length < size_t_of_int (Block.mk rb res rcs).get_min_keys then
              merge root parent right_sibling block true false
                (fun root1 => remove_restructure root1 parent path)
            else
              let index_of_parent_key := get_child_index pcs.length parent block
              if index_of_parent_key < 0 then none
              else
                match pes[index_of_parent_key.toNat]?, res.head? with
                | none, _ => none
                | _, none => none
                | some sep, some first =>
                  let root1 := modify (fun _ =>
                    .mk b (es ++ [sep]) (if !rcs.isEmpty then cs ++ rcs.take 1 else cs))
                    block root
                  let root2 := modify (fun p => .mk p.get_b_count
                    (p.entries.set index_of_parent_key.toNat first) p.children) parent root1
                  some (modify (fun _ =>
                    .mk rb res.tail (if !rcs.isEmpty then rcs.tail else rcs))
                    right_sibling root2)
        | none, some left_sibling =>
          match deref root left_sibling with
          | none => none
          | some (.mk lb les lcs) =>
            if size_t_pred les.length < size_t_of_int (Block.mk lb les lcs).get_min_keys then
              merge root parent left_sibling block false true
                (fun root1 => remove_restructure root1 parent path)
            else
              let index_of_parent_key := get_child_index pcs.length parent block - 1
              if index_of_parent_key < 0 then none
              else
                match pes[index_of_parent_key.toNat]?, les.getLast? with
                | none, _ => none
                | _, none => none
                | some sep, some last =>
                  let root1 := modify (fun _ =>
                    .mk b (sep :: es)
                      (if !lcs.isEmpty then lcs.drop (lcs.length - 1) ++ cs else cs))
                    block root
                  let root2 := modify (fun p => .mk p.get_b_count
                    (p.entries.set index_of_parent_key.toNat last) p.children) parent root1
                  some (modify (fun _ =>
                    .mk lb les.dropLast (if !lcs.isEmpty then lcs.dropLast else lcs))
                    left_sibling root2)
        | none, none => some root
      | _, _ => none

/-- `remove_helper(target_block, key, path)` on the tree with root `root`.  `fuel` bounds the
depth of the recursion, as in the embedding with slots: the recursive call is made on the
leaf returned by `get_replacement`, so the top-level call passes `1`.  With `index = 0` the
source reaches `target_pairs.at(index - 1)`, which throws, whatever the successor search
returned. -/
def remove_helper (key : E → K) :
    Nat → Block E → BlockPtr → K → List BlockPtr → Option (Block E)
  | fuel, root, target_block, k, path =>
    match deref root target_block with
    | none => none
    | some (.mk b es cs) =>
      if cs.isEmpty then
        let target_keys :=
          if key_at_index key es (get_index key es k) k then
            es.eraseIdx (get_index key es k - 1)
          else es
        let root1 := modify (fun _ => .mk b target_keys cs) target_block root
        if target_keys.length < size_t_of_int (Block.mk b es cs).get_min_keys then
          remove_restructure root1 target_block path
        else some root1
      else
        match fuel with
        | 0 => none
        | fuel + 1 =>
          let index := get_index key es k
          if 0 < index then
            match cs[index - 1]? with
            | none => none
            | some left_child =>
              match get_replacement left_child (target_block ++ [index - 1]) false true
                  (target_block :: path) with
              | none => none
              | some (replacement_block, path2) =>
                match deref root replacement_block with
                | none => none
                | some rblk =>
                  match rblk.entries.getLast?, path2 with
                  | none, _ => none
                  | _, [] => none
                  | some replacement, _ :: path3 =>
                    remove_helper key fuel
                      (modify (fun t => .mk t.get_b_count
                        (t.entries.set (index - 1) replacement) t.children) target_block root)
                      replacement_block (key replacement) path3
          else none

/-- The activations of `remove_restructure` that the call `remove_restructure(block, path)`
gives rise to on the tree with root `root`: for each one the tree at the time of the call,
the pointer `block` and the vector `path`. -/
def remove_restructure_calls :
    Block E → BlockPtr → List BlockPtr → List (Block E × BlockPtr × List BlockPtr)
  | root, block, [] => [(root, block, [])]
  | root, block, parent :: path =>
    (root, block, parent :: path) ::
      if is_root block then []
      else
        match deref root parent, deref root block with
        | some (.mk _ _ pcs), some _ =>
          match get_sibling pcs.length parent block false true,
              get_sibling pcs.length parent block true false with
          | some right_sibling, _ =>
            match deref root right_sibling with
            | none => []
            | some (.mk rb res rcs) =>
              if size_t_pred res.length < size_t_of_int (Block.mk rb res rcs).get_min_keys then
                match merge_body root parent right_sibling block true false with
                | none => []
                | some root1 =>
                  match deref root1 parent with
                  | none => []
                  | some p =>
                    if p.entries.length < size_t_of_int p.get_min_keys then
                      remove_restructure_calls root1 parent path
                    else []
              else []
          | none, some left_sibling =>
            match deref root left_sibling with
            | none => []
            | some (.mk lb les lcs) =>
              if size_t_pred les.length < size_t_of_int (Block.mk lb les lcs).get_min_keys then
                match merge_body root parent left_sibling block false true with
                | none => []
                | some root1 =>
                  match deref root1 parent with
                  | none => []
                  | some p =>
                    if p.entries.length < size_t_of_int p.get_min_keys then
                      remove_restructure_calls root1 parent path
                    else []
              else []
          | none, none => []
        | _, _ => []

/-- The activations of `remove_restructure` that `remove_helper(target_block, key, path)`
gives rise to. -/
def remove_helper_calls (key : E → K) :
    Nat → Block E → BlockPtr → K → List BlockPtr → List (Block E × BlockPtr × List BlockPtr)
  | fuel, root, target_block, k, path =>
    match deref root target_block with
    | none => []
    | some (.mk b es cs) =>
      if cs.isEmpty then
        let target_keys :=
          if key_at_index key es (get_index key es k) k then
            es.eraseIdx (get_index key es k - 1)
          else es
        let root1 := modify (fun _ => .mk b target_keys cs) target_block root
        if target_keys.length < size_t_of_int (Block.mk b es cs).get_min_keys then
          remove_restructure_calls root1 target_block path
        else []
      else
        match fuel with
        | 0 => []
        | fuel + 1 =>
          let index := get_index key es k
          if 0 < index then
            match cs[index - 1]? with
            | none => []
            | some left_child =>
              match get_replacement left_child (target_block ++ [index - 1]) false true
                  (target_block :: path) with
              | none => []
              | some (replacement_block, path2) =>
                match deref root replacement_block with
                | none => []
                | some rblk =>
                  match rblk.entries.getLast?, path2 with
                  | none, _ => []
                  | _, [] => []
                  | some replacement, _ :: path3 =>
                    remove_helper_calls key fuel
                      (modify (fun t => .mk t.get_b_count
                        (t.entries.set (index - 1) replacement) t.children) target_block root)
                      replacement_block (key replacement) path3
          else []

end

section
variable {K V : Type} [LinearOrder K]

/-- Method `remove(K key)` of `src/b_tree_map.cpp`: `search_helper` fills `path`, its last
element is popped as `block_containing_key`, and `remove_helper` runs when the key is
there. -/
def remove (t : B_Tree (K × V)) (key : K) : Option (B_Tree (K × V)) :=
  match search_helper Prod.fst t.root [] key [] with
  | none => none
  | some [] => some t
  | some (block_containing_key :: path) =>
    match deref t.root block_containing_key with
    | none => none
    | some blk =>
      if key_at_index Prod.fst blk.entries (get_index Prod.fst blk.entries key) key
      then (remove_helper Prod.fst 1 t.root block_containing_key key path).map B_Tree.mk
      else some t

/-- The activations of `remove_restructure` that `remove(K key)` gives rise to. -/
def remove_calls (t : B_Tree (K × V)) (key : K) :
    List (Block (K × V) × BlockPtr × List BlockPtr) :=
  match search_helper Prod.fst t.root [] key [] with
  | none => []
  | some [] => []
  | some (block_containing_key :: path) =>
    match deref t.root block_containing_key with
    | none => []
    | some blk =>
      if key_at_index Prod.fst blk.entries (get_index Prod.fst blk.entries key) key
      then remove_helper_calls Prod.fst 1 t.root block_containing_key key path
      else []

end

end Ptr


/-! ## Specification vocabulary -/

section Spec

variable {E K : Type} [LinearOrder K]

/-- The keys of a sequence of entries are strictly increasing. -/
def KeySorted (key : E → K) (l : List E) : Prop :=
  l.Pairwise (fun x y => key x < key y)

/-- A non-root block whose leaves are all `h` levels below it, in a tree of degree `b`: it
carries `b_count = b`, holds between `b - 1` and `2 * b - 1` entries, is a leaf when `h = 0`
and otherwise has `entries + 1` children, each a non-root block with leaves `h - 1` levels
below. -/
def Sub (b : Int) : Nat → Block E → Prop
  | 0, t => t.get_b_count = b ∧ b - 1 ≤ (t.entries.length : Int) ∧
      (t.entries.length : Int) ≤ 2 * b - 1 ∧ t.children = []
  | h + 1, t => t.get_b_count = b ∧ b - 1 ≤ (t.entries.length : Int) ∧
      (t.entries.length : Int) ≤ 2 * b - 1 ∧ t.children.length = t.entries.length + 1 ∧
      ∀ c ∈ t.children, Sub b h c

/-- A block with between `lo` and `hi` entries whose children are non-root blocks of a tree of
degree `b` with leaves `h` levels below the block. -/
def Node (b lo hi : Int) (h : Nat) (t : Block E) : Prop :=
  t.get_b_count = b ∧ lo ≤ (t.entries.length : Int) ∧ (t.entries.length : Int) ≤ hi ∧
  match h with
  | 0 => t.children = []
  | h + 1 => t.children.length = t.entries.length + 1 ∧ ∀ c ∈ t.children, Sub b h c

/-- The four structural facts for a tree of degree `b`: every block has at most `2 * b - 1`
entries, every non-root block has at least `b - 1`, every internal block has `entries + 1`
children, and all leaves are at the same depth `h`. -/
def Structural (b : Int) (t : B_Tree E) : Prop :=
  ∃ h, Node b 0 (2 * b - 1) h t.root

mutual
/-- The ordering invariant of a block and everything below it: the block's keys are strictly
increasing, an internal block has `entries + 1` children, every key below child `i` lies
strictly between entry `i - 1` and entry `i`, and the same holds in every child. -/
def Ordered (key : E → K) : Block E → Prop
  | .mk _ es cs =>
    KeySorted key es ∧ (cs = [] ∨ cs.length = es.length + 1) ∧
    (∀ i c x, cs[i]? = some c → x ∈ inorder c →
      (∀ e, 0 < i → es[i - 1]? = some e → key e < key x) ∧
      (∀ e, es[i]? = some e → key x < key e)) ∧
    Ordered_children key cs
/-- The ordering invariant in every block of a child vector. -/
def Ordered_children (key : E → K) : List (Block E) → Prop
  | [] => True
  | c :: cs => Ordered key c ∧ Ordered_children key cs
end

mutual
/-- Every block below (and including) this one carries `b_count = b`. -/
def Degree (b : Int) : Block E → Prop
  | .mk bc _ cs => bc = b ∧ Degree_children b cs
/-- Every block of a child vector, and below, carries `b_count = b`. -/
def Degree_children (b : Int) : List (Block E) → Prop
  | [] => True
  | c :: cs => Degree b c ∧ Degree_children b cs
end

/-- The ordering invariant of a whole tree: `Ordered` at the root and no key stored twice. -/
def OrderedTree (key : E → K) (t : B_Tree E) : Prop :=
  Ordered key t.root ∧ ((inorder t.root).map key).Nodup

/-- A well-formed tree of degree `b` (section 3 of the specification): the structural facts,
the ordering invariant, and a root that holds zero entries only when the tree is empty. -/
def WellFormed (key : E → K) (b : Int) (t : B_Tree E) : Prop :=
  Structural b t ∧ (t.root.entries = [] → t.root.children = []) ∧ OrderedTree key t

/-- Abstract effect of storing entry `e`: the entries with a smaller key, then `e`, then the
entries with a larger key. -/
def abs_insert (key : E → K) (e : E) (l : List E) : List E :=
  l.filter (fun x => decide (key x < key e)) ++ e :: l.filter (fun x => decide (key e < key x))

/-- Abstract effect of removing key `k`. -/
def abs_remove (key : E → K) (k : K) (l : List E) : List E :=
  l.filter (fun x => decide (key x ≠ k))

/-- Entries left of the hole of a frame, in order. -/
def frame_left (f : Frame E) : List E :=
  interleave (inorder_children (f.parent.children.take f.idx)) (f.parent.entries.take f.idx)

/-- Entries right of the hole of a frame, in order. -/
def frame_right (f : Frame E) : List E :=
  interleave ([] :: inorder_children (f.parent.children.drop (f.idx + 1)))
    (f.parent.entries.drop f.idx)

/-- Entries of the tree that precede the block reached through a path. -/
def path_left : Path E → List E
  | [] => []
  | f :: rest => path_left rest ++ frame_left f

/-- Entries of the tree that follow the block reached through a path. -/
def path_right : Path E → List E
  | [] => []
  | f :: rest => frame_right f ++ path_right rest

/-- Every block carries `b_count = b` and is a leaf or has `entries + 1` children. -/
inductive Shaped (b : Int) : Block E → Prop
  | mk (es : List E) (cs : List (Block E)) :
      (cs = [] ∨ cs.length = es.length + 1) → (∀ c ∈ cs, Shaped b c) → Shaped b (.mk b es cs)

/-- A path whose frames point at existing child slots of shaped blocks. -/
inductive PathShape (b : Int) : Path E → Prop
  | nil : PathShape b []
  | cons (c : Block E) (cl cr : List (Block E)) (kl kr : List E) (rest : Path E) :
      kl.length = cl.length → kr.length = cr.length →
      (∀ x ∈ cl, Shaped b x) → (∀ x ∈ cr, Shaped b x) → PathShape b rest →
      PathShape b (⟨.mk b (kl ++ kr) (cl ++ c :: cr), cl.length⟩ :: rest)

/-- A path through a structurally sound tree of degree `b`: the hole of the first frame takes
a block with leaves `h` levels below it; the root frame holds at least `rmin` entries. -/
inductive PathStruct (b : Int) (rmin : Int) : Nat → Path E → Prop
  | nil (h : Nat) : PathStruct b rmin h []
  | cons (h : Nat) (c : Block E) (cl cr : List (Block E)) (kl kr : List E) (rest : Path E) :
      kl.length = cl.length → kr.length = cr.length →
      (∀ x ∈ cl, Sub b h x) → (∀ x ∈ cr, Sub b h x) →
      ((kl.length + kr.length : Nat) : Int) ≤ 2 * b - 1 →
      (rest ≠ [] → b - 1 ≤ ((kl.length + kr.length : Nat) : Int)) →
      (rest = [] → rmin ≤ ((kl.length + kr.length : Nat) : Int)) →
      PathStruct b rmin (h + 1) rest →
      PathStruct b rmin h (⟨.mk b (kl ++ kr) (cl ++ c :: cr), cl.length⟩ :: rest)

/-- The block reached through `path` fits there structurally: it has at most `2 * b - 1`
entries and children that are sound non-root blocks `h - 1` levels high; below the root it has
at least `b - 1` entries, and as an internal root at least `rmin`. -/
def Focus (b rmin : Int) (h : Nat) (t : Block E) (path : Path E) : Prop :=
  Node b 0 (2 * b - 1) h t ∧ (path ≠ [] → b - 1 ≤ (t.entries.length : Int)) ∧
  (path = [] → t.children ≠ [] → rmin ≤ (t.entries.length : Int))

/-- A structurally sound root whose entry count, when it is internal, is at least `rmin`. -/
def RootOK (b rmin : Int) (t : Block E) : Prop :=
  ∃ h, Focus b rmin h t []

/-- Abstract effect of one map operation on the in-order sequence of entries. -/
def abs_apply {K V : Type} [LinearOrder K] (l : List (K × V)) : MapTree.Op K V → List (K × V)
  | .insert k v => abs_insert Prod.fst (k, v) l
  | .remove k => abs_remove Prod.fst k l

/-- Abstract effect of a sequence of map operations. -/
def abs_run {K V : Type} [LinearOrder K] (l : List (K × V)) : List (MapTree.Op K V) → List (K × V)
  | [] => l
  | op :: ops => abs_run (abs_apply l op) ops

/-- Entry `e` is held by the block or by some block below it. -/
inductive Stored (e : E) : Block E → Prop
  | here (b : Int) (es : List E) (cs : List (Block E)) : e ∈ es → Stored e (.mk b es cs)
  | in_child (b : Int) (es : List E) (cs : List (Block E)) (c : Block E) :
      c ∈ cs → Stored e c → Stored e (.mk b es cs)

mutual
/-- The same tree of blocks with `f` applied to every entry. -/
def map_entries (f : E → E) : Block E → Block E
  | .mk b es cs => .mk b (es.map f) (map_entries_children f cs)
/-- The blocks of a child vector with `f` applied to every entry. -/
def map_entries_children (f : E → E) : List (Block E) → List (Block E)
  | [] => []
  | c :: cs => map_entries f c :: map_entries_children f cs
end

mutual
/-- Number of levels below a block, counted along first children.  In a structurally sound
tree every leaf of the block is that many levels below it. -/
def height : Block E → Nat
  | .mk _ _ cs => height_children cs
/-- The `height` of a block that has this child vector. -/
def height_children : List (Block E) → Nat
  | [] => 0
  | c :: _ => height c + 1
end

/-- Entries of the root block as a path records it: of the block itself when the path is
empty, otherwise of the block in the last frame. -/
def root_entries : Block E → Path E → List E
  | t, [] => t.entries
  | _, f :: rest => root_entries f.parent rest

/-- Height bookkeeping for `remove_restructure` called on a block `blk` that sits `h` levels
above the leaves at the end of `path`, with `calls` the activations of `remove_restructure`
that were made.  Either no activation met a root with exactly one child, and the resulting
root is as high as the tree before (`h + path.length`); or an activation met the root with
zero entries and one child `c`, and then `c` is the resulting root, one level lower, and the
root was left without entries (a root block with no entries, or a root that held a single
entry before the merge below it took that entry). -/
def RepairHeight (h : Nat) (path : Path E) (blk : Block E) (calls : List (Block E × Path E))
    (root' : Block E) : Prop :=
  ((∀ call ∈ calls, call.2 = [] → call.1.children.length ≠ 1) ∧
      height root' = h + path.length) ∨
    (∃ rb c, (Block.mk rb [] [c], ([] : Path E)) ∈ calls ∧ root' = c ∧
      height root' + 1 = h + path.length ∧
      ((path = [] ∧ blk.entries = []) ∨ (path ≠ [] ∧ (root_entries blk path).length = 1)))

/-- The pointer to the block that a path of frames leads to. -/
def path_ptr : Path E → BlockPtr
  | [] => []
  | f :: rest => path_ptr rest ++ [f.idx]

/-- The vector `path` of the source for a path of frames: the pointers to the blocks of the
frames, last element first. -/
def path_ptrs : Path E → List BlockPtr
  | [] => []
  | _ :: rest => path_ptr rest :: path_ptrs rest

/-- Every frame of the path points at an existing child slot of its block. -/
def SlotsOK (path : Path E) : Prop :=
  ∀ f ∈ path, f.idx < f.parent.children.length

/-- An activation given by a block and the frames above it, as the tree at the time of the
call, the pointer to the block and the vector of pointers to its ancestors. -/
def ptr_call (call : Block E × Path E) : Block E × BlockPtr × List BlockPtr :=
  (plug call.1 call.2, path_ptr call.2, path_ptrs call.2)

/-- An activation of `remove_restructure` in a structurally sound tree of degree `b`: the path
runs through sound blocks, the block is sound but for its entry count, and below the root it
is exactly one entry short. -/
def RepairCall (b : Int) (call : Block E × Path E) : Prop :=
  ∃ h, PathStruct b 1 h call.2 ∧ Node b 0 (2 * b - 1) h call.1 ∧
    (call.2 ≠ [] → (call.1.entries.length : Int) = b - 2)

/-- The vector `path` as `search_helper` leaves it in the source, root first: the blocks of the
frames followed by the block at which the search stopped. -/
def path_blocks (found : Block E) (path : Path E) : List (Block E) :=
  path.reverse.map Frame.parent ++ [found]

/-- Every block of the list but the first is the child at index `get_index(previous, k)` of
the block before it. -/
def Descent (key : E → K) (k : K) : List (Block E) → Prop
  | [] => True
  | [_] => True
  | a :: c :: rest =>
    a.children[get_index key a.entries k]? = some c ∧ Descent key k (c :: rest)

mutual
/-- A map block with the values erased: the same tree of blocks holding only the keys. -/
def keys_only {K V : Type} : Block (K × V) → Block K
  | .mk b es cs => .mk b (es.map Prod.fst) (keys_only_children cs)
/-- The blocks of a child vector with the values erased. -/
def keys_only_children {K V : Type} : List (Block (K × V)) → List (Block K)
  | [] => []
  | c :: cs => keys_only c :: keys_only_children cs
end

end Spec

/-! ## Example trees of degree 2 -/

/-- Set tree with root `[3]` over the leaves `[1, 2]` and `[4, 5, 6]`. -/
def example_set : B_Tree Int :=
  ⟨.mk 2 [3] [.mk 2 [1, 2] [], .mk 2 [4, 5, 6] []]⟩

/-- Map tree with the keys of `example_set`, each key `k` carrying the value `10 * k`. -/
def example_map : B_Tree (Int × Int) :=
  ⟨.mk 2 [(3, 30)] [.mk 2 [(1, 10), (2, 20)] [], .mk 2 [(4, 40), (5, 50), (6, 60)] []]⟩

/-- A map tree of degree 2 and height 1 whose root holds a single entry: root `[3]` over the
leaves `[1]` and `[5]`, key `k` carrying the value `10 * k`. -/
def example_small : B_Tree (Int × Int) :=
  ⟨.mk 2 [(3, 30)] [.mk 2 [(1, 10)] [], .mk 2 [(5, 50)] []]⟩

/-- The keys of `example_small` as a set tree: root `[3]` over the leaves `[1]` and `[5]`. -/
def example_thin : B_Tree Int :=
  ⟨.mk 2 [3] [.mk 2 [1] [], .mk 2 [5] []]⟩

/-- A set tree of degree 2 whose root is a full leaf: `[1, 2, 3]`. -/
def example_full : B_Tree Int :=
  ⟨.mk 2 [1, 2, 3] []⟩

/-! ## Binary search -/

section ConstructorFacts

/-- For which arguments `Block(int)` returns: the two `reserve` arguments are non-negative
exactly for `0 ≤ d < 2 ^ 30` and, through the wrap-around of `2 * d`, for `d < -2 ^ 30`. -/
theorem block_new_eq {E : Type} (d : Int) :
    (Block.new d : Option (Block E)) =
      if (0 ≤ d ∧ d < 1073741824) ∨ (INT_MIN ≤ d ∧ d < -1073741824) then some (.mk d [] [])
      else none := by
  unfold Block.new int_wrap INT_MIN INT_MAX
  simp only []
  split_ifs <;> first | rfl | (exfalso; omega)

theorem set_construct_some (d : Int) (t0 : B_Tree Int) (h : SetTree.construct d = some t0) :
    t0 = ⟨.mk d [] []⟩ ∧ ((0 ≤ d ∧ d < 1073741824) ∨ (INT_MIN ≤ d ∧ d < -1073741824)) := by
  simp only [SetTree.construct, block_new_eq] at h
  split at h
  · rename_i hd
    simp only [Option.map_some', Option.some.injEq] at h
    exact ⟨h.symm, hd⟩
  · simp at h

theorem map_construct_some {K V : Type} (d : Int) (t0 : B_Tree (K × V))
    (h : MapTree.construct d = some t0) :
    t0 = ⟨.mk d [] []⟩ ∧ ((0 ≤ d ∧ d < 1073741824) ∨ (INT_MIN ≤ d ∧ d < -1073741824)) := by
  simp only [MapTree.construct, block_new_eq] at h
  split at h
  · rename_i hd
    simp only [Option.map_some', Option.some.injEq] at h
    exact ⟨h.symm, hd⟩
  · simp at h

end ConstructorFacts

section BinarySearch
variable {E K : Type} [LinearOrder K]

theorem get_index_loop_eq (key : E → K) (A B : List E) (k : K)
    (hA : ∀ a ∈ A, key a ≤ k) (hB : ∀ x ∈ B, k < key x) :
    ∀ (fuel left right : Nat) (h : right ≤ (A ++ B).length), left ≤ A.length → A.length ≤ right →
      right - left ≤ fuel → get_index_loop key (A ++ B) k fuel left right h = A.length := by
  intro fuel
  induction fuel with
  | zero =>
    intro left right h h1 h2 h3
    simp only [get_index_loop]
    omega
  | succ n ih =>
    intro left right h h1 h2 h3
    rw [get_index_loop]
    split
    · rename_i hlr
      have hlen : (A ++ B).length = A.length + B.length := List.length_append A B
      have hbd : (left + right) / 2 < (A ++ B).length := by omega
      have hget : (A ++ B).get ⟨(left + right) / 2, hbd⟩ = (A ++ B)[(left + right) / 2] := rfl
      rw [hget]
      by_cases hm : (left + right) / 2 < A.length
      · have hmem : (A ++ B)[(left + right) / 2] ∈ A := by
          rw [List.getElem_append_left hm]
          exact List.getElem_mem _
        have := hA _ hmem
        rw [if_neg (not_lt.mpr this)]
        exact ih _ _ h (by omega) h2 (by omega)
      · have hmem : (A ++ B)[(left + right) / 2] ∈ B := by
          rw [List.getElem_append_right (by omega)]
          exact List.getElem_mem _
        have := hB _ hmem
        rw [if_pos this]
        exact ih _ _ _ h1 (by omega) (by omega)
    · omega

theorem get_index_append (key : E → K) (A B : List E) (k : K)
    (hA : ∀ a ∈ A, key a ≤ k) (hB : ∀ x ∈ B, k < key x) :
    get_index key (A ++ B) k = A.length := by
  unfold get_index
  exact get_index_loop_eq key A B k hA hB _ _ _ _ (Nat.zero_le _) (by simp) (by simp)

end BinarySearch

section Lemmas
variable {E K : Type} [LinearOrder K]

/-! ## Lists -/

theorem inorder_children_eq_map (cs : List (Block E)) : inorder_children cs = cs.map inorder := by
  induction cs with
  | nil => rfl
  | cons c cs ih => simp [inorder_children, ih]

theorem inorder_mk (b : Int) (es : List E) (cs : List (Block E)) :
    inorder (.mk b es cs) = interleave (cs.map inorder) es := by
  rw [inorder, inorder_children_eq_map]

theorem interleave_nil (es : List E) : interleave [] es = es := by
  cases es <;> rfl

theorem interleave_append_cons (C1 C2 : List (List E)) (K1 K2 : List E) (k : E)
    (h : C1.length = K1.length + 1) :
    interleave (C1 ++ C2) (K1 ++ k :: K2) = interleave C1 K1 ++ k :: interleave C2 K2 := by
  induction C1 generalizing K1 with
  | nil => simp at h
  | cons c C1 ih =>
    cases K1 with
    | nil =>
      have : C1 = [] := by
        cases C1 with
        | nil => rfl
        | cons _ _ => simp at h
      subst this
      simp [interleave]
    | cons k1 K1 =>
      simp only [List.length_cons, Nat.add_right_cancel_iff] at h
      simp [interleave, ih K1 h]

theorem interleave_split (cl cr : List (List E)) (c : List E) (kl kr : List E)
    (h : kl.length = cl.length) :
    interleave (cl ++ c :: cr) (kl ++ kr) = interleave cl kl ++ c ++ interleave ([] :: cr) kr := by
  induction cl generalizing kl with
  | nil =>
    cases kl with
    | nil => cases kr <;> simp [interleave]
    | cons _ _ => simp at h
  | cons c1 cl ih =>
    cases kl with
    | nil => simp at h
    | cons k1 kl =>
      simp only [List.length_cons, Nat.add_right_cancel_iff] at h
      simp [interleave, ih kl h]

theorem interleave_snoc (cl : List (List E)) (kl : List E) (k : E)
    (h : cl.length = kl.length + 1) :
    interleave cl (kl ++ [k]) = interleave cl kl ++ [k] := by
  have := interleave_append_cons cl [] kl [] k h
  simpa [interleave] using this

theorem mem_interleave {cs : List (List E)} {es : List E} {x : E} :
    x ∈ interleave cs es ↔ x ∈ es ∨ ∃ c ∈ cs, x ∈ c := by
  induction cs generalizing es with
  | nil => simp [interleave_nil]
  | cons c cs ih =>
    cases es with
    | nil =>
      simp only [interleave, List.mem_append, ih, List.not_mem_nil, false_or, List.mem_cons,
        exists_eq_or_imp]
    | cons e es =>
      simp only [interleave, List.mem_append, List.mem_cons, ih, exists_eq_or_imp]
      tauto

theorem entries_sublist_interleave (cs : List (List E)) (es : List E) :
    es.Sublist (interleave cs es) := by
  induction cs generalizing es with
  | nil => simp [interleave_nil]
  | cons c cs ih =>
    cases es with
    | nil => simp
    | cons e es =>
      simp only [interleave]
      exact (List.Sublist.cons₂ e (ih es)).trans (List.sublist_append_right _ _)

theorem child_sublist_interleave (cs : List (List E)) (es : List E) (c : List E) (hc : c ∈ cs) :
    c.Sublist (interleave cs es) := by
  induction cs generalizing es with
  | nil => simp at hc
  | cons c1 cs ih =>
    rcases List.mem_cons.mp hc with rfl | hc
    · cases es <;> simp [interleave]
    · cases es with
      | nil =>
        simp only [interleave]
        exact (ih [] hc).trans (List.sublist_append_right _ _)
      | cons e es =>
        simp only [interleave]
        exact ((ih es hc).trans (List.sublist_cons_self _ _)).trans (List.sublist_append_right _ _)

/-! ## Induction over blocks -/

theorem Block.induct {P : Block E → Prop}
    (step : ∀ b es cs, (∀ c ∈ cs, P c) → P (.mk b es cs)) : ∀ t, P t := by
  intro t
  refine @Block.rec E P (fun cs => ∀ c ∈ cs, P c) ?_ ?_ ?_ t
  · intro b es cs ih
    exact step b es cs ih
  · intro c hc
    simp at hc
  · intro c cs hc hcs x hx
    rcases List.mem_cons.mp hx with rfl | hx
    · exact hc
    · exact hcs x hx

end Lemmas

section Locate
variable {E K : Type} [LinearOrder K]

theorem KeySorted.sublist {key : E → K} {l l' : List E} (h : KeySorted key l)
    (hs : l'.Sublist l) : KeySorted key l' :=
  List.Pairwise.sublist hs h

theorem exists_split_at (l : List E) (n : Nat) (h : n < l.length) :
    ∃ l1 x l2, l = l1 ++ x :: l2 ∧ l1.length = n := by
  refine ⟨l.take n, l[n], l.drop (n + 1), ?_, ?_⟩
  · rw [← List.drop_eq_getElem_cons h, List.take_append_drop]
  · simp; omega

theorem getElem?_at_length (A B : List E) (e : E) : (A ++ e :: B)[A.length]? = some e := by
  induction A with
  | nil => simp
  | cons a A ih => simpa using ih

theorem set_at_length (A B : List E) (e x : E) : (A ++ e :: B).set A.length x = A ++ x :: B := by
  induction A with
  | nil => rfl
  | cons a A ih => simp

theorem eraseIdx_at_length (A B : List E) (e : E) : (A ++ e :: B).eraseIdx A.length = A ++ B := by
  induction A with
  | nil => rfl
  | cons a A ih => simpa using ih

theorem insertIdx_at_length (A B : List E) (x : E) : (A ++ B).insertIdx A.length x = A ++ x :: B := by
  induction A with
  | nil => simp
  | cons a A ih => simpa using ih

theorem locate (key : E → K) (k : K) : ∀ es : List E, KeySorted key es →
    (∃ A B, es = A ++ B ∧ (∀ a ∈ A, key a < k) ∧ (∀ x ∈ B, k < key x)) ∨
    (∃ A e B, es = A ++ e :: B ∧ key e = k ∧ (∀ a ∈ A, key a < k) ∧ (∀ x ∈ B, k < key x)) := by
  intro es
  induction es with
  | nil => intro _; exact Or.inl ⟨[], [], rfl, by simp, by simp⟩
  | cons e es ih =>
    intro hs
    have hs' := List.pairwise_cons.mp hs
    rcases lt_trichotomy (key e) k with hlt | heq | hgt
    · rcases ih hs'.2 with ⟨A, B, rfl, hA, hB⟩ | ⟨A, x, B, rfl, hx, hA, hB⟩
      · refine Or.inl ⟨e :: A, B, rfl, ?_, hB⟩
        intro a ha
        rcases List.mem_cons.mp ha with rfl | ha
        · exact hlt
        · exact hA a ha
      · refine Or.inr ⟨e :: A, x, B, rfl, hx, ?_, hB⟩
        intro a ha
        rcases List.mem_cons.mp ha with rfl | ha
        · exact hlt
        · exact hA a ha
    · refine Or.inr ⟨[], e, es, rfl, heq, by simp, ?_⟩
      intro x hx
      exact heq ▸ hs'.1 x hx
    · refine Or.inl ⟨[], e :: es, rfl, by simp, ?_⟩
      intro x hx
      rcases List.mem_cons.mp hx with rfl | hx
      · exact hgt
      · exact lt_trans hgt (hs'.1 x hx)

theorem key_at_index_absent (key : E → K) (k : K) (A B : List E) (hA : ∀ a ∈ A, key a < k) :
    key_at_index key (A ++ B) A.length k = false := by
  rcases List.eq_nil_or_concat A with rfl | ⟨A', a, rfl⟩
  · simp [key_at_index]
  · have hne : key a ≠ k := ne_of_lt (hA a (by simp))
    have h1 : (A'.concat a ++ B) = A' ++ a :: B := by simp
    have h2 : (A'.concat a).length = A'.length + 1 := by simp
    rw [h1, h2]
    simp only [key_at_index, Nat.add_sub_cancel, getElem?_at_length]
    simpa using hne

theorem key_at_index_present (key : E → K) (k : K) (A B : List E) (e : E) (he : key e = k) :
    key_at_index key (A ++ e :: B) (A.length + 1) k = true := by
  simp only [key_at_index, Nat.add_sub_cancel, getElem?_at_length]
  simpa using he

theorem get_index_absent (key : E → K) (k : K) (A B : List E) (hA : ∀ a ∈ A, key a < k)
    (hB : ∀ x ∈ B, k < key x) : get_index key (A ++ B) k = A.length :=
  get_index_append key A B k (fun a ha => le_of_lt (hA a ha)) hB

theorem get_index_present (key : E → K) (k : K) (A B : List E) (e : E) (he : key e = k)
    (hA : ∀ a ∈ A, key a < k) (hB : ∀ x ∈ B, k < key x) :
    get_index key (A ++ e :: B) k = A.length + 1 := by
  have := get_index_append key (A ++ [e]) B k (by
    intro a ha
    rcases List.mem_append.mp ha with ha | ha
    · exact le_of_lt (hA a ha)
    · simp at ha; subst ha; exact le_of_eq he) hB
  simpa using this

theorem get_index_loop_le (key : E → K) (es : List E) (k : K) :
    ∀ (fuel left right : Nat) (h : right ≤ es.length), left ≤ right →
      get_index_loop key es k fuel left right h ≤ right := by
  intro fuel
  induction fuel with
  | zero => intro left right h h1; simpa [get_index_loop] using h1
  | succ n ih =>
    intro left right h h1
    rw [get_index_loop]
    split
    · split
      · exact le_trans (ih _ _ _ (by omega)) (by omega)
      · exact ih _ _ _ (by omega)
    · exact h1

theorem get_index_le (key : E → K) (es : List E) (k : K) : get_index key es k ≤ es.length :=
  get_index_loop_le key es k _ _ _ _ (Nat.zero_le _)

end Locate

section Equations
variable {E K : Type} [LinearOrder K]

theorem search_helper_child_eq (key : E → K) (trav : Block E) (index : Nat) (k : K)
    (path : Path E) (cs : List (Block E)) (n : Nat) :
    search_helper_child key trav index k path cs n =
      match cs[n]? with
      | none => none
      | some c => search_helper key c k (⟨trav, index⟩ :: path) := by
  induction cs generalizing n with
  | nil => simp [search_helper_child]
  | cons c cs ih =>
    cases n with
    | zero => simp [search_helper_child]
    | succ n => simp [search_helper_child, ih]

theorem insert_helper_child_eq (key : E → K) (trav : Block E) (index : Nat) (e : E)
    (path : Path E) (cs : List (Block E)) (n : Nat) :
    insert_helper_child key trav index e path cs n =
      match cs[n]? with
      | none => none
      | some c => insert_helper key c e (⟨trav, index⟩ :: path) := by
  induction cs generalizing n with
  | nil => simp [insert_helper_child]
  | cons c cs ih =>
    cases n with
    | zero => simp [insert_helper_child]
    | succ n => simp [insert_helper_child, ih]

theorem get_replacement_back_eq (trav : Block E) (last : Nat) (path : Path E)
    (cs : List (Block E)) (c : Block E) :
    get_replacement_back trav last path (cs ++ [c]) =
      get_replacement c false true (⟨trav, last⟩ :: path) := by
  induction cs with
  | nil => simp [get_replacement_back]
  | cons c1 cs ih =>
    cases cs with
    | nil => simp [get_replacement_back]
    | cons c2 cs => simpa [get_replacement_back] using ih

end Equations

section Frames
variable {E K : Type} [LinearOrder K]

theorem frame_left_mk (b : Int) (kl kr : List E) (cl cr : List (Block E)) (c : Block E)
    (h : kl.length = cl.length) :
    frame_left ⟨.mk b (kl ++ kr) (cl ++ c :: cr), cl.length⟩ = interleave (cl.map inorder) kl := by
  simp [frame_left, Block.children, Block.entries, inorder_children_eq_map, ← h]

theorem frame_right_mk (b : Int) (kl kr : List E) (cl cr : List (Block E)) (c : Block E)
    (h : kl.length = cl.length) :
    frame_right ⟨.mk b (kl ++ kr) (cl ++ c :: cr), cl.length⟩ =
      interleave ([] :: cr.map inorder) kr := by
  have h1 : List.drop (cl.length + 1) (cl ++ c :: cr) = cr := by
    rw [← List.drop_drop, List.drop_left]; rfl
  simp only [frame_right, Block.children, Block.entries, inorder_children_eq_map, h1,
    List.drop_left' h]

theorem inorder_hole (b : Int) (kl kr : List E) (cl cr : List (Block E)) (t : Block E)
    (h : kl.length = cl.length) :
    inorder (.mk b (kl ++ kr) (cl ++ t :: cr)) =
      interleave (cl.map inorder) kl ++ inorder t ++ interleave ([] :: cr.map inorder) kr := by
  rw [inorder_mk, List.map_append, List.map_cons, interleave_split _ _ _ _ _ (by simpa using h)]

theorem plug_cons (b : Int) (es : List E) (cl cr : List (Block E)) (c t : Block E)
    (rest : Path E) :
    plug t (⟨.mk b es (cl ++ c :: cr), cl.length⟩ :: rest) =
      plug (.mk b es (cl ++ t :: cr)) rest := by
  simp [plug, set_at_length]

theorem plug_inorder (b : Int) (t : Block E) (path : Path E) (hp : PathShape b path) :
    inorder (plug t path) = path_left path ++ inorder t ++ path_right path := by
  induction hp generalizing t with
  | nil => simp [plug, path_left, path_right]
  | cons c cl cr kl kr rest h1 h2 h3 h4 h5 ih =>
    rw [plug_cons, ih, inorder_hole _ _ _ _ _ _ h1]
    simp [path_left, path_right, frame_left_mk _ _ _ _ _ _ h1, frame_right_mk _ _ _ _ _ _ h1]

theorem plug_shaped (b : Int) (t : Block E) (path : Path E) (hp : PathShape b path)
    (ht : Shaped b t) : Shaped b (plug t path) := by
  induction hp generalizing t with
  | nil => simpa [plug] using ht
  | cons c cl cr kl kr rest h1 h2 h3 h4 h5 ih =>
    rw [plug_cons]
    apply ih
    refine Shaped.mk _ _ (Or.inr (by simp; omega)) ?_
    intro x hx
    rcases List.mem_append.mp hx with hx | hx
    · exact h3 x hx
    · rcases List.mem_cons.mp hx with rfl | hx
      · exact ht
      · exact h4 x hx

theorem path_left_append (p q : Path E) : path_left (p ++ q) = path_left q ++ path_left p := by
  induction p with
  | nil => simp [path_left]
  | cons f p ih => simp [path_left, ih]

theorem path_right_append (p q : Path E) : path_right (p ++ q) = path_right p ++ path_right q := by
  induction p with
  | nil => simp [path_right]
  | cons f p ih => simp [path_right, ih]

theorem interleave_lt (key : E → K) (k : K) (cl : List (List E)) (A : List E)
    (h : A.length = cl.length) (hs : KeySorted key (interleave cl A))
    (hA : ∀ a ∈ A, key a < k) : ∀ x ∈ interleave cl A, key x < k := by
  rcases List.eq_nil_or_concat A with rfl | ⟨A', a, rfl⟩
  · have : cl = [] := by
      cases cl with
      | nil => rfl
      | cons _ _ => simp at h
    subst this
    simp [interleave]
  · have h1 : A'.concat a = A' ++ [a] := by simp
    rw [h1] at h hs hA ⊢
    rw [interleave_snoc _ _ _ (by simpa using h.symm)] at hs ⊢
    intro x hx
    rcases List.mem_append.mp hx with hx | hx
    · have := (List.pairwise_append.mp hs).2.2 x hx a (by simp)
      exact lt_trans this (hA a (by simp))
    · simp at hx
      subst hx
      exact hA x (by simp)

theorem interleave_gt (key : E → K) (k : K) (cr : List (List E)) (B : List E)
    (h : B.length = cr.length) (hs : KeySorted key (interleave ([] :: cr) B))
    (hB : ∀ x ∈ B, k < key x) : ∀ x ∈ interleave ([] :: cr) B, k < key x := by
  cases B with
  | nil =>
    have : cr = [] := by
      cases cr with
      | nil => rfl
      | cons _ _ => simp at h
    subst this
    simp [interleave]
  | cons b0 B =>
    simp only [interleave, List.nil_append] at hs ⊢
    intro x hx
    rcases List.mem_cons.mp hx with rfl | hx
    · exact hB x (by simp)
    · exact lt_trans (hB b0 (by simp)) ((List.pairwise_cons.mp hs).1 x hx)

end Frames

section Search
variable {E K : Type} [LinearOrder K]

theorem search_shape (key : E → K) (b : Int) (k : K) (t : Block E) (ht : Shaped b t) :
    ∀ path, PathShape b path →
      KeySorted key (path_left path ++ inorder t ++ path_right path) →
      (∀ x ∈ path_left path, key x < k) → (∀ x ∈ path_right path, k < key x) →
      ∃ fes fcs path', search_helper key t k path = some (.mk b fes fcs, path') ∧
        Shaped b (.mk b fes fcs) ∧ PathShape b path' ∧
        path_left path' ++ inorder (.mk b fes fcs) ++ path_right path' =
          path_left path ++ inorder t ++ path_right path ∧
        plug (.mk b fes fcs) path' = plug t path ∧
        (∀ x ∈ path_left path', key x < k) ∧ (∀ x ∈ path_right path', k < key x) ∧
        ((∃ A e B, fes = A ++ e :: B ∧ key e = k ∧ (∀ a ∈ A, key a < k) ∧
            (∀ x ∈ B, k < key x)) ∨
          (fcs = [] ∧ ∃ A B, fes = A ++ B ∧ (∀ a ∈ A, key a < k) ∧ (∀ x ∈ B, k < key x))) := by
  induction ht with
  | mk es cs hshape hch ih =>
    intro path hp hs hl hr
    have hin : KeySorted key (inorder (.mk b es cs)) :=
      hs.sublist ((List.sublist_append_right _ _).trans (List.sublist_append_left _ _))
    have hes : KeySorted key es := by
      rw [inorder_mk] at hin
      exact hin.sublist (entries_sublist_interleave _ _)
    rcases locate key k es hes with ⟨A, B, rfl, hA, hB⟩ | ⟨A, e, B, rfl, he, hA, hB⟩
    · have hidx := get_index_absent key k A B hA hB
      have hkey := key_at_index_absent key k A B hA
      rcases hshape with rfl | hlen
      · refine ⟨A ++ B, [], path, ?_, Shaped.mk _ _ (Or.inl rfl) (by simp), hp, rfl, rfl,
          hl, hr, Or.inr ⟨rfl, A, B, rfl, hA, hB⟩⟩
        simp [search_helper, hidx, hkey]
      · obtain ⟨cl, c, cr, rfl, hcl⟩ := exists_split_at cs A.length (by simp at hlen; omega)
        have hcr : B.length = cr.length := by simp at hlen; omega
        have hne : (cl ++ c :: cr).isEmpty = false := by simp
        have hstep : search_helper key (.mk b (A ++ B) (cl ++ c :: cr)) k path =
            search_helper key c k (⟨.mk b (A ++ B) (cl ++ c :: cr), cl.length⟩ :: path) := by
          rw [← hcl] at hidx hkey
          rw [search_helper]
          simp only [hidx, hkey, hne, search_helper_child_eq, getElem?_at_length]
          simp
        have hp' : PathShape b (⟨.mk b (A ++ B) (cl ++ c :: cr), cl.length⟩ :: path) :=
          PathShape.cons c cl cr A B path hcl.symm hcr
            (fun x hx => hch x (by simp [hx])) (fun x hx => hch x (by simp [hx])) hp
        have hio := inorder_hole b A B cl cr c hcl.symm
        have hfl := frame_left_mk b A B cl cr c hcl.symm
        have hfr := frame_right_mk b A B cl cr c hcl.symm
        rw [hio] at hin
        have hsl : KeySorted key (interleave (cl.map inorder) A) :=
          hin.sublist ((List.sublist_append_left _ _).trans (List.sublist_append_left _ _))
        have hsr : KeySorted key (interleave ([] :: cr.map inorder) B) :=
          hin.sublist (List.sublist_append_right _ _)
        have hlt := interleave_lt key k (cl.map inorder) A (by simpa using hcl.symm) hsl hA
        have hgt := interleave_gt key k (cr.map inorder) B (by simpa using hcr) hsr hB
        have heq : path_left (⟨.mk b (A ++ B) (cl ++ c :: cr), cl.length⟩ :: path) ++ inorder c ++
            path_right (⟨.mk b (A ++ B) (cl ++ c :: cr), cl.length⟩ :: path) =
            path_left path ++ inorder (.mk b (A ++ B) (cl ++ c :: cr)) ++ path_right path := by
          simp only [path_left, path_right, hfl, hfr, hio, List.append_assoc]
        obtain ⟨fes, fcs, path', h1, h2, h3, h4, h5, h6, h7, h8⟩ :=
          ih c (by simp) _ hp' (by rw [heq]; exact hs)
            (by
              intro x hx
              simp only [path_left, hfl, List.mem_append] at hx
              rcases hx with hx | hx
              · exact hl x hx
              · exact hlt x hx)
            (by
              intro x hx
              simp only [path_right, hfr, List.mem_append] at hx
              rcases hx with hx | hx
              · exact hgt x hx
              · exact hr x hx)
        refine ⟨fes, fcs, path', by rw [hstep, h1], h2, h3, by rw [h4, heq], ?_, h6, h7, h8⟩
        rw [h5, plug_cons]
    · have hidx := get_index_present key k A B e he hA hB
      have hkey := key_at_index_present key k A B e he
      refine ⟨A ++ e :: B, cs, path, ?_, Shaped.mk _ _ hshape hch, hp, rfl, rfl, hl, hr,
        Or.inl ⟨A, e, B, rfl, he, hA, hB⟩⟩
      simp [search_helper, hidx, hkey]

end Search

section InsertOrdered
variable {E K : Type} [LinearOrder K]

theorem insert_split_eq (key : E → K) (b pb : Int) (es pes : List E) (cs cl cr : List (Block E))
    (c : Block E) (up : E) (hb : 0 ≤ b) (hup : es[b.toNat]? = some up)
    (hcs : cs = [] ∨ b.toNat + 1 ≤ cs.length)
    (hp : get_index key pes (key up) + 1 ≤ (cl ++ c :: cr).length) :
    insert_split key (.mk b es cs) (.mk pb pes (cl ++ c :: cr)) cl.length =
      some (.mk pb (pes.insertIdx (get_index key pes (key up)) up)
        ((cl ++ Block.mk b (es.take b.toNat) (cs.take (b.toNat + 1)) :: cr).insertIdx
          (get_index key pes (key up) + 1)
          (Block.mk b (es.drop (b.toNat + 1)) (cs.drop (b.toNat + 1))))) := by
  have h1 : ¬ b < 0 := by omega
  have h2 : ¬ (cl ++ c :: cr).length < get_index key pes (key up) + 1 := by omega
  have h5 : get_index key pes (key up) + 1 ≤ cl.length + (cr.length + 1) := by
    simpa using hp
  rcases hcs with rfl | hcs
  · simp [insert_split, h1, hup, Block.new, h5, set_at_length]
  · have h3 : cs ≠ [] := by
      intro h; subst h; simp at hcs
    have h4 : ¬ cs.length < b.toNat + 1 := by omega
    simp [insert_split, h1, hup, Block.new, h5, set_at_length, h3, h4]

theorem split_inorder (b : Int) (n : Nat) (es : List E) (cs : List (Block E)) (up : E)
    (hup : es[n]? = some up) (hcs : cs = [] ∨ cs.length = es.length + 1) :
    inorder (.mk b es cs) = inorder (.mk b (es.take n) (cs.take (n + 1))) ++
      up :: inorder (.mk b (es.drop (n + 1)) (cs.drop (n + 1))) := by
  have hn : n < es.length := by
    rcases List.getElem?_eq_some.mp hup with ⟨h, _⟩
    exact h
  have hes : es = es.take n ++ up :: es.drop (n + 1) := by
    have h1 := List.getElem?_eq_some.mp hup
    rcases h1 with ⟨h, h1⟩
    rw [← h1, ← List.drop_eq_getElem_cons h, List.take_append_drop]
  rcases hcs with rfl | hcs
  · simp only [inorder_mk, List.take_nil, List.drop_nil, List.map_nil, interleave_nil]
    exact hes
  · simp only [inorder_mk]
    have hc : cs.map inorder = (cs.take (n + 1)).map inorder ++ (cs.drop (n + 1)).map inorder := by
      rw [← List.map_append, List.take_append_drop]
    conv_lhs => rw [hes, hc]
    rw [interleave_append_cons]
    simp
    omega

theorem shaped_split_left (b : Int) (n : Nat) (es : List E) (cs : List (Block E))
    (h : Shaped b (.mk b es cs)) (hn : n < es.length) :
    Shaped b (.mk b (es.take n) (cs.take (n + 1))) := by
  cases h with
  | mk _ _ hshape hch =>
    refine Shaped.mk _ _ ?_ (fun x hx => hch x (List.mem_of_mem_take hx))
    rcases hshape with rfl | hlen
    · exact Or.inl (by simp)
    · exact Or.inr (by simp; omega)

theorem shaped_split_right (b : Int) (n : Nat) (es : List E) (cs : List (Block E))
    (h : Shaped b (.mk b es cs)) (hn : n < es.length) :
    Shaped b (.mk b (es.drop (n + 1)) (cs.drop (n + 1))) := by
  cases h with
  | mk _ _ hshape hch =>
    refine Shaped.mk _ _ ?_ (fun x hx => hch x (List.mem_of_mem_drop hx))
    rcases hshape with rfl | hlen
    · exact Or.inl (by simp)
    · exact Or.inr (by simp; omega)

theorem sorted_insert_mid (key : E → K) (X Y : List E) (e : E) (h : KeySorted key (X ++ Y))
    (hX : ∀ x ∈ X, key x < key e) (hY : ∀ y ∈ Y, key e < key y) :
    KeySorted key (X ++ e :: Y) := by
  have h' := List.pairwise_append.mp h
  refine List.pairwise_append.mpr ⟨h'.1, List.pairwise_cons.mpr ⟨hY, h'.2.1⟩, ?_⟩
  intro x hx y hy
  rcases List.mem_cons.mp hy with rfl | hy
  · exact hX x hx
  · exact h'.2.2 x hx y hy

theorem size_t_of_int_nonneg (x : Int) (h : 0 ≤ x) : (size_t_of_int x : Int) = x := by
  unfold size_t_of_int
  rw [if_pos h]
  omega

end InsertOrdered

section InsertOrdered2
variable {E K : Type} [LinearOrder K]

theorem get_index_nil (key : E → K) (k : K) : get_index key ([] : List E) k = 0 := by
  simp [get_index, get_index_loop]

theorem shaped_shape {b : Int} {es : List E} {cs : List (Block E)} (h : Shaped b (.mk b es cs)) :
    cs = [] ∨ cs.length = es.length + 1 := by
  cases h with
  | mk _ _ hshape _ => exact hshape

theorem insert_restructure_ordered (key : E → K) (b : Int) (hb : 1 ≤ b) :
    ∀ path, PathShape b path → ∀ es cs, Shaped b (.mk b es cs) → 2 * b - 1 < (es.length : Int) →
      KeySorted key (path_left path ++ inorder (.mk b es cs) ++ path_right path) →
      ∃ root', insert_restructure key (.mk b es cs) path = some root' ∧ Shaped b root' ∧
        inorder root' = path_left path ++ inorder (.mk b es cs) ++ path_right path := by
  intro path hp
  induction hp with
  | nil =>
    intro es cs hsh hlen hs
    have hn : b.toNat < es.length := by omega
    have hup : es[b.toNat]? = some es[b.toNat] := List.getElem?_eq_getElem hn
    have hcs : cs = [] ∨ b.toNat + 1 ≤ cs.length := by
      rcases shaped_shape hsh with h | h
      · exact Or.inl h
      · exact Or.inr (by omega)
    have hsplit := insert_split_eq key b b es [] cs [] [] (.mk b es cs) es[b.toNat] (by omega) hup
      hcs (by simp [get_index_nil])
    simp only [get_index_nil, List.nil_append, List.insertIdx_zero, zero_add] at hsplit
    have hins : ([Block.mk b (List.take b.toNat es) (List.take (b.toNat + 1) cs)]).insertIdx 1
        (Block.mk b (List.drop (b.toNat + 1) es) (List.drop (b.toNat + 1) cs)) =
        [Block.mk b (List.take b.toNat es) (List.take (b.toNat + 1) cs),
          Block.mk b (List.drop (b.toNat + 1) es) (List.drop (b.toNat + 1) cs)] := rfl
    rw [hins] at hsplit
    have hov : ¬ (1 > size_t_of_int (2 * b - 1)) := by
      have := size_t_of_int_nonneg (2 * b - 1) (by omega)
      omega
    have hres : insert_restructure key (.mk b es cs) [] =
        some (.mk b [es[b.toNat]]
          [Block.mk b (List.take b.toNat es) (List.take (b.toNat + 1) cs),
            Block.mk b (List.drop (b.toNat + 1) es) (List.drop (b.toNat + 1) cs)]) := by
      simp only [List.length_nil] at hsplit
      simp only [insert_restructure, Block.get_b_count, Block.new, show ¬ b < 0 by omega,
        if_false, List.nil_append, hsplit]
      simp [Block.entries, Block.get_max_keys, Block.get_b_count, hov]
    refine ⟨_, hres, ?_, ?_⟩
    · refine Shaped.mk _ _ (Or.inr rfl) ?_
      intro x hx
      simp only [List.mem_cons, List.mem_singleton, List.not_mem_nil, or_false] at hx
      rcases hx with rfl | rfl
      · exact shaped_split_left b _ es cs hsh hn
      · exact shaped_split_right b _ es cs hsh hn
    · rw [split_inorder b b.toNat es cs _ hup (shaped_shape hsh)]
      simp [inorder_mk, interleave, path_left, path_right]
  | cons c cl cr kl kr rest h1 h2 h3 h4 h5 ih =>
    intro es cs hsh hlen hs
    have hn : b.toNat < es.length := by omega
    have hup : es[b.toNat]? = some es[b.toNat] := List.getElem?_eq_getElem hn
    have hcs : cs = [] ∨ b.toNat + 1 ≤ cs.length := by
      rcases shaped_shape hsh with h | h
      · exact Or.inl h
      · exact Or.inr (by omega)
    have hfl := frame_left_mk b kl kr cl cr c h1
    have hfr := frame_right_mk b kl kr cl cr c h1
    have hupmem : es[b.toNat] ∈ inorder (.mk b es cs) := by
      rw [inorder_mk]
      exact mem_interleave.mpr (Or.inl (List.getElem_mem _))
    simp only [path_left, path_right, hfl, hfr] at hs
    have hs' : KeySorted key (path_left rest ++
        (interleave (cl.map inorder) kl ++ inorder (.mk b es cs) ++
          interleave ([] :: cr.map inorder) kr) ++ path_right rest) := by
      simpa [List.append_assoc] using hs
    have hmid : KeySorted key (interleave (cl.map inorder) kl ++ inorder (.mk b es cs) ++
          interleave ([] :: cr.map inorder) kr) :=
      hs'.sublist ((List.sublist_append_right _ _).trans (List.sublist_append_left _ _))
    have hkl : ∀ a ∈ kl, key a ≤ key es[b.toNat] := by
      intro a ha
      have h := (List.pairwise_append.mp (List.pairwise_append.mp hmid).1).2.2 a
        (mem_interleave.mpr (Or.inl ha)) _ hupmem
      exact le_of_lt h
    have hkr : ∀ x ∈ kr, key es[b.toNat] < key x := by
      intro x hx
      exact (List.pairwise_append.mp hmid).2.2 _
        (List.mem_append.mpr (Or.inr hupmem)) x (mem_interleave.mpr (Or.inl hx))
    have hidx := get_index_append key kl kr _ hkl hkr
    have hsplit := insert_split_eq key b b es (kl ++ kr) cs cl cr c es[b.toNat] (by omega) hup
      hcs (by rw [hidx]; simp; omega)
    rw [hidx, insertIdx_at_length] at hsplit
    have hins : (cl ++ Block.mk b (List.take b.toNat es) (List.take (b.toNat + 1) cs) :: cr).insertIdx
        (kl.length + 1) (Block.mk b (List.drop (b.toNat + 1) es) (List.drop (b.toNat + 1) cs)) =
        cl ++ Block.mk b (List.take b.toNat es) (List.take (b.toNat + 1) cs) ::
          Block.mk b (List.drop (b.toNat + 1) es) (List.drop (b.toNat + 1) cs) :: cr := by
      have := insertIdx_at_length
        (cl ++ [Block.mk b (List.take b.toNat es) (List.take (b.toNat + 1) cs)]) cr
        (Block.mk b (List.drop (b.toNat + 1) es) (List.drop (b.toNat + 1) cs))
      simpa [h1] using this
    rw [hins] at hsplit
    have hsh' : Shaped b (.mk b (kl ++ es[b.toNat] :: kr)
        (cl ++ Block.mk b (List.take b.toNat es) (List.take (b.toNat + 1) cs) ::
          Block.mk b (List.drop (b.toNat + 1) es) (List.drop (b.toNat + 1) cs) :: cr)) := by
      refine Shaped.mk _ _ (Or.inr (by simp; omega)) ?_
      intro x hx
      simp only [List.mem_append, List.mem_cons] at hx
      rcases hx with hx | rfl | rfl | hx
      · exact h3 x hx
      · exact shaped_split_left b _ es cs hsh hn
      · exact shaped_split_right b _ es cs hsh hn
      · exact h4 x hx
    have hio : inorder (.mk b (kl ++ es[b.toNat] :: kr)
        (cl ++ Block.mk b (List.take b.toNat es) (List.take (b.toNat + 1) cs) ::
          Block.mk b (List.drop (b.toNat + 1) es) (List.drop (b.toNat + 1) cs) :: cr)) =
        interleave (cl.map inorder) kl ++ inorder (.mk b es cs) ++
          interleave ([] :: cr.map inorder) kr := by
      rw [inorder_hole _ _ _ _ _ _ h1, split_inorder b b.toNat es cs _ hup (shaped_shape hsh)]
      have := interleave_split [] (cr.map inorder)
        (inorder (Block.mk b (List.drop (b.toNat + 1) es) (List.drop (b.toNat + 1) cs))) [] kr rfl
      simp only [List.nil_append, interleave] at this
      simp [interleave, this]
    simp only [insert_restructure, hsplit, Block.entries, Block.get_max_keys, Block.get_b_count]
    split
    · rename_i hov
      obtain ⟨root', hr1, hr2, hr3⟩ := ih _ _ hsh' (by
        have := size_t_of_int_nonneg (2 * b - 1) (by omega)
        omega) (by rw [hio]; exact hs')
      refine ⟨root', hr1, hr2, ?_⟩
      rw [hr3, hio]
      simp [path_left, path_right, hfl, hfr, List.append_assoc]
    · refine ⟨_, rfl, plug_shaped b _ rest h5 hsh', ?_⟩
      rw [plug_inorder b _ rest h5, hio]
      simp [path_left, path_right, hfl, hfr, List.append_assoc]

end InsertOrdered2

section InsertOrdered3
variable {E K : Type} [LinearOrder K]

theorem abs_insert_split (key : E → K) (e : E) (X Y : List E) (hX : ∀ x ∈ X, key x < key e)
    (hY : ∀ y ∈ Y, key e < key y) : abs_insert key e (X ++ Y) = X ++ e :: Y := by
  have h1 : X.filter (fun x => decide (key x < key e)) = X :=
    List.filter_eq_self.mpr (fun x hx => by simpa using hX x hx)
  have h2 : Y.filter (fun x => decide (key x < key e)) = [] :=
    List.filter_eq_nil_iff.mpr (fun y hy => by simpa using le_of_lt (hY y hy))
  have h3 : X.filter (fun x => decide (key e < key x)) = [] :=
    List.filter_eq_nil_iff.mpr (fun x hx => by simpa using le_of_lt (hX x hx))
  have h4 : Y.filter (fun x => decide (key e < key x)) = Y :=
    List.filter_eq_self.mpr (fun y hy => by simpa using hY y hy)
  simp [abs_insert, List.filter_append, h1, h2, h3, h4]

theorem abs_insert_replace (key : E → K) (e old : E) (X Y : List E) (hold : key old = key e)
    (hX : ∀ x ∈ X, key x < key e) (hY : ∀ y ∈ Y, key e < key y) :
    abs_insert key e (X ++ old :: Y) = X ++ e :: Y := by
  have h1 : X.filter (fun x => decide (key x < key e)) = X :=
    List.filter_eq_self.mpr (fun x hx => by simpa using hX x hx)
  have h2 : Y.filter (fun x => decide (key x < key e)) = [] :=
    List.filter_eq_nil_iff.mpr (fun y hy => by simpa using le_of_lt (hY y hy))
  have h3 : X.filter (fun x => decide (key e < key x)) = [] :=
    List.filter_eq_nil_iff.mpr (fun x hx => by simpa using le_of_lt (hX x hx))
  have h4 : Y.filter (fun x => decide (key e < key x)) = Y :=
    List.filter_eq_self.mpr (fun y hy => by simpa using hY y hy)
  simp [abs_insert, List.filter_append, List.filter_cons, h1, h2, h3, h4, hold]

theorem abs_remove_split (key : E → K) (k : K) (X Y : List E) (hX : ∀ x ∈ X, key x < k)
    (hY : ∀ y ∈ Y, k < key y) : abs_remove key k (X ++ Y) = X ++ Y := by
  refine List.filter_eq_self.mpr ?_
  intro x hx
  rcases List.mem_append.mp hx with hx | hx
  · simpa using ne_of_lt (hX x hx)
  · simpa using (ne_of_lt (hY x hx)).symm

theorem abs_remove_drop (key : E → K) (k : K) (old : E) (X Y : List E) (hold : key old = k)
    (hX : ∀ x ∈ X, key x < k) (hY : ∀ y ∈ Y, k < key y) :
    abs_remove key k (X ++ old :: Y) = X ++ Y := by
  have h1 : X.filter (fun x => decide (key x ≠ k)) = X :=
    List.filter_eq_self.mpr (fun x hx => by simpa using ne_of_lt (hX x hx))
  have h2 : Y.filter (fun x => decide (key x ≠ k)) = Y :=
    List.filter_eq_self.mpr (fun y hy => by simpa using (ne_of_lt (hY y hy)).symm)
  unfold abs_remove
  rw [List.filter_append, List.filter_cons_of_neg (by simpa using hold), h1, h2]

theorem sorted_around (key : E → K) (X Y : List E) (e : E) (h : KeySorted key (X ++ e :: Y)) :
    (∀ x ∈ X, key x < key e) ∧ (∀ y ∈ Y, key e < key y) := by
  have h' := List.pairwise_append.mp h
  exact ⟨fun x hx => h'.2.2 x hx e (by simp), fun y hy => (List.pairwise_cons.mp h'.2.1).1 y hy⟩

theorem sorted_replace (key : E → K) (X Y : List E) (e e' : E) (h : KeySorted key (X ++ e :: Y))
    (he : key e' = key e) : KeySorted key (X ++ e' :: Y) := by
  have h' := List.pairwise_append.mp h
  have h'' := List.pairwise_cons.mp h'.2.1
  refine List.pairwise_append.mpr ⟨h'.1, List.pairwise_cons.mpr ⟨?_, h''.2⟩, ?_⟩
  · intro y hy
    rw [he]
    exact h''.1 y hy
  · intro x hx y hy
    rcases List.mem_cons.mp hy with rfl | hy
    · rw [he]
      exact h'.2.2 x hx e (by simp)
    · exact h'.2.2 x hx y (by simp [hy])

theorem interleave_replace (C : List (List E)) (A B : List E) :
    ∃ P Q, ∀ e, interleave C (A ++ e :: B) = P ++ e :: Q := by
  induction C generalizing A with
  | nil => exact ⟨A, B, fun e => by simp [interleave_nil]⟩
  | cons c C ih =>
    cases A with
    | nil => exact ⟨c, interleave C B, fun e => by simp [interleave]⟩
    | cons a A =>
      obtain ⟨P, Q, h⟩ := ih A
      exact ⟨c ++ a :: P, Q, fun e => by simp [interleave, h]⟩

theorem insert_helper_ordered (key : E → K) (b : Int) (hb : 1 ≤ b) (e : E) (path : Path E)
    (hp : PathShape b path) (A B : List E) (hA : ∀ a ∈ A, key a < key e)
    (hB : ∀ x ∈ B, key e < key x)
    (hs : KeySorted key (path_left path ++ (A ++ B) ++ path_right path))
    (hl : ∀ x ∈ path_left path, key x < key e) (hr : ∀ x ∈ path_right path, key e < key x) :
    ∃ root', insert_helper key (.mk b (A ++ B) []) e path = some root' ∧ Shaped b root' ∧
      inorder root' = path_left path ++ (A ++ e :: B) ++ path_right path ∧
      KeySorted key (inorder root') := by
  have hidx := get_index_absent key (key e) A B hA hB
  have hsorted : KeySorted key (path_left path ++ (A ++ e :: B) ++ path_right path) := by
    have := sorted_insert_mid key (path_left path ++ A) (B ++ path_right path) e
      (by simpa [List.append_assoc] using hs)
      (by
        intro x hx
        rcases List.mem_append.mp hx with hx | hx
        · exact hl x hx
        · exact hA x hx)
      (by
        intro x hx
        rcases List.mem_append.mp hx with hx | hx
        · exact hB x hx
        · exact hr x hx)
    simpa [List.append_assoc] using this
  have hsh : Shaped b (.mk b (A ++ e :: B) []) := Shaped.mk _ _ (Or.inl rfl) (by simp)
  have hio : inorder (.mk b (A ++ e :: B) ([] : List (Block E))) = A ++ e :: B := by
    simp [inorder_mk, interleave_nil]
  rw [insert_helper]
  simp only [List.isEmpty_nil, Bool.not_true, Bool.false_eq_true, if_false, hidx,
    insertIdx_at_length]
  split
  · rename_i hov
    obtain ⟨root', h1, h2, h3⟩ := insert_restructure_ordered key b hb path hp _ _ hsh (by
      have := size_t_of_int_nonneg (2 * b - 1) (by omega)
      simp only [Block.get_max_keys, Block.get_b_count] at hov
      omega) (by rw [hio]; exact hsorted)
    rw [hio] at h3
    exact ⟨root', h1, h2, h3, by rw [h3]; exact hsorted⟩
  · refine ⟨_, rfl, plug_shaped b _ path hp hsh, ?_, ?_⟩
    · rw [plug_inorder b _ path hp, hio]
    · rw [plug_inorder b _ path hp, hio]
      exact hsorted

/-- What the common part of the two `insert` methods does on a shaped tree with increasing
keys: the search stops at a block; if the key is absent, `insert_helper` stores the entry at its
place, and if it is present, overwriting that slot by any entry with the same key replaces
exactly that entry. -/
theorem insert_core (key : E → K) (b : Int) (hb : 1 ≤ b) (t : Block E) (hsh : Shaped b t)
    (hs : KeySorted key (inorder t)) (k : K) :
    ∃ fes fcs path, search_helper key t k [] = some (.mk b fes fcs, path) ∧
      plug (.mk b fes fcs) path = t ∧
      ((key_at_index key fes (get_index key fes k) k = false ∧
          ∀ e, key e = k → ∃ root', insert_helper key (.mk b fes fcs) e path = some root' ∧
            Shaped b root' ∧ inorder root' = abs_insert key e (inorder t) ∧
            KeySorted key (inorder root')) ∨
        (key_at_index key fes (get_index key fes k) k = true ∧
          ∃ old, fes[get_index key fes k - 1]? = some old ∧ key old = k ∧ old ∈ inorder t ∧
            ∀ e, key e = k →
              Shaped b (plug (.mk b (fes.set (get_index key fes k - 1) e) fcs) path) ∧
              inorder (plug (.mk b (fes.set (get_index key fes k - 1) e) fcs) path) =
                abs_insert key e (inorder t) ∧
              KeySorted key (inorder (plug (.mk b (fes.set (get_index key fes k - 1) e) fcs)
                path)))) := by
  obtain ⟨fes, fcs, path, h1, h2, h3, h4, h5, h6, h7, h8⟩ :=
    search_shape key b k t hsh [] PathShape.nil (by simpa [path_left, path_right] using hs)
      (by simp [path_left]) (by simp [path_right])
  simp only [path_left, path_right, List.nil_append, List.append_nil, plug] at h4 h5
  refine ⟨fes, fcs, path, h1, h5, ?_⟩
  rcases h8 with ⟨A, old, B, rfl, hold, hA, hB⟩ | ⟨rfl, A, B, rfl, hA, hB⟩
  · right
    have hidx := get_index_present key k A B old hold hA hB
    refine ⟨by rw [hidx]; exact key_at_index_present key k A B old hold, old, ?_, hold, ?_, ?_⟩
    · rw [hidx]; simp only [Nat.add_sub_cancel, getElem?_at_length]
    · rw [← h4]
      simp only [List.mem_append, inorder_mk, mem_interleave]
      exact Or.inl (Or.inr (Or.inl (by simp)))
    · intro e he
      rw [hidx]
      simp only [Nat.add_sub_cancel, set_at_length]
      have hsh' : Shaped b (.mk b (A ++ e :: B) fcs) := by
        cases h2 with
        | mk _ _ hshape hch => exact Shaped.mk _ _ (by simpa using hshape) hch
      obtain ⟨P, Q, hPQ⟩ := interleave_replace (fcs.map inorder) A B
      have hold' : inorder t = (path_left path ++ P) ++ old :: (Q ++ path_right path) := by
        rw [← h4, inorder_mk, hPQ old]
        simp [List.append_assoc]
      have hnew : inorder (plug (.mk b (A ++ e :: B) fcs) path) =
          (path_left path ++ P) ++ e :: (Q ++ path_right path) := by
        rw [plug_inorder b _ path h3, inorder_mk, hPQ e]
        simp [List.append_assoc]
      rw [hold'] at hs
      have har := sorted_around key _ _ old hs
      rw [hold, ← he] at har
      refine ⟨plug_shaped b _ path h3 hsh', ?_, ?_⟩
      · rw [hnew, hold']
        exact (abs_insert_replace key e old _ _ (by rw [hold, he]) har.1 har.2).symm
      · rw [hnew]
        exact sorted_replace key _ _ old e hs (by rw [he, hold])
  · left
    have hidx := get_index_absent key k A B hA hB
    refine ⟨by rw [hidx]; exact key_at_index_absent key k A B hA, ?_⟩
    intro e he
    subst he
    have hio : inorder (.mk b (A ++ B) ([] : List (Block E))) = A ++ B := by
      simp [inorder_mk, interleave_nil]
    rw [hio] at h4
    obtain ⟨root', hr1, hr2, hr3, hr4⟩ := insert_helper_ordered key b hb e path h3 A B hA hB
      (by rw [h4]; exact hs) h6 h7
    refine ⟨root', hr1, hr2, ?_, hr4⟩
    rw [hr3, ← h4]
    have := abs_insert_split key e (path_left path ++ A) (B ++ path_right path)
      (by
        intro x hx
        rcases List.mem_append.mp hx with hx | hx
        · exact h6 x hx
        · exact hA x hx)
      (by
        intro x hx
        rcases List.mem_append.mp hx with hx | hx
        · exact hB x hx
        · exact h7 x hx)
    simpa [List.append_assoc] using this.symm

end InsertOrdered3

section InsertApi
variable {K V : Type} [LinearOrder K]

theorem set_self_of_getElem? {α : Type} (l : List α) (i : Nat) (x : α) (h : l[i]? = some x) :
    l.set i x = l := by
  induction l generalizing i with
  | nil => simp
  | cons a l ih =>
    cases i with
    | zero => simp at h; simp [h]
    | succ i => simp at h; simp [ih i h]

theorem set_insert_ordered (b : Int) (hb : 1 ≤ b) (t : B_Tree Int) (hsh : Shaped b t.root)
    (hs : KeySorted id (inorder t.root)) (k : Int) :
    ∃ t', SetTree.insert t k = some t' ∧ Shaped b t'.root ∧
      inorder t'.root = abs_insert id k (inorder t.root) ∧ KeySorted id (inorder t'.root) := by
  obtain ⟨fes, fcs, path, h1, h2, h3⟩ := insert_core id b hb t.root hsh hs k
  rcases h3 with ⟨hk, h3⟩ | ⟨hk, old, ho1, ho2, _, h3⟩
  · obtain ⟨root', hr1, hr2, hr3, hr4⟩ := h3 k rfl
    refine ⟨⟨root'⟩, ?_, hr2, hr3, hr4⟩
    simp [SetTree.insert, h1, Block.entries, hk, hr1]
  · obtain ⟨hr2, hr3, hr4⟩ := h3 old ho2
    rw [set_self_of_getElem? _ _ _ ho1, h2] at hr2 hr3 hr4
    have : old = k := ho2
    subst this
    refine ⟨t, ?_, hr2, hr3, hr4⟩
    simp [SetTree.insert, h1, Block.entries, hk]

theorem map_insert_ordered (b : Int) (hb : 1 ≤ b) (t : B_Tree (K × V))
    (hsh : Shaped b t.root) (hs : KeySorted Prod.fst (inorder t.root)) (k : K) (v : V) :
    ∃ t', MapTree.insert t k v = some t' ∧ Shaped b t'.root ∧
      inorder t'.root = abs_insert Prod.fst (k, v) (inorder t.root) ∧
      KeySorted Prod.fst (inorder t'.root) := by
  obtain ⟨fes, fcs, path, h1, h2, h3⟩ := insert_core Prod.fst b hb t.root hsh hs k
  rcases h3 with ⟨hk, h3⟩ | ⟨hk, old, ho1, ho2, _, h3⟩
  · obtain ⟨root', hr1, hr2, hr3, hr4⟩ := h3 (k, v) rfl
    refine ⟨⟨root'⟩, ?_, hr2, hr3, hr4⟩
    simp [MapTree.insert, h1, hk, hr1]
  · obtain ⟨hr2, hr3, hr4⟩ := h3 (k, v) rfl
    refine ⟨⟨_⟩, ?_, hr2, hr3, hr4⟩
    simp [MapTree.insert, h1, hk, ho1, ho2]

end InsertApi

section OrderedEquiv
variable {E K : Type} [LinearOrder K]

theorem ordered_children_iff (key : E → K) (cs : List (Block E)) :
    Ordered_children key cs ↔ ∀ c ∈ cs, Ordered key c := by
  induction cs with
  | nil => simp [Ordered_children]
  | cons c cs ih => simp [Ordered_children, ih]

theorem degree_children_iff (b : Int) (cs : List (Block E)) :
    Degree_children b cs ↔ ∀ c ∈ cs, Degree b c := by
  induction cs with
  | nil => simp [Degree_children]
  | cons c cs ih => simp [Degree_children, ih]

theorem interleave_sorted (key : E → K) (cs : List (List E)) :
    ∀ es : List E, (cs = [] ∨ cs.length = es.length + 1) → KeySorted key es →
      (∀ c ∈ cs, KeySorted key c) →
      (∀ i c x, cs[i]? = some c → x ∈ c →
        (∀ e, 0 < i → es[i - 1]? = some e → key e < key x) ∧
        (∀ e, es[i]? = some e → key x < key e)) →
      KeySorted key (interleave cs es) := by
  induction cs with
  | nil => intro es _ hes _ _; simpa [interleave_nil] using hes
  | cons c cs ih =>
    intro es hshape hes hc hbr
    have hshape' : (c :: cs).length = es.length + 1 := by
      rcases hshape with h | h
      · simp at h
      · exact h
    cases es with
    | nil =>
      have : cs = [] := by
        cases cs with
        | nil => rfl
        | cons _ _ => simp at hshape'
      subst this
      simpa [interleave] using hc c (by simp)
    | cons e es =>
      have hes' := List.pairwise_cons.mp hes
      have hlen : cs.length = es.length + 1 := by simpa using hshape'
      have hrest : KeySorted key (interleave cs es) := by
        refine ih es (Or.inr hlen) hes'.2 (fun c' hc' => hc c' (by simp [hc'])) ?_
        intro i c' x hi hx
        have h := hbr (i + 1) c' x (by simpa using hi) hx
        refine ⟨fun e' hpos he' => h.1 e' (by omega) ?_, fun e' he' => h.2 e' (by simpa using he')⟩
        obtain ⟨j, rfl⟩ : ∃ j, i = j + 1 := ⟨i - 1, by omega⟩
        simpa using he'
      have he_lt : ∀ x ∈ interleave cs es, key e < key x := by
        intro x hx
        rcases mem_interleave.mp hx with hx | ⟨c', hc', hx⟩
        · exact hes'.1 x hx
        · obtain ⟨j, hj, hjc⟩ := List.getElem_of_mem hc'
          have hj' : cs[j]? = some c' := by
            rw [List.getElem?_eq_getElem hj, hjc]
          have h := (hbr (j + 1) c' x (by simpa using hj') hx).1
          have hjlt : j < (e :: es).length := by simp; omega
          have h2 := h (e :: es)[j] (by omega) (by simp [List.getElem?_eq_getElem hjlt])
          cases j with
          | zero => simpa using h2
          | succ j =>
            have : key e < key es[j] := hes'.1 _ (List.getElem_mem _)
            exact lt_trans this (by simpa using h2)
      have hc_lt : ∀ x ∈ c, key x < key e := by
        intro x hx
        exact (hbr 0 c x (by simp) hx).2 e (by simp)
      simp only [interleave]
      refine List.pairwise_append.mpr ⟨hc c (by simp), List.pairwise_cons.mpr ⟨he_lt, hrest⟩, ?_⟩
      intro x hx y hy
      rcases List.mem_cons.mp hy with rfl | hy
      · exact hc_lt x hx
      · exact lt_trans (hc_lt x hx) (he_lt y hy)

theorem ordered_sorted (key : E → K) (b : Int) (t : Block E) :
    Degree b t → Ordered key t → Shaped b t ∧ KeySorted key (inorder t) := by
  induction t using Block.induct with
  | step bc es cs ih =>
    intro hd ho
    rw [Degree, degree_children_iff] at hd
    rw [Ordered, ordered_children_iff] at ho
    obtain ⟨rfl, hd⟩ := hd
    obtain ⟨hes, hshape, hbr, hch⟩ := ho
    refine ⟨Shaped.mk _ _ hshape (fun c hc => (ih c hc (hd c hc) (hch c hc)).1), ?_⟩
    rw [inorder_mk]
    refine interleave_sorted key _ es (by simpa using hshape) hes ?_ ?_
    · intro c hc
      obtain ⟨c', hc', rfl⟩ := List.mem_map.mp hc
      exact (ih c' hc' (hd c' hc') (hch c' hc')).2
    · intro i c x hi hx
      rw [List.getElem?_map] at hi
      cases hci : cs[i]? with
      | none => simp [hci] at hi
      | some c' =>
        simp only [hci, Option.map_some', Option.some.injEq] at hi
        subst hi
        exact hbr i c' x hci hx

theorem sorted_ordered (key : E → K) (b : Int) (t : Block E) (hsh : Shaped b t) :
    KeySorted key (inorder t) → Ordered key t ∧ Degree b t := by
  induction hsh with
  | mk es cs hshape hch ih =>
    intro hs
    rw [inorder_mk] at hs
    have hchild : ∀ c ∈ cs, KeySorted key (inorder c) := fun c hc =>
      hs.sublist (child_sublist_interleave _ _ _ (List.mem_map_of_mem _ hc))
    rw [Ordered, ordered_children_iff, Degree, degree_children_iff]
    refine ⟨⟨hs.sublist (entries_sublist_interleave _ _), hshape, ?_,
      fun c hc => (ih c hc (hchild c hc)).1⟩, rfl, fun c hc => (ih c hc (hchild c hc)).2⟩
    intro i c x hi hx
    have hilt : i < cs.length := (List.getElem?_eq_some.mp hi).1
    have hlen : cs.length = es.length + 1 := by
      rcases hshape with h | h
      · subst h; simp at hilt
      · exact h
    obtain ⟨cl, c', cr, rfl, hcl⟩ := exists_split_at cs i hilt
    have hc' : c' = c := by
      rw [← hcl, getElem?_at_length] at hi
      exact Option.some.inj hi
    subst hc'
    have hes : es = es.take i ++ es.drop i := (List.take_append_drop i es).symm
    have htl : (es.take i).length = cl.length := by simp; omega
    rw [hes, List.map_append, List.map_cons,
      interleave_split _ _ _ _ _ (by simpa using htl)] at hs
    have hs' := List.pairwise_append.mp hs
    have hs'' := List.pairwise_append.mp hs'.1
    constructor
    · intro e hpos he
      have hmem : e ∈ es.take i := by
        have : (es.take i)[i - 1]? = some e := by
          rw [List.getElem?_take_of_lt (by omega)]; exact he
        exact List.getElem?_mem this
      exact hs''.2.2 e (mem_interleave.mpr (Or.inl hmem)) x hx
    · intro e he
      have hmem : e ∈ es.drop i := by
        have : (es.drop i)[0]? = some e := by
          rw [List.getElem?_drop]; simpa using he
        exact List.getElem?_mem this
      exact hs'.2.2 x (List.mem_append.mpr (Or.inr hx)) e (mem_interleave.mpr (Or.inl hmem))

theorem sorted_nodup (key : E → K) (l : List E) (h : KeySorted key l) : (l.map key).Nodup := by
  unfold List.Nodup
  rw [List.pairwise_map]
  exact h.imp (fun hab => ne_of_lt hab)

end OrderedEquiv

section Structure
variable {E K : Type} [LinearOrder K]

theorem sub_iff_node (b : Int) (h : Nat) (t : Block E) :
    Sub b h t ↔ Node b (b - 1) (2 * b - 1) h t := by
  cases h <;> simp [Sub, Node]

theorem node_mono {b lo hi lo' hi' : Int} {h : Nat} {t : Block E} (hn : Node b lo hi h t)
    (h1 : lo' ≤ lo) (h2 : hi ≤ hi') : Node b lo' hi' h t := by
  obtain ⟨ha, hb, hc, hd⟩ := hn
  exact ⟨ha, le_trans h1 hb, le_trans hc h2, hd⟩

theorem node_mk_zero (b lo hi bc : Int) (es : List E) (cs : List (Block E)) :
    Node b lo hi 0 (.mk bc es cs) ↔
      bc = b ∧ lo ≤ (es.length : Int) ∧ (es.length : Int) ≤ hi ∧ cs = [] := by
  simp [Node, Block.get_b_count, Block.entries, Block.children]

theorem node_mk_succ (b lo hi bc : Int) (h : Nat) (es : List E) (cs : List (Block E)) :
    Node b lo hi (h + 1) (.mk bc es cs) ↔
      bc = b ∧ lo ≤ (es.length : Int) ∧ (es.length : Int) ≤ hi ∧
        cs.length = es.length + 1 ∧ ∀ c ∈ cs, Sub b h c := by
  simp [Node, Block.get_b_count, Block.entries, Block.children]

theorem node_children {b lo hi bc : Int} {h : Nat} {es : List E} {cs : List (Block E)}
    (hn : Node b lo hi h (.mk bc es cs)) :
    (cs = [] ∧ h = 0) ∨ (cs.length = es.length + 1 ∧ ∃ h', h = h' + 1 ∧ ∀ c ∈ cs, Sub b h' c) := by
  cases h with
  | zero => exact Or.inl ⟨((node_mk_zero ..).mp hn).2.2.2, rfl⟩
  | succ h =>
    have := (node_mk_succ ..).mp hn
    exact Or.inr ⟨this.2.2.2.1, h, rfl, this.2.2.2.2⟩

theorem plug_struct (b rmin : Int) (path : Path E) (h : Nat) (hp : PathStruct b rmin h path) :
    ∀ t, Focus b rmin h t path → RootOK b rmin (plug t path) := by
  induction hp with
  | nil h => intro t ht; exact ⟨h, ht⟩
  | cons h c cl cr kl kr rest h1 h2 h3 h4 h5 h6 h7 _ ih =>
    intro t ht
    rw [plug_cons]
    apply ih
    have hsub : Sub b h t := (sub_iff_node b h t).mpr ⟨ht.1.1, ht.2.1 (by simp), ht.1.2.2⟩
    refine ⟨(node_mk_succ ..).mpr ⟨rfl, by simp; omega, by simpa using h5, by simp; omega, ?_⟩, ?_, ?_⟩
    · intro x hx
      simp only [List.mem_append, List.mem_cons] at hx
      rcases hx with hx | rfl | hx
      · exact h3 x hx
      · exact hsub
      · exact h4 x hx
    · intro hne
      simpa [Block.entries] using h6 hne
    · intro hnil _
      simpa [Block.entries] using h7 hnil

theorem search_struct (key : E → K) (b rmin : Int) (k : K) :
    ∀ (h : Nat) (t : Block E) (path : Path E), Focus b rmin h t path → PathStruct b rmin h path →
      ∃ fes fcs path' h', search_helper key t k path = some (.mk b fes fcs, path') ∧
        Focus b rmin h' (.mk b fes fcs) path' ∧ PathStruct b rmin h' path' ∧
        (key_at_index key fes (get_index key fes k) k = true ∨ fcs = []) := by
  intro h
  induction h with
  | zero =>
    intro t path ht hp
    obtain ⟨bc, es, cs⟩ := t
    have hn := (node_mk_zero ..).mp ht.1
    obtain ⟨rfl, -, -, rfl⟩ := hn
    by_cases hk : key_at_index key es (get_index key es k) k = true
    · exact ⟨es, [], path, 0, by simp [search_helper, hk], ht, hp, Or.inl hk⟩
    · exact ⟨es, [], path, 0, by simp [search_helper, hk], ht, hp, Or.inr rfl⟩
  | succ h ih =>
    intro t path ht hp
    obtain ⟨bc, es, cs⟩ := t
    have hn := (node_mk_succ ..).mp ht.1
    obtain ⟨rfl, -, hhi, hlen, hch⟩ := hn
    by_cases hk : key_at_index key es (get_index key es k) k = true
    · exact ⟨es, cs, path, h + 1, by simp [search_helper, hk], ht, hp, Or.inl hk⟩
    · have hile := get_index_le key es k
      obtain ⟨cl, c, cr, rfl, hcl⟩ := exists_split_at cs (get_index key es k) (by omega)
      have hes : es = es.take cl.length ++ es.drop cl.length := (List.take_append_drop _ es).symm
      have hkl : (es.take cl.length).length = cl.length := by simp; omega
      have hkr : (es.drop cl.length).length = cr.length := by
        simp at hlen ⊢; omega
      have hstep : search_helper key (.mk bc es (cl ++ c :: cr)) k path =
          search_helper key c k (⟨.mk bc es (cl ++ c :: cr), cl.length⟩ :: path) := by
        rw [← hcl] at hk
        rw [search_helper]
        simp only [hk, ← hcl, search_helper_child_eq, getElem?_at_length]
        simp
      have hp' : PathStruct bc rmin h (⟨.mk bc es (cl ++ c :: cr), cl.length⟩ :: path) := by
        have := @PathStruct.cons E bc rmin h c cl cr (es.take cl.length)
          (es.drop cl.length) path hkl hkr
          (fun x hx => hch x (by simp [hx])) (fun x hx => hch x (by simp [hx]))
          (by rw [← List.length_append, ← hes]; exact hhi)
          (by
            intro hne
            rw [← List.length_append, ← hes]
            exact ht.2.1 hne)
          (by
            intro hnil
            rw [← List.length_append, ← hes]
            exact ht.2.2 hnil (by simp [Block.children])) hp
        rwa [← hes] at this
      have hc : Sub bc h c := hch c (by simp)
      have hcn := (sub_iff_node bc h c).mp hc
      obtain ⟨fes, fcs, path', h', hr1, hr2, hr3, hr4⟩ :=
        ih c _ ⟨node_mono hcn (by omega) (le_refl _), fun _ => hcn.2.1, fun hnil => by simp at hnil⟩ hp'
      exact ⟨fes, fcs, path', h', by rw [hstep, hr1], hr2, hr3, hr4⟩

end Structure

section HeightBasics
variable {E : Type}

theorem height_mk_nil (b : Int) (es : List E) : height (.mk b es []) = 0 := by
  simp [height, height_children]

theorem height_mk_cons (b : Int) (es : List E) (c : Block E) (cs : List (Block E)) :
    height (.mk b es (c :: cs)) = height c + 1 := by
  simp [height, height_children]

theorem node_height (b : Int) : ∀ (h : Nat) (lo hi : Int) (t : Block E),
    Node b lo hi h t → height t = h := by
  intro h
  induction h with
  | zero =>
    intro lo hi t hn
    obtain ⟨bc, es, cs⟩ := t
    obtain ⟨-, -, -, rfl⟩ := (node_mk_zero ..).mp hn
    exact height_mk_nil _ _
  | succ h ih =>
    intro lo hi t hn
    obtain ⟨bc, es, cs⟩ := t
    obtain ⟨-, -, -, hlen, hch⟩ := (node_mk_succ ..).mp hn
    cases cs with
    | nil => simp at hlen
    | cons c cs =>
      rw [height_mk_cons, ih _ _ c ((sub_iff_node ..).mp (hch c (by simp)))]

theorem height_set_congr (b b' : Int) (es es' : List E) (cs : List (Block E)) (i : Nat)
    (t1 t2 : Block E) (h : height t1 = height t2) :
    height (.mk b es (cs.set i t1)) = height (.mk b' es' (cs.set i t2)) := by
  cases cs with
  | nil => simp [height, height_children]
  | cons c cs =>
    cases i with
    | zero => simp [height, height_children, h]
    | succ i => simp [height, height_children]

theorem plug_height_congr : ∀ (path : Path E) (t1 t2 : Block E), height t1 = height t2 →
    height (plug t1 path) = height (plug t2 path) := by
  intro path
  induction path with
  | nil => intro t1 t2 h; simpa [plug] using h
  | cons f rest ih =>
    intro t1 t2 h
    obtain ⟨⟨b, es, cs⟩, i⟩ := f
    simp only [plug]
    exact ih _ _ (height_set_congr b b es es cs i t1 t2 h)

theorem height_entries_irrel (b b' : Int) (es es' : List E) (cs : List (Block E)) :
    height (.mk b es cs) = height (.mk b' es' cs) := by
  simp [height]

theorem plug_height (b rmin : Int) (path : Path E) (h : Nat) (hp : PathStruct b rmin h path) :
    ∀ t, Focus b rmin h t path → height (plug t path) = h + path.length := by
  induction hp with
  | nil h => intro t ht; simpa [plug] using node_height b h _ _ t ht.1
  | cons h c cl cr kl kr rest h1 h2 h3 h4 h5 h6 h7 _ ih =>
    intro t ht
    rw [plug_cons, ih]
    · simp only [List.length_cons]; omega
    have hsub : Sub b h t := (sub_iff_node b h t).mpr ⟨ht.1.1, ht.2.1 (by simp), ht.1.2.2⟩
    refine ⟨(node_mk_succ ..).mpr ⟨rfl, by simp; omega, by simpa using h5, by simp; omega, ?_⟩, ?_, ?_⟩
    · intro x hx
      simp only [List.mem_append, List.mem_cons] at hx
      rcases hx with hx | rfl | hx
      · exact h3 x hx
      · exact hsub
      · exact h4 x hx
    · intro hne
      simpa [Block.entries] using h6 hne
    · intro hnil _
      simpa [Block.entries] using h7 hnil

theorem root_entries_irrel (t1 t2 : Block E) (path : Path E) (h : path ≠ []) :
    root_entries t1 path = root_entries t2 path := by
  cases path with
  | nil => exact absurd rfl h
  | cons f rest => rfl

theorem root_entries_append (t : Block E) (p : Path E) (f : Frame E) (q : Path E) :
    root_entries t (p ++ f :: q) = root_entries f.parent q := by
  induction p generalizing t with
  | nil => rfl
  | cons g p ih => simp only [List.cons_append, root_entries]; exact ih _

theorem root_entries_of_head (t : Block E) : ∀ (path : Path E) (found : Block E),
    (path_blocks found path).head? = some t → root_entries found path = t.entries := by
  intro path
  induction path with
  | nil =>
    intro found h
    simp only [path_blocks, List.reverse_nil, List.map_nil, List.nil_append, List.head?_cons,
      Option.some.injEq] at h
    subst h
    rfl
  | cons f rest ih =>
    intro found h
    simp only [root_entries]
    apply ih
    have : path_blocks found (f :: rest) = path_blocks f.parent rest ++ [found] := by
      simp [path_blocks]
    rw [this] at h
    have hne : path_blocks f.parent rest ≠ [] := by simp [path_blocks]
    cases hpb : path_blocks f.parent rest with
    | nil => exact absurd hpb hne
    | cons a l =>
      rw [hpb] at h
      simpa using h

theorem plug_full (b rmin : Int) (path : Path E) (h : Nat) (hp : PathStruct b rmin h path)
    (t : Block E) (hf : Focus b rmin h t path) (n : Nat) (hn : n = h + path.length) (P : Prop) :
    RootOK b rmin (plug t path) ∧ (height (plug t path) = n ∨ P) :=
  ⟨plug_struct b rmin path h hp t hf, Or.inl (by rw [plug_height b rmin path h hp t hf, hn])⟩

theorem repairHeight_plug (b : Int) (rest : Path E) (h : Nat)
    (hp : PathStruct b 1 (h + 1) rest) (t : Block E) (hf : Focus b 1 (h + 1) t rest)
    (f : Frame E) (blk : Block E) :
    RepairHeight h (f :: rest) blk [(blk, f :: rest)] (plug t rest) :=
  Or.inl ⟨by
      intro call hc hnil
      rw [List.mem_singleton.mp hc] at hnil
      simp at hnil,
    by rw [plug_height b 1 rest (h + 1) hp t hf]; simp only [List.length_cons]; omega⟩

theorem repairHeight_none (b : Int) (rest : Path E) (h : Nat)
    (hp : PathStruct b 1 h rest) (t : Block E) (hf : Focus b 1 h t rest) :
    RepairHeight h rest t [] (plug t rest) :=
  Or.inl ⟨by intro call hc; simp at hc, plug_height b 1 rest h hp t hf⟩

theorem repairHeight_lift (h : Nat) (rest : Path E) (f : Frame E) (blk parent' root' : Block E)
    (calls : List (Block E × Path E))
    (hlen : f.parent.entries.length = parent'.entries.length + 1)
    (g : RepairHeight (h + 1) rest parent' calls root') :
    RepairHeight h (f :: rest) blk ((blk, f :: rest) :: calls) root' := by
  rcases g with ⟨gc, g⟩ | ⟨rb, c, gm, gr, g, info⟩
  · refine Or.inl ⟨?_, by rw [g]; simp only [List.length_cons]; omega⟩
    intro call hc hnil
    rcases List.mem_cons.mp hc with rfl | hc
    · simp at hnil
    · exact gc call hc hnil
  · refine Or.inr ⟨rb, c, List.mem_cons_of_mem _ gm, gr,
      by rw [g]; simp only [List.length_cons]; omega, Or.inr ⟨by simp, ?_⟩⟩
    simp only [root_entries]
    rcases info with ⟨rfl, hnil⟩ | ⟨hne, hone⟩
    · simp only [root_entries]
      rw [hlen, hnil]
      rfl
    · rw [root_entries_irrel _ parent' rest hne]
      exact hone

end HeightBasics

section InsertStruct
variable {E K : Type} [LinearOrder K]

theorem sub_split_left (b : Int) (hb : 1 ≤ b) (h : Nat) (es : List E) (cs : List (Block E))
    (hn : Node b (2 * b) (2 * b) h (.mk b es cs)) :
    Sub b h (.mk b (es.take b.toNat) (cs.take (b.toNat + 1))) := by
  rw [sub_iff_node]
  cases h with
  | zero =>
    obtain ⟨-, h1, h2, rfl⟩ := (node_mk_zero ..).mp hn
    exact (node_mk_zero ..).mpr ⟨rfl, by simp; omega, by simp; omega, by simp⟩
  | succ h =>
    obtain ⟨-, h1, h2, h3, h4⟩ := (node_mk_succ ..).mp hn
    exact (node_mk_succ ..).mpr ⟨rfl, by simp; omega, by simp; omega, by simp; omega,
      fun c hc => h4 c (List.mem_of_mem_take hc)⟩

theorem sub_split_right (b : Int) (hb : 1 ≤ b) (h : Nat) (es : List E) (cs : List (Block E))
    (hn : Node b (2 * b) (2 * b) h (.mk b es cs)) :
    Sub b h (.mk b (es.drop (b.toNat + 1)) (cs.drop (b.toNat + 1))) := by
  rw [sub_iff_node]
  cases h with
  | zero =>
    obtain ⟨-, h1, h2, rfl⟩ := (node_mk_zero ..).mp hn
    exact (node_mk_zero ..).mpr ⟨rfl, by simp; omega, by simp; omega, by simp⟩
  | succ h =>
    obtain ⟨-, h1, h2, h3, h4⟩ := (node_mk_succ ..).mp hn
    exact (node_mk_succ ..).mpr ⟨rfl, by simp; omega, by simp; omega, by simp; omega,
      fun c hc => h4 c (List.mem_of_mem_drop hc)⟩

theorem insert_restructure_nil (key : E → K) (b : Int) (hb : 1 ≤ b) (es : List E)
    (cs : List (Block E)) (hn : b.toNat < es.length) (hcs : cs = [] ∨ b.toNat + 1 ≤ cs.length) :
    insert_restructure key (.mk b es cs) [] =
      some (.mk b [es[b.toNat]]
        [Block.mk b (List.take b.toNat es) (List.take (b.toNat + 1) cs),
          Block.mk b (List.drop (b.toNat + 1) es) (List.drop (b.toNat + 1) cs)]) := by
  have hup : es[b.toNat]? = some es[b.toNat] := List.getElem?_eq_getElem hn
  have hsplit := insert_split_eq key b b es [] cs [] [] (.mk b es cs) es[b.toNat] (by omega) hup
    hcs (by simp [get_index_nil])
  simp only [get_index_nil, List.nil_append, List.insertIdx_zero, zero_add] at hsplit
  have hins : ([Block.mk b (List.take b.toNat es) (List.take (b.toNat + 1) cs)]).insertIdx 1
      (Block.mk b (List.drop (b.toNat + 1) es) (List.drop (b.toNat + 1) cs)) =
      [Block.mk b (List.take b.toNat es) (List.take (b.toNat + 1) cs),
        Block.mk b (List.drop (b.toNat + 1) es) (List.drop (b.toNat + 1) cs)] := rfl
  rw [hins] at hsplit
  have hov : ¬ (1 > size_t_of_int (2 * b - 1)) := by
    have := size_t_of_int_nonneg (2 * b - 1) (by omega)
    omega
  simp only [List.length_nil] at hsplit
  simp only [insert_restructure, Block.get_b_count, Block.new, show ¬ b < 0 by omega,
    if_false, List.nil_append, hsplit]
  simp [Block.entries, Block.get_max_keys, Block.get_b_count, hov]

theorem node_over_shape {b : Int} (hb : 1 ≤ b) {h : Nat} {es : List E} {cs : List (Block E)}
    (hn : Node b (2 * b) (2 * b) h (.mk b es cs)) :
    b.toNat < es.length ∧ (cs = [] ∨ b.toNat + 1 ≤ cs.length) := by
  rcases node_children hn with ⟨h1, -⟩ | ⟨h1, -⟩
  · exact ⟨by have := hn.2.1; simp [Block.entries] at this; omega, Or.inl h1⟩
  · have := hn.2.1
    simp [Block.entries] at this
    exact ⟨by omega, Or.inr (by omega)⟩

/-- Splitting upwards from an over-full block returns a structurally sound tree.  Its height
is that of the tree before, or one more; it is one more only when the root itself was split:
the result is then a new root with one entry and two children, and the old root held `2b - 1`
entries before the promotion reached it. -/
theorem insert_restructure_full (key : E → K) (b rmin : Int) (hb : 1 ≤ b) (hr : rmin ≤ 1) :
    ∀ path h, PathStruct b rmin h path → ∀ es cs, Node b (2 * b) (2 * b) h (.mk b es cs) →
      ∃ root', insert_restructure key (.mk b es cs) path = some root' ∧ RootOK b rmin root' ∧
        (height root' = h + path.length ∨
          (height root' = h + path.length + 1 ∧ root'.entries.length = 1 ∧
            root'.children.length = 2 ∧
            ((path = [] ∧ (es.length : Int) = 2 * b) ∨
              (path ≠ [] ∧ ((root_entries (.mk b es cs) path).length : Int) = 2 * b - 1)))) := by
  intro path h hp
  induction hp with
  | nil h =>
    intro es cs hn
    obtain ⟨h1, h2⟩ := node_over_shape hb hn
    refine ⟨_, insert_restructure_nil key b hb es cs h1 h2, ⟨h + 1, ?_, by simp, ?_⟩, ?_⟩
    · refine (node_mk_succ ..).mpr ⟨rfl, by simp, by simp; omega, rfl, ?_⟩
      intro x hx
      simp only [List.mem_cons, List.mem_singleton, List.not_mem_nil, or_false] at hx
      rcases hx with rfl | rfl
      · exact sub_split_left b hb h es cs hn
      · exact sub_split_right b hb h es cs hn
    · intro _ _
      simpa [Block.entries] using hr
    · refine Or.inr ⟨?_, rfl, rfl, Or.inl ⟨rfl, ?_⟩⟩
      · rw [height_mk_cons, node_height b h _ _ _
          ((sub_iff_node ..).mp (sub_split_left b hb h es cs hn))]
        rfl
      · have g1 := hn.2.1
        have g2 := hn.2.2.1
        simp only [Block.entries] at g1 g2
        omega
  | cons h c cl cr kl kr rest h1 h2 h3 h4 h5 h6 h7 hrest ih =>
    intro es cs hn
    obtain ⟨hn1, hn2⟩ := node_over_shape hb hn
    have hup : es[b.toNat]? = some es[b.toNat] := List.getElem?_eq_getElem hn1
    have hile := get_index_le key (kl ++ kr) (key es[b.toNat])
    have hsplit := insert_split_eq key b b es (kl ++ kr) cs cl cr c es[b.toNat] (by omega) hup
      hn2 (by simp at hile ⊢; omega)
    simp only [insert_restructure, hsplit, Block.entries, Block.get_max_keys, Block.get_b_count]
    have hlen1 : ((kl ++ kr).insertIdx (get_index key (kl ++ kr) (key es[b.toNat]))
        es[b.toNat]).length = kl.length + kr.length + 1 := by
      rw [List.length_insertIdx _ _ hile]; simp
    have hile2 : get_index key (kl ++ kr) (key es[b.toNat]) + 1 ≤
        (cl ++ Block.mk b (List.take b.toNat es) (List.take (b.toNat + 1) cs) :: cr).length := by
      simp at hile ⊢; omega
    have hlen2 : ((cl ++ Block.mk b (List.take b.toNat es) (List.take (b.toNat + 1) cs) ::
        cr).insertIdx (get_index key (kl ++ kr) (key es[b.toNat]) + 1)
        (Block.mk b (List.drop (b.toNat + 1) es) (List.drop (b.toNat + 1) cs))).length =
        kl.length + kr.length + 1 + 1 := by
      rw [List.length_insertIdx _ _ hile2]; simp; omega
    have hmem : ∀ x ∈ ((cl ++ Block.mk b (List.take b.toNat es) (List.take (b.toNat + 1) cs) ::
        cr).insertIdx (get_index key (kl ++ kr) (key es[b.toNat]) + 1)
        (Block.mk b (List.drop (b.toNat + 1) es) (List.drop (b.toNat + 1) cs))), Sub b h x := by
      intro x hx
      rw [List.mem_insertIdx hile2] at hx
      simp only [List.mem_append, List.mem_cons] at hx
      rcases hx with rfl | hx | rfl | hx
      · exact sub_split_right b hb h es cs hn
      · exact h3 x hx
      · exact sub_split_left b hb h es cs hn
      · exact h4 x hx
    split
    · rename_i hov
      have hsz := size_t_of_int_nonneg (2 * b - 1) (by omega)
      obtain ⟨root', e1, e2, e3⟩ := ih _ _ ((node_mk_succ ..).mpr ⟨rfl,
        by rw [hlen1] at hov ⊢; omega, by rw [hlen1] at hov ⊢; omega, by rw [hlen1, hlen2], hmem⟩)
      refine ⟨root', e1, e2, ?_⟩
      rcases e3 with e3 | ⟨e3, l1, l2, info⟩
      · exact Or.inl (by rw [e3]; simp only [List.length_cons]; omega)
      · refine Or.inr ⟨by rw [e3]; simp only [List.length_cons]; omega, l1, l2,
          Or.inr ⟨by simp, ?_⟩⟩
        simp only [root_entries]
        rcases info with ⟨rfl, hfull⟩ | ⟨hne, hfull⟩
        · simp only [root_entries, Block.entries, List.length_append]
          rw [hlen1] at hfull
          omega
        · rw [root_entries_irrel _ _ rest hne]
          exact hfull
    · rename_i hov
      have hsz := size_t_of_int_nonneg (2 * b - 1) (by omega)
      refine ⟨_, rfl, plug_full b rmin rest (h + 1) hrest _ ⟨?_, ?_, ?_⟩ _
        (by simp only [List.length_cons]; omega) _⟩
      · exact (node_mk_succ ..).mpr ⟨rfl, by omega, by rw [hlen1] at hov ⊢; omega,
          by rw [hlen1, hlen2], hmem⟩
      · intro hne
        have := h6 hne
        simp only [Block.entries, hlen1]
        omega
      · intro hnil _
        have := h7 hnil
        simp only [Block.entries, hlen1]
        omega

theorem insert_restructure_struct (key : E → K) (b rmin : Int) (hb : 1 ≤ b) (hr : rmin ≤ 1) :
    ∀ path h, PathStruct b rmin h path → ∀ es cs, Node b (2 * b) (2 * b) h (.mk b es cs) →
      ∃ root', insert_restructure key (.mk b es cs) path = some root' ∧ RootOK b rmin root' := by
  intro path h hp es cs hn
  obtain ⟨root', h1, h2, -⟩ := insert_restructure_full key b rmin hb hr path h hp es cs hn
  exact ⟨root', h1, h2⟩

end InsertStruct

section InsertStruct2
variable {E K : Type} [LinearOrder K]

theorem key_at_index_some (key : E → K) (es : List E) (index : Nat) (k : K)
    (h : key_at_index key es index k = true) :
    ∃ e, es[index - 1]? = some e ∧ key e = k ∧ 0 < index := by
  unfold key_at_index at h
  split at h
  · simp at h
  · rename_i e he
    exact ⟨e, he, by simpa using h, by omega⟩
  · simp at h

/-- Inserting into the leaf the search stopped at returns a structurally sound tree whose
height is that of the tree before, or one more when the root itself was split. -/
theorem insert_helper_full (key : E → K) (b rmin : Int) (hb : 1 ≤ b) (hr : rmin ≤ 1)
    (es : List E) (e : E) (path : Path E) (hf : Focus b rmin 0 (.mk b es []) path)
    (hp : PathStruct b rmin 0 path) :
    ∃ root', insert_helper key (.mk b es []) e path = some root' ∧ RootOK b rmin root' ∧
      (height root' = path.length ∨
        (height root' = path.length + 1 ∧ root'.entries.length = 1 ∧
          root'.children.length = 2 ∧
          ((root_entries (.mk b es []) path).length : Int) = 2 * b - 1)) := by
  have hile := get_index_le key es (key e)
  have hlen : (es.insertIdx (get_index key es (key e)) e).length = es.length + 1 :=
    List.length_insertIdx _ _ hile
  have hn := (node_mk_zero ..).mp hf.1
  have hsz := size_t_of_int_nonneg (2 * b - 1) (by omega)
  rw [insert_helper]
  simp only [List.isEmpty_nil, Bool.not_true, Bool.false_eq_true, if_false,
    Block.get_max_keys, Block.get_b_count]
  split
  · rename_i hov
    obtain ⟨root', e1, e2, e3⟩ := insert_restructure_full key b rmin hb hr path 0 hp _ _
      ((node_mk_zero ..).mpr ⟨rfl, by rw [hlen] at hov ⊢; omega,
        by rw [hlen] at hov ⊢; omega, rfl⟩)
    refine ⟨root', e1, e2, ?_⟩
    rcases e3 with e3 | ⟨e3, l1, l2, info⟩
    · exact Or.inl (by rw [e3]; omega)
    · refine Or.inr ⟨by rw [e3]; omega, l1, l2, ?_⟩
      rcases info with ⟨rfl, hfull⟩ | ⟨hne, hfull⟩
      · simp only [root_entries, Block.entries]
        rw [hlen] at hfull
        omega
      · rw [root_entries_irrel _ (.mk b (es.insertIdx (get_index key es (key e)) e) []) path hne]
        exact hfull
  · rename_i hov
    refine ⟨_, rfl, plug_full b rmin path 0 hp _ ⟨?_, ?_, ?_⟩ _ (by omega) _⟩
    · exact (node_mk_zero ..).mpr ⟨rfl, by omega, by rw [hlen] at hov ⊢; omega, rfl⟩
    · intro hne
      have := hf.2.1 hne
      simp only [Block.entries, hlen] at this ⊢
      omega
    · intro _ hc
      simp [Block.children] at hc

theorem insert_helper_struct (key : E → K) (b rmin : Int) (hb : 1 ≤ b) (hr : rmin ≤ 1)
    (es : List E) (e : E) (path : Path E) (hf : Focus b rmin 0 (.mk b es []) path)
    (hp : PathStruct b rmin 0 path) :
    ∃ root', insert_helper key (.mk b es []) e path = some root' ∧ RootOK b rmin root' := by
  obtain ⟨root', h1, h2, -⟩ := insert_helper_full key b rmin hb hr es e path hf hp
  exact ⟨root', h1, h2⟩

theorem focus_set_entry (b rmin : Int) (h : Nat) (es : List E) (cs : List (Block E))
    (path : Path E) (i : Nat) (e : E) (hf : Focus b rmin h (.mk b es cs) path) :
    Focus b rmin h (.mk b (es.set i e) cs) path := by
  obtain ⟨h1, h2, h3⟩ := hf
  refine ⟨?_, by simpa [Block.entries] using h2, by simpa [Block.entries, Block.children] using h3⟩
  cases h with
  | zero =>
    have := (node_mk_zero ..).mp h1
    exact (node_mk_zero ..).mpr (by simpa using this)
  | succ h =>
    have := (node_mk_succ ..).mp h1
    exact (node_mk_succ ..).mpr (by simpa using this)

theorem set_insert_struct (b rmin : Int) (hb : 1 ≤ b) (hr : rmin ≤ 1) (t : B_Tree Int)
    (ht : RootOK b rmin t.root) (k : Int) :
    ∃ t', SetTree.insert t k = some t' ∧ RootOK b rmin t'.root := by
  obtain ⟨h, hf⟩ := ht
  obtain ⟨fes, fcs, path, h', h1, h2, h3, h4⟩ :=
    search_struct id b rmin k h t.root [] hf (PathStruct.nil h)
  by_cases hk : key_at_index id fes (get_index id fes k) k = true
  · exact ⟨t, by simp [SetTree.insert, h1, Block.entries, hk], h, hf⟩
  · have hleaf : fcs = [] := by
      rcases h4 with h4 | h4
      · exact absurd h4 hk
      · exact h4
    subst hleaf
    have hh : h' = 0 := by
      rcases node_children h2.1 with ⟨-, h0⟩ | ⟨hl, -⟩
      · exact h0
      · simp at hl
    subst hh
    obtain ⟨root', hr1, hr2⟩ := insert_helper_struct id b rmin hb hr fes k path h2 h3
    exact ⟨⟨root'⟩, by simp [SetTree.insert, h1, Block.entries, hk, hr1], hr2⟩

theorem map_insert_struct {V : Type} (b rmin : Int) (hb : 1 ≤ b) (hr : rmin ≤ 1)
    (t : B_Tree (K × V)) (ht : RootOK b rmin t.root) (k : K) (v : V) :
    ∃ t', MapTree.insert t k v = some t' ∧ RootOK b rmin t'.root := by
  obtain ⟨h, hf⟩ := ht
  obtain ⟨fes, fcs, path, h', h1, h2, h3, h4⟩ :=
    search_struct Prod.fst b rmin k h t.root [] hf (PathStruct.nil h)
  by_cases hk : key_at_index Prod.fst fes (get_index Prod.fst fes k) k = true
  · obtain ⟨old, ho, -, -⟩ := key_at_index_some Prod.fst fes _ k hk
    refine ⟨⟨plug (.mk b (fes.set (get_index Prod.fst fes k - 1) (old.1, v)) fcs) path⟩,
      by simp [MapTree.insert, h1, hk, ho], ?_⟩
    exact plug_struct b rmin path h' h3 _ (focus_set_entry b rmin h' fes fcs path _ _ h2)
  · have hleaf : fcs = [] := by
      rcases h4 with h4 | h4
      · exact absurd h4 hk
      · exact h4
    subst hleaf
    have hh : h' = 0 := by
      rcases node_children h2.1 with ⟨-, h0⟩ | ⟨hl, -⟩
      · exact h0
      · simp at hl
    subst hh
    obtain ⟨root', hr1, hr2⟩ := insert_helper_struct Prod.fst b rmin hb hr fes (k, v) path h2 h3
    exact ⟨⟨root'⟩, by simp [MapTree.insert, h1, hk, hr1], hr2⟩

end InsertStruct2

section InsertClaims
variable {K V : Type} [LinearOrder K]

theorem structural_iff_rootOK {E : Type} (b : Int) (t : B_Tree E) :
    Structural b t ↔ RootOK b 0 t.root := by
  constructor
  · rintro ⟨h, hn⟩
    exact ⟨h, hn, by simp, fun _ _ => by omega⟩
  · rintro ⟨h, hn, -, -⟩
    exact ⟨h, hn⟩

theorem orderedTree_iff {E : Type} (key : E → K) (b : Int) (t : B_Tree E) (hd : Degree b t.root) :
    OrderedTree key t ↔ Shaped b t.root ∧ KeySorted key (inorder t.root) := by
  constructor
  · rintro ⟨ho, -⟩
    exact ordered_sorted key b t.root hd ho
  · rintro ⟨hsh, hs⟩
    exact ⟨(sorted_ordered key b t.root hsh hs).1, sorted_nodup key _ hs⟩

theorem mem_abs_insert {E : Type} (key : E → K) (e : E) (l : List E) (x : E) :
    x ∈ abs_insert key e l ↔ x = e ∨ (x ∈ l ∧ key x ≠ key e) := by
  simp only [abs_insert, List.mem_append, List.mem_filter, List.mem_cons, decide_eq_true_eq]
  constructor
  · rintro (⟨h1, h2⟩ | rfl | ⟨h1, h2⟩)
    · exact Or.inr ⟨h1, ne_of_lt h2⟩
    · exact Or.inl rfl
    · exact Or.inr ⟨h1, (ne_of_lt h2).symm⟩
  · rintro (rfl | ⟨h1, h2⟩)
    · exact Or.inr (Or.inl rfl)
    · rcases lt_or_gt_of_ne h2 with h | h
      · exact Or.inl ⟨h1, h⟩
      · exact Or.inr (Or.inr ⟨h1, h⟩)

theorem set_insert_list_spec (b : Int) (hb : 1 ≤ b) (l : List Int) :
    ∀ t : B_Tree Int, Shaped b t.root → KeySorted id (inorder t.root) →
      ∃ t', SetTree.insert_list t l = some t' ∧ Shaped b t'.root ∧
        KeySorted id (inorder t'.root) ∧
        ∀ x, x ∈ inorder t'.root ↔ x ∈ inorder t.root ∨ x ∈ l := by
  induction l with
  | nil => intro t hsh hs; exact ⟨t, rfl, hsh, hs, by simp⟩
  | cons k l ih =>
    intro t hsh hs
    obtain ⟨t1, h1, h2, h3, h4⟩ := set_insert_ordered b hb t hsh hs k
    obtain ⟨t2, g1, g2, g3, g4⟩ := ih t1 h2 h4
    refine ⟨t2, by simp [SetTree.insert_list, h1, g1], g2, g3, ?_⟩
    intro x
    rw [g4, h3, mem_abs_insert]
    simp only [id, List.mem_cons]
    by_cases hx : x = k
    · simp [hx]
    · simp [hx]

theorem set_insert_list_sort (b : Int) (hb : 1 ≤ b) (l : List Int) :
    ∃ t, SetTree.insert_list ⟨.mk b [] []⟩ l = some t ∧
      inorder t.root = l.toFinset.sort (fun x y => x ≤ y) := by
  obtain ⟨t, h1, -, h3, h4⟩ := set_insert_list_spec b hb l ⟨.mk b [] []⟩
    (Shaped.mk _ _ (Or.inl rfl) (by simp)) (by simp [inorder_mk, interleave, KeySorted])
  refine ⟨t, h1, ?_⟩
  have hnd : (inorder t.root).Nodup := by
    have := sorted_nodup id _ h3
    simpa using this
  have hperm : (inorder t.root).Perm (l.toFinset.sort (fun x y => x ≤ y)) := by
    rw [List.perm_ext_iff_of_nodup hnd (Finset.sort_nodup _ _)]
    intro x
    rw [h4]
    simp [inorder_mk, interleave]
  refine List.eq_of_perm_of_sorted hperm ?_ (Finset.sort_sorted _ _)
  exact List.Pairwise.imp (fun hab => le_of_lt hab) h3

/-- C4: in both variants `insert` preserves the structural invariants.  If every block of the
tree has at most `2b - 1` entries, every non-root block at least `b - 1`, every internal block
`entries + 1` children and all leaves the same depth (`Structural b`), then `insert` returns a
tree and the same four facts hold for it; this covers the first insert into an empty tree and
splits that reach the root. -/
theorem insert_preserves_structure (b : Int) (hb : 2 ≤ b) (ts : B_Tree Int) (ks : Int)
    (tm : B_Tree (K × V)) (km : K) (vm : V) (hs : Structural b ts) (hm : Structural b tm) :
    (∃ ts', SetTree.insert ts ks = some ts' ∧ Structural b ts') ∧
    (∃ tm', MapTree.insert tm km vm = some tm' ∧ Structural b tm') := by
  constructor
  · obtain ⟨t', h1, h2⟩ := set_insert_struct b 0 (by omega) (by omega) ts
      ((structural_iff_rootOK b ts).mp hs) ks
    exact ⟨t', h1, (structural_iff_rootOK b t').mpr h2⟩
  · obtain ⟨t', h1, h2⟩ := map_insert_struct b 0 (by omega) (by omega) tm
      ((structural_iff_rootOK b tm).mp hm) km vm
    exact ⟨t', h1, (structural_iff_rootOK b t').mpr h2⟩

/-- C5: in both variants `insert` preserves the ordering invariant.  If in a tree of degree
`b` every block's keys are strictly increasing, no key occurs twice and child `i` of every
internal block holds only keys strictly between entry `i - 1` and entry `i` (`OrderedTree`),
then `insert` returns a tree for which the same holds. -/
theorem insert_preserves_ordering (b : Int) (hb : 2 ≤ b) (ts : B_Tree Int) (ks : Int)
    (tm : B_Tree (K × V)) (km : K) (vm : V) (hds : Degree b ts.root) (hos : OrderedTree id ts)
    (hdm : Degree b tm.root) (hom : OrderedTree Prod.fst tm) :
    (∃ ts', SetTree.insert ts ks = some ts' ∧ OrderedTree id ts' ∧ Degree b ts'.root) ∧
    (∃ tm', MapTree.insert tm km vm = some tm' ∧ OrderedTree Prod.fst tm' ∧
      Degree b tm'.root) := by
  constructor
  · obtain ⟨hsh, hso⟩ := (orderedTree_iff id b ts hds).mp hos
    obtain ⟨t', h1, h2, -, h4⟩ := set_insert_ordered b (by omega) ts hsh hso ks
    have hd := (sorted_ordered id b t'.root h2 h4).2
    exact ⟨t', h1, (orderedTree_iff id b t' hd).mpr ⟨h2, h4⟩, hd⟩
  · obtain ⟨hsh, hso⟩ := (orderedTree_iff Prod.fst b tm hdm).mp hom
    obtain ⟨t', h1, h2, -, h4⟩ := map_insert_ordered b (by omega) tm hsh hso km vm
    have hd := (sorted_ordered Prod.fst b t'.root h2 h4).2
    exact ⟨t', h1, (orderedTree_iff Prod.fst b t' hd).mpr ⟨h2, h4⟩, hd⟩

/-- C8: set variant.  For every degree `b ≥ 2`, every tree `t0` that the constructor returns
for `b` and every list of integer keys, inserting the keys one by one into `t0` succeeds and
yields a tree whose in-order traversal is the strictly increasing list of the distinct keys;
so every permutation of the list gives a tree with the same traversal. -/
theorem insert_list_inorder (b : Int) (hb : 2 ≤ b) (l : List Int) (t0 : B_Tree Int)
    (h0 : SetTree.construct b = some t0) :
    ∃ t, SetTree.insert_list t0 l = some t ∧
      inorder t.root = l.toFinset.sort (fun x y => x ≤ y) ∧
      (inorder t.root).Pairwise (fun x y => x < y) ∧
      (∀ x, x ∈ inorder t.root ↔ x ∈ l) ∧
      ∀ l' : List Int, l'.Perm l →
        ∃ t', SetTree.insert_list t0 l' = some t' ∧ inorder t'.root = inorder t.root := by
  obtain ⟨rfl, -⟩ := set_construct_some b t0 h0
  obtain ⟨t, h1, h2⟩ := set_insert_list_sort b (by omega) l
  refine ⟨t, h1, h2, ?_, ?_, ?_⟩
  · rw [h2]
    have h := Finset.sort_sorted (fun x y : Int => x ≤ y) l.toFinset
    have hn := Finset.sort_nodup (fun x y : Int => x ≤ y) l.toFinset
    exact (List.Pairwise.and h hn).imp (fun hab => lt_of_le_of_ne hab.1 hab.2)
  · intro x
    rw [h2]
    simp
  · intro l' hl'
    obtain ⟨t', g1, g2⟩ := set_insert_list_sort b (by omega) l'
    refine ⟨t', g1, ?_⟩
    rw [g2, h2]
    congr 1
    ext x
    simp [hl'.mem_iff]

end InsertClaims

section Witnesses

theorem example_set_structural : Structural 2 example_set :=
  ⟨1, by simp [example_set, Node, Sub, Block.get_b_count, Block.entries, Block.children]⟩

theorem example_map_structural : Structural 2 example_map :=
  ⟨1, by simp [example_map, Node, Sub, Block.get_b_count, Block.entries, Block.children]⟩

theorem example_set_degree : Degree 2 example_set.root := by
  simp [example_set, Degree, Degree_children]

theorem example_map_degree : Degree 2 example_map.root := by
  simp [example_map, Degree, Degree_children]

theorem example_set_ordered : OrderedTree id example_set := by
  refine ⟨?_, by simp [example_set, inorder, inorder_children, interleave]⟩
  simp only [example_set, Ordered, Ordered_children, KeySorted, and_true]
  refine ⟨by simp, by simp, ?_, by simp, by simp⟩
  intro i c x hi hx
  rcases i with _ | _ | i
  · simp at hi; subst hi
    simp [inorder, inorder_children, interleave] at hx
    rcases hx with rfl | rfl <;> simp
  · simp at hi; subst hi
    simp [inorder, inorder_children, interleave] at hx
    rcases hx with rfl | rfl | rfl <;> simp
  · simp at hi

theorem example_map_ordered : OrderedTree Prod.fst example_map := by
  refine ⟨?_, by simp [example_map, inorder, inorder_children, interleave]⟩
  simp only [example_map, Ordered, Ordered_children, KeySorted, and_true]
  refine ⟨by simp, by simp, ?_, by simp, by simp⟩
  intro i c x hi hx
  rcases i with _ | _ | i
  · simp at hi; subst hi
    simp [inorder, inorder_children, interleave] at hx
    rcases hx with rfl | rfl <;> simp
  · simp at hi; subst hi
    simp [inorder, inorder_children, interleave] at hx
    rcases hx with rfl | rfl | rfl <;> simp
  · simp at hi

/-- Witness for C4 on the example trees of degree 2, inserting the new key 7. -/
theorem insert_preserves_structure_witness :
    (2 : Int) ≤ 2 ∧ Structural 2 example_set ∧ Structural 2 example_map ∧
      ((∃ ts', SetTree.insert example_set 7 = some ts' ∧ Structural 2 ts') ∧
        (∃ tm', MapTree.insert example_map 7 70 = some tm' ∧ Structural 2 tm')) :=
  ⟨by decide, example_set_structural, example_map_structural,
    insert_preserves_structure 2 (by decide) example_set 7 example_map 7 70
      example_set_structural example_map_structural⟩

/-- Witness for C5 on the example trees of degree 2, inserting the new key 7. -/
theorem insert_preserves_ordering_witness :
    (2 : Int) ≤ 2 ∧ Degree 2 example_set.root ∧ OrderedTree id example_set ∧
      Degree 2 example_map.root ∧ OrderedTree Prod.fst example_map ∧
      ((∃ ts', SetTree.insert example_set 7 = some ts' ∧ OrderedTree id ts' ∧
          Degree 2 ts'.root) ∧
        (∃ tm', MapTree.insert example_map 7 70 = some tm' ∧ OrderedTree Prod.fst tm' ∧
          Degree 2 tm'.root)) :=
  ⟨by decide, example_set_degree, example_set_ordered, example_map_degree, example_map_ordered,
    insert_preserves_ordering 2 (by decide) example_set 7 example_map 7 70
      example_set_degree example_set_ordered example_map_degree example_map_ordered⟩

/-- Witness for C8: degree 2, the tree `B_Tree(2)` returns, and the keys 3, 1, 2, 3. -/
theorem insert_list_inorder_witness :
    (2 : Int) ≤ 2 ∧ SetTree.construct 2 = some ⟨.mk 2 [] []⟩ ∧
    ∃ t, SetTree.insert_list ⟨.mk 2 [] []⟩ [3, 1, 2, 3] = some t ∧
      inorder t.root = ([3, 1, 2, 3] : List Int).toFinset.sort (fun x y => x ≤ y) ∧
      (inorder t.root).Pairwise (fun x y => x < y) ∧
      (∀ x, x ∈ inorder t.root ↔ x ∈ ([3, 1, 2, 3] : List Int)) ∧
      ∀ l' : List Int, l'.Perm [3, 1, 2, 3] →
        ∃ t', SetTree.insert_list ⟨.mk 2 [] []⟩ l' = some t' ∧
          inorder t'.root = inorder t.root :=
  ⟨by decide, rfl, insert_list_inorder 2 (by decide) [3, 1, 2, 3] ⟨.mk 2 [] []⟩ rfl⟩


end Witnesses

section RemoveEq
variable {E K : Type} [LinearOrder K]

theorem getElem?_at_length_succ {α : Type} (A B : List α) (e x : α) :
    (A ++ e :: x :: B)[A.length + 1]? = some x := by
  have := getElem?_at_length (A ++ [e]) B x
  simpa using this

theorem get_sibling_right (pb : Int) (pes : List E) (cl cr : List (Block E)) (c r : Block E) :
    get_sibling (.mk pb pes (cl ++ c :: r :: cr)) cl.length false true = some (cl.length + 1) := by
  simp [get_sibling, Block.children]

theorem get_sibling_right_none (pb : Int) (pes : List E) (cl : List (Block E)) (c : Block E) :
    get_sibling (.mk pb pes (cl ++ [c])) cl.length false true = none := by
  simp [get_sibling, Block.children]

theorem get_sibling_left (pb : Int) (pes : List E) (cl cr : List (Block E)) (c l : Block E) :
    get_sibling (.mk pb pes (cl ++ l :: c :: cr)) (cl.length + 1) true false =
      some cl.length := by
  simp [get_sibling, Block.children]

theorem get_child_index_mk (pb : Int) (pes : List E) (cl cr : List (Block E)) (c : Block E) :
    get_child_index (.mk pb pes (cl ++ c :: cr)) cl.length = (cl.length : Int) := by
  simp [get_child_index, Block.children]

theorem size_t_pred_pos (n : Nat) (h : 0 < n) : size_t_pred n = n - 1 := by
  simp [size_t_pred]; omega

theorem remove_restructure_rotate_right (b : Int) (hb : 2 ≤ b) (es kl kr res : List E)
    (k0 first : E) (cs cl cr rcs : List (Block E)) (c : Block E) (rest : Path E)
    (h1 : kl.length = cl.length) (hres : b ≤ ((first :: res).length : Int)) :
    remove_restructure (.mk b es cs)
        (⟨.mk b (kl ++ k0 :: kr) (cl ++ c :: .mk b (first :: res) rcs :: cr), cl.length⟩ :: rest) =
      some (plug (.mk b (kl ++ first :: kr)
        (cl ++ .mk b (es ++ [k0]) (cs ++ rcs.take 1) :: .mk b res rcs.tail :: cr)) rest) := by
  have hk : (kl ++ k0 :: kr)[cl.length]? = some k0 := by
    rw [← h1]; exact getElem?_at_length _ _ _
  have hset : (kl ++ k0 :: kr).set cl.length first = kl ++ first :: kr := by
    rw [← h1]; exact set_at_length _ _ _ _
  have hsz := size_t_of_int_nonneg (b - 1) (by omega)
  have hlend : ¬ (size_t_pred (first :: res).length < size_t_of_int (b - 1)) := by
    rw [size_t_pred_pos _ (by simp)]
    simp only [List.length_cons] at hres ⊢
    omega
  have hset2 : ∀ X Y : Block E, ((cl ++ c :: .mk b (first :: res) rcs :: cr).set cl.length X).set
      (cl.length + 1) Y = cl ++ X :: Y :: cr := by
    intro X Y
    rw [set_at_length]
    simp
  simp only [remove_restructure, get_sibling_right, getElem?_at_length_succ, hlend, if_false,
    Block.get_min_keys, Block.get_b_count, get_child_index_mk]
  simp only [Int.toNat_ofNat, hk, List.head?_cons, hset, List.tail_cons, hset2]
  cases rcs with
  | nil => simp
  | cons rc rcs => simp

theorem remove_restructure_merge_right (b : Int) (hb : 2 ≤ b) (es kl kr res : List E)
    (k0 : E) (cs cl cr rcs : List (Block E)) (c : Block E) (rest : Path E)
    (h1 : kl.length = cl.length) (hres : (res.length : Int) = b - 1) (hleaf : cs = [] → rcs = []) :
    remove_restructure (.mk b es cs)
        (⟨.mk b (kl ++ k0 :: kr) (cl ++ c :: .mk b res rcs :: cr), cl.length⟩ :: rest) =
      if (kl ++ kr).length < size_t_of_int (b - 1) then
        remove_restructure (.mk b (kl ++ kr) (cl ++ .mk b (es ++ k0 :: res) (cs ++ rcs) :: cr)) rest
      else some (plug (.mk b (kl ++ kr) (cl ++ .mk b (es ++ k0 :: res) (cs ++ rcs) :: cr)) rest) := by
  have hk : (kl ++ k0 :: kr)[cl.length]? = some k0 := by
    rw [← h1]; exact getElem?_at_length _ _ _
  have her : (kl ++ k0 :: kr).eraseIdx cl.length = kl ++ kr := by
    rw [← h1]; exact eraseIdx_at_length _ _ _
  have hsz := size_t_of_int_nonneg (b - 1) (by omega)
  have hlend : size_t_pred res.length < size_t_of_int (b - 1) := by
    rw [size_t_pred_pos _ (by omega)]
    omega
  have hset2 : ∀ X : Block E, ((cl ++ c :: .mk b res rcs :: cr).set cl.length X).eraseIdx
      (cl.length + 1) = cl ++ X :: cr := by
    intro X
    rw [set_at_length]
    have := eraseIdx_at_length (cl ++ [X]) cr (.mk b res rcs)
    simpa using this
  have hci : get_child_index (.mk b (kl ++ k0 :: kr) (cl ++ c :: .mk b res rcs :: cr))
      (cl.length + 1) = ((cl.length + 1 : Nat) : Int) := by
    simp [get_child_index, Block.children]
  have hch : (if cs.isEmpty = true then cs else cs ++ rcs) = cs ++ rcs := by
    cases cs with
    | nil => simp [hleaf rfl]
    | cons _ _ => simp
  simp only [remove_restructure, get_sibling_right, getElem?_at_length_succ, hlend, if_true,
    Block.get_min_keys, Block.get_b_count, merge, Block.children, get_child_index_mk, hci]
  simp only [show ¬ ((cl.length : Int) < 0 ∨ ((cl.length + 1 : Nat) : Int) < 0) by omega,
    if_false, Int.toNat_ofNat, hk, her, hset2, Block.entries, hch, List.append_assoc,
    List.singleton_append]

theorem remove_restructure_rotate_left (b : Int) (hb : 2 ≤ b) (es kl kr les : List E)
    (k1 last : E) (cs cl lcs : List (Block E)) (c : Block E) (rest : Path E)
    (h1 : kl.length = cl.length) (hles : b ≤ ((les ++ [last]).length : Int)) :
    remove_restructure (.mk b es cs)
        (⟨.mk b (kl ++ k1 :: kr) (cl ++ [.mk b (les ++ [last]) lcs, c]), cl.length + 1⟩ :: rest) =
      some (plug (.mk b (kl ++ last :: kr)
        (cl ++ [.mk b les lcs.dropLast, .mk b (k1 :: es) (lcs.drop (lcs.length - 1) ++ cs)])) rest) := by
  have hk : (kl ++ k1 :: kr)[cl.length]? = some k1 := by
    rw [← h1]; exact getElem?_at_length _ _ _
  have hset : (kl ++ k1 :: kr).set cl.length last = kl ++ last :: kr := by
    rw [← h1]; exact set_at_length _ _ _ _
  have hsz := size_t_of_int_nonneg (b - 1) (by omega)
  have hlend : ¬ (size_t_pred (les ++ [last]).length < size_t_of_int (b - 1)) := by
    rw [size_t_pred_pos _ (by simp)]
    simp only [List.length_append, List.length_singleton] at hles ⊢
    omega
  have hnone : get_sibling (.mk b (kl ++ k1 :: kr) (cl ++ [.mk b (les ++ [last]) lcs, c]))
      (cl.length + 1) false true = none := by
    have := get_sibling_right_none b (kl ++ k1 :: kr) (cl ++ [.mk b (les ++ [last]) lcs]) c
    simp only [List.append_assoc, List.singleton_append, List.length_append,
      List.length_singleton] at this
    exact this
  have hsome : get_sibling (.mk b (kl ++ k1 :: kr) (cl ++ [.mk b (les ++ [last]) lcs, c]))
      (cl.length + 1) true false = some cl.length :=
    get_sibling_left b _ cl [] c _
  have hci : get_child_index (.mk b (kl ++ k1 :: kr) (cl ++ [.mk b (les ++ [last]) lcs, c]))
      (cl.length + 1) = ((cl.length + 1 : Nat) : Int) := by
    simp [get_child_index, Block.children]
  have hset2 : ∀ X Y : Block E, ((cl ++ [.mk b (les ++ [last]) lcs, c]).set (cl.length + 1) X).set
      cl.length Y = cl ++ [Y, X] := by
    intro X Y
    have := set_at_length (cl ++ [.mk b (les ++ [last]) lcs]) [] c X
    simp only [List.append_assoc, List.singleton_append, List.length_append,
      List.length_singleton] at this
    rw [this, set_at_length]
  simp only [remove_restructure, hnone, hsome, getElem?_at_length, hlend, if_false,
    Block.get_min_keys, Block.get_b_count, hci]
  simp only [show ¬ (((cl.length + 1 : Nat) : Int) - 1 < 0) by omega, if_false,
    show (((cl.length + 1 : Nat) : Int) - 1).toNat = cl.length by omega, hk,
    List.getLast?_concat, hset, List.dropLast_concat, hset2]
  cases lcs with
  | nil => simp
  | cons lc lcs => simp

theorem remove_restructure_merge_left (b : Int) (hb : 2 ≤ b) (es kl kr les : List E)
    (k1 : E) (cs cl lcs : List (Block E)) (c : Block E) (rest : Path E)
    (h1 : kl.length = cl.length) (hles : (les.length : Int) = b - 1) (hleaf : cs = [] → lcs = []) :
    remove_restructure (.mk b es cs)
        (⟨.mk b (kl ++ k1 :: kr) (cl ++ [.mk b les lcs, c]), cl.length + 1⟩ :: rest) =
      if (kl ++ kr).length < size_t_of_int (b - 1) then
        remove_restructure (.mk b (kl ++ kr) (cl ++ [.mk b (les ++ k1 :: es) (lcs ++ cs)])) rest
      else some (plug (.mk b (kl ++ kr) (cl ++ [.mk b (les ++ k1 :: es) (lcs ++ cs)])) rest) := by
  have hk : (kl ++ k1 :: kr)[cl.length]? = some k1 := by
    rw [← h1]; exact getElem?_at_length _ _ _
  have her : (kl ++ k1 :: kr).eraseIdx cl.length = kl ++ kr := by
    rw [← h1]; exact eraseIdx_at_length _ _ _
  have hsz := size_t_of_int_nonneg (b - 1) (by omega)
  have hlend : size_t_pred les.length < size_t_of_int (b - 1) := by
    rw [size_t_pred_pos _ (by omega)]
    omega
  have hnone : get_sibling (.mk b (kl ++ k1 :: kr) (cl ++ [.mk b les lcs, c]))
      (cl.length + 1) false true = none := by
    have := get_sibling_right_none b (kl ++ k1 :: kr) (cl ++ [.mk b les lcs]) c
    simp only [List.append_assoc, List.singleton_append, List.length_append,
      List.length_singleton] at this
    exact this
  have hsome : get_sibling (.mk b (kl ++ k1 :: kr) (cl ++ [.mk b les lcs, c]))
      (cl.length + 1) true false = some cl.length :=
    get_sibling_left b _ cl [] c _
  have hci : get_child_index (.mk b (kl ++ k1 :: kr) (cl ++ [.mk b les lcs, c]))
      (cl.length + 1) = ((cl.length + 1 : Nat) : Int) := by
    simp [get_child_index, Block.children]
  have hset2 : ∀ X : Block E, ((cl ++ [.mk b les lcs, c]).set (cl.length + 1) X).eraseIdx
      cl.length = cl ++ [X] := by
    intro X
    have := set_at_length (cl ++ [.mk b les lcs]) [] c X
    simp only [List.append_assoc, List.singleton_append, List.length_append,
      List.length_singleton] at this
    rw [this, eraseIdx_at_length]
  have hch : (if cs.isEmpty = true then cs else lcs ++ cs) = lcs ++ cs := by
    cases cs with
    | nil => simp [hleaf rfl]
    | cons _ _ => simp
  simp only [remove_restructure, hnone, hsome, getElem?_at_length, hlend, if_true,
    Block.get_min_keys, Block.get_b_count, merge, Block.children, get_child_index_mk, hci]
  simp only [show ¬ (((cl.length + 1 : Nat) : Int) - 1 < 0 ∨ (cl.length : Int) < 0) by omega,
    if_false, show (((cl.length + 1 : Nat) : Int) - 1).toNat = cl.length by omega,
    Int.toNat_ofNat, hk, her, hset2, Block.entries, hch, List.append_assoc,
    List.singleton_append, Bool.false_eq_true]

theorem remove_restructure_calls_rotate_right (b : Int) (hb : 2 ≤ b) (es kl kr res : List E)
    (k0 first : E) (cs cl cr rcs : List (Block E)) (c : Block E) (rest : Path E)
    (hres : b ≤ ((first :: res).length : Int)) :
    remove_restructure_calls (.mk b es cs)
        (⟨.mk b (kl ++ k0 :: kr) (cl ++ c :: .mk b (first :: res) rcs :: cr), cl.length⟩ :: rest) =
      [(.mk b es cs,
        ⟨.mk b (kl ++ k0 :: kr) (cl ++ c :: .mk b (first :: res) rcs :: cr), cl.length⟩ ::
          rest)] := by
  have hsz := size_t_of_int_nonneg (b - 1) (by omega)
  have hlend : ¬ (size_t_pred (first :: res).length < size_t_of_int (b - 1)) := by
    rw [size_t_pred_pos _ (by simp)]
    simp only [List.length_cons] at hres ⊢
    omega
  simp only [remove_restructure_calls, get_sibling_right, getElem?_at_length_succ, hlend,
    if_false, Block.get_min_keys, Block.get_b_count]

theorem remove_restructure_calls_merge_right (b : Int) (hb : 2 ≤ b) (es kl kr res : List E)
    (k0 : E) (cs cl cr rcs : List (Block E)) (c : Block E) (rest : Path E)
    (h1 : kl.length = cl.length) (hres : (res.length : Int) = b - 1) (hleaf : cs = [] → rcs = []) :
    remove_restructure_calls (.mk b es cs)
        (⟨.mk b (kl ++ k0 :: kr) (cl ++ c :: .mk b res rcs :: cr), cl.length⟩ :: rest) =
      (.mk b es cs,
        ⟨.mk b (kl ++ k0 :: kr) (cl ++ c :: .mk b res rcs :: cr), cl.length⟩ :: rest) ::
      (if (kl ++ kr).length < size_t_of_int (b - 1) then
        remove_restructure_calls
          (.mk b (kl ++ kr) (cl ++ .mk b (es ++ k0 :: res) (cs ++ rcs) :: cr)) rest
      else []) := by
  have hk : (kl ++ k0 :: kr)[cl.length]? = some k0 := by
    rw [← h1]; exact getElem?_at_length _ _ _
  have her : (kl ++ k0 :: kr).eraseIdx cl.length = kl ++ kr := by
    rw [← h1]; exact eraseIdx_at_length _ _ _
  have hsz := size_t_of_int_nonneg (b - 1) (by omega)
  have hlend : size_t_pred res.length < size_t_of_int (b - 1) := by
    rw [size_t_pred_pos _ (by omega)]
    omega
  have hset2 : ∀ X : Block E, ((cl ++ c :: .mk b res rcs :: cr).set cl.length X).eraseIdx
      (cl.length + 1) = cl ++ X :: cr := by
    intro X
    rw [set_at_length]
    have := eraseIdx_at_length (cl ++ [X]) cr (.mk b res rcs)
    simpa using this
  have hci : get_child_index (.mk b (kl ++ k0 :: kr) (cl ++ c :: .mk b res rcs :: cr))
      (cl.length + 1) = ((cl.length + 1 : Nat) : Int) := by
    simp [get_child_index, Block.children]
  have hch : (if cs.isEmpty = true then cs else cs ++ rcs) = cs ++ rcs := by
    cases cs with
    | nil => simp [hleaf rfl]
    | cons _ _ => simp
  simp only [remove_restructure_calls, get_sibling_right, getElem?_at_length_succ, hlend,
    if_true, Block.get_min_keys, Block.get_b_count, merge, Block.children, get_child_index_mk,
    hci]
  simp only [show ¬ ((cl.length : Int) < 0 ∨ ((cl.length + 1 : Nat) : Int) < 0) by omega,
    if_false, Int.toNat_ofNat, hk, her, hset2, Block.entries, hch, List.append_assoc,
    List.singleton_append, plug]
  by_cases hu : (kl ++ kr).length < size_t_of_int (b - 1)
  · simp only [hu, if_true, Block.entries, Block.get_min_keys, Block.get_b_count]
  · simp only [hu, if_false, Block.entries, Block.get_min_keys, Block.get_b_count]

theorem remove_restructure_calls_rotate_left (b : Int) (hb : 2 ≤ b) (es kl kr les : List E)
    (k1 last : E) (cs cl lcs : List (Block E)) (c : Block E) (rest : Path E)
    (hles : b ≤ ((les ++ [last]).length : Int)) :
    remove_restructure_calls (.mk b es cs)
        (⟨.mk b (kl ++ k1 :: kr) (cl ++ [.mk b (les ++ [last]) lcs, c]), cl.length + 1⟩ :: rest) =
      [(.mk b es cs,
        ⟨.mk b (kl ++ k1 :: kr) (cl ++ [.mk b (les ++ [last]) lcs, c]), cl.length + 1⟩ ::
          rest)] := by
  have hsz := size_t_of_int_nonneg (b - 1) (by omega)
  have hlend : ¬ (size_t_pred (les ++ [last]).length < size_t_of_int (b - 1)) := by
    rw [size_t_pred_pos _ (by simp)]
    simp only [List.length_append, List.length_singleton] at hles ⊢
    omega
  have hnone : get_sibling (.mk b (kl ++ k1 :: kr) (cl ++ [.mk b (les ++ [last]) lcs, c]))
      (cl.length + 1) false true = none := by
    have := get_sibling_right_none b (kl ++ k1 :: kr) (cl ++ [.mk b (les ++ [last]) lcs]) c
    simp only [List.append_assoc, List.singleton_append, List.length_append,
      List.length_singleton] at this
    exact this
  have hsome : get_sibling (.mk b (kl ++ k1 :: kr) (cl ++ [.mk b (les ++ [last]) lcs, c]))
      (cl.length + 1) true false = some cl.length :=
    get_sibling_left b _ cl [] c _
  simp only [remove_restructure_calls, hnone, hsome, getElem?_at_length, hlend, if_false,
    Block.get_min_keys, Block.get_b_count]

theorem remove_restructure_calls_merge_left (b : Int) (hb : 2 ≤ b) (es kl kr les : List E)
    (k1 : E) (cs cl lcs : List (Block E)) (c : Block E) (rest : Path E)
    (h1 : kl.length = cl.length) (hles : (les.length : Int) = b - 1) (hleaf : cs = [] → lcs = []) :
    remove_restructure_calls (.mk b es cs)
        (⟨.mk b (kl ++ k1 :: kr) (cl ++ [.mk b les lcs, c]), cl.length + 1⟩ :: rest) =
      (.mk b es cs,
        ⟨.mk b (kl ++ k1 :: kr) (cl ++ [.mk b les lcs, c]), cl.length + 1⟩ :: rest) ::
      (if (kl ++ kr).length < size_t_of_int (b - 1) then
        remove_restructure_calls
          (.mk b (kl ++ kr) (cl ++ [.mk b (les ++ k1 :: es) (lcs ++ cs)])) rest
      else []) := by
  have hk : (kl ++ k1 :: kr)[cl.length]? = some k1 := by
    rw [← h1]; exact getElem?_at_length _ _ _
  have her : (kl ++ k1 :: kr).eraseIdx cl.length = kl ++ kr := by
    rw [← h1]; exact eraseIdx_at_length _ _ _
  have hsz := size_t_of_int_nonneg (b - 1) (by omega)
  have hlend : size_t_pred les.length < size_t_of_int (b - 1) := by
    rw [size_t_pred_pos _ (by omega)]
    omega
  have hnone : get_sibling (.mk b (kl ++ k1 :: kr) (cl ++ [.mk b les lcs, c]))
      (cl.length + 1) false true = none := by
    have := get_sibling_right_none b (kl ++ k1 :: kr) (cl ++ [.mk b les lcs]) c
    simp only [List.append_assoc, List.singleton_append, List.length_append,
      List.length_singleton] at this
    exact this
  have hsome : get_sibling (.mk b (kl ++ k1 :: kr) (cl ++ [.mk b les lcs, c]))
      (cl.length + 1) true false = some cl.length :=
    get_sibling_left b _ cl [] c _
  have hci : get_child_index (.mk b (kl ++ k1 :: kr) (cl ++ [.mk b les lcs, c]))
      (cl.length + 1) = ((cl.length + 1 : Nat) : Int) := by
    simp [get_child_index, Block.children]
  have hset2 : ∀ X : Block E, ((cl ++ [.mk b les lcs, c]).set (cl.length + 1) X).eraseIdx
      cl.length = cl ++ [X] := by
    intro X
    have := set_at_length (cl ++ [.mk b les lcs]) [] c X
    simp only [List.append_assoc, List.singleton_append, List.length_append,
      List.length_singleton] at this
    rw [this, eraseIdx_at_length]
  have hch : (if cs.isEmpty = true then cs else lcs ++ cs) = lcs ++ cs := by
    cases cs with
    | nil => simp [hleaf rfl]
    | cons _ _ => simp
  simp only [remove_restructure_calls, hnone, hsome, getElem?_at_length, hlend, if_true,
    Block.get_min_keys, Block.get_b_count, merge, Block.children, get_child_index_mk, hci]
  simp only [show ¬ (((cl.length + 1 : Nat) : Int) - 1 < 0 ∨ (cl.length : Int) < 0) by omega,
    if_false, show (((cl.length + 1 : Nat) : Int) - 1).toNat = cl.length by omega,
    Int.toNat_ofNat, hk, her, hset2, Block.entries, hch, List.append_assoc,
    List.singleton_append, Bool.false_eq_true, plug]
  by_cases hu : (kl ++ kr).length < size_t_of_int (b - 1)
  · simp only [hu, if_true, Block.entries, Block.get_min_keys, Block.get_b_count]
  · simp only [hu, if_false, Block.entries, Block.get_min_keys, Block.get_b_count]

end RemoveEq

section RemoveFacts
variable {E K : Type} [LinearOrder K]

theorem sub_shaped (b : Int) : ∀ (h : Nat) (t : Block E), Sub b h t → Shaped b t := by
  intro h
  induction h with
  | zero =>
    intro t ht
    obtain ⟨bc, es, cs⟩ := t
    obtain ⟨rfl, -, -, rfl⟩ := (node_mk_zero ..).mp ((sub_iff_node ..).mp ht)
    exact Shaped.mk _ _ (Or.inl rfl) (by simp)
  | succ h ih =>
    intro t ht
    obtain ⟨bc, es, cs⟩ := t
    obtain ⟨rfl, -, -, hlen, hch⟩ := (node_mk_succ ..).mp ((sub_iff_node ..).mp ht)
    exact Shaped.mk _ _ (Or.inr hlen) (fun c hc => ih c (hch c hc))

theorem node_shaped (b lo hi : Int) (h : Nat) (t : Block E) (hn : Node b lo hi h t) :
    Shaped b t := by
  obtain ⟨bc, es, cs⟩ := t
  cases h with
  | zero =>
    obtain ⟨rfl, -, -, rfl⟩ := (node_mk_zero ..).mp hn
    exact Shaped.mk _ _ (Or.inl rfl) (by simp)
  | succ h =>
    obtain ⟨rfl, -, -, hlen, hch⟩ := (node_mk_succ ..).mp hn
    exact Shaped.mk _ _ (Or.inr hlen) (fun c hc => sub_shaped bc h c (hch c hc))

theorem pathStruct_shape (b rmin : Int) (h : Nat) (path : Path E)
    (hp : PathStruct b rmin h path) : PathShape b path := by
  induction hp with
  | nil h => exact PathShape.nil
  | cons h c cl cr kl kr rest h1 h2 h3 h4 _ _ _ _ ih =>
    exact PathShape.cons c cl cr kl kr rest h1 h2 (fun x hx => sub_shaped b h x (h3 x hx))
      (fun x hx => sub_shaped b h x (h4 x hx)) ih

theorem inorder_hole2 (b : Int) (kl kr : List E) (x : E) (cl cr : List (Block E))
    (A B : Block E) (h : kl.length = cl.length) :
    inorder (.mk b (kl ++ x :: kr) (cl ++ A :: B :: cr)) =
      interleave (cl.map inorder) kl ++ inorder A ++
        x :: (inorder B ++ interleave ([] :: cr.map inorder) kr) := by
  rw [inorder_hole _ _ _ _ _ _ h]
  have := interleave_split [] (cr.map inorder) (inorder B) [] kr rfl
  simp only [List.nil_append, interleave] at this
  simp [interleave, this]

theorem inorder_merge (b : Int) (es res : List E) (k0 : E) (cs rcs : List (Block E))
    (h : (cs = [] ∧ rcs = []) ∨ cs.length = es.length + 1) :
    inorder (.mk b (es ++ k0 :: res) (cs ++ rcs)) =
      inorder (.mk b es cs) ++ k0 :: inorder (.mk b res rcs) := by
  rcases h with ⟨rfl, rfl⟩ | h
  · simp [inorder_mk, interleave_nil]
  · simp only [inorder_mk, List.map_append]
    rw [interleave_append_cons _ _ _ _ _ (by simpa using h)]

theorem inorder_rotate_right (b : Int) (es res : List E) (k0 first : E)
    (cs rcs : List (Block E))
    (h : (cs = [] ∧ rcs = []) ∨ (cs.length = es.length + 1 ∧ rcs ≠ [])) :
    inorder (.mk b (es ++ [k0]) (cs ++ rcs.take 1)) ++ first :: inorder (.mk b res rcs.tail) =
      inorder (.mk b es cs) ++ k0 :: inorder (.mk b (first :: res) rcs) := by
  rcases h with ⟨rfl, rfl⟩ | ⟨h, hr⟩
  · simp [inorder_mk, interleave_nil]
  · obtain ⟨rc, rcs', rfl⟩ := List.exists_cons_of_ne_nil hr
    simp only [inorder_mk, List.map_append, List.take_succ_cons, List.take_zero, List.map_cons,
      List.map_nil, List.tail_cons]
    rw [interleave_append_cons _ _ _ _ _ (by simpa using h)]
    simp [interleave]

theorem inorder_rotate_left (b : Int) (es les : List E) (k1 last : E)
    (cs lcs : List (Block E))
    (h : (cs = [] ∧ lcs = []) ∨ (lcs.length = les.length + 2)) :
    inorder (.mk b les lcs.dropLast) ++
        last :: inorder (.mk b (k1 :: es) (lcs.drop (lcs.length - 1) ++ cs)) =
      inorder (.mk b (les ++ [last]) lcs) ++ k1 :: inorder (.mk b es cs) := by
  rcases h with ⟨rfl, rfl⟩ | h
  · simp [inorder_mk, interleave_nil]
  · rcases List.eq_nil_or_concat lcs with rfl | ⟨lcs', lc, rfl⟩
    · simp at h
    · have h' : lcs'.length = les.length + 1 := by simp at h; omega
      simp only [List.concat_eq_append, List.dropLast_concat, List.length_append,
        List.length_singleton, Nat.add_sub_cancel, List.drop_left, inorder_mk, List.map_append,
        List.map_cons, List.map_nil, List.singleton_append]
      rw [interleave_append_cons _ _ _ _ _ (by simpa using h')]
      simp [interleave]

end RemoveFacts

section RemoveRestructure
variable {E K : Type} [LinearOrder K]

theorem remove_finish_full (b : Int) (hb : 2 ≤ b) (rest : Path E) (h : Nat)
    (hrest : PathStruct b 1 (h + 1) rest)
    (ih : ∀ es cs, Node b 0 (2 * b - 1) (h + 1) (.mk b es cs) →
      (rest ≠ [] → (es.length : Int) = b - 2) →
      ∃ root', remove_restructure (.mk b es cs) rest = some root' ∧ RootOK b 1 root' ∧
        inorder root' = path_left rest ++ inorder (.mk b es cs) ++ path_right rest ∧
        RepairHeight (h + 1) rest (.mk b es cs)
          (remove_restructure_calls (.mk b es cs) rest) root' ∧
        ∀ call ∈ remove_restructure_calls (.mk b es cs) rest, RepairCall b call)
    (pes : List E) (pcs : List (Block E)) (hn : Node b 0 (2 * b - 1) (h + 1) (.mk b pes pcs))
    (hlow : rest ≠ [] → b - 2 ≤ (pes.length : Int)) :
    ∃ root', (if pes.length < size_t_of_int (b - 1) then remove_restructure (.mk b pes pcs) rest
        else some (plug (.mk b pes pcs) rest)) = some root' ∧ RootOK b 1 root' ∧
      inorder root' = path_left rest ++ inorder (.mk b pes pcs) ++ path_right rest ∧
      RepairHeight (h + 1) rest (.mk b pes pcs)
        (if pes.length < size_t_of_int (b - 1) then
          remove_restructure_calls (.mk b pes pcs) rest
        else []) root' ∧
      ∀ call ∈ (if pes.length < size_t_of_int (b - 1) then
          remove_restructure_calls (.mk b pes pcs) rest
        else []), RepairCall b call := by
  have hsz := size_t_of_int_nonneg (b - 1) (by omega)
  by_cases hlt : pes.length < size_t_of_int (b - 1)
  · simp only [if_pos hlt]
    exact ih pes pcs hn (fun hne => by have := hlow hne; omega)
  · simp only [if_neg hlt]
    have hfoc : Focus b 1 (h + 1) (.mk b pes pcs) rest := by
      refine ⟨hn, ?_, ?_⟩
      · intro _
        simp only [Block.entries]
        omega
      · intro _ _
        simp only [Block.entries]
        omega
    exact ⟨_, rfl, plug_struct b 1 rest (h + 1) hrest _ hfoc,
      plug_inorder b _ rest (pathStruct_shape b 1 _ rest hrest),
      repairHeight_none b rest (h + 1) hrest _ hfoc, by intro call hc; simp at hc⟩

theorem remove_finish (b : Int) (hb : 2 ≤ b) (rest : Path E) (h : Nat)
    (hrest : PathStruct b 1 (h + 1) rest)
    (ih : ∀ es cs, Node b 0 (2 * b - 1) (h + 1) (.mk b es cs) →
      (rest ≠ [] → (es.length : Int) = b - 2) →
      ∃ root', remove_restructure (.mk b es cs) rest = some root' ∧ RootOK b 1 root' ∧
        inorder root' = path_left rest ++ inorder (.mk b es cs) ++ path_right rest)
    (pes : List E) (pcs : List (Block E)) (hn : Node b 0 (2 * b - 1) (h + 1) (.mk b pes pcs))
    (hlow : rest ≠ [] → b - 2 ≤ (pes.length : Int)) :
    ∃ root', (if pes.length < size_t_of_int (b - 1) then remove_restructure (.mk b pes pcs) rest
        else some (plug (.mk b pes pcs) rest)) = some root' ∧ RootOK b 1 root' ∧
      inorder root' = path_left rest ++ inorder (.mk b pes pcs) ++ path_right rest := by
  have hsz := size_t_of_int_nonneg (b - 1) (by omega)
  split
  · rename_i hlt
    exact ih pes pcs hn (fun hne => by have := hlow hne; omega)
  · rename_i hge
    refine ⟨_, rfl, plug_struct b 1 rest (h + 1) hrest _ ⟨hn, ?_, ?_⟩,
      plug_inorder b _ rest (pathStruct_shape b 1 _ rest hrest)⟩
    · intro _
      simp only [Block.entries]
      omega
    · intro _ _
      simp only [Block.entries]
      omega

/-- Underflow repair from a block up to the root: it returns a structurally sound tree with
the same in-order sequence, and the height bookkeeping of `RepairHeight`. -/
theorem remove_restructure_full (b : Int) (hb : 2 ≤ b) :
    ∀ (path : Path E) (h : Nat), PathStruct b 1 h path →
      ∀ (es : List E) (cs : List (Block E)), Node b 0 (2 * b - 1) h (.mk b es cs) →
      (path ≠ [] → (es.length : Int) = b - 2) →
      ∃ root', remove_restructure (.mk b es cs) path = some root' ∧ RootOK b 1 root' ∧
        inorder root' = path_left path ++ inorder (.mk b es cs) ++ path_right path ∧
        RepairHeight h path (.mk b es cs) (remove_restructure_calls (.mk b es cs) path)
          root' ∧
        ∀ call ∈ remove_restructure_calls (.mk b es cs) path, RepairCall b call := by
  intro path h hp
  induction hp with
  | nil h =>
    intro es cs hn _
    have hinv : ∀ blk : Block E, Node b 0 (2 * b - 1) h blk →
        ∀ call ∈ remove_restructure_calls blk [], RepairCall b call := by
      intro blk hblk call hcall
      simp only [remove_restructure_calls, List.mem_singleton] at hcall
      rw [hcall]
      exact ⟨h, PathStruct.nil h, hblk, fun hne => absurd rfl hne⟩
    have hsame : ∀ blk : Block E, blk.children.length ≠ 1 → height blk = h →
        RepairHeight h [] blk (remove_restructure_calls blk []) blk := by
      intro blk hc hh
      refine Or.inl ⟨?_, by simpa using hh⟩
      intro call hcall _
      simp only [remove_restructure_calls, List.mem_singleton] at hcall
      rw [hcall]
      exact hc
    rcases node_children hn with ⟨rfl, rfl⟩ | ⟨hlen, h', rfl, hch⟩
    · exact ⟨_, rfl, ⟨0, hn, by simp, by simp [Block.children]⟩,
        by simp [path_left, path_right],
        hsame _ (by simp [Block.children]) (by simp [height_mk_nil]), hinv _ hn⟩
    · match cs, hlen, hch with
      | [], hlen, _ => simp at hlen
      | [c], hlen, hch =>
        have hes : es = [] := by
          cases es with
          | nil => rfl
          | cons _ _ => simp at hlen
        subst hes
        have hc := (sub_iff_node ..).mp (hch c (by simp))
        have hH : RepairHeight (h' + 1) [] (.mk b ([] : List E) [c])
            (remove_restructure_calls (.mk b ([] : List E) [c]) []) c :=
          Or.inr ⟨b, c, by simp [remove_restructure_calls], rfl,
            by rw [node_height b h' _ _ _ hc]; rfl, Or.inl ⟨rfl, rfl⟩⟩
        refine ⟨c, rfl, ⟨h', node_mono hc (by omega) (le_refl _), by simp, ?_⟩, ?_, hH,
          hinv _ hn⟩
        · intro _ _
          have := hc.2.1
          omega
        · simp [path_left, path_right, inorder_mk, interleave]
      | c1 :: c2 :: cs', hlen, _ =>
        refine ⟨_, rfl, ⟨h' + 1, hn, by simp, ?_⟩, by simp [path_left, path_right],
          hsame _ (by simp [Block.children]) (node_height b (h' + 1) _ _ _ hn), hinv _ hn⟩
        intro _ _
        simp only [Block.entries]
        simp at hlen
        omega
  | cons h c cl cr kl kr rest h1 h2 h3 h4 h5 h6 h7 hrest ih =>
    intro es cs hn hlen
    have hlen' : (es.length : Int) = b - 2 := hlen (by simp)
    have hshape := pathStruct_shape b 1 _ rest hrest
    have hfl := frame_left_mk b kl kr cl cr c h1
    have hfr := frame_right_mk b kl kr cl cr c h1
    have hleaf : ∀ (t : Block E), Sub b h t → (cs = [] → t.children = []) ∧
        ((cs = [] ∧ t.children = []) ∨
          (cs.length = es.length + 1 ∧ t.children.length = t.entries.length + 1)) := by
      intro t ht
      have ht' := (sub_iff_node ..).mp ht
      cases h with
      | zero =>
        have h1 := ((node_mk_zero ..).mp hn).2.2.2
        have h2 := ht'.2.2.2
        exact ⟨fun _ => h2, Or.inl ⟨h1, h2⟩⟩
      | succ h =>
        have h1 := ((node_mk_succ ..).mp hn).2.2.2.1
        have h2 := ht'.2.2.2.1
        exact ⟨fun hc => by subst hc; simp at h1, Or.inr ⟨h1, h2⟩⟩
    have hblockch : ∀ x ∈ cs, ∃ h', h = h' + 1 ∧ Sub b h' x := by
      intro x hx
      rcases node_children hn with ⟨rfl, -⟩ | ⟨-, h', rfl, hch⟩
      · simp at hx
      · exact ⟨h', rfl, hch x hx⟩
    have hhead : RepairCall b
        (.mk b es cs, ⟨.mk b (kl ++ kr) (cl ++ c :: cr), cl.length⟩ :: rest) :=
      ⟨h, PathStruct.cons h c cl cr kl kr rest h1 h2 h3 h4 h5 h6 h7 hrest, hn, fun _ => hlen'⟩
    have hcons : ∀ (hd : Block E × Path E) (tl : List (Block E × Path E)),
        RepairCall b hd → (∀ call ∈ tl, RepairCall b call) →
        ∀ call ∈ hd :: tl, RepairCall b call := by
      intro hd tl h1 h2 call hc
      rcases List.mem_cons.mp hc with rfl | hc
      · exact h1
      · exact h2 call hc
    match cr, kr, h2, h4, h5, h6, h7, hfr, hhead with
    | r :: cr', [], h2, _, _, _, _, _, _ => simp at h2
    | r :: cr', k0 :: kr', h2, h4, h5, h6, h7, hfr, hhead =>
      obtain ⟨rb, res, rcs⟩ := r
      have hr : Sub b h (.mk rb res rcs) := h4 _ (by simp)
      have hrn := (sub_iff_node ..).mp hr
      have hrb : rb = b := hrn.1
      subst hrb
      have hr1 : rb - 1 ≤ (res.length : Int) := hrn.2.1
      have hr2 : (res.length : Int) ≤ 2 * rb - 1 := hrn.2.2.1
      obtain ⟨hl1, hl2⟩ := hleaf _ hr
      simp only [Block.children, Block.entries] at hl1 hl2
      have hfr' : frame_right ⟨.mk rb (kl ++ k0 :: kr') (cl ++ c :: .mk rb res rcs :: cr'),
          cl.length⟩ = k0 :: (inorder (.mk rb res rcs) ++
            interleave ([] :: cr'.map inorder) kr') := by
        rw [hfr]
        have := interleave_split [] (cr'.map inorder) (inorder (.mk rb res rcs)) [] kr' rfl
        simp only [List.nil_append, interleave] at this
        simp [interleave, this]
      have hkr' : kr'.length = cr'.length := by simpa using h2
      by_cases hlend : (res.length : Int) = rb - 1
      · rw [remove_restructure_merge_right rb hb es kl kr' res k0 cs cl cr' rcs c rest h1 hlend hl1,
          remove_restructure_calls_merge_right rb hb es kl kr' res k0 cs cl cr' rcs c rest h1
            hlend hl1]
        have hmerged : Sub rb h (.mk rb (es ++ k0 :: res) (cs ++ rcs)) := by
          rw [sub_iff_node]
          cases h with
          | zero =>
            have g1 := ((node_mk_zero ..).mp hn).2.2.2
            have g2 := ((node_mk_zero ..).mp hrn).2.2.2
            subst g1 g2
            exact (node_mk_zero ..).mpr ⟨rfl, by simp; omega, by simp; omega, rfl⟩
          | succ h =>
            have g1 := (node_mk_succ ..).mp hn
            have g2 := (node_mk_succ ..).mp hrn
            refine (node_mk_succ ..).mpr ⟨rfl, by simp; omega, by simp; omega,
              by simp; omega, ?_⟩
            intro x hx
            rcases List.mem_append.mp hx with hx | hx
            · exact g1.2.2.2.2 x hx
            · exact g2.2.2.2.2 x hx
        have hpn : Node rb 0 (2 * rb - 1) (h + 1)
            (.mk rb (kl ++ kr') (cl ++ .mk rb (es ++ k0 :: res) (cs ++ rcs) :: cr')) := by
          refine (node_mk_succ ..).mpr ⟨rfl, by simp; omega, ?_, by simp; omega, ?_⟩
          · simp only [List.length_append, List.length_cons] at h5 ⊢
            omega
          · intro x hx
            simp only [List.mem_append, List.mem_cons] at hx
            rcases hx with hx | rfl | hx
            · exact h3 x hx
            · exact hmerged
            · exact h4 x (by simp [hx])
        obtain ⟨root', g1, g2, g3, g4, g5⟩ := remove_finish_full rb hb rest h hrest ih _ _ hpn (by
          intro hne
          have := h6 hne
          simp only [List.length_append, List.length_cons] at this ⊢
          omega)
        have hH := repairHeight_lift h rest
          ⟨.mk rb (kl ++ k0 :: kr') (cl ++ c :: .mk rb res rcs :: cr'), cl.length⟩
          (.mk rb es cs) _ root' _ (by simp [Block.entries]; omega) g4
        refine ⟨root', g1, g2, ?_, hH, hcons _ _ hhead g5⟩
        rw [g3, inorder_hole _ _ _ _ _ _ h1, inorder_merge _ _ _ _ _ _ (by
          rcases hl2 with h | h
          · exact Or.inl h
          · exact Or.inr h.1)]
        simp only [path_left, path_right, hfl, hfr', List.append_assoc, List.cons_append]
      · have hres : rb ≤ (res.length : Int) := by omega
        obtain ⟨first, res', rfl⟩ : ∃ first res', res = first :: res' := by
          cases res with
          | nil => simp at hres; omega
          | cons a l => exact ⟨a, l, rfl⟩
        rw [remove_restructure_rotate_right rb hb es kl kr' res' k0 first cs cl cr' rcs c rest h1
          hres, remove_restructure_calls_rotate_right rb hb es kl kr' res' k0 first cs cl cr' rcs
          c rest hres]
        have hblock' : Sub rb h (.mk rb (es ++ [k0]) (cs ++ rcs.take 1)) := by
          rw [sub_iff_node]
          cases h with
          | zero =>
            have g1 := ((node_mk_zero ..).mp hn).2.2.2
            have g2 := ((node_mk_zero ..).mp hrn).2.2.2
            subst g1 g2
            exact (node_mk_zero ..).mpr ⟨rfl, by simp; omega, by simp; omega, rfl⟩
          | succ h =>
            have g1 := (node_mk_succ ..).mp hn
            have g2 := (node_mk_succ ..).mp hrn
            have g3 : 1 ≤ rcs.length := by
              have := g2.2.2.2.1
              omega
            refine (node_mk_succ ..).mpr ⟨rfl, by simp; omega, by simp; omega,
              by simp; omega, ?_⟩
            intro x hx
            rcases List.mem_append.mp hx with hx | hx
            · exact g1.2.2.2.2 x hx
            · exact g2.2.2.2.2 x (List.mem_of_mem_take hx)
        have hr' : Sub rb h (.mk rb res' rcs.tail) := by
          rw [sub_iff_node]
          cases h with
          | zero =>
            have g2 := ((node_mk_zero ..).mp hrn).2.2.2
            subst g2
            simp only [List.length_cons] at hres hr2
            exact (node_mk_zero ..).mpr ⟨rfl, by omega, by omega, rfl⟩
          | succ h =>
            have g2 := (node_mk_succ ..).mp hrn
            simp only [List.length_cons] at hres hr2
            have g3 := g2.2.2.2.1
            simp only [List.length_cons] at g3
            refine (node_mk_succ ..).mpr ⟨rfl, by omega, by omega, by simp; omega, ?_⟩
            intro x hx
            exact g2.2.2.2.2 x (List.mem_of_mem_tail hx)
        have hpn : Focus rb 1 (h + 1)
            (.mk rb (kl ++ first :: kr') (cl ++ .mk rb (es ++ [k0]) (cs ++ rcs.take 1) ::
              .mk rb res' rcs.tail :: cr')) rest := by
          refine ⟨(node_mk_succ ..).mpr ⟨rfl, by simp; omega, ?_, by simp; omega, ?_⟩, ?_, ?_⟩
          · simpa using h5
          · intro x hx
            simp only [List.mem_append, List.mem_cons] at hx
            rcases hx with hx | rfl | rfl | hx
            · exact h3 x hx
            · exact hblock'
            · exact hr'
            · exact h4 x (by simp [hx])
          · intro hne
            simpa [Block.entries] using h6 hne
          · intro hnil _
            simpa [Block.entries] using h7 hnil
        refine ⟨_, rfl, plug_struct rb 1 rest (h + 1) hrest _ hpn, ?_,
          repairHeight_plug rb rest h hrest _ hpn _ _,
          hcons _ _ hhead (by intro call hc; simp at hc)⟩
        rw [plug_inorder rb _ rest hshape, inorder_hole2 _ _ _ _ _ _ _ _ h1]
        have hrot := inorder_rotate_right rb es res' k0 first cs rcs (by
          rcases hl2 with h | h
          · exact Or.inl h
          · refine Or.inr ⟨h.1, ?_⟩
            intro hnil
            rw [hnil] at h
            simp at h)
        simp only [path_left, path_right, hfl, hfr', List.append_assoc, List.cons_append]
        have hrot' : inorder (.mk rb (es ++ [k0]) (cs ++ rcs.take 1)) ++
            (first :: (inorder (.mk rb res' rcs.tail) ++
              (interleave ([] :: cr'.map inorder) kr' ++ path_right rest))) =
            inorder (.mk rb es cs) ++ (k0 :: (inorder (.mk rb (first :: res') rcs) ++
              (interleave ([] :: cr'.map inorder) kr' ++ path_right rest))) := by
          have := congrArg (fun l => l ++ (interleave ([] :: cr'.map inorder) kr' ++
            path_right rest)) hrot
          simpa [List.append_assoc] using this
        rw [hrot']
    | [], kr, h2, _, h5, h6, h7, hfr, hhead =>
      have hkr : kr = [] := by
        cases kr with
        | nil => rfl
        | cons _ _ => simp at h2
      subst hkr
      rcases List.eq_nil_or_concat cl with rfl | ⟨cl', l, rfl⟩
      · have hkl : kl = [] := by
          cases kl with
          | nil => rfl
          | cons _ _ => simp at h1
        subst hkl
        exfalso
        by_cases hne : rest = []
        · have := h7 hne
          simp at this
        · have := h6 hne
          simp at this
          omega
      · rcases List.eq_nil_or_concat kl with rfl | ⟨kl', k1, rfl⟩
        · simp at h1
        · simp only [List.concat_eq_append] at *
          have h1' : kl'.length = cl'.length := by simpa using h1
          obtain ⟨lb, les, lcs⟩ := l
          have hl : Sub b h (.mk lb les lcs) := h3 _ (by simp)
          have hln := (sub_iff_node ..).mp hl
          have hlb : lb = b := hln.1
          subst hlb
          have hls1 : lb - 1 ≤ (les.length : Int) := hln.2.1
          have hls2 : (les.length : Int) ≤ 2 * lb - 1 := hln.2.2.1
          obtain ⟨hl1, hl2⟩ := hleaf _ hl
          simp only [Block.children, Block.entries] at hl1 hl2
          have hframe : (⟨Block.mk lb (kl' ++ [k1] ++ []) (cl' ++ [Block.mk lb les lcs] ++ [c]),
              (cl' ++ [Block.mk lb les lcs]).length⟩ : Frame E) =
              ⟨Block.mk lb (kl' ++ k1 :: []) (cl' ++ [Block.mk lb les lcs, c]),
                cl'.length + 1⟩ := by
            simp
          have hfl' : frame_left ⟨.mk lb (kl' ++ k1 :: []) (cl' ++ [.mk lb les lcs, c]),
              cl'.length + 1⟩ = interleave (cl'.map inorder) kl' ++
                (inorder (.mk lb les lcs) ++ [k1]) := by
            rw [← hframe, hfl]
            have := interleave_split (cl'.map inorder) [] (inorder (.mk lb les lcs)) kl' [k1]
              (by simpa using h1')
            simp only [interleave, List.nil_append] at this
            simpa [List.append_assoc] using this
          have hfr' : frame_right ⟨.mk lb (kl' ++ k1 :: []) (cl' ++ [.mk lb les lcs, c]),
              cl'.length + 1⟩ = [] := by
            rw [← hframe, hfr]
            simp [interleave]
          rw [hframe]
          rw [hframe] at hhead
          by_cases hlend : (les.length : Int) = lb - 1
          · rw [remove_restructure_merge_left lb hb es kl' [] les k1 cs cl' lcs c rest h1' hlend
              hl1, remove_restructure_calls_merge_left lb hb es kl' [] les k1 cs cl' lcs c rest
              h1' hlend hl1]
            have hmerged : Sub lb h (.mk lb (les ++ k1 :: es) (lcs ++ cs)) := by
              rw [sub_iff_node]
              cases h with
              | zero =>
                have g1 := ((node_mk_zero ..).mp hn).2.2.2
                have g2 := ((node_mk_zero ..).mp hln).2.2.2
                subst g1 g2
                exact (node_mk_zero ..).mpr ⟨rfl, by simp; omega, by simp; omega, rfl⟩
              | succ h =>
                have g1 := (node_mk_succ ..).mp hn
                have g2 := (node_mk_succ ..).mp hln
                refine (node_mk_succ ..).mpr ⟨rfl, by simp; omega, by simp; omega,
                  by simp; omega, ?_⟩
                intro x hx
                rcases List.mem_append.mp hx with hx | hx
                · exact g2.2.2.2.2 x hx
                · exact g1.2.2.2.2 x hx
            have hpn : Node lb 0 (2 * lb - 1) (h + 1)
                (.mk lb (kl' ++ []) (cl' ++ [.mk lb (les ++ k1 :: es) (lcs ++ cs)])) := by
              refine (node_mk_succ ..).mpr ⟨rfl, by simp, ?_, by simp; omega, ?_⟩
              · simp only [List.length_append, List.length_cons, List.length_nil] at h5 ⊢
                omega
              · intro x hx
                simp only [List.mem_append, List.mem_singleton] at hx
                rcases hx with hx | rfl
                · exact h3 x (by simp [hx])
                · exact hmerged
            obtain ⟨root', g1, g2, g3, g4, g5⟩ := remove_finish_full lb hb rest h hrest ih _ _ hpn (by
              intro hne
              have := h6 hne
              simp only [List.length_append, List.length_cons, List.length_nil] at this ⊢
              omega)
            have hH := repairHeight_lift h rest
              ⟨.mk lb (kl' ++ k1 :: []) (cl' ++ [.mk lb les lcs, c]), cl'.length + 1⟩
              (.mk lb es cs) _ root' _ (by simp [Block.entries]) g4
            refine ⟨root', g1, g2, ?_, hH, hcons _ _ hhead g5⟩
            rw [g3]
            have hio := inorder_hole lb kl' [] cl' [] (.mk lb (les ++ k1 :: es) (lcs ++ cs)) h1'
            rw [hio, inorder_merge _ _ _ _ _ _ (by
              rcases hl2 with h | h
              · exact Or.inl ⟨h.2, h.1⟩
              · exact Or.inr h.2)]
            simp only [path_left, path_right, hfl', hfr', List.append_assoc, List.cons_append,
              List.map_nil, interleave, List.nil_append, List.append_nil, List.singleton_append]
          · have hles : lb ≤ (les.length : Int) := by omega
            obtain ⟨les', last, rfl⟩ : ∃ les' last, les = les' ++ [last] := by
              rcases List.eq_nil_or_concat les with rfl | ⟨a, l, rfl⟩
              · simp at hles; omega
              · exact ⟨a, l, by simp⟩
            rw [remove_restructure_rotate_left lb hb es kl' [] les' k1 last cs cl' lcs c rest h1'
              hles, remove_restructure_calls_rotate_left lb hb es kl' [] les' k1 last cs cl' lcs
              c rest hles]
            have hblock' : Sub lb h (.mk lb (k1 :: es) (lcs.drop (lcs.length - 1) ++ cs)) := by
              rw [sub_iff_node]
              cases h with
              | zero =>
                have g1 := ((node_mk_zero ..).mp hn).2.2.2
                have g2 := ((node_mk_zero ..).mp hln).2.2.2
                subst g1 g2
                exact (node_mk_zero ..).mpr ⟨rfl, by simp; omega, by simp; omega, rfl⟩
              | succ h =>
                have g1 := (node_mk_succ ..).mp hn
                have g2 := (node_mk_succ ..).mp hln
                have g3 : 1 ≤ lcs.length := by
                  have := g2.2.2.2.1
                  omega
                refine (node_mk_succ ..).mpr ⟨rfl, by simp; omega, by simp; omega,
                  by simp; omega, ?_⟩
                intro x hx
                rcases List.mem_append.mp hx with hx | hx
                · exact g2.2.2.2.2 x (List.mem_of_mem_drop hx)
                · exact g1.2.2.2.2 x hx
            have hl' : Sub lb h (.mk lb les' lcs.dropLast) := by
              rw [sub_iff_node]
              simp only [List.length_append, List.length_singleton] at hles hls2
              cases h with
              | zero =>
                have g2 := ((node_mk_zero ..).mp hln).2.2.2
                subst g2
                exact (node_mk_zero ..).mpr ⟨rfl, by omega, by omega, rfl⟩
              | succ h =>
                have g2 := (node_mk_succ ..).mp hln
                have g3 := g2.2.2.2.1
                simp only [List.length_append, List.length_singleton] at g3
                refine (node_mk_succ ..).mpr ⟨rfl, by omega, by omega, by simp; omega, ?_⟩
                intro x hx
                exact g2.2.2.2.2 x (List.mem_of_mem_dropLast hx)
            have hpn : Focus lb 1 (h + 1)
                (.mk lb (kl' ++ last :: [])
                  (cl' ++ [.mk lb les' lcs.dropLast,
                    .mk lb (k1 :: es) (lcs.drop (lcs.length - 1) ++ cs)])) rest := by
              refine ⟨(node_mk_succ ..).mpr ⟨rfl, by simp; omega, ?_, by simp; omega, ?_⟩,
                ?_, ?_⟩
              · simpa using h5
              · intro x hx
                simp only [List.mem_append, List.mem_cons, List.mem_singleton,
                  List.not_mem_nil, or_false] at hx
                rcases hx with hx | rfl | rfl
                · exact h3 x (by simp [hx])
                · exact hl'
                · exact hblock'
              · intro hne
                simpa [Block.entries] using h6 hne
              · intro hnil _
                simp [Block.entries]
            refine ⟨_, rfl, plug_struct lb 1 rest (h + 1) hrest _ hpn, ?_,
              repairHeight_plug lb rest h hrest _ hpn _ _,
              hcons _ _ hhead (by intro call hc; simp at hc)⟩
            rw [plug_inorder lb _ rest hshape]
            have hio := inorder_hole2 lb kl' [] last cl' [] (.mk lb les' lcs.dropLast)
              (.mk lb (k1 :: es) (lcs.drop (lcs.length - 1) ++ cs)) h1'
            rw [hio]
            have hrot := inorder_rotate_left lb es les' k1 last cs lcs (by
              rcases hl2 with h | h
              · exact Or.inl h
              · refine Or.inr ?_
                have := h.2
                simp at this
                omega)
            simp only [path_left, path_right, hfl', hfr', List.append_assoc, List.cons_append,
              List.map_nil, interleave, List.nil_append, List.append_nil, List.singleton_append]
            have hrot' : inorder (.mk lb les' lcs.dropLast) ++
                (last :: (inorder (.mk lb (k1 :: es) (lcs.drop (lcs.length - 1) ++ cs)) ++
                  path_right rest)) =
                inorder (.mk lb (les' ++ [last]) lcs) ++ (k1 :: (inorder (.mk lb es cs) ++
                  path_right rest)) := by
              have := congrArg (fun l => l ++ path_right rest) hrot
              simpa [List.append_assoc] using this
            rw [hrot']

theorem remove_restructure_spec (b : Int) (hb : 2 ≤ b) :
    ∀ (path : Path E) (h : Nat), PathStruct b 1 h path →
      ∀ (es : List E) (cs : List (Block E)), Node b 0 (2 * b - 1) h (.mk b es cs) →
      (path ≠ [] → (es.length : Int) = b - 2) →
      ∃ root', remove_restructure (.mk b es cs) path = some root' ∧ RootOK b 1 root' ∧
        inorder root' = path_left path ++ inorder (.mk b es cs) ++ path_right path := by
  intro path h hp es cs hn hlen
  obtain ⟨root', h1, h2, h3, -⟩ := remove_restructure_full b hb path h hp es cs hn hlen
  exact ⟨root', h1, h2, h3⟩

end RemoveRestructure

section RemoveHelper
variable {E K : Type} [LinearOrder K]

theorem get_replacement_spec (b : Int) (hb : 2 ≤ b) :
    ∀ (h : Nat) (t : Block E), Sub b h t →
      ∃ (les : List E) (pushed : Path E),
        (∀ path, get_replacement t false true path = some (.mk b les [], pushed ++ path)) ∧
        Sub b 0 (.mk b les []) ∧ inorder t = path_left pushed ++ les ∧ path_right pushed = [] ∧
        (∀ q, PathStruct b 1 h q → q ≠ [] → PathStruct b 1 0 (pushed ++ q)) := by
  intro h
  induction h with
  | zero =>
    intro t ht
    obtain ⟨bc, es, cs⟩ := t
    obtain ⟨rfl, -, -, rfl⟩ := (node_mk_zero ..).mp ((sub_iff_node ..).mp ht)
    refine ⟨es, [], ?_, ht, by simp [path_left, inorder_mk, interleave_nil], rfl, ?_⟩
    · intro path
      simp [get_replacement]
    · intro q hq _
      simpa using hq
  | succ h ih =>
    intro t ht
    obtain ⟨bc, es, cs⟩ := t
    have htn := (sub_iff_node ..).mp ht
    obtain ⟨rfl, hlo, hhi, hlen, hch⟩ := (node_mk_succ ..).mp htn
    rcases List.eq_nil_or_concat cs with rfl | ⟨cs', c, rfl⟩
    · simp at hlen
    · simp only [List.concat_eq_append] at *
      have hlen' : es.length = cs'.length := by simp at hlen; omega
      obtain ⟨les, pushed, g1, g2, g3, g4, g5⟩ := ih c (hch c (by simp))
      have hframe : (⟨Block.mk bc es (cs' ++ [c]), (cs' ++ [c]).length - 1⟩ : Frame E) =
          ⟨Block.mk bc es (cs' ++ [c]), cs'.length⟩ := by simp
      have hfl : frame_left ⟨Block.mk bc es (cs' ++ [c]), cs'.length⟩ =
          interleave (cs'.map inorder) es := by
        have := frame_left_mk bc es [] cs' [] c hlen'
        simpa using this
      have hfr : frame_right ⟨Block.mk bc es (cs' ++ [c]), cs'.length⟩ = [] := by
        have := frame_right_mk bc es [] cs' [] c hlen'
        simpa [interleave] using this
      refine ⟨les, pushed ++ [⟨Block.mk bc es (cs' ++ [c]), cs'.length⟩], ?_, g2, ?_,
        ?_, ?_⟩
      · intro path
        rw [get_replacement]
        simp only [List.isEmpty_eq_true, List.append_eq_nil, List.cons_ne_self, and_false,
          if_false, Bool.false_eq_true, if_true, get_replacement_back_eq, hframe, g1]
        simp
      · have hio := inorder_hole bc es [] cs' [] c hlen'
        simp only [List.append_nil, List.map_nil, interleave] at hio
        rw [hio, path_left_append]
        simp only [path_left, List.nil_append, hfl, g3, List.append_assoc]
      · rw [path_right_append, g4]
        simp [path_right, hfr]
      · intro q hq hne
        have : PathStruct bc 1 h (⟨Block.mk bc es (cs' ++ [c]), cs'.length⟩ :: q) := by
          have := @PathStruct.cons E bc 1 h c cs' [] es [] q hlen' rfl
            (fun x hx => hch x (by simp [hx]))
            (by simp) (by simpa using hhi) (fun _ => by simpa using hlo)
            (fun hnil => absurd hnil hne) hq
          simpa using this
        have := g5 _ this (by simp)
        simpa [List.append_assoc] using this

theorem remove_helper_leaf (key : E → K) (b : Int) (hb : 2 ≤ b) (k : K) (fuel : Nat)
    (path : Path E) (hp : PathStruct b 1 0 path) (A B : List E) (e : E) (he : key e = k)
    (hA : ∀ a ∈ A, key a < k) (hB : ∀ x ∈ B, k < key x)
    (hf : Focus b 1 0 (.mk b (A ++ e :: B) []) path) :
    ∃ root', remove_helper key fuel (.mk b (A ++ e :: B) []) k path = some root' ∧
      RootOK b 1 root' ∧ inorder root' = path_left path ++ (A ++ B) ++ path_right path := by
  have hidx := get_index_present key k A B e he hA hB
  have hkey := key_at_index_present key k A B e he
  have hsz := size_t_of_int_nonneg (b - 1) (by omega)
  have hn := (node_mk_zero ..).mp hf.1
  have hio : inorder (.mk b (A ++ B) ([] : List (Block E))) = A ++ B := by
    simp [inorder_mk, interleave_nil]
  have hlen : (A ++ e :: B).length = (A ++ B).length + 1 := by simp; omega
  unfold remove_helper
  simp only [List.isEmpty_nil, if_true, hidx, hkey, Nat.add_sub_cancel, eraseIdx_at_length,
    Block.get_min_keys, Block.get_b_count]
  split
  · rename_i hlt
    have := remove_restructure_spec b hb path 0 hp (A ++ B) []
      ((node_mk_zero ..).mpr ⟨rfl, by omega, by omega, rfl⟩)
      (by
        intro hne
        have := hf.2.1 hne
        simp only [Block.entries] at this
        omega)
    rw [hio] at this
    exact this
  · rename_i hge
    refine ⟨_, rfl, plug_struct b 1 path 0 hp _ ⟨(node_mk_zero ..).mpr
      ⟨rfl, by omega, by omega, rfl⟩, ?_, ?_⟩, ?_⟩
    · intro _
      simp only [Block.entries]
      omega
    · intro _ hc
      simp [Block.children] at hc
    · rw [plug_inorder b _ path (pathStruct_shape b 1 _ path hp), hio]

theorem remove_helper_leaf_absent (key : E → K) (b : Int) (hb : 2 ≤ b) (k : K) (fuel : Nat)
    (path : Path E) (hne : path ≠ []) (es : List E)
    (hk : key_at_index key es (get_index key es k) k = false)
    (hf : Focus b 1 0 (.mk b es []) path) :
    remove_helper key fuel (.mk b es []) k path = some (plug (.mk b es []) path) := by
  have hsz := size_t_of_int_nonneg (b - 1) (by omega)
  have := hf.2.1 hne
  simp only [Block.entries] at this
  unfold remove_helper
  simp only [List.isEmpty_nil, if_true, hk, Bool.false_eq_true, if_false,
    Block.get_min_keys, Block.get_b_count]
  rw [if_neg (by omega)]

end RemoveHelper

section RemoveHelper2
variable {E K : Type} [LinearOrder K]

theorem remove_helper_internal (key : E → K) (b : Int) (hb : 2 ≤ b) (k : K) (h : Nat)
    (path : Path E) (hp : PathStruct b 1 (h + 1) path) (A B : List E) (e : E)
    (cs : List (Block E)) (he : key e = k) (hA : ∀ a ∈ A, key a < k)
    (hB : ∀ x ∈ B, k < key x) (hf : Focus b 1 (h + 1) (.mk b (A ++ e :: B) cs) path)
    (hs : KeySorted key (inorder (.mk b (A ++ e :: B) cs))) :
    ∃ root' P Q, remove_helper key 1 (.mk b (A ++ e :: B) cs) k path = some root' ∧
      RootOK b 1 root' ∧ inorder (.mk b (A ++ e :: B) cs) = P ++ e :: Q ∧
      inorder root' = path_left path ++ (P ++ Q) ++ path_right path := by
  obtain ⟨-, -, hhi, hlen, hch⟩ := (node_mk_succ ..).mp hf.1
  obtain ⟨cl, c, cr, rfl, hcl⟩ := exists_split_at cs A.length (by simp at hlen; omega)
  have hcr : (e :: B).length = cr.length := by simp at hlen ⊢; omega
  obtain ⟨les, pushed, g1, g2, g3, g4, g5⟩ := get_replacement_spec b hb h c (hch c (by simp))
  have g2n := (node_mk_zero ..).mp ((sub_iff_node ..).mp g2)
  obtain ⟨les', r, rfl⟩ : ∃ les' r, les = les' ++ [r] := by
    rcases List.eq_nil_or_concat les with rfl | ⟨a, l, rfl⟩
    · have := g2n.2.1
      simp at this
      omega
    · exact ⟨a, l, by simp⟩
  have hio := inorder_hole b A (e :: B) cl cr c hcl.symm
  have hfr0 : ∀ x : E, interleave ([] :: cr.map inorder) (x :: B) =
      x :: interleave (cr.map inorder) B := by
    intro x; simp [interleave]
  rw [hfr0] at hio
  have hsleaf : KeySorted key (les' ++ [r]) := by
    rw [hio, g3] at hs
    exact hs.sublist (((List.sublist_append_right _ _).trans
      (List.sublist_append_right _ _)).trans (List.sublist_append_left _ _))
  have hA' : ∀ a ∈ les', key a < key r := fun a ha =>
    (List.pairwise_append.mp hsleaf).2.2 a ha r (by simp)
  have hidx := get_index_present key k A B e he hA hB
  have hp3 : PathStruct b 1 0 (pushed ++ ⟨.mk b (A ++ r :: B) (cl ++ c :: cr), A.length⟩ :: path) := by
    apply g5 _ _ (by simp)
    rw [← hcl]
    exact PathStruct.cons h c cl cr A (r :: B) path hcl.symm (by simpa using hcr)
      (fun x hx => hch x (by simp [hx])) (fun x hx => hch x (by simp [hx]))
      (by simpa using hhi)
      (fun hne => by simpa [Block.entries] using hf.2.1 hne)
      (fun hnil => by simpa [Block.entries, Block.children] using hf.2.2 hnil) hp
  have hf3 : Focus b 1 0 (.mk b (les' ++ [r]) [])
      (pushed ++ ⟨.mk b (A ++ r :: B) (cl ++ c :: cr), A.length⟩ :: path) :=
    ⟨(node_mk_zero ..).mpr ⟨rfl, by omega, g2n.2.2.1, rfl⟩,
      fun _ => by simpa [Block.entries] using g2n.2.1, fun hnil => by simp at hnil⟩
  obtain ⟨root', hr1, hr2, hr3⟩ := remove_helper_leaf key b hb (key r) 0 _ hp3 les' [] r rfl
    hA' (by simp) hf3
  have hset : ((pushed ++ (⟨.mk b (A ++ e :: B) (cl ++ c :: cr), A.length⟩ : Frame E) :: path).set
      ((pushed ++ (⟨.mk b (A ++ e :: B) (cl ++ c :: cr), A.length⟩ : Frame E) :: path).length -
        (path.length + 1))
      ⟨.mk b (A ++ r :: B) (cl ++ c :: cr), A.length⟩) =
      pushed ++ ⟨.mk b (A ++ r :: B) (cl ++ c :: cr), A.length⟩ :: path := by
    have : (pushed ++ (⟨.mk b (A ++ e :: B) (cl ++ c :: cr), A.length⟩ : Frame E) :: path).length -
        (path.length + 1) = pushed.length := by simp
    rw [this, set_at_length]
  refine ⟨root', interleave (cl.map inorder) A ++ path_left pushed ++ les' ++ [r],
    interleave (cr.map inorder) B, ?_, hr2, ?_, ?_⟩
  · unfold remove_helper
    simp only [List.isEmpty_eq_true, List.append_eq_nil, and_false, if_false, hidx,
      Nat.add_sub_cancel, Nat.zero_lt_succ, if_true, reduceCtorEq]
    have hc : (cl ++ c :: cr)[A.length]? = some c := by
      rw [← hcl]; exact getElem?_at_length _ _ _
    simp only [hc, g1, Block.entries, List.getLast?_concat, set_at_length, hset]
    exact hr1
  · rw [hio, g3]
    simp [List.append_assoc]
  · rw [hr3, path_left_append, path_right_append, g4]
    have hfl := frame_left_mk b A (r :: B) cl cr c hcl.symm
    have hfr := frame_right_mk b A (r :: B) cl cr c hcl.symm
    rw [hcl] at hfl hfr
    simp only [path_left, path_right, hfl, hfr, hfr0, List.append_assoc, List.nil_append,
      List.append_nil, List.cons_append, List.singleton_append]

end RemoveHelper2

section RemoveCore
variable {E K : Type} [LinearOrder K]

/-- What the common part of the two `remove` methods does on a well-formed tree: the search
stops at a block; if the key is absent nothing in the tree has that key (and `remove_helper`,
when the set variant calls it below the root, returns the tree unchanged); if it is present,
`remove_helper` returns a well-formed tree whose traversal lost exactly the entries with that
key. -/
theorem remove_core (key : E → K) (b : Int) (hb : 2 ≤ b) (t : Block E) (hroot : RootOK b 1 t)
    (hs : KeySorted key (inorder t)) (k : K) :
    ∃ fes fcs path, search_helper key t k [] = some (.mk b fes fcs, path) ∧
      plug (.mk b fes fcs) path = t ∧
      ((key_at_index key fes (get_index key fes k) k = false ∧
          (∀ x ∈ inorder t, key x ≠ k) ∧
          (path ≠ [] → remove_helper key 1 (.mk b fes fcs) k path = some t)) ∨
        (key_at_index key fes (get_index key fes k) k = true ∧
          (∃ x ∈ inorder t, key x = k) ∧
          ∃ root', remove_helper key 1 (.mk b fes fcs) k path = some root' ∧
            RootOK b 1 root' ∧ inorder root' = abs_remove key k (inorder t))) := by
  obtain ⟨h, hf⟩ := hroot
  have hsh : Shaped b t := node_shaped _ _ _ _ _ hf.1
  obtain ⟨fes, fcs, path, h1, h2, h3, h4, h5, h6, h7, h8⟩ :=
    search_shape key b k t hsh [] PathShape.nil (by simpa [path_left, path_right] using hs)
      (by simp [path_left]) (by simp [path_right])
  obtain ⟨fes', fcs', path', h', s1, s2, s3, s4⟩ :=
    search_struct key b 1 k h t [] hf (PathStruct.nil h)
  rw [h1] at s1
  simp only [Option.some.injEq, Prod.mk.injEq, Block.mk.injEq, true_and] at s1
  obtain ⟨⟨rfl, rfl⟩, rfl⟩ := s1
  simp only [path_left, path_right, List.nil_append, List.append_nil, plug] at h4 h5
  refine ⟨fes, fcs, path, h1, h5, ?_⟩
  rcases h8 with ⟨A, e, B, rfl, he, hA, hB⟩ | ⟨rfl, A, B, rfl, hA, hB⟩
  · right
    have hidx := get_index_present key k A B e he hA hB
    refine ⟨by rw [hidx]; exact key_at_index_present key k A B e he, ⟨e, ?_, he⟩, ?_⟩
    · rw [← h4]
      simp only [List.mem_append, inorder_mk, mem_interleave]
      exact Or.inl (Or.inr (Or.inl (by simp)))
    · rcases node_children s2.1 with ⟨rfl, rfl⟩ | ⟨-, h'', rfl, -⟩
      · obtain ⟨root', r1, r2, r3⟩ := remove_helper_leaf key b hb k 1 path s3 A B e he hA hB s2
        refine ⟨root', r1, r2, ?_⟩
        have hio : inorder (.mk b (A ++ e :: B) ([] : List (Block E))) = A ++ e :: B := by
          simp [inorder_mk, interleave_nil]
        rw [r3, ← h4, hio]
        have := abs_remove_drop key k e (path_left path ++ A) (B ++ path_right path) he
          (by
            intro x hx
            rcases List.mem_append.mp hx with hx | hx
            · exact h6 x hx
            · exact hA x hx)
          (by
            intro x hx
            rcases List.mem_append.mp hx with hx | hx
            · exact hB x hx
            · exact h7 x hx)
        simpa [List.append_assoc] using this.symm
      · have hsf : KeySorted key (inorder (.mk b (A ++ e :: B) fcs)) := by
          rw [← h4] at hs
          exact hs.sublist ((List.sublist_append_right _ _).trans (List.sublist_append_left _ _))
        obtain ⟨root', P, Q, r1, r2, r3, r4⟩ :=
          remove_helper_internal key b hb k h'' path s3 A B e fcs he hA hB s2 hsf
        refine ⟨root', r1, r2, ?_⟩
        rw [r4, ← h4, r3]
        have hwhole : KeySorted key ((path_left path ++ P) ++ e :: (Q ++ path_right path)) := by
          rw [← h4, r3] at hs
          simpa [List.append_assoc] using hs
        have har := sorted_around key _ _ e hwhole
        rw [he] at har
        have := abs_remove_drop key k e (path_left path ++ P) (Q ++ path_right path) he
          har.1 har.2
        simpa [List.append_assoc] using this.symm
  · left
    have hidx := get_index_absent key k A B hA hB
    have hkey : key_at_index key (A ++ B) (get_index key (A ++ B) k) k = false := by
      rw [hidx]; exact key_at_index_absent key k A B hA
    refine ⟨hkey, ?_, ?_⟩
    · intro x hx
      rw [← h4] at hx
      simp only [inorder_mk, List.map_nil, interleave_nil, List.mem_append] at hx
      rcases hx with (hx | hx | hx) | hx
      · exact ne_of_lt (h6 x hx)
      · exact ne_of_lt (hA x hx)
      · exact (ne_of_lt (hB x hx)).symm
      · exact (ne_of_lt (h7 x hx)).symm
    · intro hne
      have hh : h' = 0 := by
        rcases node_children s2.1 with ⟨-, h0⟩ | ⟨hl, -⟩
        · exact h0
        · simp at hl
      subst hh
      rw [remove_helper_leaf_absent key b hb k 1 path hne (A ++ B) hkey s2, h5]

theorem abs_remove_sorted (key : E → K) (k : K) (l : List E) (h : KeySorted key l) :
    KeySorted key (abs_remove key k l) :=
  h.sublist (List.filter_sublist _)

theorem abs_remove_absent (key : E → K) (k : K) (l : List E) (h : ∀ x ∈ l, key x ≠ k) :
    abs_remove key k l = l :=
  List.filter_eq_self.mpr (fun x hx => by simpa using h x hx)

theorem map_remove_spec {V : Type} (b : Int) (hb : 2 ≤ b) (t : B_Tree (K × V))
    (hroot : RootOK b 1 t.root) (hs : KeySorted Prod.fst (inorder t.root)) (k : K) :
    ∃ t', MapTree.remove t k = some t' ∧ RootOK b 1 t'.root ∧
      inorder t'.root = abs_remove Prod.fst k (inorder t.root) ∧
      KeySorted Prod.fst (inorder t'.root) := by
  obtain ⟨fes, fcs, path, h1, h2, h3⟩ := remove_core Prod.fst b hb t.root hroot hs k
  rcases h3 with ⟨hk, hno, -⟩ | ⟨hk, -, root', hr1, hr2, hr3⟩
  · refine ⟨t, by simp [MapTree.remove, h1, Block.entries, hk], hroot, ?_, hs⟩
    rw [abs_remove_absent Prod.fst k _ hno]
  · refine ⟨⟨root'⟩, by simp [MapTree.remove, h1, Block.entries, hk, hr1], hr2, hr3, ?_⟩
    rw [hr3]
    exact abs_remove_sorted Prod.fst k _ hs

theorem set_remove_spec (b : Int) (hb : 2 ≤ b) (t : B_Tree Int)
    (hroot : RootOK b 1 t.root) (hs : KeySorted id (inorder t.root)) (k : Int) :
    ∃ t', SetTree.remove t k = some t' ∧ RootOK b 1 t'.root ∧
      KeySorted id (inorder t'.root) ∧
      (t' = t ∨ inorder t'.root = abs_remove id k (inorder t.root)) := by
  obtain ⟨fes, fcs, path, h1, h2, h3⟩ := remove_core id b hb t.root hroot hs k
  by_cases hp : path = []
  · exact ⟨t, by simp [SetTree.remove, h1, hp], hroot, hs, Or.inl rfl⟩
  · have hp' : (!path.isEmpty) = true := by
      cases path with
      | nil => exact absurd rfl hp
      | cons _ _ => rfl
    rcases h3 with ⟨hk, hno, hrm⟩ | ⟨hk, -, root', hr1, hr2, hr3⟩
    · refine ⟨t, ?_, hroot, hs, Or.inl rfl⟩
      simp [SetTree.remove, h1, hp', hrm hp]
    · refine ⟨⟨root'⟩, ?_, hr2, ?_, Or.inr hr3⟩
      · simp [SetTree.remove, h1, hp', hr1]
      · rw [hr3]
        exact abs_remove_sorted id k _ hs

end RemoveCore

section SearchCore
variable {E K : Type} [LinearOrder K]

theorem search_core (key : E → K) (b : Int) (t : Block E) (hsh : Shaped b t)
    (hs : KeySorted key (inorder t)) (k : K) :
    ∃ fes fcs path, search_helper key t k [] = some (.mk b fes fcs, path) ∧
      ((key_at_index key fes (get_index key fes k) k = false ∧ ∀ x ∈ inorder t, key x ≠ k) ∨
        (key_at_index key fes (get_index key fes k) k = true ∧
          ∃ e, fes[get_index key fes k - 1]? = some e ∧ key e = k ∧ e ∈ inorder t)) := by
  obtain ⟨fes, fcs, path, h1, h2, h3, h4, h5, h6, h7, h8⟩ :=
    search_shape key b k t hsh [] PathShape.nil (by simpa [path_left, path_right] using hs)
      (by simp [path_left]) (by simp [path_right])
  simp only [path_left, path_right, List.nil_append, List.append_nil, plug] at h4 h5
  refine ⟨fes, fcs, path, h1, ?_⟩
  rcases h8 with ⟨A, e, B, rfl, he, hA, hB⟩ | ⟨rfl, A, B, rfl, hA, hB⟩
  · right
    have hidx := get_index_present key k A B e he hA hB
    refine ⟨by rw [hidx]; exact key_at_index_present key k A B e he, e, ?_, he, ?_⟩
    · rw [hidx]; simp only [Nat.add_sub_cancel, getElem?_at_length]
    · rw [← h4]
      simp only [List.mem_append, inorder_mk, mem_interleave]
      exact Or.inl (Or.inr (Or.inl (by simp)))
  · left
    have hidx := get_index_absent key k A B hA hB
    refine ⟨by rw [hidx]; exact key_at_index_absent key k A B hA, ?_⟩
    intro x hx
    rw [← h4] at hx
    simp only [inorder_mk, List.map_nil, interleave_nil, List.mem_append] at hx
    rcases hx with (hx | hx | hx) | hx
    · exact ne_of_lt (h6 x hx)
    · exact ne_of_lt (hA x hx)
    · exact (ne_of_lt (hB x hx)).symm
    · exact (ne_of_lt (h7 x hx)).symm

theorem sorted_unique (key : E → K) (l : List E) (h : KeySorted key l) (x y : E) (hx : x ∈ l)
    (hy : y ∈ l) (hxy : key x = key y) : x = y := by
  induction l with
  | nil => simp at hx
  | cons a l ih =>
    have h' := List.pairwise_cons.mp h
    rcases List.mem_cons.mp hx with hxa | hxl
    · rcases List.mem_cons.mp hy with hya | hyl
      · rw [hxa, hya]
      · rw [hxa] at hxy
        exact absurd hxy (ne_of_lt (h'.1 y hyl))
    · rcases List.mem_cons.mp hy with hya | hyl
      · rw [hya] at hxy
        exact absurd hxy.symm (ne_of_lt (h'.1 x hxl))
      · exact ih h'.2 hxl hyl

theorem ordered_keySorted (key : E → K) (t : Block E) :
    Ordered key t → KeySorted key (inorder t) := by
  induction t using Block.induct with
  | step bc es cs ih =>
    intro ho
    rw [Ordered, ordered_children_iff] at ho
    obtain ⟨hes, hshape, hbr, hch⟩ := ho
    rw [inorder_mk]
    refine interleave_sorted key _ es (by simpa using hshape) hes ?_ ?_
    · intro c hc
      obtain ⟨c', hc', rfl⟩ := List.mem_map.mp hc
      exact ih c' hc' (hch c' hc')
    · intro i c x hi hx
      rw [List.getElem?_map] at hi
      cases hci : cs[i]? with
      | none => simp [hci] at hi
      | some c' =>
        simp only [hci, Option.map_some', Option.some.injEq] at hi
        subst hi
        exact hbr i c' x hci hx

theorem wellFormed_iff (key : E → K) (b : Int) (t : B_Tree E) :
    WellFormed key b t ↔ RootOK b 1 t.root ∧ KeySorted key (inorder t.root) := by
  constructor
  · rintro ⟨⟨h, hn⟩, hroot, ho, -⟩
    refine ⟨⟨h, hn, by simp, ?_⟩, ordered_keySorted key _ ho⟩
    intro _ hc
    by_contra hlt
    have : t.root.entries = [] := by
      cases hes : t.root.entries with
      | nil => rfl
      | cons _ _ => rw [hes] at hlt; simp at hlt
    exact hc (hroot this)
  · rintro ⟨⟨h, hn, -, hroot⟩, hs⟩
    refine ⟨⟨h, hn⟩, ?_, (sorted_ordered key b _ (node_shaped _ _ _ _ _ hn) hs).1,
      sorted_nodup key _ hs⟩
    intro hes
    by_contra hc
    have := hroot rfl hc
    rw [hes] at this
    simp at this

theorem rootOK_shaped (b rmin : Int) (t : Block E) (h : RootOK b rmin t) : Shaped b t := by
  obtain ⟨h, hn, -, -⟩ := h
  exact node_shaped _ _ _ _ _ hn

end SearchCore

section MapFacts
variable {K V : Type} [LinearOrder K]

theorem map_lookup_present (b : Int) (t : B_Tree (K × V)) (hsh : Shaped b t.root)
    (hs : KeySorted Prod.fst (inorder t.root)) (k : K) (v : V) (hm : (k, v) ∈ inorder t.root) :
    MapTree.in_tree t k = some true ∧ MapTree.search t k = some (some v) := by
  obtain ⟨fes, fcs, path, h1, h2⟩ := search_core Prod.fst b t.root hsh hs k
  rcases h2 with ⟨-, hno⟩ | ⟨hk, e, he1, he2, he3⟩
  · exact absurd rfl (hno (k, v) hm)
  · have : e = (k, v) := sorted_unique Prod.fst _ hs e (k, v) he3 hm he2
    subst this
    constructor
    · simp [MapTree.in_tree, h1, Block.entries, hk]
    · simp [MapTree.search, h1, Block.entries, hk, he1]

theorem map_lookup_absent (b : Int) (t : B_Tree (K × V)) (hsh : Shaped b t.root)
    (hs : KeySorted Prod.fst (inorder t.root)) (k : K) (hm : ∀ x ∈ inorder t.root, x.1 ≠ k) :
    MapTree.in_tree t k = some false ∧ MapTree.search t k = some none := by
  obtain ⟨fes, fcs, path, h1, h2⟩ := search_core Prod.fst b t.root hsh hs k
  rcases h2 with ⟨hk, -⟩ | ⟨-, e, -, he2, he3⟩
  · constructor
    · simp [MapTree.in_tree, h1, Block.entries, hk]
    · simp [MapTree.search, h1, Block.entries, hk]
  · exact absurd he2 (hm e he3)

theorem map_apply_spec (b : Int) (hb : 2 ≤ b) (t : B_Tree (K × V)) (hroot : RootOK b 1 t.root)
    (hs : KeySorted Prod.fst (inorder t.root)) (op : MapTree.Op K V) :
    ∃ t', MapTree.apply t op = some t' ∧ RootOK b 1 t'.root ∧
      KeySorted Prod.fst (inorder t'.root) ∧ inorder t'.root = abs_apply (inorder t.root) op := by
  cases op with
  | insert k v =>
    obtain ⟨t1, a1, a2, a3, a4⟩ := map_insert_ordered b (by omega) t
      (rootOK_shaped b 1 _ hroot) hs k v
    obtain ⟨t2, c1, c2⟩ := map_insert_struct b 1 (by omega) (le_refl _) t hroot k v
    rw [a1] at c1
    obtain rfl := Option.some.inj c1
    exact ⟨t1, a1, c2, a4, a3⟩
  | remove k =>
    obtain ⟨t1, a1, a2, a3, a4⟩ := map_remove_spec b hb t hroot hs k
    exact ⟨t1, a1, a2, a4, a3⟩

theorem map_run_spec (b : Int) (hb : 2 ≤ b) (ops : List (MapTree.Op K V)) :
    ∀ t : B_Tree (K × V), RootOK b 1 t.root → KeySorted Prod.fst (inorder t.root) →
      ∃ t', MapTree.run t ops = some t' ∧ RootOK b 1 t'.root ∧
        KeySorted Prod.fst (inorder t'.root) ∧ inorder t'.root = abs_run (inorder t.root) ops := by
  induction ops with
  | nil => intro t hroot hs; exact ⟨t, rfl, hroot, hs, rfl⟩
  | cons op ops ih =>
    intro t hroot hs
    obtain ⟨t1, a1, a2, a3, a4⟩ := map_apply_spec b hb t hroot hs op
    obtain ⟨t2, c1, c2, c3, c4⟩ := ih t1 a2 a3
    exact ⟨t2, by simp [MapTree.run, a1, c1], c2, c3, by rw [c4, a4]; rfl⟩

theorem abs_run_append (l : List (K × V)) (xs ys : List (MapTree.Op K V)) :
    abs_run l (xs ++ ys) = abs_run (abs_run l xs) ys := by
  induction xs generalizing l with
  | nil => rfl
  | cons x xs ih => simp [abs_run, ih]

theorem abs_run_keeps (k : K) (v : V) (ops : List (MapTree.Op K V))
    (hops : ∀ op ∈ ops, op.key ≠ k) :
    ∀ l : List (K × V), (k, v) ∈ l → (k, v) ∈ abs_run l ops := by
  induction ops with
  | nil => intro l hl; exact hl
  | cons op ops ih =>
    intro l hl
    apply ih (fun o ho => hops o (by simp [ho]))
    have hop := hops op (by simp)
    cases op with
    | insert k' v' =>
      simp only [abs_apply, mem_abs_insert]
      exact Or.inr ⟨hl, fun h => hop h.symm⟩
    | remove k' =>
      simp only [abs_apply, abs_remove, List.mem_filter, decide_eq_true_eq]
      exact ⟨hl, fun h => hop h.symm⟩

theorem rootOK_fresh {E : Type} (b : Int) (hb : 2 ≤ b) : RootOK b 1 (Block.mk b ([] : List E) []) :=
  ⟨0, (node_mk_zero ..).mpr ⟨rfl, by simp, by simp; omega, rfl⟩, by simp,
    by simp [Block.children]⟩

end MapFacts

section RemoveClaims
variable {K V : Type} [LinearOrder K]

theorem abs_run_inserts_mem (l : List (K × V)) :
    ∀ (l0 : List (K × V)) (x : K × V),
      x ∈ abs_run l0 (l.map (fun e => MapTree.Op.insert e.1 e.2)) →
      x ∈ l0 ∨ x.1 ∈ l.map Prod.fst := by
  induction l with
  | nil => intro l0 x hx; exact Or.inl hx
  | cons e l ih =>
    intro l0 x hx
    simp only [List.map_cons, abs_run, abs_apply] at hx
    rcases ih _ x hx with h | h
    · rcases (mem_abs_insert Prod.fst _ _ _).mp h with rfl | ⟨h, -⟩
      · exact Or.inr (by simp)
      · exact Or.inl h
    · exact Or.inr (by simp [h])

theorem abs_run_removes_mem (rs : List K) :
    ∀ (l0 : List (K × V)) (x : K × V),
      x ∈ abs_run l0 (rs.map MapTree.Op.remove) → x ∈ l0 ∧ x.1 ∉ rs := by
  induction rs with
  | nil => intro l0 x hx; exact ⟨hx, by simp⟩
  | cons r rs ih =>
    intro l0 x hx
    simp only [List.map_cons, abs_run, abs_apply] at hx
    obtain ⟨h1, h2⟩ := ih _ x hx
    simp only [abs_remove, List.mem_filter, decide_eq_true_eq] at h1
    exact ⟨h1.1, by simp [h1.2, h2]⟩

/-- C1: map variant.  For every degree `b ≥ 2`, every tree `t0` that the constructor returns
for `b` and every sequence of `insert` / `remove` operations run on `t0` in which the last
operation on key `k` is `insert(k, v)`, the run succeeds, `in_tree(k)` is true and `search(k)`
yields exactly `v`. -/
theorem map_round_trip (b : Int) (hb : 2 ≤ b) (pre post : List (MapTree.Op K V)) (k : K) (v : V)
    (hpost : ∀ op ∈ post, op.key ≠ k) (t0 : B_Tree (K × V))
    (h0 : MapTree.construct b = some t0) :
    ∃ t, MapTree.run t0 (pre ++ MapTree.Op.insert k v :: post) = some t ∧
      MapTree.in_tree t k = some true ∧ MapTree.search t k = some (some v) := by
  obtain ⟨rfl, -⟩ := map_construct_some b t0 h0
  obtain ⟨t, h1, h2, h3, h4⟩ := map_run_spec b hb (pre ++ MapTree.Op.insert k v :: post)
    ⟨.mk b [] []⟩ (rootOK_fresh b hb) (by simp [inorder_mk, interleave, KeySorted])
  have hmem : (k, v) ∈ inorder t.root := by
    rw [h4, abs_run_append]
    apply abs_run_keeps k v post hpost
    simp only [abs_apply]
    exact (mem_abs_insert Prod.fst _ _ _).mpr (Or.inl rfl)
  obtain ⟨g1, g2⟩ := map_lookup_present b t (rootOK_shaped b 1 _ h2) h3 k v hmem
  exact ⟨t, h1, g1, g2⟩

/-- C2: map variant.  On every well-formed tree of degree `b ≥ 2` and for every key `k`,
`remove(k)` returns a tree on which `in_tree(k)` is false, whether `k` was stored in a leaf, in
an internal block, in the root, or nowhere. -/
theorem map_remove_not_in_tree (b : Int) (hb : 2 ≤ b) (t : B_Tree (K × V)) (k : K)
    (hwf : WellFormed Prod.fst b t) :
    ∃ t', MapTree.remove t k = some t' ∧ MapTree.in_tree t' k = some false := by
  obtain ⟨hroot, hs⟩ := (wellFormed_iff Prod.fst b t).mp hwf
  obtain ⟨t', h1, h2, h3, h4⟩ := map_remove_spec b hb t hroot hs k
  refine ⟨t', h1, (map_lookup_absent b t' (rootOK_shaped b 1 _ h2) h4 k ?_).1⟩
  intro x hx
  rw [h3] at hx
  simpa [abs_remove] using (List.mem_filter.mp hx).2

/-- C3 (the code at the failing input): set variant, degree 2.  After `insert(5)` into a fresh
tree, `remove(5)` returns the tree unchanged and `in_tree(5)` is still true; likewise
`remove(3)` leaves the key 3 in the root of `example_set`. -/
theorem set_remove_root_key_stays :
    (∃ t0 t1, SetTree.construct 2 = some t0 ∧ SetTree.insert t0 5 = some t1 ∧
      SetTree.remove t1 5 = some t1 ∧ SetTree.in_tree t1 5 = some true) ∧
    SetTree.remove example_set 3 = some example_set ∧
    SetTree.in_tree example_set 3 = some true :=
  ⟨⟨⟨.mk 2 [] []⟩, ⟨.mk 2 [5] []⟩, rfl, rfl, rfl, rfl⟩, rfl, rfl⟩

/-- C6: in both variants `remove` preserves the structural invariants.  On every well-formed
tree of degree `b ≥ 2` and for every key, `remove` returns a tree in which every block has at
most `2b - 1` entries, every non-root block at least `b - 1`, every internal block
`entries + 1` children and all leaves the same depth. -/
theorem remove_preserves_structure (b : Int) (hb : 2 ≤ b) (ts : B_Tree Int) (ks : Int)
    (tm : B_Tree (K × V)) (km : K) (hs : WellFormed id b ts) (hm : WellFormed Prod.fst b tm) :
    (∃ ts', SetTree.remove ts ks = some ts' ∧ Structural b ts') ∧
    (∃ tm', MapTree.remove tm km = some tm' ∧ Structural b tm') := by
  constructor
  · obtain ⟨hroot, hso⟩ := (wellFormed_iff id b ts).mp hs
    obtain ⟨t', h1, h2, h3, -⟩ := set_remove_spec b hb ts hroot hso ks
    exact ⟨t', h1, ((wellFormed_iff id b t').mpr ⟨h2, h3⟩).1⟩
  · obtain ⟨hroot, hso⟩ := (wellFormed_iff Prod.fst b tm).mp hm
    obtain ⟨t', h1, h2, -, h4⟩ := map_remove_spec b hb tm hroot hso km
    exact ⟨t', h1, ((wellFormed_iff Prod.fst b t').mpr ⟨h2, h4⟩).1⟩

/-- C7: in both variants `remove` preserves the ordering invariant.  On every well-formed tree
of degree `b ≥ 2` and for every key, `remove` returns a tree in which every block's keys are
strictly increasing, no key occurs twice and child `i` of every internal block holds only
keys strictly between entry `i - 1` and entry `i`. -/
theorem remove_preserves_ordering (b : Int) (hb : 2 ≤ b) (ts : B_Tree Int) (ks : Int)
    (tm : B_Tree (K × V)) (km : K) (hs : WellFormed id b ts) (hm : WellFormed Prod.fst b tm) :
    (∃ ts', SetTree.remove ts ks = some ts' ∧ OrderedTree id ts') ∧
    (∃ tm', MapTree.remove tm km = some tm' ∧ OrderedTree Prod.fst tm') := by
  constructor
  · obtain ⟨hroot, hso⟩ := (wellFormed_iff id b ts).mp hs
    obtain ⟨t', h1, h2, h3, -⟩ := set_remove_spec b hb ts hroot hso ks
    exact ⟨t', h1, ((wellFormed_iff id b t').mpr ⟨h2, h3⟩).2.2⟩
  · obtain ⟨hroot, hso⟩ := (wellFormed_iff Prod.fst b tm).mp hm
    obtain ⟨t', h1, h2, -, h4⟩ := map_remove_spec b hb tm hroot hso km
    exact ⟨t', h1, ((wellFormed_iff Prod.fst b t').mpr ⟨h2, h4⟩).2.2⟩

/-- C9: map variant.  On a well-formed tree of degree `b ≥ 2` that stores key `k`, the
in-order sequence of entries after `remove(k)` is the sequence before with the one entry of
key `k` deleted: all other entries keep their place and value. -/
theorem map_remove_inorder (b : Int) (hb : 2 ≤ b) (t : B_Tree (K × V)) (k : K)
    (hwf : WellFormed Prod.fst b t) (hk : ∃ v, (k, v) ∈ inorder t.root) :
    ∃ t' before e after, MapTree.remove t k = some t' ∧
      inorder t.root = before ++ e :: after ∧ e.1 = k ∧
      (∀ x ∈ before ++ after, x.1 ≠ k) ∧ inorder t'.root = before ++ after := by
  obtain ⟨hroot, hs⟩ := (wellFormed_iff Prod.fst b t).mp hwf
  obtain ⟨t', h1, -, h3, -⟩ := map_remove_spec b hb t hroot hs k
  obtain ⟨v, hv⟩ := hk
  obtain ⟨before, after, hsplit⟩ := List.append_of_mem hv
  rw [hsplit] at hs
  have har := sorted_around Prod.fst before after (k, v) hs
  refine ⟨t', before, (k, v), after, h1, hsplit, rfl, ?_, ?_⟩
  · intro x hx
    rcases List.mem_append.mp hx with hx | hx
    · exact ne_of_lt (har.1 x hx)
    · exact (ne_of_lt (har.2 x hx)).symm
  · rw [h3, hsplit]
    exact abs_remove_drop Prod.fst k (k, v) before after rfl har.1 har.2

/-- C10: map variant.  For every degree `b ≥ 2`, every tree `t0` that the constructor returns
for `b` and every list of entries (in particular every list of `n` entries with distinct
keys), inserting all of them into `t0` and then removing all the keys in any order succeeds
and returns the initial tree: the root is a leaf with zero entries and no children, and
`in_tree` is false for every key. -/
theorem map_shrink_to_empty (b : Int) (hb : 2 ≤ b) (l : List (K × V)) (rs : List K)
    (hrs : rs.Perm (l.map Prod.fst)) (t0 : B_Tree (K × V))
    (h0 : MapTree.construct b = some t0) :
    ∃ t, MapTree.run t0 (l.map (fun e => MapTree.Op.insert e.1 e.2) ++
        rs.map MapTree.Op.remove) = some t ∧
      t = t0 ∧ t.root = .mk b [] [] ∧ ∀ k, MapTree.in_tree t k = some false := by
  obtain ⟨rfl, -⟩ := map_construct_some b t0 h0
  obtain ⟨t, h1, h2, h3, h4⟩ := map_run_spec b hb
    (l.map (fun e => MapTree.Op.insert e.1 e.2) ++ rs.map MapTree.Op.remove)
    ⟨.mk b [] []⟩ (rootOK_fresh b hb) (by simp [inorder_mk, interleave, KeySorted])
  have hempty : inorder t.root = [] := by
    rw [List.eq_nil_iff_forall_not_mem]
    intro x hx
    rw [h4, abs_run_append] at hx
    obtain ⟨g1, g2⟩ := abs_run_removes_mem rs _ x hx
    rcases abs_run_inserts_mem l _ x g1 with g3 | g3
    · simp [inorder_mk, interleave] at g3
    · exact g2 (hrs.mem_iff.mpr g3)
  have hroot : t.root = .mk b [] [] := by
    obtain ⟨h, hn, -, hr⟩ := h2
    obtain ⟨root⟩ := t
    obtain ⟨bc, es, cs⟩ := root
    simp only at hn hr hempty ⊢
    have hbc : bc = b := hn.1
    have hes : es = [] := by
      rw [inorder_mk] at hempty
      have := entries_sublist_interleave (cs.map inorder) es
      rw [hempty] at this
      exact List.sublist_nil.mp this
    subst hbc hes
    have hcs : cs = [] := by
      by_contra hc
      have := hr trivial (by simpa [Block.children] using hc)
      simp [Block.entries] at this
    rw [hcs]
  refine ⟨t, h1, ?_, hroot, ?_⟩
  · obtain ⟨root⟩ := t
    simp only at hroot
    rw [hroot]
  · intro k
    exact (map_lookup_absent b t (rootOK_shaped b 1 _ h2) h3 k (by simp [hempty])).1

theorem example_set_wf : WellFormed id 2 example_set :=
  ⟨example_set_structural, by simp [example_set, Block.entries], example_set_ordered⟩

theorem example_map_wf : WellFormed Prod.fst 2 example_map :=
  ⟨example_map_structural, by simp [example_map, Block.entries], example_map_ordered⟩

/-- Witness for C1: degree 2, key 5 inserted, removed, inserted again with value 2, then two
operations on other keys. -/
theorem map_round_trip_witness :
    (2 : Int) ≤ 2 ∧
    (∀ op ∈ [MapTree.Op.insert (7 : Int) (3 : Int), MapTree.Op.remove 9], op.key ≠ 5) ∧
    (MapTree.construct 2 : Option (B_Tree (Int × Int))) = some ⟨.mk 2 [] []⟩ ∧
    ∃ t, MapTree.run ⟨.mk 2 [] []⟩ ([MapTree.Op.insert 5 1, MapTree.Op.remove 5] ++
        MapTree.Op.insert 5 2 :: [MapTree.Op.insert (7 : Int) (3 : Int), MapTree.Op.remove 9]) =
          some t ∧
      MapTree.in_tree t 5 = some true ∧ MapTree.search t 5 = some (some 2) :=
  ⟨by decide, by simp [MapTree.Op.key], rfl,
    map_round_trip 2 (by decide) [MapTree.Op.insert 5 1, MapTree.Op.remove 5]
      [MapTree.Op.insert 7 3, MapTree.Op.remove 9] 5 2 (by simp [MapTree.Op.key])
      ⟨.mk 2 [] []⟩ rfl⟩

/-- Witness for C2: removing the root key 3 of `example_map`. -/
theorem map_remove_not_in_tree_witness :
    (2 : Int) ≤ 2 ∧ WellFormed Prod.fst 2 example_map ∧
    ∃ t', MapTree.remove example_map 3 = some t' ∧ MapTree.in_tree t' 3 = some false :=
  ⟨by decide, example_map_wf, map_remove_not_in_tree 2 (by decide) example_map 3 example_map_wf⟩

/-- Witness for C6: removing key 1 from the example trees; the leaf `[1, 2]` keeps one entry,
which is `b - 1`, so no repair runs. -/
theorem remove_preserves_structure_witness :
    (2 : Int) ≤ 2 ∧ WellFormed id 2 example_set ∧ WellFormed Prod.fst 2 example_map ∧
    ((∃ ts', SetTree.remove example_set 1 = some ts' ∧ Structural 2 ts') ∧
      (∃ tm', MapTree.remove example_map 1 = some tm' ∧ Structural 2 tm')) :=
  ⟨by decide, example_set_wf, example_map_wf,
    remove_preserves_structure 2 (by decide) example_set 1 example_map 1
      example_set_wf example_map_wf⟩

/-- Witness for C7: removing key 1 from the example trees. -/
theorem remove_preserves_ordering_witness :
    (2 : Int) ≤ 2 ∧ WellFormed id 2 example_set ∧ WellFormed Prod.fst 2 example_map ∧
    ((∃ ts', SetTree.remove example_set 1 = some ts' ∧ OrderedTree id ts') ∧
      (∃ tm', MapTree.remove example_map 1 = some tm' ∧ OrderedTree Prod.fst tm')) :=
  ⟨by decide, example_set_wf, example_map_wf,
    remove_preserves_ordering 2 (by decide) example_set 1 example_map 1
      example_set_wf example_map_wf⟩

/-- Witness for C9: removing the root key 3 of `example_map`. -/
theorem map_remove_inorder_witness :
    (2 : Int) ≤ 2 ∧ WellFormed Prod.fst 2 example_map ∧
    (∃ v, ((3 : Int), v) ∈ inorder example_map.root) ∧
    ∃ t' before e after, MapTree.remove example_map 3 = some t' ∧
      inorder example_map.root = before ++ e :: after ∧ e.1 = 3 ∧
      (∀ x ∈ before ++ after, x.1 ≠ 3) ∧ inorder t'.root = before ++ after :=
  ⟨by decide, example_map_wf, ⟨30, by simp [example_map, inorder, inorder_children, interleave]⟩,
    map_remove_inorder 2 (by decide) example_map 3 example_map_wf
      ⟨30, by simp [example_map, inorder, inorder_children, interleave]⟩⟩

/-- Witness for C10: degree 2, four entries, removed in another order. -/
theorem map_shrink_to_empty_witness :
    (2 : Int) ≤ 2 ∧
    ([3, 1, 4, 2] : List Int).Perm (([((1 : Int), (10 : Int)), (2, 20), (3, 30), (4, 40)]).map
      Prod.fst) ∧
    (MapTree.construct 2 : Option (B_Tree (Int × Int))) = some ⟨.mk 2 [] []⟩ ∧
    ∃ t, MapTree.run ⟨.mk 2 [] []⟩ (([((1 : Int), (10 : Int)), (2, 20), (3, 30), (4, 40)]).map
        (fun e => MapTree.Op.insert e.1 e.2) ++ ([3, 1, 4, 2] : List Int).map MapTree.Op.remove) =
          some t ∧
      t = ⟨.mk 2 [] []⟩ ∧ t.root = .mk 2 [] [] ∧ ∀ k, MapTree.in_tree t k = some false :=
  ⟨by decide, by decide, rfl,
    map_shrink_to_empty 2 (by decide) [(1, 10), (2, 20), (3, 30), (4, 40)] [3, 1, 4, 2]
      (by decide) ⟨.mk 2 [] []⟩ rfl⟩

end RemoveClaims

section IndexClaims
variable {E K : Type} [LinearOrder K]

theorem split_le (key : E → K) (k : K) : ∀ es : List E,
    es.Pairwise (fun x y => key x ≤ key y) →
    ∃ A B, es = A ++ B ∧ (∀ a ∈ A, key a ≤ k) ∧ (∀ x ∈ B, k < key x) := by
  intro es
  induction es with
  | nil => intro _; exact ⟨[], [], rfl, by simp, by simp⟩
  | cons e es ih =>
    intro hs
    have hs' := List.pairwise_cons.mp hs
    by_cases hle : key e ≤ k
    · obtain ⟨A, B, rfl, hA, hB⟩ := ih hs'.2
      refine ⟨e :: A, B, rfl, ?_, hB⟩
      intro a ha
      rcases List.mem_cons.mp ha with rfl | ha
      · exact hle
      · exact hA a ha
    · refine ⟨[], e :: es, rfl, by simp, ?_⟩
      intro x hx
      rcases List.mem_cons.mp hx with rfl | hx
      · exact not_le.mp hle
      · exact lt_of_lt_of_le (not_le.mp hle) (hs'.1 x hx)

/-- C17: on a block whose keys are sorted ascending, `get_index(block, k)` is the number of
entries whose key is `≤ k`; it lies between 0 and the size, the entries at an index below it
are exactly those with key `≤ k` (so every entry at or after it has a key `> k`), and `k` is a
key of the block iff the index is positive and the entry just before it has key `k`. -/
theorem get_index_counts (key : E → K) (es : List E) (k : K)
    (hs : es.Pairwise (fun x y => key x ≤ key y)) :
    get_index key es k = es.countP (fun e => decide (key e ≤ k)) ∧
    get_index key es k ≤ es.length ∧
    (∀ i e, es[i]? = some e → (i < get_index key es k ↔ key e ≤ k)) ∧
    ((∃ e ∈ es, key e = k) ↔ key_at_index key es (get_index key es k) k = true) := by
  obtain ⟨A, B, rfl, hA, hB⟩ := split_le key k es hs
  have hidx := get_index_append key A B k hA hB
  rw [hidx]
  refine ⟨?_, by simp, ?_, ?_⟩
  · rw [List.countP_append, List.countP_eq_length.mpr (by simpa using hA),
      List.countP_eq_zero.mpr (by simpa using hB)]
    rfl
  · intro i e hi
    by_cases hlt : i < A.length
    · rw [List.getElem?_append_left hlt] at hi
      exact ⟨fun _ => hA e (List.getElem?_mem hi), fun _ => hlt⟩
    · rw [List.getElem?_append_right (by omega)] at hi
      have := hB e (List.getElem?_mem hi)
      exact ⟨fun h => absurd h hlt, fun h => absurd h (not_le.mpr this)⟩
  · constructor
    · rintro ⟨e, he, hk⟩
      have heA : e ∈ A := by
        rcases List.mem_append.mp he with h | h
        · exact h
        · exact absurd hk (ne_of_gt (hB e h))
      rcases List.eq_nil_or_concat A with rfl | ⟨A', a, rfl⟩
      · simp at heA
      · have hlast : key a = k := by
          apply le_antisymm (hA a (by simp))
          rw [← hk]
          have hsA : (A' ++ [a]).Pairwise (fun x y => key x ≤ key y) := by
            have := hs.sublist (List.sublist_append_left (A'.concat a) B)
            simpa using this
          rw [List.pairwise_append] at hsA
          simp only [List.concat_eq_append, List.mem_append, List.mem_singleton] at heA
          rcases heA with h | rfl
          · exact hsA.2.2 e h a (by simp)
          · exact le_refl _
        have h1 : (A'.concat a ++ B) = A' ++ a :: B := by simp
        have h2 : (A'.concat a).length = A'.length + 1 := by simp
        rw [h1, h2]
        exact key_at_index_present key k A' B a hlast
    · intro h
      obtain ⟨e, he, hk, -⟩ := key_at_index_some key _ _ k h
      exact ⟨e, List.getElem?_mem he, hk⟩

/-- Witness for C17: the block `[1, 3, 3, 7]` and key 3. -/
theorem get_index_counts_witness :
    ([1, 3, 3, 7] : List Int).Pairwise (fun x y => id x ≤ id y) ∧
    (get_index id ([1, 3, 3, 7] : List Int) 3 =
        ([1, 3, 3, 7] : List Int).countP (fun e => decide (id e ≤ 3)) ∧
      get_index id ([1, 3, 3, 7] : List Int) 3 ≤ ([1, 3, 3, 7] : List Int).length ∧
      (∀ i e, ([1, 3, 3, 7] : List Int)[i]? = some e →
        (i < get_index id ([1, 3, 3, 7] : List Int) 3 ↔ id e ≤ 3)) ∧
      ((∃ e ∈ ([1, 3, 3, 7] : List Int), id e = 3) ↔
        key_at_index id ([1, 3, 3, 7] : List Int)
          (get_index id ([1, 3, 3, 7] : List Int) 3) 3 = true)) :=
  ⟨by decide, get_index_counts id [1, 3, 3, 7] 3 (by decide)⟩

end IndexClaims

section StoredFacts
variable {E K : Type} [LinearOrder K]

theorem stored_iff_mem_inorder (e : E) : ∀ t : Block E, Stored e t ↔ e ∈ inorder t := by
  intro t
  induction t using Block.induct with
  | step b es cs ih =>
    rw [inorder_mk, mem_interleave]
    constructor
    · intro h
      cases h with
      | here _ _ _ he => exact Or.inl he
      | in_child _ _ _ c hc hs =>
        exact Or.inr ⟨inorder c, List.mem_map.mpr ⟨c, hc, rfl⟩, (ih c hc).mp hs⟩
    · rintro (he | ⟨l, hl, hx⟩)
      · exact Stored.here b es cs he
      · obtain ⟨c, hc, rfl⟩ := List.mem_map.mp hl
        exact Stored.in_child b es cs c hc ((ih c hc).mpr hx)

theorem set_in_tree_spec (b : Int) (t : B_Tree Int) (hsh : Shaped b t.root)
    (hs : KeySorted id (inorder t.root)) (k : Int) :
    ∃ r, SetTree.in_tree t k = some r ∧ (r = true ↔ k ∈ inorder t.root) ∧
      (r = true → SetTree.insert t k = some t) := by
  obtain ⟨fes, fcs, path, h1, h2⟩ := search_core id b t.root hsh hs k
  rcases h2 with ⟨hk, hno⟩ | ⟨hk, e, -, he2, he3⟩
  · refine ⟨false, by simp [SetTree.in_tree, h1, Block.entries, hk], ?_, by simp⟩
    simp only [Bool.false_eq_true, false_iff]
    intro hmem
    exact hno k hmem rfl
  · refine ⟨true, by simp [SetTree.in_tree, h1, Block.entries, hk], ?_,
      fun _ => by simp [SetTree.insert, h1, Block.entries, hk]⟩
    simp only [true_iff]
    simp only [id] at he2
    rw [← he2]
    exact he3

theorem map_in_tree_spec {V : Type} (b : Int) (t : B_Tree (K × V)) (hsh : Shaped b t.root)
    (hs : KeySorted Prod.fst (inorder t.root)) (k : K) :
    ∃ r, MapTree.in_tree t k = some r ∧ (r = true ↔ ∃ v, (k, v) ∈ inorder t.root) := by
  obtain ⟨fes, fcs, path, h1, h2⟩ := search_core Prod.fst b t.root hsh hs k
  rcases h2 with ⟨hk, hno⟩ | ⟨hk, e, -, he2, he3⟩
  · refine ⟨false, by simp [MapTree.in_tree, h1, Block.entries, hk], ?_⟩
    simp only [Bool.false_eq_true, false_iff]
    rintro ⟨v, hmem⟩
    exact hno (k, v) hmem rfl
  · refine ⟨true, by simp [MapTree.in_tree, h1, Block.entries, hk], ?_⟩
    simp only [true_iff]
    obtain ⟨k', v⟩ := e
    simp only at he2
    subst he2
    exact ⟨v, he3⟩

theorem set_remove_absent (b : Int) (hb : 2 ≤ b) (t : B_Tree Int)
    (hroot : RootOK b 1 t.root) (hs : KeySorted id (inorder t.root)) (k : Int)
    (hno : k ∉ inorder t.root) : SetTree.remove t k = some t := by
  obtain ⟨fes, fcs, path, h1, h2, h3⟩ := remove_core id b hb t.root hroot hs k
  by_cases hp : path = []
  · simp [SetTree.remove, h1, hp]
  · have hp' : (!path.isEmpty) = true := by
      cases path with
      | nil => exact absurd rfl hp
      | cons _ _ => rfl
    rcases h3 with ⟨hk, -, hrm⟩ | ⟨-, ⟨x, hx, hxk⟩, -⟩
    · simp [SetTree.remove, h1, hp', hrm hp]
    · simp only [id] at hxk
      exact absurd (hxk ▸ hx) hno

theorem map_remove_absent {V : Type} (b : Int) (hb : 2 ≤ b) (t : B_Tree (K × V))
    (hroot : RootOK b 1 t.root) (hs : KeySorted Prod.fst (inorder t.root)) (k : K)
    (hno : ∀ x ∈ inorder t.root, x.1 ≠ k) : MapTree.remove t k = some t := by
  obtain ⟨fes, fcs, path, h1, h2, h3⟩ := remove_core Prod.fst b hb t.root hroot hs k
  rcases h3 with ⟨hk, -, -⟩ | ⟨-, ⟨x, hx, hxk⟩, -⟩
  · simp [MapTree.remove, h1, Block.entries, hk]
  · exact absurd hxk (hno x hx)

end StoredFacts

section NoopClaims
variable {K V : Type} [LinearOrder K]

/-- C12: set variant.  On a well-formed tree, `insert(k)` of a key that is already stored (in
any block, at any depth) returns the tree unchanged, so `insert(k)` followed by `insert(k)`
gives what one `insert(k)` gives. -/
theorem set_insert_existing (b : Int) (t : B_Tree Int) (k : Int) (hwf : WellFormed id b t)
    (hk : Stored k t.root) :
    SetTree.insert t k = some t ∧
    (SetTree.insert t k).bind (fun t1 => SetTree.insert t1 k) = SetTree.insert t k := by
  obtain ⟨hroot, hs⟩ := (wellFormed_iff id b t).mp hwf
  obtain ⟨r, -, h2, h3⟩ := set_in_tree_spec b t (rootOK_shaped b 1 _ hroot) hs k
  have hins := h3 (h2.mpr ((stored_iff_mem_inorder k t.root).mp hk))
  exact ⟨hins, by simp [hins]⟩

/-- C13: in both variants, on a well-formed tree of degree `b ≥ 2`, `remove(k)` of a key that
no block stores returns the very same tree. -/
theorem remove_absent_is_noop (b : Int) (hb : 2 ≤ b) (ts : B_Tree Int) (ks : Int)
    (tm : B_Tree (K × V)) (km : K) (hs : WellFormed id b ts) (hm : WellFormed Prod.fst b tm)
    (hks : ¬ Stored ks ts.root) (hkm : ∀ v, ¬ Stored (km, v) tm.root) :
    SetTree.remove ts ks = some ts ∧ MapTree.remove tm km = some tm := by
  obtain ⟨hroot, hso⟩ := (wellFormed_iff id b ts).mp hs
  obtain ⟨hroot', hso'⟩ := (wellFormed_iff Prod.fst b tm).mp hm
  constructor
  · exact set_remove_absent b hb ts hroot hso ks
      (fun h => hks ((stored_iff_mem_inorder ks ts.root).mpr h))
  · apply map_remove_absent b hb tm hroot' hso' km
    rintro ⟨k', v⟩ hx hk
    simp only at hk
    subst hk
    exact hkm v ((stored_iff_mem_inorder _ tm.root).mpr hx)

/-- C14: in both variants removal is idempotent.  On a well-formed tree of degree `b ≥ 2` and
for every key `k`, `remove(k)` returns a tree on which a second `remove(k)` returns that same
tree. -/
theorem remove_idempotent (b : Int) (hb : 2 ≤ b) (ts : B_Tree Int) (ks : Int)
    (tm : B_Tree (K × V)) (km : K) (hs : WellFormed id b ts) (hm : WellFormed Prod.fst b tm) :
    (∃ t1, SetTree.remove ts ks = some t1 ∧ SetTree.remove t1 ks = some t1) ∧
    (∃ t1, MapTree.remove tm km = some t1 ∧ MapTree.remove t1 km = some t1) := by
  obtain ⟨hroot, hso⟩ := (wellFormed_iff id b ts).mp hs
  obtain ⟨hroot', hso'⟩ := (wellFormed_iff Prod.fst b tm).mp hm
  constructor
  · obtain ⟨t1, h1, h2, h3, h4⟩ := set_remove_spec b hb ts hroot hso ks
    refine ⟨t1, h1, ?_⟩
    rcases h4 with rfl | h4
    · exact h1
    · apply set_remove_absent b hb t1 h2 h3 ks
      rw [h4]
      simp [abs_remove]
  · obtain ⟨t1, h1, h2, h3, h4⟩ := map_remove_spec b hb tm hroot' hso' km
    refine ⟨t1, h1, map_remove_absent b hb t1 h2 h4 km ?_⟩
    intro x hx
    rw [h3] at hx
    simpa [abs_remove] using (List.mem_filter.mp hx).2

/-- C16: search is correct with respect to the stored keys.  On a well-formed tree, `in_tree(k)`
returns true iff some block of the tree holds `k` (an entry of key `k` in the map), which is
the same as `k` occurring in the in-order traversal; and on a freshly constructed tree of any
degree `in_tree` returns false for every key. -/
theorem in_tree_iff_stored (b : Int) (ts : B_Tree Int) (ks : Int) (tm : B_Tree (K × V)) (km : K)
    (hs : WellFormed id b ts) (hm : WellFormed Prod.fst b tm) :
    (∃ r, SetTree.in_tree ts ks = some r ∧ (r = true ↔ Stored ks ts.root) ∧
      (Stored ks ts.root ↔ ks ∈ inorder ts.root)) ∧
    (∃ r, MapTree.in_tree tm km = some r ∧ (r = true ↔ ∃ v, Stored (km, v) tm.root) ∧
      ((∃ v, Stored (km, v) tm.root) ↔ ∃ v, (km, v) ∈ inorder tm.root)) ∧
    (∀ (d k : Int) (t0 : B_Tree Int), SetTree.construct d = some t0 →
      SetTree.in_tree t0 k = some false) ∧
    (∀ (d : Int) (k : K) (t0 : B_Tree (K × V)), MapTree.construct d = some t0 →
      MapTree.in_tree t0 k = some false) := by
  obtain ⟨hroot, hso⟩ := (wellFormed_iff id b ts).mp hs
  obtain ⟨hroot', hso'⟩ := (wellFormed_iff Prod.fst b tm).mp hm
  have hex : (∃ v, Stored (km, v) tm.root) ↔ ∃ v, (km, v) ∈ inorder tm.root :=
    exists_congr (fun v => stored_iff_mem_inorder (km, v) tm.root)
  refine ⟨?_, ?_, ?_, ?_⟩
  · obtain ⟨r, h1, h2, -⟩ := set_in_tree_spec b ts (rootOK_shaped b 1 _ hroot) hso ks
    exact ⟨r, h1, h2.trans (stored_iff_mem_inorder ks ts.root).symm,
      stored_iff_mem_inorder ks ts.root⟩
  · obtain ⟨r, h1, h2⟩ := map_in_tree_spec b tm (rootOK_shaped b 1 _ hroot') hso' km
    exact ⟨r, h1, h2.trans hex.symm, hex⟩
  · intro d k t0 h0
    obtain ⟨rfl, -⟩ := set_construct_some d t0 h0
    simp [SetTree.in_tree, search_helper, get_index_nil, key_at_index, Block.entries]
  · intro d k t0 h0
    obtain ⟨rfl, -⟩ := map_construct_some d t0 h0
    simp [MapTree.in_tree, search_helper, get_index_nil, key_at_index, Block.entries]

theorem example_set_stored_four : Stored (4 : Int) example_set.root :=
  (stored_iff_mem_inorder _ _).mpr
    (by simp [example_set, inorder, inorder_children, interleave])

theorem example_set_not_stored_nine : ¬ Stored (9 : Int) example_set.root := fun h => by
  have := (stored_iff_mem_inorder _ _).mp h
  simp [example_set, inorder, inorder_children, interleave] at this

theorem example_map_not_stored_nine : ∀ v : Int, ¬ Stored ((9 : Int), v) example_map.root :=
  fun v h => by
    have := (stored_iff_mem_inorder _ _).mp h
    simp [example_map, inorder, inorder_children, interleave] at this

/-- Witness for C12: key 4 sits in a leaf of `example_set`. -/
theorem set_insert_existing_witness :
    WellFormed id 2 example_set ∧ Stored (4 : Int) example_set.root ∧
    SetTree.insert example_set 4 = some example_set ∧
    (SetTree.insert example_set 4).bind (fun t1 => SetTree.insert t1 4) =
      SetTree.insert example_set 4 :=
  ⟨example_set_wf, example_set_stored_four,
    set_insert_existing 2 example_set 4 example_set_wf example_set_stored_four⟩

/-- Witness for C13: key 9 is in neither example tree. -/
theorem remove_absent_is_noop_witness :
    (2 : Int) ≤ 2 ∧ WellFormed id 2 example_set ∧ WellFormed Prod.fst 2 example_map ∧
    ¬ Stored (9 : Int) example_set.root ∧ (∀ v : Int, ¬ Stored ((9 : Int), v) example_map.root) ∧
    SetTree.remove example_set 9 = some example_set ∧
    MapTree.remove example_map 9 = some example_map :=
  ⟨by decide, example_set_wf, example_map_wf, example_set_not_stored_nine,
    example_map_not_stored_nine,
    remove_absent_is_noop 2 (by decide) example_set 9 example_map 9 example_set_wf
      example_map_wf example_set_not_stored_nine example_map_not_stored_nine⟩

/-- Witness for C14: removing key 4 twice from the example trees. -/
theorem remove_idempotent_witness :
    (2 : Int) ≤ 2 ∧ WellFormed id 2 example_set ∧ WellFormed Prod.fst 2 example_map ∧
    (∃ t1, SetTree.remove example_set 4 = some t1 ∧ SetTree.remove t1 4 = some t1) ∧
    (∃ t1, MapTree.remove example_map 4 = some t1 ∧ MapTree.remove t1 4 = some t1) :=
  ⟨by decide, example_set_wf, example_map_wf,
    remove_idempotent 2 (by decide) example_set 4 example_map 4 example_set_wf example_map_wf⟩

/-- Witness for C16: key 4 in the example trees. -/
theorem in_tree_iff_stored_witness :
    WellFormed id 2 example_set ∧ WellFormed Prod.fst 2 example_map ∧
    ((∃ r, SetTree.in_tree example_set 4 = some r ∧ (r = true ↔ Stored 4 example_set.root) ∧
      (Stored 4 example_set.root ↔ 4 ∈ inorder example_set.root)) ∧
    (∃ r, MapTree.in_tree example_map 4 = some r ∧
      (r = true ↔ ∃ v, Stored (4, v) example_map.root) ∧
      ((∃ v, Stored (4, v) example_map.root) ↔ ∃ v, (4, v) ∈ inorder example_map.root)) ∧
    (∀ (d k : Int) (t0 : B_Tree Int), SetTree.construct d = some t0 →
      SetTree.in_tree t0 k = some false) ∧
    (∀ (d : Int) (k : Int) (t0 : B_Tree (Int × Int)), MapTree.construct d = some t0 →
      MapTree.in_tree t0 k = some false)) :=
  ⟨example_set_wf, example_map_wf,
    in_tree_iff_stored 2 example_set 4 example_map 4 example_set_wf example_map_wf⟩

end NoopClaims

section MapEntries
variable {E K : Type} [LinearOrder K]

theorem map_entries_children_eq_map (f : E → E) (cs : List (Block E)) :
    map_entries_children f cs = cs.map (map_entries f) := by
  induction cs with
  | nil => rfl
  | cons c cs ih => simp [map_entries_children, ih]

theorem map_entries_mk (f : E → E) (b : Int) (es : List E) (cs : List (Block E)) :
    map_entries f (.mk b es cs) = .mk b (es.map f) (cs.map (map_entries f)) := by
  rw [map_entries, map_entries_children_eq_map]

theorem map_fix {α : Type} (f : α → α) (l : List α) (h : ∀ x ∈ l, f x = x) : l.map f = l := by
  induction l with
  | nil => rfl
  | cons a l ih =>
    rw [List.map_cons, h a (by simp), ih (fun x hx => h x (by simp [hx]))]

theorem map_entries_fix (f : E → E) : ∀ t : Block E, (∀ e ∈ inorder t, f e = e) →
    map_entries f t = t := by
  intro t
  induction t using Block.induct with
  | step b es cs ih =>
    intro h
    rw [map_entries_mk]
    have h1 : es.map f = es := map_fix f es (fun x hx => h x (by
      rw [inorder_mk, mem_interleave]; exact Or.inl hx))
    have h2 : cs.map (map_entries f) = cs := map_fix _ cs (fun c hc => ih c hc (fun e he => h e (by
      rw [inorder_mk, mem_interleave]
      exact Or.inr ⟨inorder c, List.mem_map.mpr ⟨c, hc, rfl⟩, he⟩)))
    rw [h1, h2]

theorem map_entries_plug (f : E → E) (b : Int) (t : Block E) (path : Path E)
    (hp : PathShape b path) (hl : ∀ e ∈ path_left path, f e = e)
    (hr : ∀ e ∈ path_right path, f e = e) :
    map_entries f (plug t path) = plug (map_entries f t) path := by
  induction hp generalizing t with
  | nil => rfl
  | cons c cl cr kl kr rest h1 h2 h3 h4 h5 ih =>
    simp only [path_left, path_right, frame_left_mk _ _ _ _ _ _ h1,
      frame_right_mk _ _ _ _ _ _ h1, List.mem_append, mem_interleave] at hl hr
    rw [plug_cons, plug_cons, ih _ (fun e he => hl e (Or.inl he)) (fun e he => hr e (Or.inr he)),
      map_entries_mk]
    have e1 : kl.map f = kl := map_fix f kl (fun x hx => hl x (Or.inr (Or.inl hx)))
    have e2 : kr.map f = kr := map_fix f kr (fun x hx => hr x (Or.inl (Or.inl hx)))
    have e3 : cl.map (map_entries f) = cl := map_fix _ cl (fun x hx =>
      map_entries_fix f x (fun e he => hl e (Or.inr (Or.inr
        ⟨inorder x, List.mem_map.mpr ⟨x, hx, rfl⟩, he⟩))))
    have e4 : cr.map (map_entries f) = cr := map_fix _ cr (fun x hx =>
      map_entries_fix f x (fun e he => hr e (Or.inl (Or.inr
        ⟨inorder x, by simp; exact Or.inr ⟨x, hx, rfl⟩, he⟩))))
    simp only [List.map_append, List.map_cons, e1, e2, e3, e4]

theorem interleave_map (f : E → E) (cs : List (List E)) (es : List E) :
    interleave (cs.map (List.map f)) (es.map f) = (interleave cs es).map f := by
  induction cs generalizing es with
  | nil => simp [interleave_nil]
  | cons c cs ih =>
    cases es with
    | nil =>
      have := ih []
      simp only [List.map_nil] at this
      simp [interleave, this]
    | cons e es => simp [interleave, ih es]

theorem inorder_map_entries (f : E → E) : ∀ t : Block E,
    inorder (map_entries f t) = (inorder t).map f := by
  intro t
  induction t using Block.induct with
  | step b es cs ih =>
    rw [map_entries_mk, inorder_mk, inorder_mk, ← interleave_map, List.map_map, List.map_map]
    congr 1
    apply List.map_congr_left
    intro c hc
    exact ih c hc

theorem shaped_map_entries (f : E → E) (b : Int) (t : Block E) (h : Shaped b t) :
    Shaped b (map_entries f t) := by
  induction h with
  | mk es cs hshape hch ih =>
    rw [map_entries_mk]
    refine Shaped.mk _ _ ?_ ?_
    · rcases hshape with rfl | h
      · exact Or.inl rfl
      · exact Or.inr (by simpa using h)
    · intro c hc
      obtain ⟨c', hc', rfl⟩ := List.mem_map.mp hc
      exact ih c' hc'

end MapEntries

section OverwriteClaim
variable {K V : Type} [LinearOrder K]

/-- C11: map variant.  On a well-formed tree that stores key `k` with value `v0`,
`insert(k, v)` reports `v0` as the previous value and returns the same tree of blocks in which
only the entry of key `k` changed, to `(k, v)`: shape, keys and all other values are as
before, and a later `search(k)` yields `v`. -/
theorem map_insert_overwrites (b : Int) (t : B_Tree (K × V)) (k : K) (v0 v : V)
    (hwf : WellFormed Prod.fst b t) (hk : Stored (k, v0) t.root) :
    ∃ t', MapTree.insert t k v = some t' ∧ MapTree.insert_prev t k = some (some v0) ∧
      t'.root = map_entries (fun e => if e.1 = k then (e.1, v) else e) t.root ∧
      inorder t'.root = (inorder t.root).map (fun e => if e.1 = k then (e.1, v) else e) ∧
      MapTree.search t' k = some (some v) ∧ MapTree.in_tree t' k = some true := by
  obtain ⟨hroot, hs⟩ := (wellFormed_iff Prod.fst b t).mp hwf
  have hsh := rootOK_shaped b 1 _ hroot
  have hmem := (stored_iff_mem_inorder (k, v0) t.root).mp hk
  obtain ⟨fes, fcs, path, h1, h2, h3, h4, h5, h6, h7, h8⟩ :=
    search_shape Prod.fst b k t.root hsh [] PathShape.nil
      (by simpa [path_left, path_right] using hs) (by simp [path_left]) (by simp [path_right])
  simp only [path_left, path_right, List.nil_append, List.append_nil, plug] at h4 h5
  have hfl : ∀ e ∈ path_left path,
      (fun e : K × V => if e.1 = k then (e.1, v) else e) e = e := fun e he => by
    simp [ne_of_lt (h6 e he)]
  have hfr : ∀ e ∈ path_right path,
      (fun e : K × V => if e.1 = k then (e.1, v) else e) e = e := fun e he => by
    simp [(ne_of_lt (h7 e he)).symm]
  rcases h8 with ⟨A, e, B, rfl, he, hA, hB⟩ | ⟨rfl, A, B, rfl, hA, hB⟩
  · have hidx := get_index_present Prod.fst k A B e he hA hB
    have hkey := key_at_index_present Prod.fst k A B e he
    have helem : (A ++ e :: B)[A.length]? = some e := getElem?_at_length _ _ _
    have hein : e ∈ inorder t.root := by
      rw [← h4]
      simp only [List.mem_append, inorder_mk, mem_interleave]
      exact Or.inl (Or.inr (Or.inl (by simp)))
    have hev : e = (k, v0) := sorted_unique Prod.fst _ hs e (k, v0) hein hmem he
    subst hev
    have hfA : A.map (fun e : K × V => if e.1 = k then (e.1, v) else e) = A :=
      map_fix _ A (fun x hx => by simp [ne_of_lt (hA x hx)])
    have hfB : B.map (fun e : K × V => if e.1 = k then (e.1, v) else e) = B :=
      map_fix _ B (fun x hx => by simp [(ne_of_lt (hB x hx)).symm])
    have hsf : KeySorted Prod.fst (inorder (.mk b (A ++ (k, v0) :: B) fcs)) := by
      rw [← h4] at hs
      exact hs.sublist ((List.sublist_append_right _ _).trans (List.sublist_append_left _ _))
    have hfc : fcs.map (map_entries (fun e : K × V => if e.1 = k then (e.1, v) else e)) = fcs := by
      apply map_fix
      intro c hc
      apply map_entries_fix
      intro x hx
      have hcs : fcs ≠ [] := List.ne_nil_of_mem hc
      have hlen : fcs.length = (A ++ (k, v0) :: B).length + 1 := by
        rcases shaped_shape h2 with h | h
        · exact absurd h hcs
        · exact h
      have hsplit : fcs = fcs.take (A.length + 1) ++ fcs.drop (A.length + 1) :=
        (List.take_append_drop _ _).symm
      have hio : inorder (.mk b (A ++ (k, v0) :: B) fcs) =
          interleave ((fcs.take (A.length + 1)).map inorder) A ++
            (k, v0) :: interleave ((fcs.drop (A.length + 1)).map inorder) B := by
        rw [inorder_mk]
        nth_rewrite 1 [hsplit]
        rw [List.map_append, interleave_append_cons _ _ _ _ _ (by
          simp only [List.length_map, List.length_take]
          simp only [List.length_append, List.length_cons] at hlen
          omega)]
      rw [hio] at hsf
      have har := sorted_around Prod.fst _ _ _ hsf
      rw [hsplit] at hc
      rcases List.mem_append.mp hc with hc | hc
      · have := har.1 x (mem_interleave.mpr (Or.inr ⟨inorder c, List.mem_map.mpr ⟨c, hc, rfl⟩, hx⟩))
        simp [ne_of_lt this]
      · have := har.2 x (mem_interleave.mpr (Or.inr ⟨inorder c, List.mem_map.mpr ⟨c, hc, rfl⟩, hx⟩))
        simp [(ne_of_lt this).symm]
    have hroot' : plug (.mk b (A ++ (k, v) :: B) fcs) path =
        map_entries (fun e => if e.1 = k then (e.1, v) else e) t.root := by
      rw [← h5, map_entries_plug _ b _ path h3 hfl hfr, map_entries_mk]
      simp only [List.map_append, List.map_cons, hfA, hfB, hfc, if_true]
    have hio' : inorder (plug (.mk b (A ++ (k, v) :: B) fcs) path) =
        (inorder t.root).map (fun e => if e.1 = k then (e.1, v) else e) := by
      rw [hroot', inorder_map_entries]
    have hsh' : Shaped b (plug (.mk b (A ++ (k, v) :: B) fcs) path) := by
      rw [hroot']
      exact shaped_map_entries _ b _ hsh
    have hs' : KeySorted Prod.fst (inorder (plug (.mk b (A ++ (k, v) :: B) fcs) path)) := by
      rw [hio']
      unfold KeySorted
      rw [List.pairwise_map]
      refine List.Pairwise.imp ?_ hs
      intro x y hxy
      have hx : (if x.1 = k then (x.1, v) else x).1 = x.1 := by split <;> rfl
      have hy : (if y.1 = k then (y.1, v) else y).1 = y.1 := by split <;> rfl
      rw [hx, hy]
      exact hxy
    have hm' : (k, v) ∈ inorder (plug (.mk b (A ++ (k, v) :: B) fcs) path) := by
      rw [hio']
      exact List.mem_map.mpr ⟨(k, v0), hmem, by simp⟩
    obtain ⟨g1, g2⟩ := map_lookup_present b ⟨plug (.mk b (A ++ (k, v) :: B) fcs) path⟩
      hsh' hs' k v hm'
    refine ⟨⟨plug (.mk b (A ++ (k, v) :: B) fcs) path⟩, ?_, ?_, hroot', hio', g2, g1⟩
    · simp only [MapTree.insert, h1, hidx, hkey, if_true, Nat.add_sub_cancel, helem,
        set_at_length]
    · simp only [MapTree.insert_prev, h1, hidx, hkey, if_true, Nat.add_sub_cancel, helem]
  · exfalso
    have : (k, v0) ∈ path_left path ++ inorder (.mk b (A ++ B) ([] : List (Block (K × V)))) ++
        path_right path := by rw [h4]; exact hmem
    simp only [inorder_mk, List.map_nil, interleave_nil, List.mem_append] at this
    rcases this with (hx | hx | hx) | hx
    · exact absurd rfl (ne_of_lt (h6 _ hx))
    · exact absurd rfl (ne_of_lt (hA _ hx))
    · exact absurd rfl (ne_of_lt (hB _ hx))
    · exact absurd rfl (ne_of_lt (h7 _ hx))

theorem example_map_stored_three : Stored ((3 : Int), (30 : Int)) example_map.root :=
  (stored_iff_mem_inorder _ _).mpr
    (by simp [example_map, inorder, inorder_children, interleave])

/-- Witness for C11: key 3 sits in the internal root of `example_map` with value 30. -/
theorem map_insert_overwrites_witness :
    WellFormed Prod.fst 2 example_map ∧ Stored ((3 : Int), (30 : Int)) example_map.root ∧
    ∃ t', MapTree.insert example_map 3 7 = some t' ∧
      MapTree.insert_prev example_map 3 = some (some 30) ∧
      t'.root = map_entries (fun e => if e.1 = 3 then (e.1, 7) else e) example_map.root ∧
      inorder t'.root =
        (inorder example_map.root).map (fun e => if e.1 = 3 then (e.1, 7) else e) ∧
      MapTree.search t' 3 = some (some 7) ∧ MapTree.in_tree t' 3 = some true :=
  ⟨example_map_wf, example_map_stored_three,
    map_insert_overwrites 2 example_map 3 30 7 example_map_wf example_map_stored_three⟩

end OverwriteClaim

section RepairFacts
variable {E : Type}

theorem plug_inorder_congr : ∀ (path : Path E) (t1 t2 : Block E), inorder t1 = inorder t2 →
    inorder (plug t1 path) = inorder (plug t2 path) := by
  intro path
  induction path with
  | nil => intro t1 t2 h; simpa [plug] using h
  | cons f rest ih =>
    intro t1 t2 h
    obtain ⟨⟨b, es, cs⟩, i⟩ := f
    simp only [plug]
    apply ih
    simp only [inorder_mk, List.map_set, h]

theorem merge_right_eq (b : Int) (es kl kr res : List E)
    (k0 : E) (cs cl cr rcs : List (Block E)) (c : Block E)
    (restructure : Block E → Option (Block E)) (rest : Path E)
    (h1 : kl.length = cl.length) (hleaf : cs = [] → rcs = []) :
    merge (.mk b (kl ++ k0 :: kr) (cl ++ c :: .mk b res rcs :: cr)) (cl.length + 1) cl.length
        (.mk b es cs) true false restructure rest =
      if (kl ++ kr).length < size_t_of_int (b - 1) then
        restructure (.mk b (kl ++ kr) (cl ++ .mk b (es ++ [k0] ++ res) (cs ++ rcs) :: cr))
      else some (plug (.mk b (kl ++ kr) (cl ++ .mk b (es ++ [k0] ++ res) (cs ++ rcs) :: cr)) rest) := by
  have hk : (kl ++ k0 :: kr)[cl.length]? = some k0 := by
    rw [← h1]; exact getElem?_at_length _ _ _
  have her : (kl ++ k0 :: kr).eraseIdx cl.length = kl ++ kr := by
    rw [← h1]; exact eraseIdx_at_length _ _ _
  have hset2 : ∀ X : Block E, ((cl ++ c :: .mk b res rcs :: cr).set cl.length X).eraseIdx
      (cl.length + 1) = cl ++ X :: cr := by
    intro X
    rw [set_at_length]
    have := eraseIdx_at_length (cl ++ [X]) cr (.mk b res rcs)
    simpa using this
  have hci : get_child_index (.mk b (kl ++ k0 :: kr) (cl ++ c :: .mk b res rcs :: cr))
      (cl.length + 1) = ((cl.length + 1 : Nat) : Int) := by
    simp [get_child_index, Block.children]
  have hch : (if cs.isEmpty = true then cs else cs ++ rcs) = cs ++ rcs := by
    cases cs with
    | nil => simp [hleaf rfl]
    | cons _ _ => simp
  simp only [merge, Block.children, getElem?_at_length_succ, get_child_index_mk, hci, if_true,
    Block.get_min_keys, Block.get_b_count]
  simp only [show ¬ ((cl.length : Int) < 0 ∨ ((cl.length + 1 : Nat) : Int) < 0) by omega,
    if_false, Int.toNat_ofNat, hk, her, hset2, Block.entries, hch]

theorem merge_left_eq (b : Int) (es kl kr les : List E)
    (k1 : E) (cs cl cr lcs : List (Block E)) (c : Block E)
    (restructure : Block E → Option (Block E)) (rest : Path E)
    (h1 : kl.length = cl.length) (hleaf : cs = [] → lcs = []) :
    merge (.mk b (kl ++ k1 :: kr) (cl ++ .mk b les lcs :: c :: cr)) cl.length (cl.length + 1)
        (.mk b es cs) false true restructure rest =
      if (kl ++ kr).length < size_t_of_int (b - 1) then
        restructure (.mk b (kl ++ kr) (cl ++ .mk b (les ++ [k1] ++ es) (lcs ++ cs) :: cr))
      else some (plug (.mk b (kl ++ kr) (cl ++ .mk b (les ++ [k1] ++ es) (lcs ++ cs) :: cr)) rest) := by
  have hk : (kl ++ k1 :: kr)[cl.length]? = some k1 := by
    rw [← h1]; exact getElem?_at_length _ _ _
  have her : (kl ++ k1 :: kr).eraseIdx cl.length = kl ++ kr := by
    rw [← h1]; exact eraseIdx_at_length _ _ _
  have hci : get_child_index (.mk b (kl ++ k1 :: kr) (cl ++ .mk b les lcs :: c :: cr))
      (cl.length + 1) = ((cl.length + 1 : Nat) : Int) := by
    simp [get_child_index, Block.children]
  have hset2 : ∀ X : Block E, ((cl ++ .mk b les lcs :: c :: cr).set (cl.length + 1) X).eraseIdx
      cl.length = cl ++ X :: cr := by
    intro X
    have := set_at_length (cl ++ [.mk b les lcs]) cr c X
    simp only [List.append_assoc, List.singleton_append, List.length_append,
      List.length_singleton] at this
    rw [this, eraseIdx_at_length]
  have hch : (if cs.isEmpty = true then cs else lcs ++ cs) = lcs ++ cs := by
    cases cs with
    | nil => simp [hleaf rfl]
    | cons _ _ => simp
  simp only [merge, Block.children, getElem?_at_length, get_child_index_mk, hci,
    Bool.false_eq_true, if_false, if_true, Block.get_min_keys, Block.get_b_count]
  simp only [show ¬ (((cl.length + 1 : Nat) : Int) - 1 < 0 ∨ (cl.length : Int) < 0) by omega,
    if_false, show (((cl.length + 1 : Nat) : Int) - 1).toNat = cl.length by omega,
    Int.toNat_ofNat, hk, her, hset2, Block.entries, hch]

end RepairFacts

section RepairClaims
variable {E : Type}

/-- C19: borrowing from the right sibling is a rotation.  When the underflowing block (with
`b - 2` entries) is child `i` of its parent and its right sibling holds at least `b` entries,
`remove_restructure` appends the parent's entry `i` to the block, puts the sibling's first
entry in its place, drops that entry from the sibling and moves the sibling's first child (if
any) to the end of the block's children.  Afterwards the block has `b - 1` entries, the sibling
at least `b - 1`, the parent as many entries and children as before, and the in-order sequence
of the parent and of the whole tree is unchanged. -/
theorem borrow_right_is_rotation (b : Int) (es kl kr res : List E)
    (k0 first : E) (cs cl cr rcs : List (Block E)) (c : Block E) (rest : Path E)
    (h1 : kl.length = cl.length) (hes : (es.length : Int) = b - 2)
    (hres : b ≤ ((first :: res).length : Int))
    (hkind : (cs = [] ∧ rcs = []) ∨ (cs.length = es.length + 1 ∧ rcs ≠ [])) :
    remove_restructure (.mk b es cs)
        (⟨.mk b (kl ++ k0 :: kr) (cl ++ c :: .mk b (first :: res) rcs :: cr), cl.length⟩ :: rest) =
      some (plug (.mk b (kl ++ first :: kr)
        (cl ++ .mk b (es ++ [k0]) (cs ++ rcs.take 1) :: .mk b res rcs.tail :: cr)) rest) ∧
    ((es ++ [k0]).length : Int) = b - 1 ∧ b - 1 ≤ (res.length : Int) ∧
    (kl ++ first :: kr).length = (kl ++ k0 :: kr).length ∧
    (cl ++ .mk b (es ++ [k0]) (cs ++ rcs.take 1) :: .mk b res rcs.tail :: cr).length =
      (cl ++ c :: .mk b (first :: res) rcs :: cr).length ∧
    inorder (.mk b (kl ++ first :: kr)
        (cl ++ .mk b (es ++ [k0]) (cs ++ rcs.take 1) :: .mk b res rcs.tail :: cr)) =
      inorder (.mk b (kl ++ k0 :: kr) (cl ++ .mk b es cs :: .mk b (first :: res) rcs :: cr)) ∧
    inorder (plug (.mk b (kl ++ first :: kr)
        (cl ++ .mk b (es ++ [k0]) (cs ++ rcs.take 1) :: .mk b res rcs.tail :: cr)) rest) =
      inorder (plug (.mk b es cs)
        (⟨.mk b (kl ++ k0 :: kr) (cl ++ c :: .mk b (first :: res) rcs :: cr), cl.length⟩ :: rest)) := by
  have hb : 2 ≤ b := by omega
  have hio : inorder (.mk b (kl ++ first :: kr)
        (cl ++ .mk b (es ++ [k0]) (cs ++ rcs.take 1) :: .mk b res rcs.tail :: cr)) =
      inorder (.mk b (kl ++ k0 :: kr) (cl ++ .mk b es cs :: .mk b (first :: res) rcs :: cr)) := by
    rw [inorder_hole2 _ _ _ _ _ _ _ _ h1, inorder_hole2 _ _ _ _ _ _ _ _ h1]
    have := congrArg (fun l => interleave (cl.map inorder) kl ++
      (l ++ interleave ([] :: cr.map inorder) kr)) (inorder_rotate_right b es res k0 first cs rcs hkind)
    simpa [List.append_assoc] using this
  refine ⟨remove_restructure_rotate_right b hb es kl kr res k0 first cs cl cr rcs c rest h1 hres,
    by simp; omega, by simp at hres; omega, by simp, by simp, hio, ?_⟩
  rw [plug_cons]
  exact plug_inorder_congr rest _ _ hio

/-- C20: merge folds block, separator and sibling into one block.  When an underflowing block
(`b - 2` entries) is merged with a sibling of `b - 1` entries, the surviving block holds the
left entries, then the separating parent entry, then the right entries (`2b - 2` of them), and
the two child lists in the same order; the parent loses exactly the separating entry and the
absorbed sibling's child slot, and its in-order sequence is unchanged.  This holds for the
right-sibling merge and for the left-sibling merge; `merge` then hands the parent to
`remove_restructure` if it underflows and otherwise is done. -/
theorem merge_folds_into_one_block (b : Int) (es kl kr sib : List E) (sep : E)
    (cs cl cr scs : List (Block E)) (c : Block E) (restructure : Block E → Option (Block E))
    (rest : Path E) (h1 : kl.length = cl.length) (hes : (es.length : Int) = b - 2)
    (hsib : (sib.length : Int) = b - 1)
    (hkind : (cs = [] ∧ scs = []) ∨ (cs.length = es.length + 1 ∧ scs.length = sib.length + 1)) :
    (merge (.mk b (kl ++ sep :: kr) (cl ++ c :: .mk b sib scs :: cr)) (cl.length + 1) cl.length
        (.mk b es cs) true false restructure rest =
      if (kl ++ kr).length < size_t_of_int (b - 1) then
        restructure (.mk b (kl ++ kr) (cl ++ .mk b (es ++ [sep] ++ sib) (cs ++ scs) :: cr))
      else
        some (plug (.mk b (kl ++ kr) (cl ++ .mk b (es ++ [sep] ++ sib) (cs ++ scs) :: cr)) rest)) ∧
    (merge (.mk b (kl ++ sep :: kr) (cl ++ .mk b sib scs :: c :: cr)) cl.length (cl.length + 1)
        (.mk b es cs) false true restructure rest =
      if (kl ++ kr).length < size_t_of_int (b - 1) then
        restructure (.mk b (kl ++ kr) (cl ++ .mk b (sib ++ [sep] ++ es) (scs ++ cs) :: cr))
      else
        some (plug (.mk b (kl ++ kr) (cl ++ .mk b (sib ++ [sep] ++ es) (scs ++ cs) :: cr)) rest)) ∧
    ((es ++ [sep] ++ sib).length : Int) = 2 * b - 2 ∧
    ((sib ++ [sep] ++ es).length : Int) = 2 * b - 2 ∧
    ((es ++ [sep] ++ sib).length : Int) ≤ 2 * b - 1 ∧
    inorder (.mk b (kl ++ kr) (cl ++ .mk b (es ++ [sep] ++ sib) (cs ++ scs) :: cr)) =
      inorder (.mk b (kl ++ sep :: kr) (cl ++ .mk b es cs :: .mk b sib scs :: cr)) ∧
    inorder (.mk b (kl ++ kr) (cl ++ .mk b (sib ++ [sep] ++ es) (scs ++ cs) :: cr)) =
      inorder (.mk b (kl ++ sep :: kr) (cl ++ .mk b sib scs :: .mk b es cs :: cr)) := by
  have hleaf : cs = [] → scs = [] := by
    rintro rfl
    rcases hkind with ⟨-, h⟩ | ⟨h, -⟩
    · exact h
    · simp at h
  refine ⟨merge_right_eq b es kl kr sib sep cs cl cr scs c restructure rest h1 hleaf,
    merge_left_eq b es kl kr sib sep cs cl cr scs c restructure rest h1 hleaf,
    by simp; omega, by simp; omega, by simp; omega, ?_, ?_⟩
  · rw [inorder_hole _ _ _ _ _ _ h1, inorder_hole2 _ _ _ _ _ _ _ _ h1]
    have := inorder_merge b es sib sep cs scs (by
      rcases hkind with h | ⟨h, -⟩
      · exact Or.inl h
      · exact Or.inr h)
    simp only [List.append_assoc, List.singleton_append, List.nil_append, this, List.cons_append]
  · rw [inorder_hole _ _ _ _ _ _ h1, inorder_hole2 _ _ _ _ _ _ _ _ h1]
    have := inorder_merge b sib es sep scs cs (by
      rcases hkind with ⟨h, h'⟩ | ⟨-, h⟩
      · exact Or.inl ⟨h', h⟩
      · exact Or.inr h)
    simp only [List.append_assoc, List.singleton_append, List.nil_append, this, List.cons_append]

/-- C18 (the claim fails): degree 2, parent `[10, 20]` with children `[1, 2]`, the underflowing
block (emptied by removing 15) and `[30]`.  The right sibling holds `b - 1 = 1` entry and the
left sibling `b = 2`, yet the block is merged with the right sibling: the parent is left with
one entry and two children. -/
theorem underflow_merges_despite_rich_left :
    remove_restructure (.mk 2 ([] : List Int) [])
        [⟨.mk 2 [10, 20] [.mk 2 [1, 2] [], .mk 2 [15] [], .mk 2 [30] []], 1⟩] =
      some (.mk 2 [10] [.mk 2 [1, 2] [], .mk 2 [20, 30] []]) ∧
    SetTree.remove ⟨.mk 2 [10, 20] [.mk 2 [1, 2] [], .mk 2 [15] [], .mk 2 [30] []]⟩ 15 =
      some ⟨.mk 2 [10] [.mk 2 [1, 2] [], .mk 2 [20, 30] []]⟩ ∧
    MapTree.remove (⟨.mk 2 [(10, 0), (20, 0)]
        [.mk 2 [(1, 0), (2, 0)] [], .mk 2 [(15, 0)] [], .mk 2 [(30, 0)] []]⟩ :
          B_Tree (Int × Int)) 15 =
      some ⟨.mk 2 [(10, 0)] [.mk 2 [(1, 0), (2, 0)] [], .mk 2 [(20, 0), (30, 0)] []]⟩ :=
  ⟨rfl, rfl, rfl⟩

/-- C18 (amended): underflow repair turns to the left sibling only when the block has no right
sibling.  An underflowing non-root block whose right sibling holds exactly `b - 1` entries is
merged with that sibling whatever the blocks `cl` to its left hold, and the parent loses the
separating entry and one child; a block that is the last child of its parent and whose left
sibling holds at least `b` entries borrows that sibling's last entry through the parent, which
keeps its entry and child counts. -/
theorem underflow_left_only_without_right (b : Int) (hb : 2 ≤ b) (es kl kr res les : List E)
    (k0 last : E) (cs cl cr rcs lcs : List (Block E)) (c : Block E) (rest : Path E)
    (h1 : kl.length = cl.length) (hres : (res.length : Int) = b - 1)
    (hleaf : cs = [] → rcs = []) (hles : b ≤ ((les ++ [last]).length : Int)) :
    (remove_restructure (.mk b es cs)
        (⟨.mk b (kl ++ k0 :: kr) (cl ++ c :: .mk b res rcs :: cr), cl.length⟩ :: rest) =
      if (kl ++ kr).length < size_t_of_int (b - 1) then
        remove_restructure (.mk b (kl ++ kr) (cl ++ .mk b (es ++ k0 :: res) (cs ++ rcs) :: cr)) rest
      else
        some (plug (.mk b (kl ++ kr) (cl ++ .mk b (es ++ k0 :: res) (cs ++ rcs) :: cr)) rest)) ∧
    (kl ++ kr).length + 1 = (kl ++ k0 :: kr).length ∧
    (cl ++ Block.mk b (es ++ k0 :: res) (cs ++ rcs) :: cr).length + 1 =
      (cl ++ c :: Block.mk b res rcs :: cr).length ∧
    remove_restructure (.mk b es cs)
        (⟨.mk b (kl ++ k0 :: kr) (cl ++ [.mk b (les ++ [last]) lcs, c]), cl.length + 1⟩ :: rest) =
      some (plug (.mk b (kl ++ last :: kr)
        (cl ++ [.mk b les lcs.dropLast, .mk b (k0 :: es) (lcs.drop (lcs.length - 1) ++ cs)]))
          rest) ∧
    (kl ++ last :: kr).length = (kl ++ k0 :: kr).length ∧
    (cl ++ [Block.mk b les lcs.dropLast,
        Block.mk b (k0 :: es) (lcs.drop (lcs.length - 1) ++ cs)]).length =
      (cl ++ [Block.mk b (les ++ [last]) lcs, c]).length :=
  ⟨remove_restructure_merge_right b hb es kl kr res k0 cs cl cr rcs c rest h1 hres hleaf,
    by simp; omega, by simp; omega,
    remove_restructure_rotate_left b hb es kl kr les k0 last cs cl lcs c rest h1 hles,
    by simp, by simp⟩

end RepairClaims

section ConstructClaims
variable {K V : Type}

end ConstructClaims

section RepairWitnesses

/-- Witness for C19: degree 2, the emptied first leaf borrows 20 through the parent. -/
theorem borrow_right_is_rotation_witness :
    remove_restructure (.mk 2 ([] : List Int) [])
        [⟨.mk 2 [10] [.mk 2 [5] [], .mk 2 [20, 30] []], 0⟩] =
      some (.mk 2 [20] [.mk 2 [10] [], .mk 2 [30] []]) :=
  (borrow_right_is_rotation 2 [] [] [] [30] 10 20 [] [] [] [] (.mk 2 [5] []) []
    rfl (by decide) (by decide) (Or.inl ⟨rfl, rfl⟩)).1

/-- Witness for C20: degree 2, an emptied leaf merged with a one-entry sibling on either
side, under a parent that keeps one entry. -/
theorem merge_folds_into_one_block_witness :
    merge (.mk 2 [10, 20] [.mk 2 ([5] : List Int) [], .mk 2 [15] [], .mk 2 [30] []]) 1 0
        (.mk 2 [] []) true false (fun _ => none) [] =
      some (.mk 2 [20] [.mk 2 [10, 15] [], .mk 2 [30] []]) ∧
    merge (.mk 2 [10, 20] [.mk 2 ([15] : List Int) [], .mk 2 [5] [], .mk 2 [30] []]) 0 1
        (.mk 2 [] []) false true (fun _ => none) [] =
      some (.mk 2 [20] [.mk 2 [15, 10] [], .mk 2 [30] []]) :=
  ⟨(merge_folds_into_one_block 2 [] [] [20] [15] 10 [] [] [.mk 2 [30] []] []
      (.mk 2 [5] []) (fun _ => none) [] rfl (by decide) (by decide) (Or.inl ⟨rfl, rfl⟩)).1,
    (merge_folds_into_one_block 2 [] [] [20] [15] 10 [] [] [.mk 2 [30] []] []
      (.mk 2 [5] []) (fun _ => none) [] rfl (by decide) (by decide) (Or.inl ⟨rfl, rfl⟩)).2.1⟩

/-- Witness for C18 (amended): degree 2, the tree of the counterexample for the merge, and a
last child with a two-entry left sibling for the borrow. -/
theorem underflow_left_only_without_right_witness :
    remove_restructure (.mk 2 ([] : List Int) [])
        [⟨.mk 2 [10, 20] [.mk 2 [1, 2] [], .mk 2 [15] [], .mk 2 [30] []], 1⟩] =
      some (.mk 2 [10] [.mk 2 [1, 2] [], .mk 2 [20, 30] []]) ∧
    remove_restructure (.mk 2 ([] : List Int) [])
        [⟨.mk 2 [10, 20] [.mk 2 [1, 2] [], .mk 2 [12, 15] [], .mk 2 [25] []], 2⟩] =
      some (.mk 2 [10, 15] [.mk 2 [1, 2] [], .mk 2 [12] [], .mk 2 [20] []]) :=
  ⟨(underflow_left_only_without_right 2 (by decide) [] [10] [] [30] [12] 20 15 [] [.mk 2 [1, 2] []]
      [] [] [] (.mk 2 [15] []) [] rfl (by decide) (fun _ => rfl) (by decide)).1,
    (underflow_left_only_without_right 2 (by decide) [] [10] [] [30] [12] 20 15 [] [.mk 2 [1, 2] []]
      [] [] [] (.mk 2 [25] []) [] rfl (by decide) (fun _ => rfl) (by decide)).2.2.2.1⟩

end RepairWitnesses

section ShortPathClaims

/-- C30: set variant.  When the search for `key` stops at the root (the root is a leaf, or
the root block stores `key`), the recorded path holds only the root, `remove(key)` does not
call `remove_helper` and returns the tree unchanged, so `in_tree(key)` answers after the call
what it answered before. -/
theorem set_remove_at_root_unchanged (t : B_Tree Int) (key : Int)
    (h : t.root.children = [] ∨
      key_at_index id t.root.entries (get_index id t.root.entries key) key = true) :
    search_helper id t.root key [] = some (t.root, []) ∧
    SetTree.remove t key = some t ∧
    (SetTree.remove t key).bind (fun t' => SetTree.in_tree t' key) = SetTree.in_tree t key := by
  obtain ⟨⟨b, es, cs⟩⟩ := t
  simp only [Block.children, Block.entries] at h
  have hs : search_helper id (Block.mk b es cs) key [] = some (Block.mk b es cs, []) := by
    rw [search_helper]
    rcases h with rfl | h
    · simp
    · simp [h]
  have hr : SetTree.remove ⟨.mk b es cs⟩ key = some ⟨.mk b es cs⟩ := by
    simp [SetTree.remove, hs]
  exact ⟨hs, hr, by rw [hr]; rfl⟩

/-- Witness for C30: key 3 is stored in the root of `example_set`. -/
theorem set_remove_at_root_unchanged_witness :
    SetTree.remove example_set 3 = some example_set :=
  (set_remove_at_root_unchanged example_set 3 (Or.inr rfl)).2.1

/-- C29 (the code at the failing input): degree 2, `insert(5)` then `remove(5)` on a fresh set
tree and `insert(5, 0)` then `remove(5)` on a fresh map tree.  The set tree still holds 5 in
its root, the map tree is empty: the set tree is not the map tree with the values erased, and
`in_tree(5)` differs. -/
theorem set_map_diverge_on_root_removal :
    ∃ (ts : B_Tree Int) (tm : B_Tree (Int × Int)),
      ((SetTree.construct 2).bind (fun t => SetTree.insert t 5)).bind
        (fun t => SetTree.remove t 5) = some ts ∧
      ((MapTree.construct 2).bind (fun t => MapTree.insert t 5 0)).bind
        (fun t => MapTree.remove t 5) = some tm ∧
      ts.root = .mk 2 [5] [] ∧ keys_only tm.root = .mk 2 [] [] ∧
      ts.root ≠ keys_only tm.root ∧
      SetTree.in_tree ts 5 = some true ∧ MapTree.in_tree tm 5 = some false :=
  ⟨⟨.mk 2 [5] []⟩, ⟨.mk 2 [] []⟩, rfl, rfl, rfl, rfl, (fun h => by cases h), rfl, rfl⟩

end ShortPathClaims

section SplitClaims
variable {E K : Type} [LinearOrder K]

/-- C21: split shape.  When `insert_restructure` splits a block holding exactly `2b` entries
(`b ≥ 2`) under a parent with `entries + 1` children, the block keeps entries `[0, b)`, the entry at index `b` is promoted into the
parent, and the new right sibling receives entries `(b, 2b)` in order, `b - 1` of them; an
internal block (`2b + 1` children) keeps children `[0, b]` and the sibling receives the other
`b`; entries and children of the two halves, with the promoted entry between, are exactly
those of the block. -/
theorem split_shape (key : E → K) (b pb : Int) (hb : 2 ≤ b) (es pes : List E)
    (cs cl cr : List (Block E)) (c : Block E)
    (hes : (es.length : Int) = 2 * b) (hcs : cs = [] ∨ (cs.length : Int) = 2 * b + 1)
    (hp : pes.length = (cl ++ cr).length) :
    ∃ up, es[b.toNat]? = some up ∧
      insert_split key (.mk b es cs) (.mk pb pes (cl ++ c :: cr)) cl.length =
        some (.mk pb (pes.insertIdx (get_index key pes (key up)) up)
          ((cl ++ Block.mk b (es.take b.toNat) (cs.take (b.toNat + 1)) :: cr).insertIdx
            (get_index key pes (key up) + 1)
            (Block.mk b (es.drop (b.toNat + 1)) (cs.drop (b.toNat + 1))))) ∧
      ((es.take b.toNat).length : Int) = b ∧ ((es.drop (b.toNat + 1)).length : Int) = b - 1 ∧
      es = es.take b.toNat ++ up :: es.drop (b.toNat + 1) ∧
      cs = cs.take (b.toNat + 1) ++ cs.drop (b.toNat + 1) ∧
      (cs ≠ [] → ((cs.take (b.toNat + 1)).length : Int) = b + 1 ∧
        ((cs.drop (b.toNat + 1)).length : Int) = b) := by
  have hlt : b.toNat < es.length := by omega
  have hup : es[b.toNat]? = some es[b.toNat] := List.getElem?_eq_getElem hlt
  refine ⟨es[b.toNat], hup, ?_, ?_, ?_, ?_, (List.take_append_drop _ _).symm, ?_⟩
  · apply insert_split_eq key b pb es pes cs cl cr c _ (by omega) hup
    · rcases hcs with h | h
      · exact Or.inl h
      · exact Or.inr (by omega)
    · have := get_index_le key pes (key es[b.toNat])
      simp only [List.length_append, List.length_cons] at hp ⊢
      omega
  · rw [List.length_take]; omega
  · rw [List.length_drop]; omega
  · conv_lhs => rw [← List.take_append_drop b.toNat es]
    rw [List.drop_eq_getElem_cons hlt]
  · intro hne
    rcases hcs with h | h
    · exact absurd h hne
    · rw [List.length_take, List.length_drop]
      omega

/-- Witness for C21: degree 2, the leaf `[1, 2, 3, 4]` under a parent `[9]`. -/
theorem split_shape_witness :
    insert_split id (.mk 2 [1, 2, 3, 4] []) (.mk 2 ([9] : List Int) [.mk 2 [1, 2, 3] [],
        .mk 2 [10] []]) 0 =
      some (.mk 2 [3, 9] [.mk 2 [1, 2] [], .mk 2 [4] [], .mk 2 [10] []]) := by
  obtain ⟨up, h1, h2, -⟩ := split_shape id 2 2 (by decide) ([1, 2, 3, 4] : List Int) [9] [] []
    [.mk 2 [10] []] (.mk 2 [1, 2, 3] []) (by decide) (Or.inl rfl) rfl
  have hup : up = 3 := by
    have : ([1, 2, 3, 4] : List Int)[(2 : Int).toNat]? = some 3 := rfl
    rw [this] at h1
    exact (Option.some.inj h1).symm
  subst hup
  exact h2

/-- C22: split promotion.  The promoted entry goes into the parent's entries at its sorted
position `p`, which is the child index of the split block; the block stays child `p` and the
new right sibling becomes child `p + 1`.  When the split block is the root (empty path) the
result is a new root with exactly one entry, the promoted one, and two children, the two
halves. -/
theorem split_promotion (key : E → K) (b pb : Int) (hb : 2 ≤ b) (es kl kr : List E)
    (cs cl cr : List (Block E)) (c : Block E) (up : E)
    (hes : (es.length : Int) = 2 * b) (hcs : cs = [] ∨ (cs.length : Int) = 2 * b + 1)
    (hup : es[b.toNat]? = some up) (h1 : kl.length = cl.length)
    (hkl : ∀ x ∈ kl, key x < key up) (hkr : ∀ x ∈ kr, key up < key x) :
    get_index key (kl ++ kr) (key up) = cl.length ∧
    insert_split key (.mk b es cs) (.mk pb (kl ++ kr) (cl ++ c :: cr)) cl.length =
      some (.mk pb (kl ++ up :: kr)
        (cl ++ Block.mk b (es.take b.toNat) (cs.take (b.toNat + 1)) ::
          Block.mk b (es.drop (b.toNat + 1)) (cs.drop (b.toNat + 1)) :: cr)) ∧
    (kl ++ up :: kr)[cl.length]? = some up ∧
    (cl ++ Block.mk b (es.take b.toNat) (cs.take (b.toNat + 1)) ::
      Block.mk b (es.drop (b.toNat + 1)) (cs.drop (b.toNat + 1)) :: cr)[cl.length]? =
        some (Block.mk b (es.take b.toNat) (cs.take (b.toNat + 1))) ∧
    (cl ++ Block.mk b (es.take b.toNat) (cs.take (b.toNat + 1)) ::
      Block.mk b (es.drop (b.toNat + 1)) (cs.drop (b.toNat + 1)) :: cr)[cl.length + 1]? =
        some (Block.mk b (es.drop (b.toNat + 1)) (cs.drop (b.toNat + 1))) ∧
    insert_restructure key (.mk b es cs) [] =
      some (.mk b [up] [Block.mk b (es.take b.toNat) (cs.take (b.toNat + 1)),
        Block.mk b (es.drop (b.toNat + 1)) (cs.drop (b.toNat + 1))]) := by
  have hlt : b.toNat < es.length := by omega
  have hcs' : cs = [] ∨ b.toNat + 1 ≤ cs.length := by
    rcases hcs with h | h
    · exact Or.inl h
    · exact Or.inr (by omega)
  have hidx : get_index key (kl ++ kr) (key up) = cl.length := by
    rw [← h1]
    exact get_index_absent key (key up) kl kr hkl hkr
  have hsplit := insert_split_eq key b pb es (kl ++ kr) cs cl cr c up (by omega) hup hcs'
    (by rw [hidx]; simp)
  rw [hidx] at hsplit
  have hins1 : (kl ++ kr).insertIdx cl.length up = kl ++ up :: kr := by
    rw [← h1]; exact insertIdx_at_length _ _ _
  have hins2 : ∀ L R : Block E, (cl ++ L :: cr).insertIdx (cl.length + 1) R =
      cl ++ L :: R :: cr := by
    intro L R
    have := insertIdx_at_length (cl ++ [L]) cr R
    simpa using this
  rw [hins1, hins2] at hsplit
  have hnil := insert_restructure_nil key b (by omega) es cs hlt hcs'
  have hget : es[b.toNat] = up := by
    rw [List.getElem?_eq_getElem hlt] at hup
    exact Option.some.inj hup
  rw [hget] at hnil
  refine ⟨hidx, hsplit, ?_, getElem?_at_length _ _ _, getElem?_at_length_succ _ _ _ _, hnil⟩
  rw [← h1]
  exact getElem?_at_length _ _ _

/-- Witness for C22: degree 2, the leaf `[4, 5, 6, 7]` as second child of the parent `[3, 9]`,
and the same leaf as root. -/
theorem split_promotion_witness :
    insert_split id (.mk 2 [4, 5, 6, 7] []) (.mk 2 ([3, 9] : List Int)
        [.mk 2 [1] [], .mk 2 [4, 5, 6] [], .mk 2 [10] []]) 1 =
      some (.mk 2 [3, 6, 9] [.mk 2 [1] [], .mk 2 [4, 5] [], .mk 2 [7] [], .mk 2 [10] []]) ∧
    insert_restructure id (.mk 2 ([4, 5, 6, 7] : List Int) []) [] =
      some (.mk 2 [6] [.mk 2 [4, 5] [], .mk 2 [7] []]) :=
  ⟨(split_promotion id 2 2 (by decide) ([4, 5, 6, 7] : List Int) [3] [9] [] [.mk 2 [1] []]
      [.mk 2 [10] []] (.mk 2 [4, 5, 6] []) 6 (by decide) (Or.inl rfl) rfl rfl
      (by decide) (by decide)).2.1,
    (split_promotion id 2 2 (by decide) ([4, 5, 6, 7] : List Int) [3] [9] [] [.mk 2 [1] []]
      [.mk 2 [10] []] (.mk 2 [4, 5, 6] []) 6 (by decide) (Or.inl rfl) rfl rfl
      (by decide) (by decide)).2.2.2.2.2⟩

end SplitClaims

section HeightFacts
variable {E K : Type} [LinearOrder K]

theorem interleave_length (cs : List (List E)) : ∀ es : List E,
    (interleave cs es).length = es.length + (cs.map List.length).sum := by
  induction cs with
  | nil => intro es; simp [interleave_nil]
  | cons c cs ih =>
    intro es
    cases es with
    | nil => simp [interleave, ih []]
    | cons e es => simp [interleave, ih es]; omega

theorem sum_ge_of_forall (m : Nat) (l : List Nat) (h : ∀ x ∈ l, m ≤ x) :
    l.length * m ≤ l.sum := by
  induction l with
  | nil => simp
  | cons a l ih =>
    have h1 := h a (by simp)
    have h2 := ih (fun x hx => h x (by simp [hx]))
    simp only [List.length_cons, List.sum_cons]
    rw [Nat.add_mul]
    omega

theorem children_size (bn : Int) (m : Nat) (es : List E) (cs : List (Block E))
    (hlen : cs.length = es.length + 1) (hch : ∀ c ∈ cs, m ≤ (inorder c).length + 1) :
    cs.length * m ≤ (inorder (.mk bn es cs)).length + 1 := by
  rw [inorder_mk, interleave_length]
  have h := sum_ge_of_forall m (cs.map (fun c => (inorder c).length + 1)) (by
    intro x hx
    obtain ⟨c, hc, rfl⟩ := List.mem_map.mp hx
    exact hch c hc)
  have hsum : (cs.map (fun c => (inorder c).length + 1)).sum =
      ((cs.map inorder).map List.length).sum + cs.length := by
    clear h hch hlen
    induction cs with
    | nil => rfl
    | cons c cs ih => simp only [List.map_cons, List.sum_cons, List.length_cons, ih]; omega
  rw [hsum, List.length_map] at h
  omega

theorem sub_size (b : Int) (hb : 2 ≤ b) : ∀ (h : Nat) (t : Block E), Sub b h t →
    b.toNat ^ (h + 1) ≤ (inorder t).length + 1 := by
  intro h
  induction h with
  | zero =>
    intro t ht
    obtain ⟨bc, es, cs⟩ := t
    obtain ⟨-, hlo, -, rfl⟩ := (node_mk_zero ..).mp ((sub_iff_node ..).mp ht)
    simp only [inorder_mk, List.map_nil, interleave_nil, zero_add, pow_one]
    omega
  | succ h ih =>
    intro t ht
    obtain ⟨bc, es, cs⟩ := t
    obtain ⟨-, hlo, -, hlen, hch⟩ := (node_mk_succ ..).mp ((sub_iff_node ..).mp ht)
    have := children_size bc (b.toNat ^ (h + 1)) es cs hlen (fun c hc => ih c (hch c hc))
    have hcount : b.toNat ≤ cs.length := by omega
    calc b.toNat ^ (h + 1 + 1) = b.toNat * b.toNat ^ (h + 1) := by rw [pow_succ, Nat.mul_comm]
      _ ≤ cs.length * b.toNat ^ (h + 1) := Nat.mul_le_mul_right _ hcount
      _ ≤ _ := this

theorem root_size (b : Int) (hb : 2 ≤ b) (h : Nat) (hi : Int) (t : Block E)
    (hn : Node b 1 hi h t) : 2 * b.toNat ^ h ≤ (inorder t).length + 1 := by
  obtain ⟨bc, es, cs⟩ := t
  cases h with
  | zero =>
    obtain ⟨-, hlo, -, rfl⟩ := (node_mk_zero ..).mp hn
    simp only [inorder_mk, List.map_nil, interleave_nil, pow_zero]
    omega
  | succ h =>
    obtain ⟨-, hlo, -, hlen, hch⟩ := (node_mk_succ ..).mp hn
    have := children_size bc (b.toNat ^ (h + 1)) es cs hlen
      (fun c hc => sub_size b hb h c (hch c hc))
    have hcount : 2 ≤ cs.length := by omega
    exact le_trans (Nat.mul_le_mul_right _ hcount) this

theorem search_depth (key : E → K) (b : Int) (k : K) :
    ∀ (h : Nat) (lo hi : Int) (t : Block E) (path : Path E) (found : Block E) (path' : Path E),
      Node b lo hi h t → search_helper key t k path = some (found, path') →
      path'.length ≤ path.length + h := by
  intro h
  induction h with
  | zero =>
    intro lo hi t path found path' hn hs
    obtain ⟨bc, es, cs⟩ := t
    obtain ⟨-, -, -, rfl⟩ := (node_mk_zero ..).mp hn
    rw [search_helper] at hs
    simp only [List.isEmpty_nil, Bool.not_true, Bool.false_eq_true, if_false, ite_self,
      Option.some.injEq, Prod.mk.injEq] at hs
    rw [← hs.2]
    omega
  | succ h ih =>
    intro lo hi t path found path' hn hs
    obtain ⟨bc, es, cs⟩ := t
    obtain ⟨-, -, -, hlen, hch⟩ := (node_mk_succ ..).mp hn
    rw [search_helper] at hs
    split at hs
    · simp only [Option.some.injEq, Prod.mk.injEq] at hs
      rw [← hs.2]
      omega
    · split at hs
      · rw [search_helper_child_eq] at hs
        split at hs
        · simp at hs
        · rename_i c hc
          have := ih _ _ c _ found path' ((sub_iff_node ..).mp (hch c (List.getElem?_mem hc))) hs
          simp only [List.length_cons] at this
          omega
      · simp only [Option.some.injEq, Prod.mk.injEq] at hs
        rw [← hs.2]
        omega

theorem path_blocks_snoc (found t : Block E) (i : Nat) (pushed : Path E) :
    path_blocks found (pushed ++ [⟨t, i⟩]) = t :: path_blocks found pushed := by
  simp [path_blocks]

theorem path_blocks_length (found : Block E) (path : Path E) :
    (path_blocks found path).length = path.length + 1 := by
  simp [path_blocks]

theorem search_descent (key : E → K) (k : K) : ∀ (t : Block E) (path : Path E)
    (found : Block E) (path' : Path E), search_helper key t k path = some (found, path') →
    ∃ pushed, path' = pushed ++ path ∧ (path_blocks found pushed).head? = some t ∧
      Descent key k (path_blocks found pushed) ∧
      (key_at_index key found.entries (get_index key found.entries k) k = true ∨
        found.children = []) := by
  intro t
  induction t using Block.induct with
  | step b es cs ih =>
    intro path found path' hs
    rw [search_helper] at hs
    split at hs
    · rename_i hk
      simp only [Option.some.injEq, Prod.mk.injEq] at hs
      obtain ⟨rfl, rfl⟩ := hs
      exact ⟨[], rfl, rfl, trivial, Or.inl hk⟩
    · split at hs
      · rw [search_helper_child_eq] at hs
        split at hs
        · simp at hs
        · rename_i c hc
          obtain ⟨pushed, h1, h2, h3, h4⟩ := ih c (List.getElem?_mem hc) _ found path' hs
          refine ⟨pushed ++ [⟨.mk b es cs, get_index key es k⟩], by simp [h1], ?_, ?_, h4⟩
          · rw [path_blocks_snoc]; rfl
          · rw [path_blocks_snoc]
            cases hpb : path_blocks found pushed with
            | nil => simp [hpb] at h2
            | cons c' rest =>
              rw [hpb] at h2 h3
              simp only [List.head?_cons, Option.some.injEq] at h2
              subst h2
              exact ⟨hc, h3⟩
      · rename_i hcs
        simp only [Option.some.injEq, Prod.mk.injEq] at hs
        obtain ⟨rfl, rfl⟩ := hs
        refine ⟨[], rfl, rfl, trivial, Or.inr ?_⟩
        simpa [Block.children] using hcs

end HeightFacts

section PathClaims
variable {E K V : Type} [LinearOrder K]

theorem search_path_core (key : E → K) (b : Int) (t : Block E) (hsh : Shaped b t)
    (hs : KeySorted key (inorder t)) (k : K) :
    ∃ fes fcs path, search_helper key t k [] = some (.mk b fes fcs, path) ∧
      (path_blocks (.mk b fes fcs) path).head? = some t ∧
      Descent key k (path_blocks (.mk b fes fcs) path) ∧
      (key_at_index key fes (get_index key fes k) k = true ∨ fcs = []) ∧
      ((∀ x ∈ inorder t, key x ≠ k) →
        fcs = [] ∧ key_at_index key fes (get_index key fes k) k = false) := by
  obtain ⟨fes, fcs, path, h1, h2⟩ := search_core key b t hsh hs k
  obtain ⟨pushed, g1, g2, g3, g4⟩ := search_descent key k t [] _ path h1
  simp only [List.append_nil] at g1
  subst g1
  simp only [Block.entries, Block.children] at g4
  refine ⟨fes, fcs, path, h1, g2, g3, g4, ?_⟩
  intro hno
  rcases h2 with ⟨hk, -⟩ | ⟨-, e, -, he2, he3⟩
  · rcases g4 with g4 | g4
    · rw [hk] at g4; simp at g4
    · exact ⟨g4, hk⟩
  · exact absurd he2 (hno e he3)

/-- C27: search path.  On a well-formed tree `search_helper(root, k, path)` started with an
empty path returns; the recorded path is non-empty and starts with the root, every later
block is the child at index `get_index(previous, k)` of the block before it, and the last
block stores `k` or is a leaf.  When `k` is not in the tree the last block is a leaf and
`insert` places `k` into that leaf, at `get_index(leaf, k)`, before any split.  Stated for
the set and for the map variant. -/
theorem search_path_descends (b : Int) (ts : B_Tree Int) (ks : Int) (tm : B_Tree (K × V))
    (km : K) (vm : V) (hs : WellFormed id b ts) (hm : WellFormed Prod.fst b tm) :
    (∃ fes fcs path, search_helper id ts.root ks [] = some (.mk b fes fcs, path) ∧
      (path_blocks (.mk b fes fcs) path).head? = some ts.root ∧
      (path_blocks (.mk b fes fcs) path).getLast? = some (.mk b fes fcs) ∧
      Descent id ks (path_blocks (.mk b fes fcs) path) ∧
      (key_at_index id fes (get_index id fes ks) ks = true ∨ fcs = []) ∧
      (¬ Stored ks ts.root → fcs = [] ∧
        SetTree.insert ts ks =
          (if (fes.insertIdx (get_index id fes ks) ks).length > size_t_of_int (2 * b - 1) then
            insert_restructure id (.mk b (fes.insertIdx (get_index id fes ks) ks) []) path
          else some (plug (.mk b (fes.insertIdx (get_index id fes ks) ks) []) path)).map
            B_Tree.mk)) ∧
    (∃ fes fcs path, search_helper Prod.fst tm.root km [] = some (.mk b fes fcs, path) ∧
      (path_blocks (.mk b fes fcs) path).head? = some tm.root ∧
      (path_blocks (.mk b fes fcs) path).getLast? = some (.mk b fes fcs) ∧
      Descent Prod.fst km (path_blocks (.mk b fes fcs) path) ∧
      (key_at_index Prod.fst fes (get_index Prod.fst fes km) km = true ∨ fcs = []) ∧
      ((∀ v, ¬ Stored (km, v) tm.root) → fcs = [] ∧
        MapTree.insert tm km vm =
          (if (fes.insertIdx (get_index Prod.fst fes km) (km, vm)).length >
              size_t_of_int (2 * b - 1) then
            insert_restructure Prod.fst
              (.mk b (fes.insertIdx (get_index Prod.fst fes km) (km, vm)) []) path
          else some (plug (.mk b (fes.insertIdx (get_index Prod.fst fes km) (km, vm)) [])
            path)).map B_Tree.mk)) := by
  obtain ⟨hroot, hso⟩ := (wellFormed_iff id b ts).mp hs
  obtain ⟨hroot', hso'⟩ := (wellFormed_iff Prod.fst b tm).mp hm
  constructor
  · obtain ⟨fes, fcs, path, h1, h2, h3, h4, h5⟩ :=
      search_path_core id b ts.root (rootOK_shaped b 1 _ hroot) hso ks
    refine ⟨fes, fcs, path, h1, h2, by simp [path_blocks], h3, h4, ?_⟩
    intro hno
    obtain ⟨rfl, hk⟩ := h5 (fun x hx hxk => hno (by
      simp only [id] at hxk
      subst hxk
      exact (stored_iff_mem_inorder _ _).mpr hx))
    refine ⟨rfl, ?_⟩
    simp [SetTree.insert, h1, Block.entries, hk, insert_helper, Block.get_max_keys,
      Block.get_b_count]
  · obtain ⟨fes, fcs, path, h1, h2, h3, h4, h5⟩ :=
      search_path_core Prod.fst b tm.root (rootOK_shaped b 1 _ hroot') hso' km
    refine ⟨fes, fcs, path, h1, h2, by simp [path_blocks], h3, h4, ?_⟩
    intro hno
    obtain ⟨rfl, hk⟩ := h5 (fun x hx hxk => hno x.2 (by
      obtain ⟨k', v'⟩ := x
      simp only at hxk
      subst hxk
      exact (stored_iff_mem_inorder _ _).mpr hx))
    refine ⟨rfl, ?_⟩
    simp [MapTree.insert, h1, hk, insert_helper, Block.get_max_keys, Block.get_b_count]

/-- Witness for C27: key 4 in the example trees. -/
theorem search_path_descends_witness :
    WellFormed id 2 example_set ∧ WellFormed Prod.fst 2 example_map ∧
    ∃ fes fcs path, search_helper id example_set.root 4 [] = some (.mk 2 fes fcs, path) ∧
      (path_blocks (.mk 2 fes fcs) path).head? = some example_set.root ∧
      (path_blocks (.mk 2 fes fcs) path).getLast? = some (.mk 2 fes fcs) ∧
      Descent id 4 (path_blocks (.mk 2 fes fcs) path) ∧
      (key_at_index id fes (get_index id fes 4) 4 = true ∨ fcs = []) ∧
      (¬ Stored 4 example_set.root → fcs = [] ∧
        SetTree.insert example_set 4 =
          (if (fes.insertIdx (get_index id fes 4) 4).length > size_t_of_int (2 * 2 - 1) then
            insert_restructure id (.mk 2 (fes.insertIdx (get_index id fes 4) 4) []) path
          else some (plug (.mk 2 (fes.insertIdx (get_index id fes 4) 4) []) path)).map
            B_Tree.mk) :=
  ⟨example_set_wf, example_map_wf,
    (search_path_descends 2 example_set 4 example_map 4 0 example_set_wf example_map_wf).1⟩

/-- C28: logarithmic height.  A well-formed tree of degree `b ≥ 2` that holds `n ≥ 1` entries
and whose leaves are `h` levels below the root satisfies `2 * b ^ h ≤ n + 1`, that is
`h ≤ log_b ((n + 1) / 2)`; and the path that `search_helper` records for any key has at most
`h + 1 ≤ 1 + log_b ((n + 1) / 2)` blocks. -/
theorem logarithmic_height (key : E → K) (b : Int) (hb : 2 ≤ b) (t : B_Tree E)
    (hwf : WellFormed key b t) (hn : 1 ≤ (inorder t.root).length) :
    Node b 0 (2 * b - 1) (height t.root) t.root ∧
    2 * b.toNat ^ height t.root ≤ (inorder t.root).length + 1 ∧
    height t.root ≤ Nat.log b.toNat (((inorder t.root).length + 1) / 2) ∧
    ∀ k, ∃ found path, search_helper key t.root k [] = some (found, path) ∧
      (path_blocks found path).length ≤ height t.root + 1 ∧
      (path_blocks found path).length ≤
        1 + Nat.log b.toNat (((inorder t.root).length + 1) / 2) := by
  obtain ⟨hroot, hso⟩ := (wellFormed_iff key b t).mp hwf
  obtain ⟨h, hnode, -, hint⟩ := hroot
  have hh : height t.root = h := node_height b h _ _ _ hnode
  have hnode1 : Node b 1 (2 * b - 1) h t.root := by
    refine ⟨hnode.1, ?_, hnode.2.2.1, hnode.2.2.2⟩
    by_cases hc : t.root.children = []
    · obtain ⟨⟨bc, es, cs⟩⟩ := t
      simp only [Block.children] at hc
      subst hc
      simp only [inorder_mk, List.map_nil, interleave_nil] at hn
      simp only [Block.entries]
      omega
    · exact hint rfl hc
  have hsize := root_size b hb h _ _ hnode1
  have hlog : h ≤ Nat.log b.toNat (((inorder t.root).length + 1) / 2) := by
    apply Nat.le_log_of_pow_le (by omega)
    rw [Nat.le_div_iff_mul_le (by decide)]
    omega
  rw [hh]
  refine ⟨hnode, hsize, hlog, ?_⟩
  intro k
  obtain ⟨fes, fcs, path, h1, -⟩ := search_core key b t.root
    (node_shaped _ _ _ _ _ hnode) hso k
  have hd := search_depth key b k h _ _ t.root [] _ path hnode h1
  simp only [List.length_nil, zero_add] at hd
  refine ⟨_, path, h1, ?_, ?_⟩
  · rw [path_blocks_length]; omega
  · rw [path_blocks_length]; omega

/-- Witness for C28: `example_set` holds 6 keys at height 1 and degree 2. -/
theorem logarithmic_height_witness :
    (2 : Int) ≤ 2 ∧ WellFormed id 2 example_set ∧ 1 ≤ (inorder example_set.root).length ∧
    2 * (2 : Int).toNat ^ height example_set.root ≤ (inorder example_set.root).length + 1 :=
  ⟨by decide, example_set_wf, by decide,
    (logarithmic_height id 2 (by decide) example_set example_set_wf (by decide)).2.1⟩

end PathClaims

section ReplacementFacts
variable {E K : Type} [LinearOrder K]

theorem plug_append (t : Block E) (p q : Path E) : plug t (p ++ q) = plug (plug t p) q := by
  induction p generalizing t with
  | nil => rfl
  | cons f p ih =>
    obtain ⟨⟨b, es, cs⟩, i⟩ := f
    simp only [List.cons_append, plug]
    exact ih _

theorem get_replacement_plug : ∀ (t : Block E) (path : Path E) (leaf : Block E)
    (path' : Path E), get_replacement t false true path = some (leaf, path') →
    ∃ pushed, path' = pushed ++ path ∧ plug leaf pushed = t := by
  intro t
  induction t using Block.induct with
  | step b es cs ih =>
    intro path leaf path' h
    rcases List.eq_nil_or_concat cs with rfl | ⟨cs', c, rfl⟩
    · simp only [get_replacement, List.isEmpty_nil, if_true, Option.some.injEq,
        Prod.mk.injEq] at h
      obtain ⟨rfl, rfl⟩ := h
      exact ⟨[], rfl, rfl⟩
    · simp only [List.concat_eq_append] at *
      rw [get_replacement] at h
      simp only [List.isEmpty_eq_true, List.append_eq_nil, List.cons_ne_self, and_false,
        if_false, Bool.false_eq_true, if_true, get_replacement_back_eq] at h
      obtain ⟨pushed, h1, h2⟩ := ih c (by simp) _ leaf path' h
      refine ⟨pushed ++ [⟨.mk b es (cs' ++ [c]), (cs' ++ [c]).length - 1⟩], by simp [h1], ?_⟩
      rw [plug_append, h2]
      have : (cs' ++ [c]).length - 1 = cs'.length := by simp
      rw [this]
      simp [plug, set_at_length]

/-- The situation in which `remove_helper` meets its internal case on a well-formed tree: the
search stopped at an internal block that holds the key. -/
theorem internal_context (key : E → K) (b : Int) (t : Block E) (hroot : RootOK b 1 t)
    (hs : KeySorted key (inorder t)) (k : K) (fes : List E) (fcs : List (Block E))
    (path : Path E) (hsearch : search_helper key t k [] = some (.mk b fes fcs, path))
    (hint : fcs ≠ []) (hk : key_at_index key fes (get_index key fes k) k = true) :
    ∃ h A e B, fes = A ++ e :: B ∧ key e = k ∧ (∀ a ∈ A, key a < k) ∧ (∀ x ∈ B, k < key x) ∧
      PathStruct b 1 (h + 1) path ∧ Focus b 1 (h + 1) (.mk b fes fcs) path ∧
      KeySorted key (inorder (.mk b fes fcs)) ∧ plug (.mk b fes fcs) path = t ∧
      path_left path ++ inorder (.mk b fes fcs) ++ path_right path = inorder t := by
  obtain ⟨h, hf⟩ := hroot
  have hsh : Shaped b t := node_shaped _ _ _ _ _ hf.1
  obtain ⟨fes', fcs', path', h1, h2, h3, h4, h5, h6, h7, h8⟩ :=
    search_shape key b k t hsh [] PathShape.nil (by simpa [path_left, path_right] using hs)
      (by simp [path_left]) (by simp [path_right])
  obtain ⟨fes'', fcs'', path'', h', s1, s2, s3, s4⟩ :=
    search_struct key b 1 k h t [] hf (PathStruct.nil h)
  rw [hsearch] at h1 s1
  simp only [Option.some.injEq, Prod.mk.injEq, Block.mk.injEq, true_and] at h1 s1
  obtain ⟨⟨rfl, rfl⟩, rfl⟩ := h1
  obtain ⟨⟨rfl, rfl⟩, rfl⟩ := s1
  simp only [path_left, path_right, List.nil_append, List.append_nil, plug] at h4 h5
  have hsf : KeySorted key (inorder (.mk b fes fcs)) := by
    rw [← h4] at hs
    exact hs.sublist ((List.sublist_append_right _ _).trans (List.sublist_append_left _ _))
  obtain ⟨h'', rfl⟩ : ∃ h'', h' = h'' + 1 := by
    rcases node_children s2.1 with ⟨hc, -⟩ | ⟨-, h'', hh, -⟩
    · exact absurd hc hint
    · exact ⟨h'', hh⟩
  rcases h8 with ⟨A, e, B, rfl, he, hA, hB⟩ | ⟨hc, -⟩
  · exact ⟨h'', A, e, B, rfl, he, hA, hB, s3, s2, hsf, h5, h4⟩
  · exact absurd hc hint

/-- One step of the internal case of `remove_helper`: the predecessor `r` of the key is the last
entry of the leaf that `get_replacement` reaches in the child left of the key; it overwrites
the key's entry, and the call continues on that leaf with key `key r`, where the leaf branch
erases `r`. -/
theorem remove_helper_internal_step (key : E → K) (b : Int) (hb : 2 ≤ b) (k : K) (h : Nat)
    (path : Path E) (hp : PathStruct b 1 (h + 1) path) (A B : List E) (e : E)
    (cs : List (Block E)) (he : key e = k) (hA : ∀ a ∈ A, key a < k)
    (hB : ∀ x ∈ B, k < key x) (hf : Focus b 1 (h + 1) (.mk b (A ++ e :: B) cs) path)
    (hs : KeySorted key (inorder (.mk b (A ++ e :: B) cs))) :
    ∃ cl c cr les r pushed, cs = cl ++ c :: cr ∧ cl.length = A.length ∧
      (∀ q, get_replacement c false true q = some (.mk b (les ++ [r]) [], pushed ++ q)) ∧
      plug (.mk b (les ++ [r]) []) pushed = c ∧
      inorder c = path_left pushed ++ (les ++ [r]) ∧
      inorder (.mk b (A ++ e :: B) cs) =
        (interleave (cl.map inorder) A ++ path_left pushed ++ les) ++
          r :: e :: interleave (cr.map inorder) B ∧
      path_left (pushed ++ ⟨.mk b (A ++ r :: B) cs, A.length⟩ :: path) =
        path_left path ++ interleave (cl.map inorder) A ++ path_left pushed ∧
      path_right (pushed ++ ⟨.mk b (A ++ r :: B) cs, A.length⟩ :: path) =
        r :: interleave (cr.map inorder) B ++ path_right path ∧
      PathStruct b 1 0 (pushed ++ ⟨.mk b (A ++ r :: B) cs, A.length⟩ :: path) ∧
      Focus b 1 0 (.mk b (les ++ [r]) [])
        (pushed ++ ⟨.mk b (A ++ r :: B) cs, A.length⟩ :: path) ∧
      (∀ a ∈ les, key a < key r) ∧
      (∀ fuel, remove_helper key (fuel + 1) (.mk b (A ++ e :: B) cs) k path =
        remove_helper key fuel (.mk b (les ++ [r]) []) (key r)
          (pushed ++ ⟨.mk b (A ++ r :: B) cs, A.length⟩ :: path)) ∧
      (∀ fuel, remove_helper key fuel (.mk b (les ++ [r]) []) (key r)
          (pushed ++ ⟨.mk b (A ++ r :: B) cs, A.length⟩ :: path) =
        if les.length < size_t_of_int (b - 1) then
          remove_restructure (.mk b les [])
            (pushed ++ ⟨.mk b (A ++ r :: B) cs, A.length⟩ :: path)
        else some (plug (.mk b les [])
          (pushed ++ ⟨.mk b (A ++ r :: B) cs, A.length⟩ :: path))) := by
  obtain ⟨-, -, hhi, hlen, hch⟩ := (node_mk_succ ..).mp hf.1
  obtain ⟨cl, c, cr, rfl, hcl⟩ := exists_split_at cs A.length (by simp at hlen; omega)
  have hcr : (e :: B).length = cr.length := by simp at hlen ⊢; omega
  obtain ⟨les, pushed, g1, g2, g3, g4, g5⟩ := get_replacement_spec b hb h c (hch c (by simp))
  have g2n := (node_mk_zero ..).mp ((sub_iff_node ..).mp g2)
  obtain ⟨les', r, rfl⟩ : ∃ les' r, les = les' ++ [r] := by
    rcases List.eq_nil_or_concat les with rfl | ⟨a, l, rfl⟩
    · have := g2n.2.1
      simp at this
      omega
    · exact ⟨a, l, by simp⟩
  have hplug : plug (.mk b (les' ++ [r]) []) pushed = c := by
    obtain ⟨pushed', q1, q2⟩ := get_replacement_plug c [] _ _ (g1 [])
    simp only [List.append_nil] at q1
    rw [q1]
    exact q2
  have hio := inorder_hole b A (e :: B) cl cr c hcl.symm
  have hfr0 : ∀ x : E, interleave ([] :: cr.map inorder) (x :: B) =
      x :: interleave (cr.map inorder) B := by
    intro x; simp [interleave]
  rw [hfr0] at hio
  have hsleaf : KeySorted key (les' ++ [r]) := by
    rw [hio, g3] at hs
    exact hs.sublist (((List.sublist_append_right _ _).trans
      (List.sublist_append_right _ _)).trans (List.sublist_append_left _ _))
  have hA' : ∀ a ∈ les', key a < key r := fun a ha =>
    (List.pairwise_append.mp hsleaf).2.2 a ha r (by simp)
  have hidx := get_index_present key k A B e he hA hB
  have hp3 : PathStruct b 1 0 (pushed ++ ⟨.mk b (A ++ r :: B) (cl ++ c :: cr), A.length⟩ :: path) := by
    apply g5 _ _ (by simp)
    rw [← hcl]
    exact PathStruct.cons h c cl cr A (r :: B) path hcl.symm (by simpa using hcr)
      (fun x hx => hch x (by simp [hx])) (fun x hx => hch x (by simp [hx]))
      (by simpa using hhi)
      (fun hne => by simpa [Block.entries] using hf.2.1 hne)
      (fun hnil => by simpa [Block.entries, Block.children] using hf.2.2 hnil) hp
  have hf3 : Focus b 1 0 (.mk b (les' ++ [r]) [])
      (pushed ++ ⟨.mk b (A ++ r :: B) (cl ++ c :: cr), A.length⟩ :: path) :=
    ⟨(node_mk_zero ..).mpr ⟨rfl, by omega, g2n.2.2.1, rfl⟩,
      fun _ => by simpa [Block.entries] using g2n.2.1, fun hnil => by simp at hnil⟩
  have hset : ((pushed ++ (⟨.mk b (A ++ e :: B) (cl ++ c :: cr), A.length⟩ : Frame E) :: path).set
      ((pushed ++ (⟨.mk b (A ++ e :: B) (cl ++ c :: cr), A.length⟩ : Frame E) :: path).length -
        (path.length + 1))
      ⟨.mk b (A ++ r :: B) (cl ++ c :: cr), A.length⟩) =
      pushed ++ ⟨.mk b (A ++ r :: B) (cl ++ c :: cr), A.length⟩ :: path := by
    have : (pushed ++ (⟨.mk b (A ++ e :: B) (cl ++ c :: cr), A.length⟩ : Frame E) :: path).length -
        (path.length + 1) = pushed.length := by simp
    rw [this, set_at_length]
  have hfl := frame_left_mk b A (r :: B) cl cr c hcl.symm
  have hfr := frame_right_mk b A (r :: B) cl cr c hcl.symm
  rw [hcl] at hfl hfr
  have hleafidx := get_index_present key (key r) les' [] r rfl hA' (by simp)
  have hleafkey := key_at_index_present key (key r) les' [] r rfl
  have hsz := size_t_of_int_nonneg (b - 1) (by omega)
  refine ⟨cl, c, cr, les', r, pushed, rfl, hcl, g1, hplug, g3, ?_, ?_, ?_, hp3, hf3, hA', ?_, ?_⟩
  · rw [hio, g3]
    simp [List.append_assoc]
  · rw [path_left_append]
    simp only [path_left, hfl, List.append_assoc]
  · rw [path_right_append, g4]
    simp only [path_right, hfr, hfr0, List.nil_append, List.cons_append]
  · intro fuel
    conv_lhs => unfold remove_helper
    simp only [List.isEmpty_eq_true, List.append_eq_nil, and_false, if_false, hidx,
      Nat.add_sub_cancel, Nat.zero_lt_succ, if_true, reduceCtorEq]
    have hc : (cl ++ c :: cr)[A.length]? = some c := by
      rw [← hcl]; exact getElem?_at_length _ _ _
    simp only [hc, g1, Block.entries, List.getLast?_concat, set_at_length, hset]
  · intro fuel
    unfold remove_helper
    simp only [List.isEmpty_nil, if_true, hleafidx, hleafkey, Nat.add_sub_cancel,
      eraseIdx_at_length, List.append_nil, Block.get_min_keys, Block.get_b_count]

end ReplacementFacts

section PredecessorClaims
variable {E K V : Type} [LinearOrder K]

/-- C25: internal-node deletion uses the predecessor (map variant).  When `remove(k)` finds `k`
in an internal block of a well-formed tree, `get_replacement` descends through last children
of the child left of `k` to a leaf; the last entry `r` of that leaf is the entry just before
`k` in the in-order sequence, so it has the greatest key smaller than `k` in the whole tree.
The entry of `k` is overwritten by `r` (key and value) and `remove_helper` then erases `r`
from the leaf, repairing an underflow there if needed. -/
theorem map_remove_uses_predecessor (b : Int) (hb : 2 ≤ b) (t : B_Tree (K × V)) (k : K)
    (fes : List (K × V)) (fcs : List (Block (K × V))) (path : Path (K × V))
    (hwf : WellFormed Prod.fst b t)
    (hsearch : search_helper Prod.fst t.root k [] = some (.mk b fes fcs, path))
    (hint : fcs ≠ [])
    (hk : key_at_index Prod.fst fes (get_index Prod.fst fes k) k = true) :
    ∃ A e B cl c cr les r pushed P Q,
      fes = A ++ e :: B ∧ e.1 = k ∧ fcs = cl ++ c :: cr ∧ cl.length = A.length ∧
      get_replacement c false true (⟨.mk b fes fcs, A.length⟩ :: path) =
        some (.mk b (les ++ [r]) [], pushed ++ ⟨.mk b fes fcs, A.length⟩ :: path) ∧
      plug (.mk b (les ++ [r]) []) pushed = c ∧
      inorder c = path_left pushed ++ (les ++ [r]) ∧
      inorder t.root = P ++ r :: e :: Q ∧
      r.1 < k ∧ (∀ x ∈ inorder t.root, x.1 < k → x.1 ≤ r.1) ∧
      MapTree.remove t k =
        (if les.length < size_t_of_int (b - 1) then
          remove_restructure (.mk b les [])
            (pushed ++ ⟨.mk b (A ++ r :: B) fcs, A.length⟩ :: path)
        else some (plug (.mk b les [])
          (pushed ++ ⟨.mk b (A ++ r :: B) fcs, A.length⟩ :: path))).map B_Tree.mk ∧
      inorder (plug (.mk b (les ++ [r]) [])
        (pushed ++ ⟨.mk b (A ++ r :: B) fcs, A.length⟩ :: path)) = P ++ r :: r :: Q ∧
      inorder (plug (.mk b les [])
        (pushed ++ ⟨.mk b (A ++ r :: B) fcs, A.length⟩ :: path)) = P ++ r :: Q := by
  obtain ⟨hroot, hso⟩ := (wellFormed_iff Prod.fst b t).mp hwf
  obtain ⟨h, A, e, B, rfl, he, hA, hB, c1, c2, c3, c4, c5⟩ :=
    internal_context Prod.fst b t.root hroot hso k fes fcs path hsearch hint hk
  obtain ⟨cl, c, cr, les, r, pushed, s1, s2, s3, s4, s5, s6, s7, s8, s9, s10, s11, s12, s13⟩ :=
    remove_helper_internal_step Prod.fst b hb k h path c1 A B e fcs he hA hB c2 c3
  have hio : inorder t.root =
      (path_left path ++ interleave (cl.map inorder) A ++ path_left pushed ++ les) ++
        r :: e :: (interleave (cr.map inorder) B ++ path_right path) := by
    rw [← c5, s6]
    simp [List.append_assoc]
  have hshape := pathStruct_shape b 1 _ _ s9
  have hleaf : ∀ l : List (K × V), inorder (.mk b l ([] : List (Block (K × V)))) = l := by
    intro l; simp [inorder_mk, interleave_nil]
  have hsorted : KeySorted Prod.fst
      (((path_left path ++ interleave (cl.map inorder) A ++ path_left pushed ++ les) ++ [r]) ++
        e :: (interleave (cr.map inorder) B ++ path_right path)) := by
    rw [hio] at hso
    simpa [List.append_assoc] using hso
  have har := sorted_around Prod.fst _ _ e hsorted
  have hr : r.1 < k := by
    rw [← he]
    exact har.1 r (by simp)
  have hsP := (List.pairwise_append.mp
    ((List.pairwise_append.mp hsorted).1)).2.2
  refine ⟨A, e, B, cl, c, cr, les, r, pushed, _, _, rfl, he, s1, s2, s3 _, s4, s5, hio, hr,
    ?_, ?_, ?_, ?_⟩
  · intro x hx hxk
    rw [hio] at hx
    simp only [List.mem_append, List.mem_cons] at hx
    rcases hx with hx | rfl | rfl | hx
    · exact le_of_lt (hsP x (by simp only [List.mem_append]; exact hx) r (by simp))
    · exact le_refl _
    · rw [he] at hxk; exact absurd hxk (lt_irrefl _)
    · have := har.2 x (by simp only [List.mem_append]; exact hx)
      rw [he] at this
      exact absurd hxk (not_lt.mpr (le_of_lt this))
  · simp only [MapTree.remove, hsearch, Block.entries, hk, if_true, s12 0, s13 0]
  · rw [plug_inorder b _ _ hshape, s7, s8, hleaf]
    simp [List.append_assoc]
  · rw [plug_inorder b _ _ hshape, s7, s8, hleaf]
    simp [List.append_assoc]

/-- Witness for C25: key 3 sits in the internal root of `example_map`; its predecessor is
`(2, 20)`. -/
theorem map_remove_uses_predecessor_witness :
    ∃ (r : Int × Int) (P Q : List (Int × Int)),
      inorder example_map.root = P ++ r :: (3, 30) :: Q ∧ r.1 < 3 := by
  obtain ⟨A, e, B, cl, c, cr, les, r, pushed, P, Q, h1, h2, h3, h4, h5, h6, h7, h8, h9, -⟩ :=
    map_remove_uses_predecessor 2 (by decide) example_map 3 [(3, 30)]
      [.mk 2 [(1, 10), (2, 20)] [], .mk 2 [(4, 40), (5, 50), (6, 60)] []] [] example_map_wf rfl
      (by simp) rfl
  have he : e = (3, 30) := by
    cases A with
    | nil =>
      simp only [List.nil_append, List.cons.injEq] at h1
      exact h1.1.symm
    | cons a A =>
      simp only [List.cons_append, List.cons.injEq] at h1
      have := h1.2
      simp at this
  subst he
  exact ⟨r, P, Q, h8, h9⟩

end PredecessorClaims

section InsertHeight
variable {E K V : Type} [LinearOrder K]

theorem search_plug (key : E → K) (k : K) : ∀ (t : Block E) (path : Path E)
    (found : Block E) (path' : Path E), search_helper key t k path = some (found, path') →
    plug found path' = plug t path := by
  intro t
  induction t using Block.induct with
  | step b es cs ih =>
    intro path found path' hs
    rw [search_helper] at hs
    split at hs
    · simp only [Option.some.injEq, Prod.mk.injEq] at hs
      obtain ⟨rfl, rfl⟩ := hs
      rfl
    · split at hs
      · rw [search_helper_child_eq] at hs
        split at hs
        · simp at hs
        · rename_i c hc
          rw [ih c (List.getElem?_mem hc) _ found path' hs]
          simp only [plug, set_self_of_getElem? _ _ _ hc]
      · simp only [Option.some.injEq, Prod.mk.injEq] at hs
        obtain ⟨rfl, rfl⟩ := hs
        rfl

/-- What the search gives on a structurally sound tree, for the height bookkeeping: the block
found fits its path at some level `h'`, the tree is that block plugged into the path, its
height is `h' + path.length`, and the path records the entries of the root. -/
theorem search_height (key : E → K) (b rmin : Int) (k : K) (t : Block E)
    (hroot : RootOK b rmin t) :
    ∃ fes fcs path h', search_helper key t k [] = some (.mk b fes fcs, path) ∧
      Focus b rmin h' (.mk b fes fcs) path ∧ PathStruct b rmin h' path ∧
      (key_at_index key fes (get_index key fes k) k = true ∨ fcs = []) ∧
      plug (.mk b fes fcs) path = t ∧ height t = h' + path.length ∧
      root_entries (.mk b fes fcs) path = t.entries := by
  obtain ⟨h, hf⟩ := hroot
  obtain ⟨fes, fcs, path, h', h1, h2, h3, h4⟩ :=
    search_struct key b rmin k h t [] hf (PathStruct.nil h)
  have hplug : plug (.mk b fes fcs) path = t := by
    rw [search_plug key k t [] _ path h1]; rfl
  obtain ⟨pushed, g1, g2, -, -⟩ := search_descent key k t [] _ path h1
  simp only [List.append_nil] at g1
  subst g1
  refine ⟨fes, fcs, path, h', h1, h2, h3, h4, hplug, ?_, root_entries_of_head t path _ g2⟩
  rw [← hplug]
  exact plug_height b rmin path h' h3 _ h2

theorem set_insert_height (b : Int) (hb : 1 ≤ b) (t : B_Tree Int)
    (ht : RootOK b 1 t.root) (k : Int) :
    ∃ t', SetTree.insert t k = some t' ∧
      (height t'.root = height t.root ∨
        (height t'.root = height t.root + 1 ∧ (t.root.entries.length : Int) = 2 * b - 1 ∧
          t'.root.entries.length = 1 ∧ t'.root.children.length = 2)) := by
  obtain ⟨fes, fcs, path, h', h1, h2, h3, h4, h5, h6, h7⟩ := search_height id b 1 k t.root ht
  by_cases hk : key_at_index id fes (get_index id fes k) k = true
  · exact ⟨t, by simp [SetTree.insert, h1, Block.entries, hk], Or.inl rfl⟩
  · have hleaf : fcs = [] := by
      rcases h4 with h4 | h4
      · exact absurd h4 hk
      · exact h4
    subst hleaf
    have hh : h' = 0 := by
      rcases node_children h2.1 with ⟨-, h0⟩ | ⟨hl, -⟩
      · exact h0
      · simp at hl
    subst hh
    obtain ⟨root', hr1, -, hr3⟩ := insert_helper_full id b 1 hb (le_refl _) fes k path h2 h3
    refine ⟨⟨root'⟩, by simp [SetTree.insert, h1, Block.entries, hk, hr1], ?_⟩
    rw [h6, h7] at *
    rcases hr3 with hr3 | ⟨hr3, l1, l2, l3⟩
    · exact Or.inl (by simp only [hr3]; omega)
    · exact Or.inr ⟨by simp only [hr3]; omega, l3, l1, l2⟩

theorem map_insert_height (b : Int) (hb : 1 ≤ b) (t : B_Tree (K × V))
    (ht : RootOK b 1 t.root) (k : K) (v : V) :
    ∃ t', MapTree.insert t k v = some t' ∧
      (height t'.root = height t.root ∨
        (height t'.root = height t.root + 1 ∧ (t.root.entries.length : Int) = 2 * b - 1 ∧
          t'.root.entries.length = 1 ∧ t'.root.children.length = 2)) := by
  obtain ⟨fes, fcs, path, h', h1, h2, h3, h4, h5, h6, h7⟩ :=
    search_height Prod.fst b 1 k t.root ht
  by_cases hk : key_at_index Prod.fst fes (get_index Prod.fst fes k) k = true
  · obtain ⟨old, ho, -, -⟩ := key_at_index_some Prod.fst fes _ k hk
    refine ⟨⟨plug (.mk b (fes.set (get_index Prod.fst fes k - 1) (old.1, v)) fcs) path⟩,
      by simp [MapTree.insert, h1, hk, ho], Or.inl ?_⟩
    rw [← h5]
    exact plug_height_congr path _ _ (height_entries_irrel _ _ _ _ _)
  · have hleaf : fcs = [] := by
      rcases h4 with h4 | h4
      · exact absurd h4 hk
      · exact h4
    subst hleaf
    have hh : h' = 0 := by
      rcases node_children h2.1 with ⟨-, h0⟩ | ⟨hl, -⟩
      · exact h0
      · simp at hl
    subst hh
    obtain ⟨root', hr1, -, hr3⟩ :=
      insert_helper_full Prod.fst b 1 hb (le_refl _) fes (k, v) path h2 h3
    refine ⟨⟨root'⟩, by simp [MapTree.insert, h1, hk, hr1], ?_⟩
    rw [h6, h7] at *
    rcases hr3 with hr3 | ⟨hr3, l1, l2, l3⟩
    · exact Or.inl (by simp only [hr3]; omega)
    · exact Or.inr ⟨by simp only [hr3]; omega, l3, l1, l2⟩

/-- C24: height growth.  On a well-formed tree of degree `b ≥ 2` whose leaves are `h` levels
below the root, `insert` returns a tree of height `h` or `h + 1`; it is `h + 1` only when the
split reached and split the root: the root held `2b - 1` entries before, and the new root has
exactly one entry and two children.  Stated for the set and for the map variant. -/
theorem insert_height_growth (b : Int) (hb : 2 ≤ b) (ts : B_Tree Int) (ks : Int)
    (tm : B_Tree (K × V)) (km : K) (vm : V) (hs : WellFormed id b ts)
    (hm : WellFormed Prod.fst b tm) :
    Node b 0 (2 * b - 1) (height ts.root) ts.root ∧
    Node b 0 (2 * b - 1) (height tm.root) tm.root ∧
    (∃ ts', SetTree.insert ts ks = some ts' ∧
      Node b 0 (2 * b - 1) (height ts'.root) ts'.root ∧
      (height ts'.root = height ts.root ∨
        (height ts'.root = height ts.root + 1 ∧ (ts.root.entries.length : Int) = 2 * b - 1 ∧
          ts'.root.entries.length = 1 ∧ ts'.root.children.length = 2))) ∧
    (∃ tm', MapTree.insert tm km vm = some tm' ∧
      Node b 0 (2 * b - 1) (height tm'.root) tm'.root ∧
      (height tm'.root = height tm.root ∨
        (height tm'.root = height tm.root + 1 ∧ (tm.root.entries.length : Int) = 2 * b - 1 ∧
          tm'.root.entries.length = 1 ∧ tm'.root.children.length = 2))) := by
  obtain ⟨hroot, -⟩ := (wellFormed_iff id b ts).mp hs
  obtain ⟨hroot', -⟩ := (wellFormed_iff Prod.fst b tm).mp hm
  have hnode : ∀ {F : Type} (r : Block F), RootOK b 1 r → Node b 0 (2 * b - 1) (height r) r := by
    intro F r hr
    obtain ⟨h, hn, -, -⟩ := hr
    rw [node_height b h _ _ _ hn]
    exact hn
  refine ⟨hnode _ hroot, hnode _ hroot', ?_, ?_⟩
  · obtain ⟨t', h1, h2⟩ := set_insert_height b (by omega) ts hroot ks
    obtain ⟨t'', g1, g2⟩ := set_insert_struct b 1 (by omega) (le_refl _) ts hroot ks
    rw [h1] at g1
    obtain rfl := Option.some.inj g1
    exact ⟨t', h1, hnode _ g2, h2⟩
  · obtain ⟨t', h1, h2⟩ := map_insert_height b (by omega) tm hroot' km vm
    obtain ⟨t'', g1, g2⟩ := map_insert_struct b 1 (by omega) (le_refl _) tm hroot' km vm
    rw [h1] at g1
    obtain rfl := Option.some.inj g1
    exact ⟨t', h1, hnode _ g2, h2⟩

theorem example_full_wf : WellFormed id 2 example_full :=
  (wellFormed_iff id 2 example_full).mpr
    ⟨⟨0, by simp [example_full, Node, Block.get_b_count, Block.entries, Block.children],
      by simp, by simp [example_full, Block.children]⟩,
      by simp [example_full, KeySorted, inorder, inorder_children, interleave]⟩

/-- Witness for C24: inserting 4 into the full root leaf `[1, 2, 3]` splits the root, and the
height goes from 0 to 1. -/
theorem insert_height_growth_witness :
    (2 : Int) ≤ 2 ∧ WellFormed id 2 example_full ∧ WellFormed Prod.fst 2 example_map ∧
    SetTree.insert example_full 4 = some ⟨.mk 2 [3] [.mk 2 [1, 2] [], .mk 2 [4] []]⟩ ∧
    height example_full.root = 0 ∧
    ∃ ts', SetTree.insert example_full 4 = some ts' ∧
      Node 2 0 (2 * 2 - 1) (height ts'.root) ts'.root ∧
      (height ts'.root = height example_full.root ∨
        (height ts'.root = height example_full.root + 1 ∧
          (example_full.root.entries.length : Int) = 2 * 2 - 1 ∧
          ts'.root.entries.length = 1 ∧ ts'.root.children.length = 2)) :=
  ⟨by decide, example_full_wf, example_map_wf, rfl, rfl,
    (insert_height_growth 2 (by decide) example_full 4 example_map 7 70 example_full_wf
      example_map_wf).2.2.1⟩

end InsertHeight

section RemoveHeight
variable {E K V : Type} [LinearOrder K]

theorem example_small_wf : WellFormed Prod.fst 2 example_small :=
  (wellFormed_iff Prod.fst 2 example_small).mpr
    ⟨⟨1, by simp [example_small, Node, Sub, Block.get_b_count, Block.entries, Block.children],
      by simp, by simp [example_small, Block.entries]⟩,
      by simp [example_small, KeySorted, inorder, inorder_children, interleave]⟩

end RemoveHeight

section CallFacts
variable {E K : Type} [LinearOrder K]

/-- What `merge` does with its continuation: it runs it on the parent it leaves behind when
that parent underflows, and otherwise plugs that parent into the path. -/
theorem merge_factor (parent : Block E) (from_slot to_slot : Nat) (to_blk : Block E)
    (rl lr : Bool) (hdir : rl = true ∨ lr = true) (restructure : Block E → Option (Block E))
    (path : Path E) :
    merge parent from_slot to_slot to_blk rl lr restructure path =
      match merge parent from_slot to_slot to_blk rl lr (fun p => some p) [] with
      | none => none
      | some p =>
        if p.entries.length < size_t_of_int p.get_min_keys then restructure p
        else some (plug p path) := by
  obtain ⟨pb, pes, pcs⟩ := parent
  obtain ⟨tb, tes, tcs⟩ := to_blk
  unfold merge
  cases hf : (Block.mk pb pes pcs).children[from_slot]? with
  | none => simp
  | some fb =>
    obtain ⟨fbc, fes, fcs⟩ := fb
    simp only
    by_cases hrl : rl = true
    · simp only [hrl, if_true]
      split
      · rfl
      · split
        · rfl
        · simp only [plug]
          split <;> simp_all
    · have hlr : lr = true := by
        rcases hdir with h | h
        · exact absurd h hrl
        · exact h
      simp only [hrl, hlr, if_true, Bool.false_eq_true, if_false]
      split
      · rfl
      · split
        · rfl
        · simp only [plug]
          split <;> simp_all

theorem remove_restructure_calls_suffix : ∀ (path : Path E) (blk : Block E)
    (call : Block E × Path E), call ∈ remove_restructure_calls blk path →
    call.2 <:+ path := by
  intro path
  induction path with
  | nil =>
    intro blk call h
    simp only [remove_restructure_calls, List.mem_singleton] at h
    subst h
    exact List.suffix_refl _
  | cons f rest ih =>
    intro blk call h
    obtain ⟨b, es, cs⟩ := blk
    obtain ⟨⟨pb, pes, pcs⟩, idx⟩ := f
    rw [remove_restructure_calls, List.mem_cons] at h
    rcases h with rfl | h
    · exact List.suffix_refl _
    · have hrec : ∀ p, call ∈ remove_restructure_calls p rest →
          call.2 <:+ (⟨.mk pb pes pcs, idx⟩ : Frame E) :: rest :=
        fun p hp => (ih p call hp).trans (List.suffix_cons _ _)
      split at h
      · split at h
        · simp at h
        · split at h
          · split at h
            · simp at h
            · split at h
              · exact hrec _ h
              · simp at h
          · simp at h
      · split at h
        · simp at h
        · split at h
          · split at h
            · simp at h
            · split at h
              · exact hrec _ h
              · simp at h
          · simp at h
      · simp at h

end CallFacts

section CallFacts2
variable {E K : Type} [LinearOrder K]

/-- Every activation in the call sequence is a tail call: the outermost call returns what that
activation returns. -/
theorem remove_restructure_calls_tail : ∀ (path : Path E) (blk : Block E)
    (call : Block E × Path E), call ∈ remove_restructure_calls blk path →
    remove_restructure blk path = remove_restructure call.1 call.2 := by
  intro path
  induction path with
  | nil =>
    intro blk call h
    simp only [remove_restructure_calls, List.mem_singleton] at h
    subst h
    rfl
  | cons f rest ih =>
    intro blk call h
    obtain ⟨b, es, cs⟩ := blk
    obtain ⟨⟨pb, pes, pcs⟩, idx⟩ := f
    rw [remove_restructure_calls, List.mem_cons] at h
    rcases h with rfl | h
    · rfl
    · rw [remove_restructure]
      cases hr : get_sibling (.mk pb pes pcs) idx false true with
      | some r =>
        simp only [hr] at h ⊢
        cases hc : pcs[r]? with
        | none => simp [hc] at h
        | some rblk =>
          obtain ⟨rb, res, rcs⟩ := rblk
          simp only [hc] at h ⊢
          by_cases hlend :
              size_t_pred res.length < size_t_of_int (Block.mk rb res rcs).get_min_keys
          · simp only [hlend, if_true] at h ⊢
            rw [merge_factor _ _ _ _ _ _ (Or.inl rfl)]
            cases hm : merge (.mk pb pes pcs) r idx (.mk b es cs) true false
                (fun p => some p) [] with
            | none => simp [hm] at h
            | some p =>
              simp only [hm] at h ⊢
              by_cases hu : p.entries.length < size_t_of_int p.get_min_keys
              · simp only [hu, if_true] at h ⊢
                exact ih p call h
              · simp [hu] at h
          · simp [hlend] at h
      | none =>
        cases hl : get_sibling (.mk pb pes pcs) idx true false with
        | none => simp [hr, hl] at h
        | some l =>
          simp only [hr, hl] at h ⊢
          cases hc : pcs[l]? with
          | none => simp [hc] at h
          | some lblk =>
            obtain ⟨lb, les, lcs⟩ := lblk
            simp only [hc] at h ⊢
            by_cases hlend :
                size_t_pred les.length < size_t_of_int (Block.mk lb les lcs).get_min_keys
            · simp only [hlend, if_true] at h ⊢
              rw [merge_factor _ _ _ _ _ _ (Or.inr rfl)]
              cases hm : merge (.mk pb pes pcs) l idx (.mk b es cs) false true
                  (fun p => some p) [] with
              | none => simp [hm] at h
              | some p =>
                simp only [hm] at h ⊢
                by_cases hu : p.entries.length < size_t_of_int p.get_min_keys
                · simp only [hu, if_true] at h ⊢
                  exact ih p call h
                · simp [hu] at h
            · simp [hlend] at h

theorem mem_of_getElem?_hole {α : Type} (cl cr : List α) (c sib : α) (j : Nat)
    (hj : j ≠ cl.length) (h : (cl ++ c :: cr)[j]? = some sib) : sib ∈ cl ∨ sib ∈ cr := by
  rcases Nat.lt_or_gt_of_ne hj with hlt | hgt
  · rw [List.getElem?_append_left hlt] at h
    exact Or.inl (List.getElem?_mem h)
  · rw [List.getElem?_append_right (by omega)] at h
    obtain ⟨m, hm⟩ : ∃ m, j - cl.length = m + 1 := ⟨j - cl.length - 1, by omega⟩
    rw [hm, List.getElem?_cons_succ] at h
    exact Or.inr (List.getElem?_mem h)

/-- Every frame of a path through a structurally sound tree points at an existing child slot
of a block with `entries + 1` children, at least two of them, and the other children of that
block are sound non-root blocks. -/
theorem pathStruct_frame_facts (b rmin : Int) (hb : 2 ≤ b) (h : Nat) (path : Path E)
    (hp : PathStruct b rmin h path) (hr : 1 ≤ rmin) :
    ∀ f ∈ path, f.idx < f.parent.children.length ∧
      f.parent.children.length = f.parent.entries.length + 1 ∧
      2 ≤ f.parent.children.length ∧
      ∀ j sib, j ≠ f.idx → f.parent.children[j]? = some sib → ∃ h', Sub b h' sib := by
  induction hp with
  | nil h => intro f hf; simp at hf
  | cons h c cl cr kl kr rest h1 h2 hcl hcr hhi hlo hroot _ ih =>
    intro f hf
    rcases List.mem_cons.mp hf with rfl | hf
    · simp only [Block.children, Block.entries, List.length_append, List.length_cons]
      refine ⟨by omega, by omega, ?_, ?_⟩
      · by_cases hrest : rest = []
        · have := hroot hrest
          omega
        · have := hlo hrest
          omega
      · intro j sib hj hs
        rcases mem_of_getElem?_hole cl cr c sib j hj hs with hm | hm
        · exact ⟨h, hcl sib hm⟩
        · exact ⟨h, hcr sib hm⟩
    · exact ih f hf

/-- The lend test on a sound non-root block: the block holds at least one entry, so
`size() - 1` does not wrap, and the test is true exactly at `b - 1` entries and false exactly
from `b` entries on. -/
theorem sub_lend_test (b : Int) (hb : 2 ≤ b) (h : Nat) (sib : Block E) (hs : Sub b h sib) :
    0 < sib.entries.length ∧ size_t_pred sib.entries.length = sib.entries.length - 1 ∧
      (size_t_pred sib.entries.length < size_t_of_int sib.get_min_keys ↔
        (sib.entries.length : Int) = b - 1) ∧
      (¬ size_t_pred sib.entries.length < size_t_of_int sib.get_min_keys ↔
        b ≤ (sib.entries.length : Int)) := by
  have hn := (sub_iff_node b h sib).mp hs
  obtain ⟨hbc, hlo, -, -⟩ := hn
  have hpos : 0 < sib.entries.length := by omega
  have hsz := size_t_of_int_nonneg (b - 1) (by omega)
  have hpred := size_t_pred_pos _ hpos
  simp only [Block.get_min_keys, hbc, hpred]
  refine ⟨hpos, trivial, ?_, ?_⟩ <;> constructor <;> intro hh <;> omega

theorem get_sibling_ne (parent : Block E) (idx : Nat) (left right : Bool) (r : Nat)
    (hidx : idx < parent.children.length)
    (h : get_sibling parent idx left right = some r) : r ≠ idx := by
  simp only [get_sibling, hidx, if_true] at h
  split at h
  · rename_i hc
    simp only [Bool.and_eq_true, decide_eq_true_eq] at hc
    simp only [Option.some.injEq] at h
    omega
  · split at h
    · simp only [Option.some.injEq] at h
      omega
    · simp at h

end CallFacts2

section FirstCall
variable {E K : Type} [LinearOrder K]

/-- The first call of `remove_restructure` in a removal.  On the block and path that
`search_helper` returns in a sound tree, `remove_helper` works on a leaf — the block found, or
the leaf that `get_replacement` reaches — and what it returns is decided by the entries `les`
left in that leaf: `remove_restructure` on the leaf and its path when the leaf underflows, the
plugged tree otherwise.  The activations of `remove_restructure` are those of that call.  The
path is as long as the tree is high, and its root frame holds as many entries as the root. -/
theorem remove_first_call (key : E → K) (b : Int) (hb : 2 ≤ b) (t : Block E)
    (hroot : RootOK b 1 t) (hs : KeySorted key (inorder t)) (k : K) (fes : List E)
    (fcs : List (Block E)) (path : Path E)
    (hsearch : search_helper key t k [] = some (.mk b fes fcs, path)) :
    ∃ les P, PathStruct b 1 0 P ∧ (P ≠ [] → b - 2 ≤ (les.length : Int)) ∧
      (les.length : Int) ≤ 2 * b - 1 ∧
      (remove_helper key 1 (.mk b fes fcs) k path =
        if les.length < size_t_of_int (b - 1) then remove_restructure (.mk b les []) P
        else some (plug (.mk b les []) P)) ∧
      (remove_helper_calls key 1 (.mk b fes fcs) k path =
        if les.length < size_t_of_int (b - 1) then remove_restructure_calls (.mk b les []) P
        else []) ∧
      P.length = height t ∧
      (P ≠ [] → (root_entries (.mk b les []) P).length = t.entries.length) := by
  have hsh : Shaped b t := rootOK_shaped b 1 _ hroot
  obtain ⟨fes', fcs', path', h1, h2, h3, h4, h5, h6, h7, h8⟩ :=
    search_shape key b k t hsh [] PathShape.nil (by simpa [path_left, path_right] using hs)
      (by simp [path_left]) (by simp [path_right])
  obtain ⟨fes'', fcs'', path'', h', s1, s2, s3, -, s5, s6, s7⟩ := search_height key b 1 k t hroot
  rw [hsearch] at h1 s1
  simp only [Option.some.injEq, Prod.mk.injEq, Block.mk.injEq, true_and] at h1 s1
  obtain ⟨⟨rfl, rfl⟩, rfl⟩ := h1
  obtain ⟨⟨rfl, rfl⟩, rfl⟩ := s1
  simp only [path_left, path_right, List.nil_append, List.append_nil, plug] at h4 h5
  rcases h8 with ⟨A, e, B, rfl, he, hA, hB⟩ | ⟨rfl, A, B, rfl, hA, hB⟩
  · have hidx := get_index_present key k A B e he hA hB
    have hkey := key_at_index_present key k A B e he
    rcases node_children s2.1 with ⟨rfl, rfl⟩ | ⟨-, h'', rfl, -⟩
    · have hn := (node_mk_zero ..).mp s2.1
      refine ⟨A ++ B, path, s3, ?_, ?_, ?_, ?_, by rw [s6]; omega, ?_⟩
      · intro hne
        have := s2.2.1 hne
        simp only [Block.entries, List.length_append, List.length_cons] at this
        simp only [List.length_append]
        omega
      · have := hn.2.2.1
        simp only [List.length_append, List.length_cons] at this
        simp only [List.length_append]
        omega
      · unfold remove_helper
        simp only [List.isEmpty_nil, if_true, hidx, hkey, Nat.add_sub_cancel,
          eraseIdx_at_length, Block.get_min_keys, Block.get_b_count]
      · unfold remove_helper_calls
        simp only [List.isEmpty_nil, if_true, hidx, hkey, Nat.add_sub_cancel,
          eraseIdx_at_length, Block.get_min_keys, Block.get_b_count]
      · intro hne
        rw [← s7, root_entries_irrel _ (.mk b (A ++ e :: B) []) path hne]
    · have hsf : KeySorted key (inorder (.mk b (A ++ e :: B) fcs)) := by
        rw [← h4] at hs
        exact hs.sublist ((List.sublist_append_right _ _).trans (List.sublist_append_left _ _))
      obtain ⟨cl, c, cr, les, r, pushed, q1, q2, q3, q4, -, -, -, -, s9, s10, s11, s12, s13⟩ :=
        remove_helper_internal_step key b hb k h'' path s3 A B e fcs he hA hB s2 hsf
      have hsame : height (plug (.mk b (les ++ [r]) [])
          (pushed ++ ⟨.mk b (A ++ r :: B) fcs, A.length⟩ :: path)) = height t := by
        rw [plug_append, q4, ← s5, q1, ← q2, plug_cons]
        apply plug_height_congr
        exact height_entries_irrel _ _ _ _ _
      have hlen : (pushed ++ (⟨.mk b (A ++ r :: B) fcs, A.length⟩ : Frame E) :: path).length =
          height t := by
        rw [← hsame, plug_height b 1 _ 0 s9 _ s10]
        omega
      have hre : (root_entries (.mk b les [])
          (pushed ++ (⟨.mk b (A ++ r :: B) fcs, A.length⟩ : Frame E) :: path)).length =
          t.entries.length := by
        rw [root_entries_append]
        simp only
        by_cases hp : path = []
        · subst hp
          simp only [plug] at s5
          rw [← s5]
          simp only [root_entries, Block.entries, List.length_append, List.length_cons]
        · rw [← s7, root_entries_irrel _ (.mk b (A ++ e :: B) fcs) path hp]
      subst q1
      have hn := (node_mk_zero ..).mp s10.1
      have hset : ((pushed ++
            (⟨.mk b (A ++ e :: B) (cl ++ c :: cr), A.length⟩ : Frame E) :: path).set
          ((pushed ++
            (⟨.mk b (A ++ e :: B) (cl ++ c :: cr), A.length⟩ : Frame E) :: path).length -
            (path.length + 1))
          ⟨.mk b (A ++ r :: B) (cl ++ c :: cr), A.length⟩) =
          pushed ++ ⟨.mk b (A ++ r :: B) (cl ++ c :: cr), A.length⟩ :: path := by
        have : (pushed ++
            (⟨.mk b (A ++ e :: B) (cl ++ c :: cr), A.length⟩ : Frame E) :: path).length -
            (path.length + 1) = pushed.length := by simp
        rw [this, set_at_length]
      have hc : (cl ++ c :: cr)[A.length]? = some c := by
        rw [← q2]; exact getElem?_at_length _ _ _
      have hleafidx := get_index_present key (key r) les [] r rfl s11 (by simp)
      have hleafkey := key_at_index_present key (key r) les [] r rfl
      refine ⟨les, _, s9, ?_, ?_, ?_, ?_, hlen, fun _ => hre⟩
      · intro hne
        have := s10.2.1 hne
        simp only [Block.entries, List.length_append, List.length_singleton] at this
        omega
      · have := hn.2.2.1
        simp only [List.length_append, List.length_singleton] at this
        omega
      · rw [s12 0, s13 0]
      · conv_lhs => unfold remove_helper_calls
        simp only [List.isEmpty_eq_true, List.append_eq_nil, and_false, if_false, hidx,
          Nat.add_sub_cancel, Nat.zero_lt_succ, if_true, reduceCtorEq]
        simp only [hc, q3, Block.entries, List.getLast?_concat, set_at_length, hset]
        unfold remove_helper_calls
        simp only [List.isEmpty_nil, if_true, hleafidx, hleafkey, Nat.add_sub_cancel,
          eraseIdx_at_length, List.append_nil, Block.get_min_keys, Block.get_b_count]
  · have hidx := get_index_absent key k A B hA hB
    have hkey := key_at_index_absent key k A B hA
    obtain rfl : h' = 0 := by
      rcases node_children s2.1 with ⟨-, h0⟩ | ⟨hl, -⟩
      · exact h0
      · simp at hl
    have hn := (node_mk_zero ..).mp s2.1
    refine ⟨A ++ B, path, s3, ?_, hn.2.2.1, ?_, ?_, by rw [s6]; omega, fun _ => by rw [← s7]⟩
    · intro hne
      have := s2.2.1 hne
      simp only [Block.entries] at this
      omega
    · unfold remove_helper
      simp only [List.isEmpty_nil, if_true, hidx, hkey, Bool.false_eq_true, if_false,
        Block.get_min_keys, Block.get_b_count]
    · unfold remove_helper_calls
      simp only [List.isEmpty_nil, if_true, hidx, hkey, Bool.false_eq_true, if_false,
        Block.get_min_keys, Block.get_b_count]

/-- What holds of every activation of `remove_restructure` that a call on a leaf one entry
short gives rise to in a sound tree: it returns, and its path is the rest of the path of the
first call, so the frame on top of it points at an existing child slot of a block with
`entries + 1` children, at least two of them, whose other children are sound non-root
blocks. -/
theorem remove_calls_facts (b : Int) (hb : 2 ≤ b) (les : List E) (P : Path E)
    (hp : PathStruct b 1 0 P) (hlo : P ≠ [] → b - 2 ≤ (les.length : Int))
    (hhi : (les.length : Int) ≤ 2 * b - 1) (hu : les.length < size_t_of_int (b - 1))
    (call : Block E × Path E)
    (hc : call ∈ remove_restructure_calls (.mk b les []) P) :
    (∃ root', remove_restructure call.1 call.2 = some root') ∧
    ∀ f rest, call.2 = f :: rest →
      f.idx < f.parent.children.length ∧
      f.parent.children.length = f.parent.entries.length + 1 ∧
      2 ≤ f.parent.children.length ∧
      ∀ j sib, j ≠ f.idx → f.parent.children[j]? = some sib → ∃ h', Sub b h' sib := by
  constructor
  · have hsz := size_t_of_int_nonneg (b - 1) (by omega)
    obtain ⟨root', h1, -⟩ := remove_restructure_spec b hb P 0 hp les []
      ((node_mk_zero ..).mpr ⟨rfl, by omega, hhi, rfl⟩)
      (fun hne => by have := hlo hne; omega)
    rw [← remove_restructure_calls_tail P _ call hc]
    exact ⟨root', h1⟩
  · intro f rest hcall
    have hsuf := remove_restructure_calls_suffix P _ call hc
    have hmem : f ∈ P := hsuf.subset (by rw [hcall]; simp)
    exact pathStruct_frame_facts b 1 hb 0 P hp (le_refl _) f hmem

/-- The same for the activations that `remove_helper` gives rise to on the block and path
returned by `search_helper`. -/
theorem remove_helper_calls_facts (key : E → K) (b : Int) (hb : 2 ≤ b) (t : Block E)
    (hroot : RootOK b 1 t) (hs : KeySorted key (inorder t)) (k : K) (fes : List E)
    (fcs : List (Block E)) (path : Path E)
    (hsearch : search_helper key t k [] = some (.mk b fes fcs, path))
    (call : Block E × Path E)
    (hc : call ∈ remove_helper_calls key 1 (.mk b fes fcs) k path) :
    (∃ root', remove_restructure call.1 call.2 = some root') ∧
    ∀ f rest, call.2 = f :: rest →
      f.idx < f.parent.children.length ∧
      f.parent.children.length = f.parent.entries.length + 1 ∧
      2 ≤ f.parent.children.length ∧
      ∀ j sib, j ≠ f.idx → f.parent.children[j]? = some sib → ∃ h', Sub b h' sib := by
  obtain ⟨les, P, hp, hlo, hhi, -, heq, -, -⟩ :=
    remove_first_call key b hb t hroot hs k fes fcs path hsearch
  rw [heq] at hc
  by_cases hu : les.length < size_t_of_int (b - 1)
  · rw [if_pos hu] at hc
    exact remove_calls_facts b hb les P hp hlo hhi hu call hc
  · rw [if_neg hu] at hc
    simp at hc

end FirstCall

section SafetyClaims
variable {E K V : Type} [LinearOrder K]

/-- C32: the lend test does not wrap (both variants, `b ≥ 2`, well-formed tree).  Take the
block and path that `search_helper` returns for a key, on which both variants call
`remove_helper`.  For every activation of `remove_restructure` that this call gives rise to,
every sibling that `get_sibling` returns holds at least one entry, so `size() - 1` is the
count less one and not a wrapped value, and the test `size() - 1 < min entries` is true
exactly when the sibling holds `b - 1` entries and false exactly when it holds at least `b`. -/
theorem lend_test_does_not_wrap (key : E → K) (b : Int) (hb : 2 ≤ b) (t : B_Tree E) (k : K)
    (hwf : WellFormed key b t) :
    ∃ fes fcs path, search_helper key t.root k [] = some (.mk b fes fcs, path) ∧
      ∀ call ∈ remove_helper_calls key 1 (.mk b fes fcs) k path,
        ∀ f rest, call.2 = f :: rest →
          ∀ left right r sib, get_sibling f.parent f.idx left right = some r →
            f.parent.children[r]? = some sib →
              0 < sib.entries.length ∧
              size_t_pred sib.entries.length = sib.entries.length - 1 ∧
              (size_t_pred sib.entries.length < size_t_of_int sib.get_min_keys ↔
                (sib.entries.length : Int) = b - 1) ∧
              (¬ size_t_pred sib.entries.length < size_t_of_int sib.get_min_keys ↔
                b ≤ (sib.entries.length : Int)) := by
  obtain ⟨hroot, hso⟩ := (wellFormed_iff key b t).mp hwf
  obtain ⟨fes, fcs, path, h1, -, -⟩ := remove_core key b hb t.root hroot hso k
  refine ⟨fes, fcs, path, h1, ?_⟩
  intro call hc f rest hcall left right r sib hsib hget
  obtain ⟨-, hfr⟩ :=
    remove_helper_calls_facts key b hb t.root hroot hso k fes fcs path h1 call hc
  obtain ⟨f1, -, -, f4⟩ := hfr f rest hcall
  obtain ⟨h', hsub⟩ := f4 r sib (get_sibling_ne f.parent f.idx left right r f1 hsib) hget
  exact sub_lend_test b hb h' sib hsub

/-- Witness for C32: removing key 1 from `example_small` empties the first leaf; the sibling
examined is the leaf `[(5, 50)]`, which holds `b - 1 = 1` entry, and the test is true. -/
theorem lend_test_does_not_wrap_witness :
    (2 : Int) ≤ 2 ∧ WellFormed Prod.fst 2 example_small ∧
      get_sibling example_small.root 0 false true = some 1 ∧
      example_small.root.children[1]? = some (.mk 2 [(5, 50)] []) ∧
      size_t_pred (Block.mk 2 [((5 : Int), (50 : Int))] []).entries.length = 0 ∧
      size_t_pred (Block.mk 2 [((5 : Int), (50 : Int))] []).entries.length <
        size_t_of_int (Block.mk 2 [((5 : Int), (50 : Int))] []).get_min_keys := by
  obtain ⟨fes, fcs, path, hs, hcalls⟩ :=
    lend_test_does_not_wrap Prod.fst 2 (by decide) example_small 1 example_small_wf
  have hs' : search_helper Prod.fst example_small.root 1 [] =
      some (.mk 2 [(1, 10)] [], [⟨example_small.root, 0⟩]) := rfl
  rw [hs'] at hs
  simp only [Option.some.injEq, Prod.mk.injEq, Block.mk.injEq, true_and] at hs
  obtain ⟨⟨rfl, rfl⟩, rfl⟩ := hs
  have hfacts := hcalls (.mk 2 [] [], [⟨example_small.root, 0⟩]) (List.Mem.head _)
    ⟨example_small.root, 0⟩ [] rfl false true 1 (.mk 2 [(5, 50)] []) rfl rfl
  exact ⟨by decide, example_small_wf, rfl, rfl, hfacts.2.1, hfacts.2.2.1.mpr rfl⟩

end SafetyClaims

section CollapseClaims
variable {E K V : Type} [LinearOrder K]

/-- Height of the tree after `remove_helper` ran on the block and path that `search_helper`
returned in a sound tree.  Either no activation of `remove_restructure` met a root with
exactly one child, and the height is that of the tree before; or an activation met the root
with zero entries and one child, that child is the resulting root, the height is one less,
and the root held a single entry before. -/
theorem remove_helper_collapse (key : E → K) (b : Int) (hb : 2 ≤ b) (t : Block E)
    (hroot : RootOK b 1 t) (hs : KeySorted key (inorder t)) (k : K) (fes : List E)
    (fcs : List (Block E)) (path : Path E)
    (hsearch : search_helper key t k [] = some (.mk b fes fcs, path)) :
    ∃ root', remove_helper key 1 (.mk b fes fcs) k path = some root' ∧
      (((∀ call ∈ remove_helper_calls key 1 (.mk b fes fcs) k path,
            call.2 = [] → call.1.children.length ≠ 1) ∧
          height root' = height t) ∨
        (∃ rb c, (Block.mk rb [] [c], ([] : Path E)) ∈
            remove_helper_calls key 1 (.mk b fes fcs) k path ∧
          root' = c ∧ height root' + 1 = height t ∧ t.entries.length = 1)) := by
  obtain ⟨les, P, hp, hlo, hhi, heq, hcalls, hlen, hre⟩ :=
    remove_first_call key b hb t hroot hs k fes fcs path hsearch
  have hsz := size_t_of_int_nonneg (b - 1) (by omega)
  rw [heq, hcalls]
  by_cases hu : les.length < size_t_of_int (b - 1)
  · rw [if_pos hu, if_pos hu]
    obtain ⟨root', e1, -, -, e4, -⟩ := remove_restructure_full b hb P 0 hp les []
      ((node_mk_zero ..).mpr ⟨rfl, by omega, hhi, rfl⟩)
      (fun hne => by have := hlo hne; omega)
    refine ⟨root', e1, ?_⟩
    rcases e4 with ⟨g1, g2⟩ | ⟨rb, c, g1, g2, g3, info⟩
    · exact Or.inl ⟨g1, by rw [g2, hlen]; omega⟩
    · refine Or.inr ⟨rb, c, g1, g2, by rw [g3, hlen]; omega, ?_⟩
      rcases info with ⟨rfl, -⟩ | ⟨hne, hone⟩
      · simp [remove_restructure_calls] at g1
      · rw [← hre hne]
        exact hone
  · rw [if_neg hu, if_neg hu]
    refine ⟨_, rfl, Or.inl ⟨by intro call hc; simp at hc, ?_⟩⟩
    rw [plug_height b 1 P 0 hp _ ⟨(node_mk_zero ..).mpr ⟨rfl, by omega, hhi, rfl⟩, ?_, ?_⟩, hlen]
    · omega
    · intro _
      simp only [Block.entries]
      omega
    · intro _ hc
      simp [Block.children] at hc

theorem example_thin_wf : WellFormed id 2 example_thin :=
  (wellFormed_iff id 2 example_thin).mpr
    ⟨⟨1, by simp [example_thin, Node, Sub, Block.get_b_count, Block.entries, Block.children],
      by simp, by simp [example_thin, Block.entries]⟩,
      by simp [example_thin, KeySorted, inorder, inorder_children, interleave]⟩

/-- C23: root collapse, for the set and for the map variant.  On a well-formed tree of degree
`b ≥ 2` and for every key, `remove` returns a tree whose root is not an internal block with
zero entries and whose leaves are all `height` levels down.  When an activation of
`remove_restructure` meets the root with zero entries and one child — left so by a merge
below it, which took the single entry the root held — that child is the root of the tree
returned and the height is exactly one less.  In every other case, that is when no
activation meets a root with exactly one child, the height is unchanged. -/
theorem remove_root_collapse (b : Int) (hb : 2 ≤ b) (ts : B_Tree Int) (ks : Int)
    (tm : B_Tree (K × V)) (km : K) (hs : WellFormed id b ts) (hm : WellFormed Prod.fst b tm) :
    (∃ ts', SetTree.remove ts ks = some ts' ∧
      (ts'.root.entries = [] → ts'.root.children = []) ∧
      Node b 0 (2 * b - 1) (height ts'.root) ts'.root ∧
      (((∀ call ∈ SetTree.remove_calls ts ks, call.2 = [] → call.1.children.length ≠ 1) ∧
          height ts'.root = height ts.root) ∨
        (∃ rb c, (Block.mk rb [] [c], ([] : Path Int)) ∈ SetTree.remove_calls ts ks ∧
          ts'.root = c ∧ height ts'.root + 1 = height ts.root ∧
          ts.root.entries.length = 1))) ∧
    (∃ tm', MapTree.remove tm km = some tm' ∧
      (tm'.root.entries = [] → tm'.root.children = []) ∧
      Node b 0 (2 * b - 1) (height tm'.root) tm'.root ∧
      (((∀ call ∈ MapTree.remove_calls tm km, call.2 = [] → call.1.children.length ≠ 1) ∧
          height tm'.root = height tm.root) ∨
        (∃ rb c, (Block.mk rb [] [c], ([] : Path (K × V))) ∈ MapTree.remove_calls tm km ∧
          tm'.root = c ∧ height tm'.root + 1 = height tm.root ∧
          tm.root.entries.length = 1))) := by
  obtain ⟨hroot, hso⟩ := (wellFormed_iff id b ts).mp hs
  obtain ⟨hroot', hso'⟩ := (wellFormed_iff Prod.fst b tm).mp hm
  have hnode : ∀ {F : Type} (r : Block F), RootOK b 1 r → Node b 0 (2 * b - 1) (height r) r := by
    intro F r hr
    obtain ⟨h, hn, -, -⟩ := hr
    rw [node_height b h _ _ _ hn]
    exact hn
  constructor
  · obtain ⟨t', h1, h2, h3, -⟩ := set_remove_spec b hb ts hroot hso ks
    refine ⟨t', h1, ((wellFormed_iff id b t').mpr ⟨h2, h3⟩).2.1, hnode _ h2, ?_⟩
    obtain ⟨fes, fcs, path, g1, -, -⟩ := remove_core id b hb ts.root hroot hso ks
    by_cases hp : path = []
    · subst hp
      have ht : t' = ts := by
        have : SetTree.remove ts ks = some ts := by simp [SetTree.remove, g1]
        rw [this] at h1
        exact (Option.some.inj h1).symm
      subst ht
      exact Or.inl ⟨by simp [SetTree.remove_calls, g1], rfl⟩
    · have hp' : (!path.isEmpty) = true := by
        cases path with
        | nil => exact absurd rfl hp
        | cons _ _ => rfl
      obtain ⟨root', r1, r2⟩ :=
        remove_helper_collapse id b hb ts.root hroot hso ks fes fcs path g1
      have ht : t' = ⟨root'⟩ := by
        have : SetTree.remove ts ks = some ⟨root'⟩ := by simp [SetTree.remove, g1, hp', r1]
        rw [this] at h1
        exact (Option.some.inj h1).symm
      subst ht
      have hcalls : SetTree.remove_calls ts ks = remove_helper_calls id 1 (.mk b fes fcs) ks path := by
        simp [SetTree.remove_calls, g1, hp']
      rw [hcalls]
      exact r2
  · obtain ⟨t', h1, h2, -, h4⟩ := map_remove_spec b hb tm hroot' hso' km
    refine ⟨t', h1, ((wellFormed_iff Prod.fst b t').mpr ⟨h2, h4⟩).2.1, hnode _ h2, ?_⟩
    obtain ⟨fes, fcs, path, g1, -, -⟩ := remove_core Prod.fst b hb tm.root hroot' hso' km
    by_cases hk : key_at_index Prod.fst fes (get_index Prod.fst fes km) km = true
    · obtain ⟨root', r1, r2⟩ :=
        remove_helper_collapse Prod.fst b hb tm.root hroot' hso' km fes fcs path g1
      have ht : t' = ⟨root'⟩ := by
        have : MapTree.remove tm km = some ⟨root'⟩ := by
          simp [MapTree.remove, g1, Block.entries, hk, r1]
        rw [this] at h1
        exact (Option.some.inj h1).symm
      subst ht
      have hcalls : MapTree.remove_calls tm km =
          remove_helper_calls Prod.fst 1 (.mk b fes fcs) km path := by
        simp [MapTree.remove_calls, g1, Block.entries, hk]
      rw [hcalls]
      exact r2
    · have ht : t' = tm := by
        have : MapTree.remove tm km = some tm := by
          simp [MapTree.remove, g1, Block.entries, hk]
        rw [this] at h1
        exact (Option.some.inj h1).symm
      subst ht
      exact Or.inl ⟨by simp [MapTree.remove_calls, g1, Block.entries, hk], rfl⟩

/-- Witness for C23: removing key 1 from `example_thin` and from `example_small` empties the
first leaf, the merge takes the only entry of the root, `remove_restructure` meets the root
with zero entries and one child, and the merged leaf becomes the root: the height goes from
1 to 0.  Removing key 1 from `example_set` calls for no repair, and the height stays 1. -/
theorem remove_root_collapse_witness :
    (2 : Int) ≤ 2 ∧ WellFormed id 2 example_thin ∧ WellFormed Prod.fst 2 example_small ∧
    WellFormed id 2 example_set ∧ SetTree.remove_calls example_set 1 = [] ∧
    (∃ ts', SetTree.remove example_set 1 = some ts' ∧ height ts'.root = 1) ∧
    SetTree.remove example_thin 1 = some ⟨.mk 2 [3, 5] []⟩ ∧
    SetTree.remove_calls example_thin 1 =
      [(.mk 2 [] [], [⟨example_thin.root, 0⟩]), (.mk 2 [] [.mk 2 [3, 5] []], [])] ∧
    MapTree.remove example_small 1 = some ⟨.mk 2 [(3, 30), (5, 50)] []⟩ ∧
    MapTree.remove_calls example_small 1 =
      [(.mk 2 [] [], [⟨example_small.root, 0⟩]),
        (.mk 2 [] [.mk 2 [(3, 30), (5, 50)] []], [])] ∧
    height example_thin.root = 1 ∧ height example_small.root = 1 ∧
    (∃ ts', SetTree.remove example_thin 1 = some ts' ∧ height ts'.root + 1 = 1) ∧
    (∃ tm', MapTree.remove example_small 1 = some tm' ∧ height tm'.root + 1 = 1) := by
  obtain ⟨⟨ts', s1, -, -, s2⟩, ⟨tm', m1, -, -, m2⟩⟩ :=
    remove_root_collapse 2 (by decide) example_thin 1 example_small 1 example_thin_wf
      example_small_wf
  have hs : SetTree.remove_calls example_thin 1 =
      [(.mk 2 [] [], [⟨example_thin.root, 0⟩]), (.mk 2 [] [.mk 2 [3, 5] []], [])] := rfl
  have hm : MapTree.remove_calls example_small 1 =
      [(.mk 2 [] [], [⟨example_small.root, 0⟩]),
        (.mk 2 [] [.mk 2 [(3, 30), (5, 50)] []], [])] := rfl
  obtain ⟨⟨ts'', u1, -, -, u2⟩, -⟩ :=
    remove_root_collapse 2 (by decide) example_set 1 example_small 1 example_set_wf
      example_small_wf
  have hu : SetTree.remove_calls example_set 1 = [] := rfl
  refine ⟨by decide, example_thin_wf, example_small_wf, example_set_wf, hu, ⟨ts'', u1, ?_⟩,
    rfl, hs, rfl, hm, rfl, rfl, ⟨ts', s1, ?_⟩, ⟨tm', m1, ?_⟩⟩
  · rcases u2 with ⟨-, g⟩ | ⟨_, _, g, -⟩
    · exact g
    · rw [hu] at g
      simp at g
  · rcases s2 with ⟨g, -⟩ | ⟨-, -, -, -, g, -⟩
    · exact absurd rfl (g (.mk 2 [] [.mk 2 [3, 5] []], []) (by rw [hs]; simp) rfl)
    · exact g
  · rcases m2 with ⟨g, -⟩ | ⟨-, -, -, -, g, -⟩
    · exact absurd rfl (g (.mk 2 [] [.mk 2 [(3, 30), (5, 50)] []], []) (by rw [hm]; simp) rfl)
    · exact g

end CollapseClaims

section PointerBasics
variable {E K : Type} [LinearOrder K]

theorem deref_append : ∀ (p q : BlockPtr) (t : Block E),
    Ptr.deref t (p ++ q) = (Ptr.deref t p).bind (fun c => Ptr.deref c q) := by
  intro p
  induction p with
  | nil => intro q t; simp [Ptr.deref]
  | cons i p ih =>
    intro q t
    obtain ⟨b, es, cs⟩ := t
    simp only [List.cons_append, Ptr.deref]
    cases cs[i]? with
    | none => rfl
    | some c => exact ih q c

theorem modify_append (f : Block E → Block E) : ∀ (p q : BlockPtr) (t : Block E),
    Ptr.modify f (p ++ q) t = Ptr.modify (Ptr.modify f q) p t := by
  intro p
  induction p with
  | nil => intro q t; simp [Ptr.modify]
  | cons i p ih =>
    intro q t
    obtain ⟨b, es, cs⟩ := t
    simp only [List.cons_append, Ptr.modify]
    cases cs[i]? with
    | none => rfl
    | some c =>
      have := ih q c
      simp only [List.append_eq] at this ⊢
      rw [this]

theorem deref_singleton (t : Block E) (j : Nat) : Ptr.deref t [j] = t.children[j]? := by
  obtain ⟨b, es, cs⟩ := t
  simp only [Ptr.deref, Block.children]
  cases cs[j]? <;> rfl

theorem modify_singleton (f : Block E → Block E) (b : Int) (es : List E) (cs : List (Block E))
    (j : Nat) (c : Block E) (h : cs[j]? = some c) :
    Ptr.modify f [j] (.mk b es cs) = .mk b es (cs.set j (f c)) := by
  simp only [Ptr.modify, h]

theorem slotsOK_cons (f : Frame E) (rest : Path E) :
    SlotsOK (f :: rest) ↔ f.idx < f.parent.children.length ∧ SlotsOK rest := by
  simp [SlotsOK]

theorem slotsOK_nil : SlotsOK ([] : Path E) := by simp [SlotsOK]

theorem deref_plug : ∀ (rest : Path E) (X : Block E), SlotsOK rest →
    Ptr.deref (plug X rest) (path_ptr rest) = some X := by
  intro rest
  induction rest with
  | nil => intro X _; simp [plug, path_ptr, Ptr.deref]
  | cons f rest ih =>
    intro X hok
    obtain ⟨⟨b, es, cs⟩, i⟩ := f
    obtain ⟨hi, hrest⟩ := (slotsOK_cons _ _).mp hok
    simp only [Block.children] at hi
    simp only [plug, path_ptr, deref_append, ih _ hrest, Option.some_bind, deref_singleton,
      Block.children]
    simp [hi]

theorem deref_plug_child (rest : Path E) (X : Block E) (hok : SlotsOK rest) (j : Nat) :
    Ptr.deref (plug X rest) (path_ptr rest ++ [j]) = X.children[j]? := by
  rw [deref_append, deref_plug rest X hok, Option.some_bind, deref_singleton]

theorem modify_plug : ∀ (rest : Path E) (f : Block E → Block E) (X : Block E), SlotsOK rest →
    Ptr.modify f (path_ptr rest) (plug X rest) = plug (f X) rest := by
  intro rest
  induction rest with
  | nil => intro f X _; simp [plug, path_ptr, Ptr.modify]
  | cons g rest ih =>
    intro f X hok
    obtain ⟨⟨b, es, cs⟩, i⟩ := g
    obtain ⟨hi, hrest⟩ := (slotsOK_cons _ _).mp hok
    simp only [Block.children] at hi
    simp only [plug, path_ptr, modify_append, ih _ _ hrest]
    congr 1
    rw [modify_singleton f b es (cs.set i X) i X (by simp [hi])]
    simp

theorem modify_plug_child (rest : Path E) (f : Block E → Block E) (b : Int) (es : List E)
    (cs : List (Block E)) (hok : SlotsOK rest) (j : Nat) (c : Block E) (h : cs[j]? = some c) :
    Ptr.modify f (path_ptr rest ++ [j]) (plug (.mk b es cs) rest) =
      plug (.mk b es (cs.set j (f c))) rest := by
  rw [modify_append, modify_plug rest _ _ hok, modify_singleton f b es cs j c h]

theorem scan_from (p : BlockPtr) (i : Nat) : ∀ (n j : Nat), j ≤ i → i < j + n →
    Ptr.scan p (p ++ [i]) n j = some i := by
  intro n
  induction n with
  | zero => intro j h1 h2; omega
  | succ n ih =>
    intro j h1 h2
    simp only [Ptr.scan, List.append_cancel_left_eq, List.cons.injEq, and_true]
    by_cases hj : j = i
    · simp [hj]
    · simp only [hj, if_false]
      exact ih (j + 1) (by omega) (by omega)

theorem scan_found (p : BlockPtr) (i n : Nat) (h : i < n) :
    Ptr.scan p (p ++ [i]) n 0 = some i :=
  scan_from p i n 0 (Nat.zero_le _) (by omega)

theorem ptr_get_child_index_found (p : BlockPtr) (i n : Nat) (h : i < n) :
    Ptr.get_child_index n p (p ++ [i]) = (i : Int) := by
  simp [Ptr.get_child_index, scan_found p i n h]

theorem ptr_get_sibling_found (p : BlockPtr) (i n : Nat) (h : i < n) :
    Ptr.get_sibling n p (p ++ [i]) true false = (if 0 < i then some (p ++ [i - 1]) else none) ∧
    Ptr.get_sibling n p (p ++ [i]) false true =
      (if i + 1 < n then some (p ++ [i + 1]) else none) := by
  simp only [Ptr.get_sibling, scan_found p i n h]
  constructor
  · by_cases h0 : 0 < i
    · simp [h0]
    · simp [h0]
  · by_cases h0 : i + 1 < n
    · simp [h0]
      omega
    · simp [h0]
      omega

theorem path_ptr_cons_ne_nil (f : Frame E) (rest : Path E) :
    Ptr.is_root (path_ptr (f :: rest)) = false := by
  simp [Ptr.is_root, path_ptr]

theorem pathShape_slotsOK (b : Int) (path : Path E) (hp : PathShape b path) : SlotsOK path := by
  induction hp with
  | nil => exact slotsOK_nil
  | cons c cl cr kl kr rest _ _ _ _ _ ih =>
    exact (slotsOK_cons _ _).mpr ⟨by simp [Block.children], ih⟩

end PointerBasics

section PointerEquations
variable {E K : Type} [LinearOrder K]

theorem ptr_rotate_right (b : Int) (hb : 2 ≤ b) (es kl kr res : List E)
    (k0 first : E) (cs cl cr rcs : List (Block E)) (c : Block E) (rest : Path E)
    (hok : SlotsOK rest) (h1 : kl.length = cl.length)
    (hres : b ≤ ((first :: res).length : Int)) :
    Ptr.remove_restructure
        (plug (.mk b es cs)
          (⟨.mk b (kl ++ k0 :: kr) (cl ++ c :: .mk b (first :: res) rcs :: cr), cl.length⟩ ::
            rest))
        (path_ptr rest ++ [cl.length]) (path_ptr rest :: path_ptrs rest) =
      some (plug (.mk b (kl ++ first :: kr)
        (cl ++ .mk b (es ++ [k0]) (cs ++ rcs.take 1) :: .mk b res rcs.tail :: cr)) rest) := by
  have hk : (kl ++ k0 :: kr)[cl.length]? = some k0 := by
    rw [← h1]; exact getElem?_at_length _ _ _
  have hset : (kl ++ k0 :: kr).set cl.length first = kl ++ first :: kr := by
    rw [← h1]; exact set_at_length _ _ _ _
  have hsz := size_t_of_int_nonneg (b - 1) (by omega)
  have hlend : ¬ (size_t_pred (first :: res).length < size_t_of_int (b - 1)) := by
    rw [size_t_pred_pos _ (by simp)]
    simp only [List.length_cons] at hres ⊢
    omega
  have hroot : Ptr.is_root (path_ptr rest ++ [cl.length]) = false := by simp [Ptr.is_root]
  have hlen : cl.length < (cl ++ Block.mk b es cs :: Block.mk b (first :: res) rcs :: cr).length := by
    simp
  have hlen2 : cl.length + 1 <
      (cl ++ Block.mk b es cs :: Block.mk b (first :: res) rcs :: cr).length := by
    simp
  rw [plug_cons]
  simp only [Ptr.remove_restructure, hroot, Bool.false_eq_true, if_false, deref_plug _ _ hok,
    deref_plug_child _ _ hok, Block.children, getElem?_at_length, getElem?_at_length_succ,
    (ptr_get_sibling_found _ _ _ hlen).2, hlen2, if_true, hlend, Block.get_min_keys,
    Block.get_b_count, ptr_get_child_index_found _ _ _ hlen]
  simp only [show ¬ ((cl.length : Int) < 0) by omega, if_false, Int.toNat_ofNat, hk,
    List.head?_cons, List.tail_cons]
  rw [modify_plug_child rest _ b _ _ hok cl.length _ (getElem?_at_length _ _ _),
    modify_plug rest _ _ hok]
  simp only [Block.entries, hset, set_at_length]
  rw [modify_plug_child rest _ b _ _ hok (cl.length + 1) _ (getElem?_at_length_succ _ _ _ _)]
  have hset2 : ∀ X Y : Block E, (cl ++ X :: Block.mk b (first :: res) rcs :: cr).set
      (cl.length + 1) Y = cl ++ X :: Y :: cr := by
    intro X Y
    simp
  rw [hset2]
  cases rcs with
  | nil => simp
  | cons rc rcs => simp

theorem ptr_rotate_right_calls (b : Int) (hb : 2 ≤ b) (es kl kr res : List E)
    (k0 first : E) (cs cl cr rcs : List (Block E)) (c : Block E) (rest : Path E)
    (hok : SlotsOK rest) (hres : b ≤ ((first :: res).length : Int)) :
    Ptr.remove_restructure_calls
        (plug (.mk b es cs)
          (⟨.mk b (kl ++ k0 :: kr) (cl ++ c :: .mk b (first :: res) rcs :: cr), cl.length⟩ ::
            rest))
        (path_ptr rest ++ [cl.length]) (path_ptr rest :: path_ptrs rest) =
      [(plug (.mk b es cs)
          (⟨.mk b (kl ++ k0 :: kr) (cl ++ c :: .mk b (first :: res) rcs :: cr), cl.length⟩ ::
            rest), path_ptr rest ++ [cl.length], path_ptr rest :: path_ptrs rest)] := by
  have hsz := size_t_of_int_nonneg (b - 1) (by omega)
  have hlend : ¬ (size_t_pred (first :: res).length < size_t_of_int (b - 1)) := by
    rw [size_t_pred_pos _ (by simp)]
    simp only [List.length_cons] at hres ⊢
    omega
  have hroot : Ptr.is_root (path_ptr rest ++ [cl.length]) = false := by simp [Ptr.is_root]
  have hlen : cl.length < (cl ++ Block.mk b es cs :: Block.mk b (first :: res) rcs :: cr).length := by
    simp
  have hlen2 : cl.length + 1 <
      (cl ++ Block.mk b es cs :: Block.mk b (first :: res) rcs :: cr).length := by
    simp
  rw [plug_cons]
  simp only [Ptr.remove_restructure_calls, hroot, Bool.false_eq_true, if_false,
    deref_plug _ _ hok, deref_plug_child _ _ hok, Block.children, getElem?_at_length,
    getElem?_at_length_succ, (ptr_get_sibling_found _ _ _ hlen).2, hlen2, if_true, hlend,
    Block.get_min_keys, Block.get_b_count]

theorem ptr_merge_body_right (b : Int) (es kl kr res : List E) (k0 : E)
    (cs cl cr rcs : List (Block E)) (rest : Path E) (hok : SlotsOK rest)
    (h1 : kl.length = cl.length) (hleaf : cs = [] → rcs = []) :
    Ptr.merge_body
        (plug (.mk b (kl ++ k0 :: kr) (cl ++ .mk b es cs :: .mk b res rcs :: cr)) rest)
        (path_ptr rest) (path_ptr rest ++ [cl.length + 1]) (path_ptr rest ++ [cl.length])
        true false =
      some (plug (.mk b (kl ++ kr) (cl ++ .mk b (es ++ k0 :: res) (cs ++ rcs) :: cr)) rest) := by
  have hk : (kl ++ k0 :: kr)[cl.length]? = some k0 := by
    rw [← h1]; exact getElem?_at_length _ _ _
  have her : (kl ++ k0 :: kr).eraseIdx cl.length = kl ++ kr := by
    rw [← h1]; exact eraseIdx_at_length _ _ _
  have hlen : cl.length < (cl ++ Block.mk b es cs :: Block.mk b res rcs :: cr).length := by
    simp
  have hlen2 : cl.length + 1 < (cl ++ Block.mk b es cs :: Block.mk b res rcs :: cr).length := by
    simp
  have hch : (if cs.isEmpty = true then cs else cs ++ rcs) = cs ++ rcs := by
    cases cs with
    | nil => simp [hleaf rfl]
    | cons _ _ => simp
  have hset2 : ∀ X : Block E, (cl ++ X :: Block.mk b res rcs :: cr).eraseIdx
      (cl.length + 1) = cl ++ X :: cr := by
    intro X
    have := eraseIdx_at_length (cl ++ [X]) cr (.mk b res rcs)
    simpa using this
  simp only [Ptr.merge_body, deref_plug _ _ hok, deref_plug_child _ _ hok, Block.children,
    getElem?_at_length, getElem?_at_length_succ, if_true,
    ptr_get_child_index_found _ _ _ hlen, ptr_get_child_index_found _ _ _ hlen2]
  simp only [show ¬ ((cl.length : Int) < 0 ∨ ((cl.length + 1 : Nat) : Int) < 0) by omega,
    if_false, Int.toNat_ofNat, hk]
  rw [modify_plug_child rest _ b _ _ hok cl.length _ (getElem?_at_length _ _ _),
    modify_plug rest _ _ hok]
  simp only [Block.entries, Block.children, Block.get_b_count, her, set_at_length, hset2, hch,
    List.append_assoc, List.singleton_append]

theorem ptr_merge_right (b : Int) (hb : 2 ≤ b) (es kl kr res : List E)
    (k0 : E) (cs cl cr rcs : List (Block E)) (c : Block E) (rest : Path E)
    (hok : SlotsOK rest) (h1 : kl.length = cl.length) (hres : (res.length : Int) = b - 1)
    (hleaf : cs = [] → rcs = []) :
    Ptr.remove_restructure
        (plug (.mk b es cs)
          (⟨.mk b (kl ++ k0 :: kr) (cl ++ c :: .mk b res rcs :: cr), cl.length⟩ :: rest))
        (path_ptr rest ++ [cl.length]) (path_ptr rest :: path_ptrs rest) =
      (if (kl ++ kr).length < size_t_of_int (b - 1) then
        Ptr.remove_restructure
          (plug (.mk b (kl ++ kr) (cl ++ .mk b (es ++ k0 :: res) (cs ++ rcs) :: cr)) rest)
          (path_ptr rest) (path_ptrs rest)
      else some (plug (.mk b (kl ++ kr)
        (cl ++ .mk b (es ++ k0 :: res) (cs ++ rcs) :: cr)) rest)) ∧
    Ptr.remove_restructure_calls
        (plug (.mk b es cs)
          (⟨.mk b (kl ++ k0 :: kr) (cl ++ c :: .mk b res rcs :: cr), cl.length⟩ :: rest))
        (path_ptr rest ++ [cl.length]) (path_ptr rest :: path_ptrs rest) =
      (plug (.mk b es cs)
          (⟨.mk b (kl ++ k0 :: kr) (cl ++ c :: .mk b res rcs :: cr), cl.length⟩ :: rest),
        path_ptr rest ++ [cl.length], path_ptr rest :: path_ptrs rest) ::
      (if (kl ++ kr).length < size_t_of_int (b - 1) then
        Ptr.remove_restructure_calls
          (plug (.mk b (kl ++ kr) (cl ++ .mk b (es ++ k0 :: res) (cs ++ rcs) :: cr)) rest)
          (path_ptr rest) (path_ptrs rest)
      else []) := by
  have hsz := size_t_of_int_nonneg (b - 1) (by omega)
  have hlend : size_t_pred res.length < size_t_of_int (b - 1) := by
    rw [size_t_pred_pos _ (by omega)]
    omega
  have hroot : Ptr.is_root (path_ptr rest ++ [cl.length]) = false := by simp [Ptr.is_root]
  have hlen : cl.length < (cl ++ Block.mk b es cs :: Block.mk b res rcs :: cr).length := by
    simp
  have hlen2 : cl.length + 1 < (cl ++ Block.mk b es cs :: Block.mk b res rcs :: cr).length := by
    simp
  have hbody := ptr_merge_body_right b es kl kr res k0 cs cl cr rcs rest hok h1 hleaf
  rw [plug_cons]
  constructor
  · simp only [Ptr.remove_restructure, hroot, Bool.false_eq_true, if_false,
      deref_plug _ _ hok, deref_plug_child _ _ hok, Block.children, getElem?_at_length,
      getElem?_at_length_succ, (ptr_get_sibling_found _ _ _ hlen).2, hlen2, if_true, hlend,
      Block.get_min_keys, Block.get_b_count, Ptr.merge, hbody, Block.entries]
  · simp only [Ptr.remove_restructure_calls, hroot, Bool.false_eq_true, if_false,
      deref_plug _ _ hok, deref_plug_child _ _ hok, Block.children, getElem?_at_length,
      getElem?_at_length_succ, (ptr_get_sibling_found _ _ _ hlen).2, hlen2, if_true, hlend,
      Block.get_min_keys, Block.get_b_count, hbody, Block.entries]

theorem plug_cons_last (b : Int) (es : List E) (cl : List (Block E)) (l c t : Block E)
    (rest : Path E) :
    plug t (⟨.mk b es (cl ++ [l, c]), cl.length + 1⟩ :: rest) =
      plug (.mk b es (cl ++ [l, t])) rest := by
  have := plug_cons b es (cl ++ [l]) [] c t rest
  simpa using this

theorem ptr_rotate_left (b : Int) (hb : 2 ≤ b) (es kl kr les : List E)
    (k1 last : E) (cs cl lcs : List (Block E)) (c : Block E) (rest : Path E)
    (hok : SlotsOK rest) (h1 : kl.length = cl.length)
    (hles : b ≤ ((les ++ [last]).length : Int)) :
    Ptr.remove_restructure
        (plug (.mk b es cs)
          (⟨.mk b (kl ++ k1 :: kr) (cl ++ [.mk b (les ++ [last]) lcs, c]), cl.length + 1⟩ ::
            rest))
        (path_ptr rest ++ [cl.length + 1]) (path_ptr rest :: path_ptrs rest) =
      some (plug (.mk b (kl ++ last :: kr)
        (cl ++ [.mk b les lcs.dropLast,
          .mk b (k1 :: es) (lcs.drop (lcs.length - 1) ++ cs)])) rest) ∧
    Ptr.remove_restructure_calls
        (plug (.mk b es cs)
          (⟨.mk b (kl ++ k1 :: kr) (cl ++ [.mk b (les ++ [last]) lcs, c]), cl.length + 1⟩ ::
            rest))
        (path_ptr rest ++ [cl.length + 1]) (path_ptr rest :: path_ptrs rest) =
      [(plug (.mk b es cs)
          (⟨.mk b (kl ++ k1 :: kr) (cl ++ [.mk b (les ++ [last]) lcs, c]), cl.length + 1⟩ ::
            rest), path_ptr rest ++ [cl.length + 1], path_ptr rest :: path_ptrs rest)] := by
  have hk : (kl ++ k1 :: kr)[cl.length]? = some k1 := by
    rw [← h1]; exact getElem?_at_length _ _ _
  have hset : (kl ++ k1 :: kr).set cl.length last = kl ++ last :: kr := by
    rw [← h1]; exact set_at_length _ _ _ _
  have hsz := size_t_of_int_nonneg (b - 1) (by omega)
  have hlend : ¬ (size_t_pred (les ++ [last]).length < size_t_of_int (b - 1)) := by
    rw [size_t_pred_pos _ (by simp)]
    simp only [List.length_append, List.length_singleton] at hles ⊢
    omega
  have hroot : Ptr.is_root (path_ptr rest ++ [cl.length + 1]) = false := by simp [Ptr.is_root]
  have hlen : cl.length + 1 <
      (cl ++ [Block.mk b (les ++ [last]) lcs, Block.mk b es cs]).length := by
    simp
  have hnr : ¬ (cl.length + 1 + 1 <
      (cl ++ [Block.mk b (les ++ [last]) lcs, Block.mk b es cs]).length) := by
    simp
  have hsib := ptr_get_sibling_found (path_ptr rest) _ _ hlen
  simp only [hnr, if_false, Nat.zero_lt_succ, if_true, Nat.add_sub_cancel] at hsib
  have hc1 : (cl ++ [Block.mk b (les ++ [last]) lcs, Block.mk b es cs])[cl.length + 1]? =
      some (Block.mk b es cs) := getElem?_at_length_succ _ _ _ _
  have hc0 : (cl ++ [Block.mk b (les ++ [last]) lcs, Block.mk b es cs])[cl.length]? =
      some (Block.mk b (les ++ [last]) lcs) := getElem?_at_length _ _ _
  rw [plug_cons_last]
  constructor
  · simp only [Ptr.remove_restructure, hroot, Bool.false_eq_true, if_false,
      deref_plug _ _ hok, deref_plug_child _ _ hok, Block.children, hc1, hc0, hsib.1, hsib.2,
      hlend, Block.get_min_keys, Block.get_b_count, ptr_get_child_index_found _ _ _ hlen]
    simp only [show ¬ (((cl.length + 1 : Nat) : Int) - 1 < 0) by omega, if_false,
      show (((cl.length + 1 : Nat) : Int) - 1).toNat = cl.length by omega, hk,
      List.getLast?_concat, List.dropLast_concat]
    rw [modify_plug_child rest _ b _ _ hok (cl.length + 1) _ hc1, modify_plug rest _ _ hok]
    simp only [Block.entries, hset]
    have hset1 : ∀ X : Block E, (cl ++ [Block.mk b (les ++ [last]) lcs, Block.mk b es cs]).set
        (cl.length + 1) X = cl ++ [Block.mk b (les ++ [last]) lcs, X] := by
      intro X
      simp
    rw [hset1]
    rw [modify_plug_child rest _ b _ _ hok cl.length _ (getElem?_at_length _ _ _)]
    simp only [set_at_length]
    cases lcs with
    | nil => simp
    | cons lc lcs => simp
  · simp only [Ptr.remove_restructure_calls, hroot, Bool.false_eq_true, if_false,
      deref_plug _ _ hok, deref_plug_child _ _ hok, Block.children, hc1, hc0, hsib.1, hsib.2,
      hlend, Block.get_min_keys, Block.get_b_count]

theorem ptr_merge_body_left (b : Int) (es kl kr les : List E) (k1 : E)
    (cs cl lcs : List (Block E)) (rest : Path E) (hok : SlotsOK rest)
    (h1 : kl.length = cl.length) (hleaf : cs = [] → lcs = []) :
    Ptr.merge_body
        (plug (.mk b (kl ++ k1 :: kr) (cl ++ [.mk b les lcs, .mk b es cs])) rest)
        (path_ptr rest) (path_ptr rest ++ [cl.length]) (path_ptr rest ++ [cl.length + 1])
        false true =
      some (plug (.mk b (kl ++ kr) (cl ++ [.mk b (les ++ k1 :: es) (lcs ++ cs)])) rest) := by
  have hk : (kl ++ k1 :: kr)[cl.length]? = some k1 := by
    rw [← h1]; exact getElem?_at_length _ _ _
  have her : (kl ++ k1 :: kr).eraseIdx cl.length = kl ++ kr := by
    rw [← h1]; exact eraseIdx_at_length _ _ _
  have hlen : cl.length < (cl ++ [Block.mk b les lcs, Block.mk b es cs]).length := by
    simp
  have hlen2 : cl.length + 1 < (cl ++ [Block.mk b les lcs, Block.mk b es cs]).length := by
    simp
  have hc1 : (cl ++ [Block.mk b les lcs, Block.mk b es cs])[cl.length + 1]? =
      some (Block.mk b es cs) := getElem?_at_length_succ _ _ _ _
  have hc0 : (cl ++ [Block.mk b les lcs, Block.mk b es cs])[cl.length]? =
      some (Block.mk b les lcs) := getElem?_at_length _ _ _
  have hch : (if cs.isEmpty = true then cs else lcs ++ cs) = lcs ++ cs := by
    cases cs with
    | nil => simp [hleaf rfl]
    | cons _ _ => simp
  have hset1 : ∀ X : Block E, (cl ++ [Block.mk b les lcs, Block.mk b es cs]).set
      (cl.length + 1) X = cl ++ [Block.mk b les lcs, X] := by
    intro X
    simp
  simp only [Ptr.merge_body, deref_plug _ _ hok, deref_plug_child _ _ hok, Block.children,
    hc0, hc1, Bool.false_eq_true, if_false, if_true,
    ptr_get_child_index_found _ _ _ hlen, ptr_get_child_index_found _ _ _ hlen2]
  simp only [show ¬ (((cl.length + 1 : Nat) : Int) - 1 < 0 ∨ (cl.length : Int) < 0) by omega,
    if_false, show (((cl.length + 1 : Nat) : Int) - 1).toNat = cl.length by omega,
    Int.toNat_ofNat, hk]
  rw [modify_plug_child rest _ b _ _ hok (cl.length + 1) _ hc1, modify_plug rest _ _ hok]
  simp only [Block.entries, Block.children, Block.get_b_count, her, hset1, eraseIdx_at_length,
    hch, List.append_assoc, List.singleton_append]

theorem ptr_merge_left (b : Int) (hb : 2 ≤ b) (es kl kr les : List E)
    (k1 : E) (cs cl lcs : List (Block E)) (c : Block E) (rest : Path E)
    (hok : SlotsOK rest) (h1 : kl.length = cl.length) (hles : (les.length : Int) = b - 1)
    (hleaf : cs = [] → lcs = []) :
    Ptr.remove_restructure
        (plug (.mk b es cs)
          (⟨.mk b (kl ++ k1 :: kr) (cl ++ [.mk b les lcs, c]), cl.length + 1⟩ :: rest))
        (path_ptr rest ++ [cl.length + 1]) (path_ptr rest :: path_ptrs rest) =
      (if (kl ++ kr).length < size_t_of_int (b - 1) then
        Ptr.remove_restructure
          (plug (.mk b (kl ++ kr) (cl ++ [.mk b (les ++ k1 :: es) (lcs ++ cs)])) rest)
          (path_ptr rest) (path_ptrs rest)
      else some (plug (.mk b (kl ++ kr)
        (cl ++ [.mk b (les ++ k1 :: es) (lcs ++ cs)])) rest)) ∧
    Ptr.remove_restructure_calls
        (plug (.mk b es cs)
          (⟨.mk b (kl ++ k1 :: kr) (cl ++ [.mk b les lcs, c]), cl.length + 1⟩ :: rest))
        (path_ptr rest ++ [cl.length + 1]) (path_ptr rest :: path_ptrs rest) =
      (plug (.mk b es cs)
          (⟨.mk b (kl ++ k1 :: kr) (cl ++ [.mk b les lcs, c]), cl.length + 1⟩ :: rest),
        path_ptr rest ++ [cl.length + 1], path_ptr rest :: path_ptrs rest) ::
      (if (kl ++ kr).length < size_t_of_int (b - 1) then
        Ptr.remove_restructure_calls
          (plug (.mk b (kl ++ kr) (cl ++ [.mk b (les ++ k1 :: es) (lcs ++ cs)])) rest)
          (path_ptr rest) (path_ptrs rest)
      else []) := by
  have hsz := size_t_of_int_nonneg (b - 1) (by omega)
  have hlend : size_t_pred les.length < size_t_of_int (b - 1) := by
    rw [size_t_pred_pos _ (by omega)]
    omega
  have hroot : Ptr.is_root (path_ptr rest ++ [cl.length + 1]) = false := by simp [Ptr.is_root]
  have hlen : cl.length + 1 < (cl ++ [Block.mk b les lcs, Block.mk b es cs]).length := by
    simp
  have hnr : ¬ (cl.length + 1 + 1 < (cl ++ [Block.mk b les lcs, Block.mk b es cs]).length) := by
    simp
  have hsib := ptr_get_sibling_found (path_ptr rest) _ _ hlen
  simp only [hnr, if_false, Nat.zero_lt_succ, if_true, Nat.add_sub_cancel] at hsib
  have hc1 : (cl ++ [Block.mk b les lcs, Block.mk b es cs])[cl.length + 1]? =
      some (Block.mk b es cs) := getElem?_at_length_succ _ _ _ _
  have hc0 : (cl ++ [Block.mk b les lcs, Block.mk b es cs])[cl.length]? =
      some (Block.mk b les lcs) := getElem?_at_length _ _ _
  have hbody := ptr_merge_body_left b es kl kr les k1 cs cl lcs rest hok h1 hleaf
  rw [plug_cons_last]
  constructor
  · simp only [Ptr.remove_restructure, hroot, Bool.false_eq_true, if_false,
      deref_plug _ _ hok, deref_plug_child _ _ hok, Block.children, hc1, hc0, hsib.1, hsib.2,
      hlend, if_true, Block.get_min_keys, Block.get_b_count, Ptr.merge, hbody, Block.entries]
  · simp only [Ptr.remove_restructure_calls, hroot, Bool.false_eq_true, if_false,
      deref_plug _ _ hok, deref_plug_child _ _ hok, Block.children, hc1, hc0, hsib.1, hsib.2,
      hlend, if_true, Block.get_min_keys, Block.get_b_count, hbody, Block.entries]

end PointerEquations

section PointerSimulation
variable {E K : Type} [LinearOrder K]

theorem remove_restructure_calls_head (blk : Block E) (path : Path E) :
    (blk, path) ∈ remove_restructure_calls blk path := by
  cases path with
  | nil => simp [remove_restructure_calls]
  | cons f rest =>
    obtain ⟨b, es, cs⟩ := blk
    obtain ⟨⟨pb, pes, pcs⟩, idx⟩ := f
    simp [remove_restructure_calls]

/-- The repair with pointers computes what the repair with slots computes, activation by
activation, when it is called on a block of a structurally sound tree. -/
theorem ptr_remove_restructure_sim (b : Int) (hb : 2 ≤ b) :
    ∀ (path : Path E) (h : Nat), PathStruct b 1 h path →
      ∀ (es : List E) (cs : List (Block E)), Node b 0 (2 * b - 1) h (.mk b es cs) →
      (path ≠ [] → (es.length : Int) = b - 2) →
      Ptr.remove_restructure (plug (.mk b es cs) path) (path_ptr path) (path_ptrs path) =
        remove_restructure (.mk b es cs) path ∧
      Ptr.remove_restructure_calls (plug (.mk b es cs) path) (path_ptr path) (path_ptrs path) =
        (remove_restructure_calls (.mk b es cs) path).map ptr_call := by
  intro path
  induction path with
  | nil =>
    intro h _ es cs _ _
    constructor
    · simp only [plug, path_ptr, path_ptrs, Ptr.remove_restructure, remove_restructure,
        Ptr.is_root, List.isEmpty_nil, if_true]
    · simp [plug, path_ptr, path_ptrs, Ptr.remove_restructure_calls, remove_restructure_calls,
        ptr_call]
  | cons f rest ih =>
    intro h hp es cs hn hlen
    obtain ⟨_, -, -, -, -, hcalls⟩ := remove_restructure_full b hb _ h hp es cs hn hlen
    have hstep : ∀ (P : Block E), (P, rest) ∈ remove_restructure_calls (.mk b es cs) (f :: rest) →
        Ptr.remove_restructure (plug P rest) (path_ptr rest) (path_ptrs rest) =
          remove_restructure P rest ∧
        Ptr.remove_restructure_calls (plug P rest) (path_ptr rest) (path_ptrs rest) =
          (remove_restructure_calls P rest).map ptr_call := by
      intro P hmem
      obtain ⟨h', hps, hnode, hcnt⟩ := hcalls _ hmem
      obtain ⟨pb, pes, pcs⟩ := P
      have hpb : pb = b := hnode.1
      subst hpb
      exact ih h' hps pes pcs hnode hcnt
    have hlen' : (es.length : Int) = b - 2 := hlen (by simp)
    cases hp with
    | cons h c cl cr kl kr rest h1 h2 h3 h4 h5 h6 h7 hrest =>
    have hok : SlotsOK rest := pathShape_slotsOK b rest (pathStruct_shape b 1 _ rest hrest)
    have hleaf : ∀ (t : Block E), Sub b h t → (cs = [] → t.children = []) := by
      intro t ht
      have ht' := (sub_iff_node ..).mp ht
      cases h with
      | zero =>
        have h2 := ht'.2.2.2
        exact fun _ => h2
      | succ h =>
        have h1 := ((node_mk_succ ..).mp hn).2.2.2.1
        exact fun hc => by subst hc; simp at h1
    match cr, kr, h2, h4, h5, h6, h7, hstep with
    | r :: cr', [], h2, _, _, _, _, _ => simp at h2
    | r :: cr', k0 :: kr', h2, h4, h5, h6, h7, hstep =>
      obtain ⟨rb, res, rcs⟩ := r
      have hr : Sub b h (.mk rb res rcs) := h4 _ (by simp)
      have hrn := (sub_iff_node ..).mp hr
      have hrb : rb = b := hrn.1
      subst hrb
      have hr1 : rb - 1 ≤ (res.length : Int) := hrn.2.1
      have hl1 := hleaf _ hr
      simp only [Block.children] at hl1
      by_cases hlend : (res.length : Int) = rb - 1
      · obtain ⟨e1, e2⟩ := ptr_merge_right rb hb es kl kr' res k0 cs cl cr' rcs c rest hok h1
          hlend hl1
        have z1 := remove_restructure_merge_right rb hb es kl kr' res k0 cs cl cr' rcs c rest h1
          hlend hl1
        have z2 := remove_restructure_calls_merge_right rb hb es kl kr' res k0 cs cl cr' rcs c
          rest h1 hlend hl1
        rw [z1, z2]
        refine ⟨e1.trans ?_, e2.trans ?_⟩
        · by_cases hu : (kl ++ kr').length < size_t_of_int (rb - 1)
          · simp only [if_pos hu]
            refine (hstep _ ?_).1
            rw [z2, if_pos hu]
            exact List.mem_cons_of_mem _ (remove_restructure_calls_head _ _)
          · simp only [if_neg hu]
        · by_cases hu : (kl ++ kr').length < size_t_of_int (rb - 1)
          · simp only [if_pos hu, List.map_cons]
            rw [(hstep _ (by
              rw [z2, if_pos hu]
              exact List.mem_cons_of_mem _ (remove_restructure_calls_head _ _))).2]
            rfl
          · simp only [if_neg hu, List.map_cons, List.map_nil]
            rfl
      · have hres : rb ≤ (res.length : Int) := by omega
        obtain ⟨first, res', rfl⟩ : ∃ first res', res = first :: res' := by
          cases res with
          | nil => simp at hres; omega
          | cons a l => exact ⟨a, l, rfl⟩
        have e1 := ptr_rotate_right rb hb es kl kr' res' k0 first cs cl cr' rcs c rest hok h1 hres
        have e2 := ptr_rotate_right_calls rb hb es kl kr' res' k0 first cs cl cr' rcs c rest hok
          hres
        rw [remove_restructure_rotate_right rb hb es kl kr' res' k0 first cs cl cr' rcs c rest h1
          hres, remove_restructure_calls_rotate_right rb hb es kl kr' res' k0 first cs cl cr' rcs
          c rest hres]
        exact ⟨e1, e2⟩
    | [], kr, h2, _, h5, h6, h7, hstep =>
      have hkr : kr = [] := by
        cases kr with
        | nil => rfl
        | cons _ _ => simp at h2
      subst hkr
      rcases List.eq_nil_or_concat cl with rfl | ⟨cl', l, rfl⟩
      · have hkl : kl = [] := by
          cases kl with
          | nil => rfl
          | cons _ _ => simp at h1
        subst hkl
        exfalso
        by_cases hne : rest = []
        · have := h7 hne
          simp at this
        · have := h6 hne
          simp at this
          omega
      · rcases List.eq_nil_or_concat kl with rfl | ⟨kl', k1, rfl⟩
        · simp at h1
        · simp only [List.concat_eq_append] at *
          have h1' : kl'.length = cl'.length := by simpa using h1
          obtain ⟨lb, les, lcs⟩ := l
          have hl : Sub b h (.mk lb les lcs) := h3 _ (by simp)
          have hln := (sub_iff_node ..).mp hl
          have hlb : lb = b := hln.1
          subst hlb
          have hls1 : lb - 1 ≤ (les.length : Int) := hln.2.1
          have hl1 := hleaf _ hl
          simp only [Block.children] at hl1
          have hframe : (⟨Block.mk lb (kl' ++ [k1] ++ []) (cl' ++ [Block.mk lb les lcs] ++ [c]),
              (cl' ++ [Block.mk lb les lcs]).length⟩ : Frame E) =
              ⟨Block.mk lb (kl' ++ k1 :: []) (cl' ++ [Block.mk lb les lcs, c]),
                cl'.length + 1⟩ := by
            simp
          rw [hframe]
          rw [hframe] at hstep
          by_cases hlend : (les.length : Int) = lb - 1
          · obtain ⟨e1, e2⟩ := ptr_merge_left lb hb es kl' [] les k1 cs cl' lcs c rest hok h1'
              hlend hl1
            have z1 := remove_restructure_merge_left lb hb es kl' [] les k1 cs cl' lcs c rest h1'
              hlend hl1
            have z2 := remove_restructure_calls_merge_left lb hb es kl' [] les k1 cs cl' lcs c
              rest h1' hlend hl1
            rw [z1, z2]
            refine ⟨e1.trans ?_, e2.trans ?_⟩
            · by_cases hu : (kl' ++ []).length < size_t_of_int (lb - 1)
              · simp only [if_pos hu]
                refine (hstep _ ?_).1
                rw [z2, if_pos hu]
                exact List.mem_cons_of_mem _ (remove_restructure_calls_head _ _)
              · simp only [if_neg hu]
            · by_cases hu : (kl' ++ []).length < size_t_of_int (lb - 1)
              · simp only [if_pos hu, List.map_cons]
                rw [(hstep _ (by
                  rw [z2, if_pos hu]
                  exact List.mem_cons_of_mem _ (remove_restructure_calls_head _ _))).2]
                rfl
              · simp only [if_neg hu, List.map_cons, List.map_nil]
                rfl
          · have hles : lb ≤ (les.length : Int) := by omega
            obtain ⟨les', last, rfl⟩ : ∃ les' last, les = les' ++ [last] := by
              rcases List.eq_nil_or_concat les with rfl | ⟨a, l, rfl⟩
              · simp at hles; omega
              · exact ⟨a, l, by simp⟩
            have e1 := ptr_rotate_left lb hb es kl' [] les' k1 last cs cl' lcs c rest hok h1' hles
            rw [remove_restructure_rotate_left lb hb es kl' [] les' k1 last cs cl' lcs c rest h1'
              hles, remove_restructure_calls_rotate_left lb hb es kl' [] les' k1 last cs cl' lcs
              c rest hles]
            exact e1

end PointerSimulation

section PointerSearch
variable {E K : Type} [LinearOrder K]

theorem ptr_search_helper_child_eq (key : E → K) (trav : BlockPtr) (index : Nat) (k : K)
    (path : List BlockPtr) (cs : List (Block E)) (n : Nat) :
    Ptr.search_helper_child key trav index k path cs n =
      match cs[n]? with
      | none => none
      | some c => Ptr.search_helper key c (trav ++ [index]) k path := by
  induction cs generalizing n with
  | nil => simp [Ptr.search_helper_child]
  | cons c cs ih =>
    cases n with
    | zero => simp [Ptr.search_helper_child]
    | succ n => simp [Ptr.search_helper_child, ih]

/-- The search with pointers leaves in `path` the pointers to the blocks that the search with
slots records as frames, and on top of them the pointer to the block at which it stops. -/
theorem ptr_search_sim (key : E → K) (k : K) : ∀ (t : Block E) (zp : Path E),
    Ptr.search_helper key t (path_ptr zp) k (path_ptrs zp) =
      (search_helper key t k zp).map (fun r => path_ptr r.2 :: path_ptrs r.2) := by
  intro t
  induction t using Block.induct with
  | step b es cs ih =>
    intro zp
    rw [Ptr.search_helper, search_helper]
    by_cases hk : key_at_index key es (get_index key es k) k = true
    · simp only [hk, if_true, Option.map_some']
    · simp only [hk, Bool.false_eq_true, if_false]
      by_cases hc : (!cs.isEmpty) = true
      · simp only [hc, if_true, ptr_search_helper_child_eq, search_helper_child_eq]
        cases hget : cs[get_index key es k]? with
        | none => rfl
        | some c =>
          simp only
          have := ih c (List.getElem?_mem hget) (⟨.mk b es cs, get_index key es k⟩ :: zp)
          simpa [path_ptr, path_ptrs] using this
      · simp only [hc, Bool.false_eq_true, if_false, Option.map_some']

theorem ptr_get_replacement_back_eq (trav : BlockPtr) (last : Nat) (path : List BlockPtr)
    (cs : List (Block E)) (c : Block E) :
    Ptr.get_replacement_back trav last path (cs ++ [c]) =
      Ptr.get_replacement c (trav ++ [last]) false true path := by
  induction cs with
  | nil => simp [Ptr.get_replacement_back]
  | cons c1 cs ih =>
    cases cs with
    | nil => simp [Ptr.get_replacement_back]
    | cons c2 cs => simpa [Ptr.get_replacement_back] using ih

/-- The replacement search with pointers returns the pointer to the leaf that the search with
slots reaches, and leaves in `path` the pointers to the blocks on the way, that leaf
included. -/
theorem ptr_get_replacement_sim : ∀ (t : Block E) (search_min search_max : Bool) (zp : Path E),
    Ptr.get_replacement t (path_ptr zp) search_min search_max (path_ptrs zp) =
      (get_replacement t search_min search_max zp).map
        (fun r => (path_ptr r.2, path_ptr r.2 :: path_ptrs r.2)) := by
  intro t
  induction t using Block.induct with
  | step b es cs ih =>
    intro search_min search_max zp
    rw [Ptr.get_replacement, get_replacement]
    by_cases hc : cs.isEmpty = true
    · simp only [hc, if_true, Option.map_some']
    · simp only [hc, Bool.false_eq_true, if_false]
      by_cases hmin : search_min = true
      · simp only [hmin, if_true]
        cases cs with
        | nil => simp at hc
        | cons c cs =>
          simp only [Ptr.get_replacement_front, get_replacement_front]
          have := ih c (by simp) true false (⟨.mk b es (c :: cs), 0⟩ :: zp)
          simpa [path_ptr, path_ptrs] using this
      · simp only [hmin, Bool.false_eq_true, if_false]
        by_cases hmax : search_max = true
        · simp only [hmax, if_true]
          rcases List.eq_nil_or_concat cs with rfl | ⟨cs', c, rfl⟩
          · simp at hc
          · simp only [List.concat_eq_append, ptr_get_replacement_back_eq,
              get_replacement_back_eq]
            have := ih c (by simp) false true
              (⟨.mk b es (cs' ++ [c]), (cs' ++ [c]).length - 1⟩ :: zp)
            simpa [path_ptr, path_ptrs] using this
        · simp only [hmax, Bool.false_eq_true, if_false, Option.map_none']

theorem path_ptr_append : ∀ (p q : Path E), path_ptr (p ++ q) = path_ptr q ++ path_ptr p := by
  intro p
  induction p with
  | nil => intro q; simp [path_ptr]
  | cons f p ih => intro q; simp [path_ptr, ih]

theorem path_ptr_swap (p q : Path E) (X Y : Block E) (i : Nat) :
    path_ptr (p ++ ⟨X, i⟩ :: q) = path_ptr (p ++ ⟨Y, i⟩ :: q) := by
  simp [path_ptr_append, path_ptr]

theorem path_ptrs_swap : ∀ (p q : Path E) (X Y : Block E) (i : Nat),
    path_ptrs (p ++ ⟨X, i⟩ :: q) = path_ptrs (p ++ ⟨Y, i⟩ :: q) := by
  intro p
  induction p with
  | nil => intro q X Y i; simp [path_ptrs]
  | cons f p ih =>
    intro q X Y i
    have h1 := ih q X Y i
    have h2 := path_ptr_swap p q X Y i
    simp only [List.cons_append, path_ptrs, List.append_eq] at h1 h2 ⊢
    rw [h1, h2]

theorem slotsOK_swap (p q : Path E) (b b2 : Int) (es es2 : List E) (cs : List (Block E))
    (i : Nat) (h : SlotsOK (p ++ ⟨.mk b es cs, i⟩ :: q)) :
    SlotsOK (p ++ ⟨.mk b2 es2 cs, i⟩ :: q) := by
  intro f hf
  simp only [List.mem_append, List.mem_cons] at hf
  rcases hf with hf | rfl | hf
  · exact h f (by simp [hf])
  · have := h ⟨.mk b es cs, i⟩ (by simp)
    simpa [Block.children] using this
  · exact h f (by simp [hf])

end PointerSearch

section PointerRemoveHelper
variable {E K : Type} [LinearOrder K]

theorem ptr_remove_finish_leaf (b : Int) (hb : 2 ≤ b) (path : Path E)
    (hp : PathStruct b 1 0 path) (tk : List E) (hhi : (tk.length : Int) ≤ 2 * b - 1)
    (hlo : path ≠ [] → b - 2 ≤ (tk.length : Int)) :
    (if tk.length < size_t_of_int (b - 1) then
        Ptr.remove_restructure (plug (.mk b tk []) path) (path_ptr path) (path_ptrs path)
      else some (plug (.mk b tk []) path)) =
      (if tk.length < size_t_of_int (b - 1) then remove_restructure (.mk b tk []) path
      else some (plug (.mk b tk []) path)) ∧
    (if tk.length < size_t_of_int (b - 1) then
        Ptr.remove_restructure_calls (plug (.mk b tk []) path) (path_ptr path) (path_ptrs path)
      else []) =
      (if tk.length < size_t_of_int (b - 1) then remove_restructure_calls (.mk b tk []) path
      else []).map ptr_call := by
  have hsz := size_t_of_int_nonneg (b - 1) (by omega)
  by_cases hu : tk.length < size_t_of_int (b - 1)
  · simp only [if_pos hu]
    exact ptr_remove_restructure_sim b hb path 0 hp tk []
      ((node_mk_zero ..).mpr ⟨rfl, by omega, hhi, rfl⟩)
      (fun hne => by have := hlo hne; omega)
  · simp only [if_neg hu, List.map_nil, and_self]

/-- On a leaf of a structurally sound tree `remove_helper` with pointers computes what
`remove_helper` with slots computes. -/
theorem ptr_remove_helper_leaf_sim (key : E → K) (b : Int) (hb : 2 ≤ b) (k : K) (fuel : Nat)
    (path : Path E) (hp : PathStruct b 1 0 path) (es : List E)
    (hf : Focus b 1 0 (.mk b es []) path) :
    Ptr.remove_helper key fuel (plug (.mk b es []) path) (path_ptr path) k (path_ptrs path) =
      remove_helper key fuel (.mk b es []) k path ∧
    Ptr.remove_helper_calls key fuel (plug (.mk b es []) path) (path_ptr path) k
        (path_ptrs path) =
      (remove_helper_calls key fuel (.mk b es []) k path).map ptr_call := by
  have hok : SlotsOK path := pathShape_slotsOK b path (pathStruct_shape b 1 _ path hp)
  have hn := (node_mk_zero ..).mp hf.1
  have hhi : (es.length : Int) ≤ 2 * b - 1 := hn.2.2.1
  have hlo : path ≠ [] → b - 1 ≤ (es.length : Int) := fun hne => by
    simpa [Block.entries] using hf.2.1 hne
  have hfin : ∀ tk : List E, tk.length ≤ es.length → es.length ≤ tk.length + 1 →
      _ := fun tk h1 h2 => ptr_remove_finish_leaf b hb path hp tk (by omega)
        (fun hne => by have := hlo hne; omega)
  have her : ∀ i, (es.eraseIdx i).length ≤ es.length ∧ es.length ≤ (es.eraseIdx i).length + 1 := by
    intro i
    rw [List.length_eraseIdx]
    split <;> omega
  constructor
  · rw [Ptr.remove_helper]
    unfold remove_helper
    simp only [deref_plug _ _ hok, List.isEmpty_nil, if_true, modify_plug _ _ _ hok,
      Block.get_min_keys, Block.get_b_count]
    by_cases hk : key_at_index key es (get_index key es k) k = true
    · simp only [hk, if_true]
      exact (hfin _ (her _).1 (her _).2).1
    · simp only [hk, Bool.false_eq_true, if_false]
      exact (hfin es (le_refl _) (by omega)).1
  · rw [Ptr.remove_helper_calls]
    unfold remove_helper_calls
    simp only [deref_plug _ _ hok, List.isEmpty_nil, if_true, modify_plug _ _ _ hok,
      Block.get_min_keys, Block.get_b_count]
    by_cases hk : key_at_index key es (get_index key es k) k = true
    · simp only [hk, if_true]
      exact (hfin _ (her _).1 (her _).2).2
    · simp only [hk, Bool.false_eq_true, if_false]
      exact (hfin es (le_refl _) (by omega)).2

/-- On an internal block of a sound, ordered tree that holds the key, `remove_helper` with
pointers computes what `remove_helper` with slots computes. -/
theorem ptr_remove_helper_internal_sim (key : E → K) (b : Int) (hb : 2 ≤ b) (k : K) (h : Nat)
    (path : Path E) (hp : PathStruct b 1 (h + 1) path) (A B : List E) (e : E)
    (cs : List (Block E)) (he : key e = k) (hA : ∀ a ∈ A, key a < k)
    (hB : ∀ x ∈ B, k < key x) (hf : Focus b 1 (h + 1) (.mk b (A ++ e :: B) cs) path)
    (hs : KeySorted key (inorder (.mk b (A ++ e :: B) cs))) :
    Ptr.remove_helper key 1 (plug (.mk b (A ++ e :: B) cs) path) (path_ptr path) k
        (path_ptrs path) =
      remove_helper key 1 (.mk b (A ++ e :: B) cs) k path ∧
    Ptr.remove_helper_calls key 1 (plug (.mk b (A ++ e :: B) cs) path) (path_ptr path) k
        (path_ptrs path) =
      (remove_helper_calls key 1 (.mk b (A ++ e :: B) cs) k path).map ptr_call := by
  have hok : SlotsOK path := pathShape_slotsOK b path (pathStruct_shape b 1 _ path hp)
  obtain ⟨cl, c, cr, les, r, pushed, q1, q2, q3, q4, -, -, -, -, s9, s10, s11, s12, s13⟩ :=
    remove_helper_internal_step key b hb k h path hp A B e cs he hA hB hf hs
  subst q1
  have hidx := get_index_present key k A B e he hA hB
  have hc : (cl ++ c :: cr)[A.length]? = some c := by
    rw [← q2]; exact getElem?_at_length _ _ _
  have hokZ' := pathShape_slotsOK b _ (pathStruct_shape b 1 _ _ s9)
  have hokZ : SlotsOK (pushed ++ ⟨.mk b (A ++ e :: B) (cl ++ c :: cr), A.length⟩ :: path) :=
    slotsOK_swap _ _ _ _ _ _ _ _ hokZ'
  have hplug : ∀ es' : List E, plug (.mk b (les ++ [r]) [])
      (pushed ++ ⟨.mk b es' (cl ++ c :: cr), A.length⟩ :: path) =
      plug (.mk b es' (cl ++ c :: cr)) path := by
    intro es'
    rw [plug_append, q4, ← q2, plug_cons]
  have hgr := ptr_get_replacement_sim c false true
    (⟨.mk b (A ++ e :: B) (cl ++ c :: cr), A.length⟩ :: path)
  rw [q3] at hgr
  simp only [Option.map_some', path_ptr, path_ptrs] at hgr
  have hd : Ptr.deref (plug (.mk b (A ++ e :: B) (cl ++ c :: cr)) path)
      (path_ptr (pushed ++ ⟨.mk b (A ++ e :: B) (cl ++ c :: cr), A.length⟩ :: path)) =
      some (.mk b (les ++ [r]) []) := by
    rw [← hplug (A ++ e :: B)]
    exact deref_plug _ _ hokZ
  have hleaf := ptr_remove_helper_leaf_sim key b hb (key r) 0 _ s9 (les ++ [r]) s10
  have hset : ((pushed ++
        (⟨.mk b (A ++ e :: B) (cl ++ c :: cr), A.length⟩ : Frame E) :: path).set
      ((pushed ++
        (⟨.mk b (A ++ e :: B) (cl ++ c :: cr), A.length⟩ : Frame E) :: path).length -
        (path.length + 1))
      ⟨.mk b (A ++ r :: B) (cl ++ c :: cr), A.length⟩) =
      pushed ++ ⟨.mk b (A ++ r :: B) (cl ++ c :: cr), A.length⟩ :: path := by
    have : (pushed ++
        (⟨.mk b (A ++ e :: B) (cl ++ c :: cr), A.length⟩ : Frame E) :: path).length -
        (path.length + 1) = pushed.length := by simp
    rw [this, set_at_length]
  have hstepP : Ptr.remove_helper key 1 (plug (.mk b (A ++ e :: B) (cl ++ c :: cr)) path)
      (path_ptr path) k (path_ptrs path) =
      Ptr.remove_helper key 0 (plug (.mk b (les ++ [r]) [])
          (pushed ++ ⟨.mk b (A ++ r :: B) (cl ++ c :: cr), A.length⟩ :: path))
        (path_ptr (pushed ++ ⟨.mk b (A ++ r :: B) (cl ++ c :: cr), A.length⟩ :: path)) (key r)
        (path_ptrs (pushed ++ ⟨.mk b (A ++ r :: B) (cl ++ c :: cr), A.length⟩ :: path)) := by
    conv_lhs => unfold Ptr.remove_helper
    simp only [deref_plug _ _ hok, List.isEmpty_eq_true, List.append_eq_nil, and_false,
      if_false, hidx, Nat.add_sub_cancel, Nat.zero_lt_succ, if_true, reduceCtorEq, hc, hgr, hd,
      Block.entries, List.getLast?_concat, modify_plug _ _ _ hok, Block.get_b_count,
      Block.children, set_at_length]
    rw [hplug (A ++ r :: B),
      path_ptr_swap pushed path (.mk b (A ++ e :: B) (cl ++ c :: cr))
        (.mk b (A ++ r :: B) (cl ++ c :: cr)) A.length,
      path_ptrs_swap pushed path (.mk b (A ++ e :: B) (cl ++ c :: cr))
        (.mk b (A ++ r :: B) (cl ++ c :: cr)) A.length]
  have hstepPc : Ptr.remove_helper_calls key 1
      (plug (.mk b (A ++ e :: B) (cl ++ c :: cr)) path) (path_ptr path) k (path_ptrs path) =
      Ptr.remove_helper_calls key 0 (plug (.mk b (les ++ [r]) [])
          (pushed ++ ⟨.mk b (A ++ r :: B) (cl ++ c :: cr), A.length⟩ :: path))
        (path_ptr (pushed ++ ⟨.mk b (A ++ r :: B) (cl ++ c :: cr), A.length⟩ :: path)) (key r)
        (path_ptrs (pushed ++ ⟨.mk b (A ++ r :: B) (cl ++ c :: cr), A.length⟩ :: path)) := by
    conv_lhs => unfold Ptr.remove_helper_calls
    simp only [deref_plug _ _ hok, List.isEmpty_eq_true, List.append_eq_nil, and_false,
      if_false, hidx, Nat.add_sub_cancel, Nat.zero_lt_succ, if_true, reduceCtorEq, hc, hgr, hd,
      Block.entries, List.getLast?_concat, modify_plug _ _ _ hok, Block.get_b_count,
      Block.children, set_at_length]
    rw [hplug (A ++ r :: B),
      path_ptr_swap pushed path (.mk b (A ++ e :: B) (cl ++ c :: cr))
        (.mk b (A ++ r :: B) (cl ++ c :: cr)) A.length,
      path_ptrs_swap pushed path (.mk b (A ++ e :: B) (cl ++ c :: cr))
        (.mk b (A ++ r :: B) (cl ++ c :: cr)) A.length]
  have hstepZc : remove_helper_calls key 1 (.mk b (A ++ e :: B) (cl ++ c :: cr)) k path =
      remove_helper_calls key 0 (.mk b (les ++ [r]) []) (key r)
        (pushed ++ ⟨.mk b (A ++ r :: B) (cl ++ c :: cr), A.length⟩ :: path) := by
    conv_lhs => unfold remove_helper_calls
    simp only [List.isEmpty_eq_true, List.append_eq_nil, and_false, if_false, hidx,
      Nat.add_sub_cancel, Nat.zero_lt_succ, if_true, reduceCtorEq]
    simp only [hc, q3, Block.entries, List.getLast?_concat, set_at_length, hset]
  exact ⟨by rw [hstepP, hleaf.1, s12 0], by rw [hstepPc, hleaf.2, hstepZc]⟩

end PointerRemoveHelper

section PointerRemove
variable {E K V : Type} [LinearOrder K]

/-- Every activation of `remove_restructure` that `remove_helper` gives rise to on the block
and path returned by `search_helper` in a sound, ordered tree is made on a sound path and a
block that is sound but for its entry count. -/
theorem remove_helper_calls_repair (key : E → K) (b : Int) (hb : 2 ≤ b) (t : Block E)
    (hroot : RootOK b 1 t) (hs : KeySorted key (inorder t)) (k : K) (fes : List E)
    (fcs : List (Block E)) (path : Path E)
    (hsearch : search_helper key t k [] = some (.mk b fes fcs, path))
    (call : Block E × Path E)
    (hc : call ∈ remove_helper_calls key 1 (.mk b fes fcs) k path) :
    RepairCall b call := by
  obtain ⟨les, P, hp, hlo, hhi, -, heq, -, -⟩ :=
    remove_first_call key b hb t hroot hs k fes fcs path hsearch
  have hsz := size_t_of_int_nonneg (b - 1) (by omega)
  rw [heq] at hc
  by_cases hu : les.length < size_t_of_int (b - 1)
  · rw [if_pos hu] at hc
    obtain ⟨_, -, -, -, -, hall⟩ := remove_restructure_full b hb P 0 hp les []
      ((node_mk_zero ..).mpr ⟨rfl, by omega, hhi, rfl⟩)
      (fun hne => by have := hlo hne; omega)
    exact hall call hc
  · rw [if_neg hu] at hc
    simp at hc

/-- The map's `remove` with pointers computes what `remove` with slots computes on a sound,
ordered tree, and makes the same activations of `remove_restructure`. -/
theorem ptr_remove_sim (b : Int) (hb : 2 ≤ b) (t : B_Tree (K × V))
    (hroot : RootOK b 1 t.root) (hs : KeySorted Prod.fst (inorder t.root)) (k : K) :
    Ptr.remove t k = MapTree.remove t k ∧
    Ptr.remove_calls t k = (MapTree.remove_calls t k).map ptr_call := by
  obtain ⟨h, hf⟩ := hroot
  have hsh : Shaped b t.root := node_shaped _ _ _ _ _ hf.1
  obtain ⟨fes, fcs, path, h1, h2, h3, h4, h5, h6, h7, h8⟩ :=
    search_shape Prod.fst b k t.root hsh [] PathShape.nil
      (by simpa [path_left, path_right] using hs) (by simp [path_left]) (by simp [path_right])
  obtain ⟨fes', fcs', path', h', s1, s2, s3, s4⟩ :=
    search_struct Prod.fst b 1 k h t.root [] hf (PathStruct.nil h)
  rw [h1] at s1
  simp only [Option.some.injEq, Prod.mk.injEq, Block.mk.injEq, true_and] at s1
  obtain ⟨⟨rfl, rfl⟩, rfl⟩ := s1
  simp only [path_left, path_right, List.nil_append, List.append_nil, plug] at h4 h5
  have hok : SlotsOK path := pathShape_slotsOK b path h3
  have hsearchP : Ptr.search_helper Prod.fst t.root [] k [] =
      some (path_ptr path :: path_ptrs path) := by
    have := ptr_search_sim Prod.fst k t.root []
    simpa [path_ptr, path_ptrs, h1] using this
  have hderef : Ptr.deref t.root (path_ptr path) = some (.mk b fes fcs) := by
    rw [← h5]
    exact deref_plug _ _ hok
  simp only [Ptr.remove, Ptr.remove_calls, MapTree.remove, MapTree.remove_calls, hsearchP, h1,
    hderef, Block.entries]
  rcases h8 with ⟨A, e, B, rfl, he, hA, hB⟩ | ⟨rfl, A, B, rfl, hA, hB⟩
  · have hidx := get_index_present Prod.fst k A B e he hA hB
    have hkey := key_at_index_present Prod.fst k A B e he
    simp only [hidx, hkey, if_true]
    rw [← h5]
    rcases node_children s2.1 with ⟨rfl, rfl⟩ | ⟨-, h'', rfl, -⟩
    · obtain ⟨g1, g2⟩ := ptr_remove_helper_leaf_sim Prod.fst b hb k 1 path s3 (A ++ e :: B) s2
      rw [g1, g2]
      exact ⟨rfl, rfl⟩
    · have hsf : KeySorted Prod.fst (inorder (.mk b (A ++ e :: B) fcs)) := by
        rw [← h4] at hs
        exact hs.sublist ((List.sublist_append_right _ _).trans (List.sublist_append_left _ _))
      obtain ⟨g1, g2⟩ := ptr_remove_helper_internal_sim Prod.fst b hb k h'' path s3 A B e fcs
        he hA hB s2 hsf
      rw [g1, g2]
      exact ⟨rfl, rfl⟩
  · have hidx := get_index_absent Prod.fst k A B hA hB
    have hkey := key_at_index_absent Prod.fst k A B hA
    simp only [hidx, hkey, Bool.false_eq_true, if_false, List.map_nil, and_self]

/-- What holds of an activation of `remove_restructure` made on a sound path and a block that
is sound but for its entry count, once it is written with pointers: it returns; and if the
block is not the root, `path` is not empty, its last element points to a block of the tree
of which `block` is the child pointer in slot `idx`, the scan finds it there,
`get_child_index` returns `idx` and `get_sibling` the neighbouring child pointers, at least
one of which exists, every sibling returned is a block of the tree, and the separating
entries are in range. -/
theorem repairCall_ptr_facts (b : Int) (hb : 2 ≤ b) (zc : Block E × Path E)
    (hrc : RepairCall b zc) :
    (∃ root', Ptr.remove_restructure (ptr_call zc).1 (ptr_call zc).2.1 (ptr_call zc).2.2 =
      some root') ∧
    (Ptr.is_root (ptr_call zc).2.1 = false →
      ∃ (parent : BlockPtr) (rest : List BlockPtr) (idx : Nat) (pb : Int) (pes : List E)
          (pcs : List (Block E)) (blk : Block E),
        (ptr_call zc).2.2 = parent :: rest ∧
        Ptr.deref (ptr_call zc).1 parent = some (.mk pb pes pcs) ∧
        (ptr_call zc).2.1 = parent ++ [idx] ∧ pcs[idx]? = some blk ∧
        Ptr.deref (ptr_call zc).1 (ptr_call zc).2.1 = some blk ∧
        Ptr.scan parent (ptr_call zc).2.1 pcs.length 0 = some idx ∧
        Ptr.get_child_index pcs.length parent (ptr_call zc).2.1 = (idx : Int) ∧
        Ptr.get_child_index pcs.length parent (ptr_call zc).2.1 ≠ INT_MIN ∧
        Ptr.get_sibling pcs.length parent (ptr_call zc).2.1 true false =
          (if 0 < idx then some (parent ++ [idx - 1]) else none) ∧
        Ptr.get_sibling pcs.length parent (ptr_call zc).2.1 false true =
          (if idx + 1 < pcs.length then some (parent ++ [idx + 1]) else none) ∧
        (Ptr.get_sibling pcs.length parent (ptr_call zc).2.1 true false ≠ none ∨
          Ptr.get_sibling pcs.length parent (ptr_call zc).2.1 false true ≠ none) ∧
        (∀ left right sib,
          Ptr.get_sibling pcs.length parent (ptr_call zc).2.1 left right = some sib →
            Ptr.deref (ptr_call zc).1 sib ≠ none) ∧
        (idx + 1 < pcs.length → pes[idx]? ≠ none) ∧
        (0 < idx → pes[idx - 1]? ≠ none)) := by
  obtain ⟨blk, zpath⟩ := zc
  obtain ⟨h, hps, hnode, hcnt⟩ := hrc
  simp only at hps hnode hcnt
  obtain ⟨bb, es, cs⟩ := blk
  have hbb : bb = b := hnode.1
  subst hbb
  constructor
  · obtain ⟨root', g1, -⟩ := remove_restructure_full bb hb zpath h hps es cs hnode hcnt
    refine ⟨root', ?_⟩
    simp only [ptr_call]
    rw [(ptr_remove_restructure_sim bb hb zpath h hps es cs hnode hcnt).1, g1]
  · intro hnr
    cases hps with
    | nil h => simp [ptr_call, path_ptr, Ptr.is_root] at hnr
    | cons h c cl cr kl kr rest h1 h2 h3 h4 h5 h6 h7 hrest =>
      have hok : SlotsOK rest := pathShape_slotsOK bb rest (pathStruct_shape bb 1 _ rest hrest)
      have hlen : cl.length < (cl ++ Block.mk bb es cs :: cr).length := by simp
      have hsib := ptr_get_sibling_found (path_ptr rest) cl.length
        (cl ++ Block.mk bb es cs :: cr).length hlen
      have hscan := scan_found (path_ptr rest) cl.length
        (cl ++ Block.mk bb es cs :: cr).length hlen
      have htwo : 0 < cl.length ∨ cl.length + 1 < (cl ++ Block.mk bb es cs :: cr).length := by
        by_cases hne : rest = []
        · have := h7 hne
          simp only [List.length_append, List.length_cons] at *
          omega
        · have := h6 hne
          simp only [List.length_append, List.length_cons] at *
          omega
      have hdp : Ptr.deref (plug (.mk bb (kl ++ kr) (cl ++ Block.mk bb es cs :: cr)) rest)
          (path_ptr rest) = some (.mk bb (kl ++ kr) (cl ++ Block.mk bb es cs :: cr)) :=
        deref_plug _ _ hok
      have hdc : ∀ j, Ptr.deref (plug (.mk bb (kl ++ kr) (cl ++ Block.mk bb es cs :: cr)) rest)
          (path_ptr rest ++ [j]) = (cl ++ Block.mk bb es cs :: cr)[j]? := fun j =>
        deref_plug_child _ _ hok j
      refine ⟨path_ptr rest, path_ptrs rest, cl.length, bb, kl ++ kr,
        cl ++ Block.mk bb es cs :: cr, .mk bb es cs, ?_, ?_, ?_, ?_, ?_, ?_, ?_, ?_, ?_, ?_, ?_,
        ?_, ?_, ?_⟩
      · simp only [ptr_call, path_ptrs]
      · simp only [ptr_call, plug_cons]
        exact hdp
      · simp only [ptr_call, path_ptr]
      · exact getElem?_at_length _ _ _
      · simp only [ptr_call, plug_cons, path_ptr]
        rw [hdc]
        exact getElem?_at_length _ _ _
      · simp only [ptr_call, path_ptr]
        exact hscan
      · simp only [ptr_call, path_ptr]
        exact ptr_get_child_index_found _ _ _ hlen
      · simp only [ptr_call, path_ptr]
        rw [ptr_get_child_index_found _ _ _ hlen]
        simp only [INT_MIN]
        omega
      · simp only [ptr_call, path_ptr]
        exact hsib.1
      · simp only [ptr_call, path_ptr]
        exact hsib.2
      · simp only [ptr_call, path_ptr]
        rw [hsib.1, hsib.2]
        rcases htwo with h0 | h0
        · left; simp [h0]
        · right; simp only [if_pos h0]; simp
      · intro left right sib hs
        simp only [ptr_call, path_ptr, plug_cons] at hs ⊢
        simp only [Ptr.get_sibling, hscan] at hs
        split at hs
        · rename_i hl
          simp only [Option.some.injEq] at hs
          subst hs
          rw [hdc]
          simp only [Bool.and_eq_true, decide_eq_true_eq] at hl
          simp only [ne_eq, List.getElem?_eq_none_iff, not_le]
          omega
        · split at hs
          · rename_i hr
            simp only [Option.some.injEq] at hs
            subst hs
            rw [hdc]
            simp only [Bool.and_eq_true, decide_eq_true_eq] at hr
            simp only [ne_eq, List.getElem?_eq_none_iff, not_le]
            omega
          · simp at hs
      · intro hr
        simp only [ne_eq, List.getElem?_eq_none_iff, not_le, List.length_append,
          List.length_cons] at hr ⊢
        omega
      · intro hl
        simp only [ne_eq, List.getElem?_eq_none_iff, not_le, List.length_append]
        omega

end PointerRemove

section PointerClaims
variable {E K V : Type} [LinearOrder K]

/-- C31: remove never takes an error branch on a well-formed tree (map variant, `b ≥ 2`), with
the blocks addressed by pointers as in the source.  `remove(k)` returns a tree, where
`path.back()` on an empty vector, every out-of-range `.at()` in `remove_helper`,
`remove_restructure` and `merge`, every use of the `INT_MIN` fallback as an index and every
dereference of a pointer to no block would make it return `none`.  For every activation
`remove_restructure(block, path)` that `remove(k)` gives rise to: it returns; and if `block`
is not the root, then `path` is not empty, its last element `parent` points to a block of the
tree whose child vector holds `block` in a slot `idx`, the scan of `get_child_index` and
`get_sibling` finds `block` in that slot, `get_child_index` returns `idx` and not `INT_MIN`,
`get_sibling` returns the child pointers next to that slot, at least one of them exists,
every sibling returned points to a block of the tree, and the separating entries looked up
in the parent are in range. -/
theorem remove_takes_no_error_branch (b : Int) (hb : 2 ≤ b) (t : B_Tree (K × V)) (k : K)
    (hwf : WellFormed Prod.fst b t) :
    (∃ t', Ptr.remove t k = some t') ∧
    ∀ call ∈ Ptr.remove_calls t k,
      (∃ root', Ptr.remove_restructure call.1 call.2.1 call.2.2 = some root') ∧
      (Ptr.is_root call.2.1 = false →
        ∃ (parent : BlockPtr) (rest : List BlockPtr) (idx : Nat) (pb : Int)
            (pes : List (K × V)) (pcs : List (Block (K × V))) (blk : Block (K × V)),
          call.2.2 = parent :: rest ∧
          Ptr.deref call.1 parent = some (.mk pb pes pcs) ∧
          call.2.1 = parent ++ [idx] ∧ pcs[idx]? = some blk ∧
          Ptr.deref call.1 call.2.1 = some blk ∧
          Ptr.scan parent call.2.1 pcs.length 0 = some idx ∧
          Ptr.get_child_index pcs.length parent call.2.1 = (idx : Int) ∧
          Ptr.get_child_index pcs.length parent call.2.1 ≠ INT_MIN ∧
          Ptr.get_sibling pcs.length parent call.2.1 true false =
            (if 0 < idx then some (parent ++ [idx - 1]) else none) ∧
          Ptr.get_sibling pcs.length parent call.2.1 false true =
            (if idx + 1 < pcs.length then some (parent ++ [idx + 1]) else none) ∧
          (Ptr.get_sibling pcs.length parent call.2.1 true false ≠ none ∨
            Ptr.get_sibling pcs.length parent call.2.1 false true ≠ none) ∧
          (∀ left right sib,
            Ptr.get_sibling pcs.length parent call.2.1 left right = some sib →
              Ptr.deref call.1 sib ≠ none) ∧
          (idx + 1 < pcs.length → pes[idx]? ≠ none) ∧
          (0 < idx → pes[idx - 1]? ≠ none)) := by
  obtain ⟨hroot, hso⟩ := (wellFormed_iff Prod.fst b t).mp hwf
  obtain ⟨hsim, hsimc⟩ := ptr_remove_sim b hb t hroot hso k
  obtain ⟨t', ht', -⟩ := map_remove_spec b hb t hroot hso k
  refine ⟨⟨t', by rw [hsim, ht']⟩, ?_⟩
  obtain ⟨fes, fcs, path, h1, -, -⟩ := remove_core Prod.fst b hb t.root hroot hso k
  intro call hc
  rw [hsimc] at hc
  obtain ⟨zc, hz, rfl⟩ := List.mem_map.mp hc
  simp only [MapTree.remove_calls, h1, Block.entries] at hz
  split at hz
  · exact repairCall_ptr_facts b hb zc
      (remove_helper_calls_repair Prod.fst b hb t.root hroot hso k fes fcs path h1 zc hz)
  · simp at hz

/-- Witness for C31: removing key 1 from `example_small`.  The first leaf is emptied and
`remove_restructure` runs on it with the root as the last element of `path`; it is merged
with its right sibling, which takes the root's only entry, and `remove_restructure` runs on
the root with an empty `path` and makes the merged leaf the root. -/
theorem remove_takes_no_error_branch_witness :
    (2 : Int) ≤ 2 ∧ WellFormed Prod.fst 2 example_small ∧
      (∃ t', Ptr.remove example_small 1 = some t') ∧
      Ptr.remove example_small 1 = some ⟨.mk 2 [(3, 30), (5, 50)] []⟩ ∧
      Ptr.remove_calls example_small 1 =
        [(.mk 2 [(3, 30)] [.mk 2 [] [], .mk 2 [(5, 50)] []], [0], [[]]),
          (.mk 2 [] [.mk 2 [(3, 30), (5, 50)] []], [], [])] :=
  ⟨by decide, example_small_wf,
    (remove_takes_no_error_branch 2 (by decide) example_small 1 example_small_wf).1, rfl, rfl⟩

end PointerClaims

section PointerExamples

/-- In the embedding with pointers the error branches are there to be taken: on
`example_small`, `remove_restructure` on the first leaf with an empty `path` has no
`path.back()`, and with the second leaf as `parent` the scans do not find the block. -/
theorem ptr_error_branches :
    Ptr.remove_restructure example_small.root [0] [] = none ∧
    Ptr.get_child_index 0 [1] [0] = INT_MIN ∧
    Ptr.get_sibling 0 [1] [0] true false = none ∧
    Ptr.get_sibling 0 [1] [0] false true = none :=
  ⟨rfl, rfl, rfl, rfl⟩

end PointerExamples

end BTree
